import Mathlib

/-! # EIGENSPACE numeric core: `jacobiEigen` and `graphLaplacian`

A shallow embedding of the two numeric functions of `src/script.js`
(lines 16-68 and 71-85) and the properties the specification states about them.

Numbers are the elements of a linearly ordered field `α` (real arithmetic: no
rounding, no NaN, no signed zero).  The code computes in IEEE-754 doubles.  For
`graphLaplacian`, whose only arithmetic is `deg += adj[i][j]` and `-adj[i][j]`, the
double arithmetic is embedded too (`Double`, `doubleGraphLaplacian`), with the exact
rounding of an addition, and it is proved to return the exact Laplacian whenever no
partial row sum is rounded.  The three functions of the JavaScript `Math`
library the solver calls (`atan2`, `cos`, `sin`) are not part of the repository;
they are a parameter `T : JSMath α`.  The theorems about the real-number
behaviour of the solver instantiate it with `Real.cos`, `Real.sin` and, for
`atan2(y, x)`, the argument `Complex.arg` of `x + iy`, which lies in `(-π, π]` and
is `0` at the origin.

Arrays are lists.  A read or a write of an element that is not there (which in
JavaScript yields `undefined`, and from there `NaN` or a `TypeError`) leaves real
arithmetic, so the solver is embedded in `Option`: `none` stands for any such
access.  The two places where the source tolerates a missing element, the
comparison `Math.abs(A[i][j]) > maxVal` and the truthiness test `if (adj[i][j])`,
are embedded as the source behaves there: the test is false.

Three pieces of the visualisations that call the two functions are embedded as well:
the computation of the 3-D embedding (`spectralEmbedding`, lines 1288-1304), the random
network generator of `initSpectralEmbedding` (`generateNetwork`, lines 1232-1272, with
the values returned by `Math.random()` as a parameter; `initSpectralEmbedding` is the
two together, with the `N = 24` of line 1232), and the timer callback of
`initEigenViz` that toggles an edge (`toggleEdge`, lines 452-466, with the two random
indices as parameters).

The two functions are embedded a second time on an explicit heap of arrays
(`heapJacobiEigen`, `heapGraphLaplacian`), where a matrix is an array of references to
its rows and an assignment `A[i][j] = v` replaces one cell of the heap.  This is the
model in which the absence of writes to the argument is stated; it is proved to compute
the results of the functional model.
-/

namespace Eigenspace

/-- A matrix as the source stores it: an array of rows. -/
abbrev Mat (α : Type) := List (List α)

/-- The functions of the JavaScript `Math` library used by `jacobiEigen`. -/
structure JSMath (α : Type) where
  /-- Stands for `Math.atan2(y, x)`. -/
  atan2 : α → α → α
  /-- Stands for `Math.cos`. -/
  cos : α → α
  /-- Stands for `Math.sin`. -/
  sin : α → α

/-- The object returned by `jacobiEigen`: `{ values, vectors }`. -/
structure EigenResult (α : Type) where
  values : List α
  vectors : List (List α)
deriving DecidableEq, Repr

section Defs

variable {α : Type}

/-- The read `A[i][j]`; `none` when row `i` or column `j` does not exist.  JavaScript
reads `undefined` there and raises nothing; the arithmetic of `jacobiEigen` turns it
into NaN, which the real numbers do not have. So on a row shorter than `n` the embedded
`jacobiEigen` is `none` where the code returns NaN values: the embedding follows the
code on rows of at least `n` entries. -/
def rd (A : Mat α) (i j : ℕ) : Option α :=
  match A[i]? with
  | some row => row[j]?
  | none => none

/-- The assignment `A[i][j] = v` on an existing element; `none` when row `i` or
column `j` does not exist (JavaScript would fail on a missing row and grow the row
for a missing column; neither is the behaviour of a matrix). -/
def wr (A : Mat α) (i j : ℕ) (v : α) : Option (Mat α) :=
  match A[i]? with
  | some row => if j < row.length then some (A.set i (row.set j v)) else none
  | none => none

variable [LinearOrderedField α]

/-- The convergence threshold `1e-10` of line 33. -/
def threshold : α := 1 / 10 ^ 10

/-- The iteration cap `100` of line 23. -/
def maxIter : ℕ := 100

/-- Lines 19-21: `V = Array.from({length: n}, (_, i) => Array.from({length: n},
(_, j) => (i === j ? 1 : 0)))`. -/
def identity (n : ℕ) : Mat α :=
  (List.range n).map fun i => (List.range n).map fun j => if i = j then 1 else 0

/-- Lines 27-30, the body of the inner scan loop: the state is `(maxVal, p, q)`. -/
def scanStep (A : Mat α) (i : ℕ) (st : α × ℕ × ℕ) (j : ℕ) : α × ℕ × ℕ :=
  match rd A i j with
  | some a => if |a| > st.1 then (|a|, i, j) else st
  | none => st

/-- Lines 26-31: `for (let j = i + 1; j < n; j++)`. -/
def scanRow (n : ℕ) (A : Mat α) (st : α × ℕ × ℕ) (i : ℕ) : α × ℕ × ℕ :=
  (List.range' (i + 1) (n - (i + 1))).foldl (scanStep A i) st

/-- Lines 24-32: the pivot scan, from `maxVal = 0, p = 0, q = 1`. -/
def pivotScan (n : ℕ) (A : Mat α) : α × ℕ × ℕ :=
  (List.range n).foldl (scanRow n A) (0, 0, 1)

/-- Lines 38-41: the two diagonal entries of the pivot block and the zeroing of
`A[p][q]`, `A[q][p]`. -/
def rotateDiag (c s : α) (A : Mat α) (p q : ℕ) : Option (Mat α) := do
  let App ← rd A p p
  let Aqq ← rd A q q
  let Apq ← rd A p q
  let A ← wr A p p (c * c * App + 2 * s * c * Apq + s * s * Aqq)
  let A ← wr A q q (s * s * App - 2 * s * c * Apq + c * c * Aqq)
  let A ← wr A p q 0
  wr A q p 0

/-- Lines 44-50: the body of the loop over the other rows and columns. -/
def rotateOffStep (c s : α) (p q : ℕ) (A : Mat α) (i : ℕ) : Option (Mat α) :=
  if i ≠ p ∧ i ≠ q then do
    let Aip ← rd A i p
    let Aiq ← rd A i q
    let A ← wr A i p (c * Aip + s * Aiq)
    let A ← wr A p i (← rd A i p)
    let A ← wr A i q (-s * Aip + c * Aiq)
    wr A q i (← rd A i q)
  else some A

/-- Lines 54-56: the body of the loop over the rows of the accumulator. -/
def rotateVStep (c s : α) (p q : ℕ) (V : Mat α) (i : ℕ) : Option (Mat α) := do
  let Vip ← rd V i p
  let Viq ← rd V i q
  let V ← wr V i p (c * Vip + s * Viq)
  wr V i q (-s * Vip + c * Viq)

/-- Line 35: `theta = 0.5 * Math.atan2(2 * A[p][q], A[p][p] - A[q][q])`. -/
def rotationAngle (T : JSMath α) (A : Mat α) (p q : ℕ) : Option α := do
  let Apq ← rd A p q
  let App ← rd A p p
  let Aqq ← rd A q q
  pure (1 / 2 * T.atan2 (2 * Apq) (App - Aqq))

/-- Lines 35-57: one rotation on the pivot `(p, q)`, on the working matrix and
the accumulator. -/
def rotate (T : JSMath α) (n : ℕ) (A V : Mat α) (p q : ℕ) : Option (Mat α × Mat α) := do
  let theta ← rotationAngle T A p q
  let c := T.cos theta
  let s := T.sin theta
  let A ← rotateDiag c s A p q
  let A ← (List.range n).foldlM (rotateOffStep c s p q) A
  let V ← (List.range n).foldlM (rotateVStep c s p q) V
  pure (A, V)

/-- Lines 23-58: the loop `for (let iter = 0; iter < 100; iter++)`, with `k`
iterations left; it ends on `break` (line 33) or when no iteration is left. -/
def jacobiLoop (T : JSMath α) (n : ℕ) : ℕ → Mat α → Mat α → Option (Mat α × Mat α)
  | 0, A, V => some (A, V)
  | k + 1, A, V =>
    let st := pivotScan n A
    if st.1 < threshold then some (A, V)
    else
      match rotate T n A V st.2.1 st.2.2 with
      | some (A', V') => jacobiLoop T n k A' V'
      | none => none

/-- Line 60: `A.map((row, i) => row[i])`. -/
def diagonal (A : Mat α) : Option (List α) :=
  (List.range A.length).mapM fun i => rd A i i

/-- Lines 61-62: `indices.sort((a, b) => eigenvalues[a] - eigenvalues[b])`, a
stable sort of the indices by their eigenvalue. -/
def sortedIndices (eigenvalues : List α) : List ℕ :=
  (List.range eigenvalues.length).insertionSort
    fun a b => eigenvalues.getD a 0 ≤ eigenvalues.getD b 0

/-- Line 66: `V.map(row => row[i])`, column `i` of `V`. -/
def column (V : Mat α) (i : ℕ) : Option (List α) :=
  V.mapM fun row => row[i]?

/-- Lines 60-67: the diagonal of `A`, the sorted index list, and the object
`{ values: indices.map(i => eigenvalues[i]), vectors: indices.map(i => V.map(row => row[i])) }`. -/
def eigenSort (A V : Mat α) : Option (EigenResult α) := do
  let eigenvalues ← diagonal A
  let indices := sortedIndices eigenvalues
  let values ← indices.mapM fun i => eigenvalues[i]?
  let vectors ← indices.mapM fun i => column V i
  pure { values := values, vectors := vectors }

/-- Lines 16-68: `jacobiEigen(matrix)`. -/
def jacobiEigen (T : JSMath α) (matrix : Mat α) : Option (EigenResult α) := do
  let n := matrix.length
  let A := matrix.map fun r => r
  let V := identity n
  let (A, V) ← jacobiLoop T n maxIter A V
  eigenSort A V

/-- Lines 76-81, the body of the inner loop of `graphLaplacian`, in exact arithmetic:
the state is the row `L[i]` and `deg`.  The sum `deg + a` is not rounded here; the same
lines with the rounding of the code are `doubleLaplacianStep`. -/
def laplacianStep (adj : Mat α) (i : ℕ) (st : List α × α) (j : ℕ) : List α × α :=
  match rd adj i j with
  | some a => if a ≠ 0 then (st.1.set j (-a), st.2 + a) else st
  | none => st

/-- Lines 74-83: row `i` of the Laplacian. -/
def laplacianRow (n : ℕ) (adj : Mat α) (i : ℕ) : List α :=
  let st := (List.range n).foldl (laplacianStep adj i) (List.replicate n 0, 0)
  st.1.set i st.2

/-- Lines 71-85: `graphLaplacian(adj)`. -/
def graphLaplacian (adj : Mat α) : Mat α :=
  let n := adj.length
  (List.range n).map (laplacianRow n adj)

end Defs

/-! ## Definitions used to state and prove the properties -/

section ShapeDefs

variable {α : Type}

/-- The matrix has `n` rows of `n` entries each. -/
def Square (n : ℕ) (A : Mat α) : Prop := A.length = n ∧ ∀ r ∈ A, r.length = n

instance (n : ℕ) (A : Mat α) : Decidable (Square n A) := by
  unfold Square; infer_instance

/-- The entry `A[i][j]` of a matrix, `0` outside of it. -/
def ent [Zero α] (A : Mat α) (i j : ℕ) : α := (A.getD i []).getD j 0

/-- The matrix `A` after `A[i][j] = v`. -/
def upd (A : Mat α) (i j : ℕ) (v : α) : Mat α := A.set i ((A.getD i []).set j v)

variable [LinearOrderedField α]

/-- The entries after lines 38-41, from the entries `f` before. -/
def diagEnt (c s : α) (p q : ℕ) (f : ℕ → ℕ → α) (a b : ℕ) : α :=
  if a = q ∧ b = p then 0
  else if a = p ∧ b = q then 0
  else if a = q ∧ b = q then s * s * f p p - 2 * s * c * f p q + c * c * f q q
  else if a = p ∧ b = p then c * c * f p p + 2 * s * c * f p q + s * s * f q q
  else f a b

/-- The entries after the first `k` iterations of the loop of lines 43-51. -/
def offEnt (c s : α) (p q k : ℕ) (f : ℕ → ℕ → α) (a b : ℕ) : α :=
  if a ≠ p ∧ a ≠ q ∧ a < k ∧ b = p then c * f a p + s * f a q
  else if a ≠ p ∧ a ≠ q ∧ a < k ∧ b = q then -s * f a p + c * f a q
  else if b ≠ p ∧ b ≠ q ∧ b < k ∧ a = p then c * f b p + s * f b q
  else if b ≠ p ∧ b ≠ q ∧ b < k ∧ a = q then -s * f b p + c * f b q
  else f a b

/-- The entries after the first `k` iterations of the loop of lines 53-57. -/
def vEnt (c s : α) (p q k : ℕ) (f : ℕ → ℕ → α) (a b : ℕ) : α :=
  if a < k ∧ b = p then c * f a p + s * f a q
  else if a < k ∧ b = q then -s * f a p + c * f a q
  else f a b

end ShapeDefs

section RotationDefs

variable {α : Type} [LinearOrderedField α]

/-- The angle of line 35 on a matrix whose entries `(p, q)`, `(p, p)`, `(q, q)` exist. -/
def angle (T : JSMath α) (A : Mat α) (p q : ℕ) : α :=
  1 / 2 * T.atan2 (2 * ent A p q) (ent A p p - ent A q q)

/-- The entries of the working matrix after one rotation (lines 38-51). -/
def rotEnt (c s : α) (n p q : ℕ) (f : ℕ → ℕ → α) : ℕ → ℕ → α :=
  offEnt c s p q n (diagEnt c s p q f)

/-- A list matrix as a matrix over `Fin n`. -/
def toMatrix (n : ℕ) (A : Mat α) : Matrix (Fin n) (Fin n) α := fun i j => ent A i j

/-- The plane rotation that `jacobiEigen` applies on the pivot `(P, Q)`: column `P`
is `c·e_P + s·e_Q`, column `Q` is `-s·e_P + c·e_Q`. -/
def givens {n : ℕ} (P Q : Fin n) (c s : α) : Matrix (Fin n) (Fin n) α := fun i j =>
  if j = P then (if i = P then c else if i = Q then s else 0)
  else if j = Q then (if i = P then -s else if i = Q then c else 0)
  else if i = j then 1 else 0

end RotationDefs

section ScanDefs

variable {α : Type} [LinearOrderedField α]

/-- The invariant of the pivot scan when it is about to look at position `(i0, j0)`:
`maxVal` bounds every strict-upper-triangle entry already seen, and `(p, q)` is
either the initial `(0, 1)` with `maxVal = 0` or the first position that attains
`maxVal > 0`. -/
def ScanInv (n : ℕ) (A : Mat α) (i0 j0 : ℕ) (st : α × ℕ × ℕ) : Prop :=
  0 ≤ st.1 ∧
  (∀ i j, i < j → j < n → (i < i0 ∨ (i = i0 ∧ j < j0)) → |ent A i j| ≤ st.1) ∧
  (st = (0, 0, 1) ∨
    (st.2.1 < st.2.2 ∧ st.2.2 < n ∧ st.1 = |ent A st.2.1 st.2.2| ∧ 0 < st.1 ∧
      ∀ i j, i < j → j < n → (i < st.2.1 ∨ (i = st.2.1 ∧ j < st.2.2)) →
        |ent A i j| < st.1))

end ScanDefs

section ResultDefs

variable {α : Type} [LinearOrderedField α]

/-- The diagonal of an `n × n` matrix, entry by entry. -/
def diagList (n : ℕ) (A : Mat α) : List α := (List.range n).map fun i => ent A i i

/-- Column `k` of an `n × n` matrix, entry by entry. -/
def colList (n : ℕ) (V : Mat α) (k : ℕ) : List α := (List.range n).map fun i => ent V i k

end ResultDefs

section DotDefs

variable {α : Type} [LinearOrderedField α]

/-- The dot product of two vectors given as lists. -/
def dot (u v : List α) : α := (List.zipWith (fun x y => x * y) u v).sum

end DotDefs

section TraceDefs

variable {α : Type} [LinearOrderedField α]

/-- The trace of an `n × n` matrix. -/
def trace (n : ℕ) (A : Mat α) : α := (diagList n A).sum

end TraceDefs

section AdjacencyDefs

variable {α : Type} [LinearOrderedField α]

/-- The matrix is symmetric: `A[i][j] = A[j][i]` for all `i, j < n`. -/
def Symmetric (n : ℕ) (A : Mat α) : Prop := ∀ i, i < n → ∀ j, j < n → ent A i j = ent A j i

/-- Every entry of the matrix is non-negative. -/
def NonNeg (n : ℕ) (A : Mat α) : Prop := ∀ i, i < n → ∀ j, j < n → 0 ≤ ent A i j

/-- The diagonal of the matrix is zero. -/
def ZeroDiag (n : ℕ) (A : Mat α) : Prop := ∀ i, i < n → ent A i i = 0

instance (n : ℕ) (A : Mat α) : Decidable (Symmetric n A) := by
  unfold Symmetric; infer_instance

instance (n : ℕ) (A : Mat α) : Decidable (NonNeg n A) := by
  unfold NonNeg; infer_instance

instance (n : ℕ) (A : Mat α) : Decidable (ZeroDiag n A) := by
  unfold ZeroDiag; infer_instance

end AdjacencyDefs

section InvariantDefs

variable {α : Type} [LinearOrderedField α]

/-- The two facts of real trigonometry the rotation relies on: `cos² + sin² = 1`,
and the half angle `θ = atan2(y, x) / 2` satisfies `cos(2θ)·y = sin(2θ)·x`. -/
def ExactMath (T : JSMath α) : Prop :=
  (∀ t, T.cos t * T.cos t + T.sin t * T.sin t = 1) ∧
  ∀ x y, (T.cos (1 / 2 * T.atan2 y x) * T.cos (1 / 2 * T.atan2 y x)
      - T.sin (1 / 2 * T.atan2 y x) * T.sin (1 / 2 * T.atan2 y x)) * y
    = 2 * (T.cos (1 / 2 * T.atan2 y x) * T.sin (1 / 2 * T.atan2 y x)) * x

/-- The loop invariant of `jacobiEigen` on a symmetric input `M`: the working
matrix `A` is symmetric, the accumulator `V` is orthogonal, and `M = V · A · Vᵀ`. -/
def Decomp (n : ℕ) (M A V : Mat α) : Prop :=
  Square n A ∧ Square n V ∧ Symmetric n A ∧
  (toMatrix n V).transpose * toMatrix n V = 1 ∧
  toMatrix n M = toMatrix n V * toMatrix n A * (toMatrix n V).transpose

end InvariantDefs

section ReconstructDefs

variable {α : Type} [LinearOrderedField α]

/-- Entry `(i, j)` of `V · diag(values) · Vᵀ` for a result of `jacobiEigen` with `n`
eigenpairs: `Σ_k values[k] · vectors[k][i] · vectors[k][j]`. -/
def reconstruct (n : ℕ) (r : EigenResult α) (i j : ℕ) : α :=
  ∑ k in Finset.range n,
    r.values.getD k 0 * (r.vectors.getD k []).getD i 0 * (r.vectors.getD k []).getD j 0

end ReconstructDefs

section BlockDefs

variable {α : Type}

/-- The `n × n` matrix with entries `f i j`. -/
def ofFn (n : ℕ) (f : ℕ → ℕ → α) : Mat α :=
  (List.range n).map fun i => (List.range n).map fun j => f i j

variable [LinearOrderedField α]

/-- The symmetric `2m × 2m` matrix with `m` blocks `[[0, 1], [1, 0]]` on its diagonal
and zeros elsewhere. -/
def blockMatrix (m : ℕ) : Mat α :=
  ofFn (2 * m) fun i j => if i / 2 = j / 2 ∧ i ≠ j then 1 else 0

end BlockDefs

section BlockStateDefs

variable {α : Type} [LinearOrderedField α]

/-- Entry `(i, j)` of the working matrix after `k` rotations on a block matrix:
the first `k` blocks are `[[1, 0], [0, -1]]`, the others still `[[0, 1], [1, 0]]`. -/
def blockA (k i j : ℕ) : α :=
  if i / 2 = j / 2 then
    if i / 2 < k then (if i = j then (if i % 2 = 0 then 1 else -1) else 0)
    else (if i = j then 0 else 1)
  else 0

/-- Entry `(i, j)` of the accumulator after `k` rotations by the angle `π/4` on a
block matrix, with `c = cos(π/4) = sin(π/4)`: the first `k` blocks are
`[[c, -c], [c, c]]`, the others still `[[1, 0], [0, 1]]`. -/
def blockV (c : α) (k i j : ℕ) : α :=
  if i / 2 = j / 2 then
    if i / 2 < k then (if i % 2 = 0 ∧ j % 2 = 1 then -c else c)
    else (if i = j then 1 else 0)
  else 0

end BlockStateDefs

section SupportDefs

variable {α : Type} [LinearOrderedField α]

/-- The columns in which row `i` of `V` is not zero. -/
def rowSupport (n : ℕ) (V : Mat α) (i : ℕ) : Finset (Fin n) :=
  Finset.univ.filter fun k => ent V i k ≠ 0

end SupportDefs

section StepDefs

variable {α : Type} [LinearOrderedField α]

/-- The states `(A, V)` linked by exactly `r` iterations of the loop that rotate:
each starts from a scan at or above the threshold and rotates on the scanned pivot. -/
inductive RotSteps (T : JSMath α) (n : ℕ) : ℕ → Mat α × Mat α → Mat α × Mat α → Prop
  | refl (s : Mat α × Mat α) : RotSteps T n 0 s s
  | step {r : ℕ} {A V A' V' : Mat α} {s : Mat α × Mat α}
      (hscan : ¬ (pivotScan n A).1 < threshold)
      (hrot : rotate T n A V (pivotScan n A).2.1 (pivotScan n A).2.2 = some (A', V'))
      (hrest : RotSteps T n r (A', V') s) : RotSteps T n (r + 1) (A, V) s

end StepDefs

/-- An element of `embed3D` (lines 1296-1303): the fields `x`, `y`, `z`; the fields
`color`, `community` and `type` are data of the rendering. -/
structure Point3 (α : Type) where
  x : α
  y : α
  z : α
deriving DecidableEq, Repr

section EmbedDefs

variable {α : Type}

/-- The coordinate tuple of a point. -/
def Point3.coords (p : Point3 α) : List α := [p.x, p.y, p.z]

variable [LinearOrderedField α]

/-- Line 1294: `embedScale = 120`. -/
def embedScale : α := 120

/-- Lines 1297-1299: `(eigen.vectors[k] ? eigen.vectors[k][i] : 0) * embedScale`; an
array is truthy, a missing one is not. -/
def embedCoord (vectors : Mat α) (k i : ℕ) : Option α :=
  match vectors[k]? with
  | some v =>
    match v[i]? with
    | some a => some (a * embedScale)
    | none => none
  | none => some (0 * embedScale)

/-- Lines 1293-1304: the loop that fills `embed3D`, one point per node. -/
def embed3D (N : ℕ) (vectors : Mat α) : Option (List (Point3 α)) :=
  (List.range N).mapM fun i => do
    let x ← embedCoord vectors 1 i
    let y ← embedCoord vectors 2 i
    let z ← embedCoord vectors 3 i
    pure { x := x, y := y, z := z }

/-- Lines 1289-1304 of `initSpectralEmbedding`: `L = graphLaplacian(adj)`,
`eigen = jacobiEigen(L)`, then `embed3D` for the `N` nodes.  `N` is the constant of
line 1232, which the source sets to `24` (`initSpectralEmbedding` below). -/
def spectralEmbedding (T : JSMath α) (N : ℕ) (adj : Mat α) : Option (List (Point3 α)) := do
  let L := graphLaplacian adj
  let eigen ← jacobiEigen T L
  embed3D N eigen.vectors

/-- The coordinate of node `i` on the axis that reads eigenvector `k`, out of `N`
eigenvectors. -/
def axisCoord (N : ℕ) (vectors : Mat α) (k i : ℕ) : α :=
  if k < N then ent vectors k i * 120 else 0

end EmbedDefs

section TruncateDefs

variable {α : Type}

/-- The matrix has `n` rows of at least `n` entries each. -/
def Wide (n : ℕ) (A : Mat α) : Prop := A.length = n ∧ ∀ r ∈ A, n ≤ r.length

instance (n : ℕ) (A : Mat α) : Decidable (Wide n A) := by
  unfold Wide; infer_instance

/-- The first `n` entries of every row. -/
def truncate (n : ℕ) (A : Mat α) : Mat α := A.map (List.take n)

variable [LinearOrderedField α]

/-- The `n × n` matrix of the entries that exist, with `0` for a missing one. -/
def squareOf (n : ℕ) (A : Mat α) : Mat α := ofFn n fun i j => (rd A i j).getD 0

end TruncateDefs

section WorkingDefs

variable {α : Type} [LinearOrderedField α]

/-- The working matrix after one rotation on the pivot `(p, q)`, entry by entry. -/
def rotA (T : JSMath α) (n : ℕ) (A : Mat α) (p q : ℕ) : Mat α :=
  ofFn n (rotEnt (T.cos (angle T A p q)) (T.sin (angle T A p q)) n p q (ent A))

/-- The two matrices have the same diagonal and the same strict upper triangle. -/
def AgreeUpper (n : ℕ) (A B : Mat α) : Prop :=
  ∀ i, i < n → ∀ j, j < n → i ≤ j → ent A i j = ent B i j

instance (n : ℕ) (A B : Mat α) : Decidable (AgreeUpper n A B) := by
  unfold AgreeUpper; infer_instance

end WorkingDefs

section ConnectedDefs

variable {α : Type} [LinearOrderedField α]

/-- The weighted graph on the nodes `0 .. n-1` is connected: any two nodes are joined by
a chain of edges of positive weight. -/
def Connected (n : ℕ) (adj : Mat α) : Prop :=
  ∀ i, i < n → ∀ j, j < n →
    Relation.ReflTransGen (fun a b => a < n ∧ b < n ∧ 0 < ent adj a b) i j

end ConnectedDefs

/-! ## The same code on an explicit heap -/

/-- A heap cell: an array of numbers, or an array of references to other cells. -/
inductive Cell (α : Type) where
  | row (xs : List α)
  | arr (rs : List ℕ)
deriving DecidableEq, Repr

/-- The heap: every array allocated so far; an address is a position in the list. -/
abbrev Heap (α : Type) := List (Cell α)

section HeapDefs

variable {α : Type}

/-- The array of numbers stored at address `a`. -/
def heapRow (H : Heap α) (a : ℕ) : Option (List α) :=
  match H[a]? with
  | some (Cell.row xs) => some xs
  | _ => none

/-- The array of references stored at address `m`. -/
def heapArr (H : Heap α) (m : ℕ) : Option (List ℕ) :=
  match H[m]? with
  | some (Cell.arr rs) => some rs
  | _ => none

/-- The matrix a caller sees at address `m`: the rows its references point to. -/
def heapView (H : Heap α) (m : ℕ) : Option (Mat α) := do
  let rs ← heapArr H m
  rs.mapM (heapRow H)

/-- The read `A[i][j]` for the matrix at address `m`. -/
def heapRd (H : Heap α) (m i j : ℕ) : Option α := do
  let rs ← heapArr H m
  let a ← rs[i]?
  let xs ← heapRow H a
  xs[j]?

/-- The assignment `A[i][j] = v` for the matrix at address `m`, on an existing element:
the row cell is replaced, every other cell is kept. -/
def heapWr (H : Heap α) (m i j : ℕ) (v : α) : Option (Heap α) := do
  let rs ← heapArr H m
  let a ← rs[i]?
  let xs ← heapRow H a
  if j < xs.length then some (H.set a (Cell.row (xs.set j v))) else none

/-- A freshly allocated matrix: the array of references at the first free address,
followed by its rows. -/
def heapBlock (b : ℕ) (rows : Mat α) : List (Cell α) :=
  Cell.arr (List.range' (b + 1) rows.length) :: rows.map Cell.row

/-- Allocation of a matrix with the given rows; returns the new heap and the address of
the matrix. -/
def heapAlloc (H : Heap α) (rows : Mat α) : Heap α × ℕ :=
  (H ++ heapBlock H.length rows, H.length)

end HeapDefs

section HeapSolverDefs

variable {α : Type} [LinearOrderedField α]

/-- Lines 27-30 on the heap: the scan reads `A[i][j]` at address `a`. -/
def heapScanStep (H : Heap α) (a i : ℕ) (st : α × ℕ × ℕ) (j : ℕ) : α × ℕ × ℕ :=
  match heapRd H a i j with
  | some x => if |x| > st.1 then (|x|, i, j) else st
  | none => st

/-- Lines 26-31 on the heap. -/
def heapScanRow (n : ℕ) (H : Heap α) (a : ℕ) (st : α × ℕ × ℕ) (i : ℕ) : α × ℕ × ℕ :=
  (List.range' (i + 1) (n - (i + 1))).foldl (heapScanStep H a i) st

/-- Lines 24-32 on the heap. -/
def heapPivotScan (n : ℕ) (H : Heap α) (a : ℕ) : α × ℕ × ℕ :=
  (List.range n).foldl (heapScanRow n H a) (0, 0, 1)

/-- Lines 38-41 on the heap: four assignments to the matrix at address `a`. -/
def heapRotateDiag (c s : α) (H : Heap α) (a p q : ℕ) : Option (Heap α) := do
  let App ← heapRd H a p p
  let Aqq ← heapRd H a q q
  let Apq ← heapRd H a p q
  let H ← heapWr H a p p (c * c * App + 2 * s * c * Apq + s * s * Aqq)
  let H ← heapWr H a q q (s * s * App - 2 * s * c * Apq + c * c * Aqq)
  let H ← heapWr H a p q 0
  heapWr H a q p 0

/-- Lines 44-50 on the heap. -/
def heapRotateOffStep (c s : α) (a p q : ℕ) (H : Heap α) (i : ℕ) : Option (Heap α) :=
  if i ≠ p ∧ i ≠ q then do
    let Aip ← heapRd H a i p
    let Aiq ← heapRd H a i q
    let H ← heapWr H a i p (c * Aip + s * Aiq)
    let H ← heapWr H a p i (← heapRd H a i p)
    let H ← heapWr H a i q (-s * Aip + c * Aiq)
    heapWr H a q i (← heapRd H a i q)
  else some H

/-- Lines 54-56 on the heap: two assignments to the accumulator at address `v`. -/
def heapRotateVStep (c s : α) (v p q : ℕ) (H : Heap α) (i : ℕ) : Option (Heap α) := do
  let Vip ← heapRd H v i p
  let Viq ← heapRd H v i q
  let H ← heapWr H v i p (c * Vip + s * Viq)
  heapWr H v i q (-s * Vip + c * Viq)

/-- Line 35 on the heap. -/
def heapRotationAngle (T : JSMath α) (H : Heap α) (a p q : ℕ) : Option α := do
  let Apq ← heapRd H a p q
  let App ← heapRd H a p p
  let Aqq ← heapRd H a q q
  pure (1 / 2 * T.atan2 (2 * Apq) (App - Aqq))

/-- Lines 35-57 on the heap: one rotation of the matrices at addresses `a` and `v`. -/
def heapRotate (T : JSMath α) (n : ℕ) (H : Heap α) (a v p q : ℕ) : Option (Heap α) := do
  let theta ← heapRotationAngle T H a p q
  let c := T.cos theta
  let s := T.sin theta
  let H ← heapRotateDiag c s H a p q
  let H ← (List.range n).foldlM (heapRotateOffStep c s a p q) H
  (List.range n).foldlM (heapRotateVStep c s v p q) H

/-- Lines 23-58 on the heap, with `k` iterations left. -/
def heapJacobiLoop (T : JSMath α) (n : ℕ) (a v : ℕ) : ℕ → Heap α → Option (Heap α)
  | 0, H => some H
  | k + 1, H =>
    let st := heapPivotScan n H a
    if st.1 < threshold then some H
    else
      match heapRotate T n H a v st.2.1 st.2.2 with
      | some H' => heapJacobiLoop T n a v k H'
      | none => none

/-- Lines 60-67 on the heap: they read the matrices at `a` and `v` and write only to the
arrays they create, which are returned by value. -/
def heapEigenSort (H : Heap α) (a v : ℕ) : Option (EigenResult α) := do
  let A ← heapView H a
  let V ← heapView H v
  eigenSort A V

/-- Lines 16-68 on the heap: `jacobiEigen(matrix)` for the matrix at address `m`. Line 18
reads every row of the argument and allocates the copies; lines 19-21 allocate the
identity. Returns the heap after the call and the result. -/
def heapJacobiEigen (T : JSMath α) (H : Heap α) (m : ℕ) :
    Option (Heap α × EigenResult α) := do
  let rs ← heapArr H m
  let n := rs.length
  let rows ← rs.mapM (heapRow H)
  let (H, a) := heapAlloc H (rows.map fun r => r)
  let (H, v) := heapAlloc H (identity n)
  let H ← heapJacobiLoop T n a v maxIter H
  let r ← heapEigenSort H a v
  pure (H, r)

/-- The assignment `L[i][j] = v` of `graphLaplacian`; without effect when the element
does not exist. -/
def heapSet (H : Heap α) (m i j : ℕ) (v : α) : Heap α :=
  (heapWr H m i j v).getD H

/-- Lines 76-81 on the heap: the state is the heap and `deg`; `adj` and `l` are the
addresses of the argument and of `L`. -/
def heapLaplacianStep (adj l i : ℕ) (st : Heap α × α) (j : ℕ) : Heap α × α :=
  match heapRd st.1 adj i j with
  | some a => if a ≠ 0 then (heapSet st.1 l i j (-a), st.2 + a) else st
  | none => st

/-- Lines 74-83 on the heap: row `i`. -/
def heapLaplacianRow (n adj l : ℕ) (H : Heap α) (i : ℕ) : Heap α :=
  let st := (List.range n).foldl (heapLaplacianStep adj l i) (H, 0)
  heapSet st.1 l i i st.2

/-- Lines 71-85 on the heap: `graphLaplacian(adj)` for the matrix at address `adj`.
Returns the heap after the call and the address of `L`. -/
def heapGraphLaplacian (H : Heap α) (adj : ℕ) : Option (Heap α × ℕ) := do
  let rs ← heapArr H adj
  let n := rs.length
  let (H, l) := heapAlloc H (List.replicate n (List.replicate n 0))
  pure ((List.range n).foldl (heapLaplacianRow n adj l) H, l)

end HeapSolverDefs

section LayoutDefs

variable {α : Type}

/-- The heap while `jacobiEigen` runs: the caller's heap `H0`, then the working matrix
`A` and the accumulator `V`, each as allocated by `heapAlloc`. -/
def layout (H0 : Heap α) (A V : Mat α) : Heap α :=
  H0 ++ heapBlock H0.length A ++ heapBlock (H0.length + 1 + A.length) V

end LayoutDefs

section OffDiagonalDefs

variable {α : Type} [LinearOrderedField α]

/-- The sum of the squares of the off-diagonal entries of an `n × n` matrix. -/
def offSq (n : ℕ) (A : Mat α) : α :=
  ∑ i in Finset.range n, ∑ j in Finset.range n, if i = j then 0 else ent A i j ^ 2

end OffDiagonalDefs

/-! ## The edge toggle of `initEigenViz` -/

section ToggleDefs

variable {α : Type} [LinearOrderedField α]

/-- Lines 417-426 of `initEigenViz`: the initial adjacency matrix. -/
def initialAdjacency : Mat α :=
  [[0, 1, 1, 0, 0, 0, 0, 1],
   [1, 0, 1, 1, 0, 0, 0, 0],
   [1, 1, 0, 1, 1, 0, 0, 0],
   [0, 1, 1, 0, 1, 0, 0, 0],
   [0, 0, 1, 1, 0, 1, 1, 0],
   [0, 0, 0, 0, 1, 0, 1, 1],
   [0, 0, 0, 0, 1, 1, 0, 1],
   [1, 0, 0, 0, 0, 1, 1, 0]]

/-- The truthiness test `if (adjacency[a][b])`: the element exists and is not `0`. -/
def truthy (adjacency : Mat α) (a b : ℕ) : Bool :=
  match rd adjacency a b with
  | some x => decide (x ≠ 0)
  | none => false

/-- Lines 457-460: the number of non-zero entries in the strict upper triangle. -/
def edgeCount (N : ℕ) (adjacency : Mat α) : ℕ :=
  (List.range N).foldl (fun edgeCount a =>
    (List.range' (a + 1) (N - (a + 1))).foldl
      (fun edgeCount b => if truthy adjacency a b then edgeCount + 1 else edgeCount)
      edgeCount) 0

/-- Lines 452-466: the timer callback of `initEigenViz` for the two random indices `i`
and `j`, as the matrix `adjacency` it leaves behind: nothing happens for `i = j`, nor
when the edge exists and at most `8` edges are left; otherwise the entry `(i, j)` is
toggled and copied to `(j, i)`. -/
def toggleEdge (N : ℕ) (adjacency : Mat α) (i j : ℕ) : Option (Mat α) :=
  if i = j then some adjacency
  else if truthy adjacency i j = true ∧ edgeCount N adjacency ≤ 8 then some adjacency
  else do
    let adjacency ← wr adjacency i j (if truthy adjacency i j then 0 else 1)
    let v ← rd adjacency i j
    wr adjacency j i v

end ToggleDefs

section ToggleInvDefs

variable {α : Type} [LinearOrderedField α]

/-- The invariant of the adjacency matrix of `initEigenViz`: `N × N`, symmetric, zero
diagonal, entries `0` or `1`, at least `8` edges. -/
def AdjInv (N : ℕ) (A : Mat α) : Prop :=
  Square N A ∧ Symmetric N A ∧ ZeroDiag N A ∧
  (∀ i, i < N → ∀ j, j < N → ent A i j = 0 ∨ ent A i j = 1) ∧ 8 ≤ edgeCount N A

end ToggleInvDefs

/-! ## The network generator of `initSpectralEmbedding` -/

section NetworkDefs

variable {α : Type} [LinearOrderedField α]

/-- Line 1233: `communitySize = [8, 8, 8]`. -/
def communitySize : List ℕ := [8, 8, 8]

/-- Lines 1235-1241: the community of every node, pushed community by community. -/
def communityAssignment : List ℕ :=
  (List.range communitySize.length).foldl (fun acc c =>
    (List.range (communitySize.getD c 0)).foldl (fun acc _ => acc ++ [c]) acc) []

/-- Line 1245: `pIntra = 0.55`. -/
def pIntra : α := 55 / 100

/-- Line 1246: `pInter = 0.06`. -/
def pInter : α := 6 / 100

/-- Lines 1250-1254, the body of the inner loop that draws the edges; `u` is the value
`Math.random()` returns in this iteration. -/
def edgeStep (i : ℕ) (u : α) (adj : Mat α) (j : ℕ) : Mat α :=
  if u < (if communityAssignment[i]? = communityAssignment[j]? then pIntra else pInter)
  then upd (upd adj i j 1) j i 1
  else adj

/-- Lines 1244-1256: the adjacency matrix after the random draws; `rand i j` is the
value `Math.random()` returns in the iteration `(i, j)` (one call per iteration). -/
def buildAdjacency (N : ℕ) (rand : ℕ → ℕ → α) : Mat α :=
  (List.range N).foldl (fun adj i =>
    (List.range' (i + 1) (N - (i + 1))).foldl (fun adj j => edgeStep i (rand i j) adj j) adj)
    (List.replicate N (List.replicate N 0))

/-- Lines 1260-1261: `deg`, the sum of row `i`. -/
def degree (N : ℕ) (adj : Mat α) (i : ℕ) : α :=
  (List.range N).foldl (fun deg j => deg + ent adj i j) 0

/-- Lines 1264-1270: the edge from an isolated node `i` to the first other node of its
community (the loop ends at `break`). -/
def connectIsolated (N : ℕ) (adj : Mat α) (i : ℕ) : Mat α :=
  match (List.range N).find? fun j =>
      decide (j ≠ i ∧ communityAssignment[j]? = communityAssignment[i]?) with
  | some j => upd (upd adj i j 1) j i 1
  | none => adj

/-- Lines 1259-1272: the repair loop "Ensure connectivity". -/
def ensureConnectivity (N : ℕ) (adj : Mat α) : Mat α :=
  (List.range N).foldl
    (fun adj i => if degree N adj i = 0 then connectIsolated N adj i else adj) adj

/-- Lines 1232-1272: the generated network for the outcomes `rand` of the draws. -/
def generateNetwork (rand : ℕ → ℕ → α) : Mat α :=
  ensureConnectivity 24 (buildAdjacency 24 rand)

end NetworkDefs

section NetworkInvDefs

variable {α : Type} [LinearOrderedField α]

/-- An unweighted undirected graph without loops: `N × N`, symmetric, zero diagonal,
entries `0` or `1`. -/
def SimpleGraph01 (N : ℕ) (adj : Mat α) : Prop :=
  Square N adj ∧ Symmetric N adj ∧ ZeroDiag N adj ∧
  ∀ i, i < N → ∀ j, j < N → ent adj i j = 0 ∨ ent adj i j = 1

/-- Every edge joins two nodes of the same community. -/
def IntraOnly (N : ℕ) (adj : Mat α) : Prop :=
  ∀ a, a < N → ∀ b, b < N → ent adj a b ≠ 0 →
    communityAssignment[a]? = communityAssignment[b]?

end NetworkInvDefs

/-! ## IEEE-754 doubles

The numbers of the code are doubles. `jacobiEigen` is embedded over the real numbers,
where the claims about it are worded; for `graphLaplacian`, whose only arithmetic is
`deg += adj[i][j]` and `-adj[i][j]`, the double arithmetic is embedded too. -/

section DoubleDefs

/-- A JavaScript number: a finite double, given by the rational number it denotes, an
infinity, or NaN.  The two zeros are not told apart: both are falsy, and
`graphLaplacian` negates and adds truthy values only. -/
inductive Double where
  | fin (q : ℚ)
  | inf (negative : Bool)
  | nan
  deriving DecidableEq, Repr

/-- Exponent of the last binary digit of a double of magnitude `|q|`: 53 significant
digits in the binade of `q`, and no digit below `2 ^ (-1074)` (subnormal numbers). -/
def Double.lastDigit (q : ℚ) : ℤ := max (Int.log 2 |q|) (-1022) - 52

/-- The nearest integer, the even one when two are nearest. -/
def roundHalfEven (x : ℚ) : ℤ :=
  if x - ⌊x⌋ < 1 / 2 then ⌊x⌋
  else if 1 / 2 < x - ⌊x⌋ then ⌊x⌋ + 1
  else if ⌊x⌋ % 2 = 0 then ⌊x⌋
  else ⌊x⌋ + 1

/-- The double that an operation with exact result `q` returns: `q` rounded to the
nearest double, ties to the even significand, and an infinity when the rounded
magnitude reaches `2 ^ 1024`. -/
def Double.ofRat (q : ℚ) : Double :=
  let r : ℚ := roundHalfEven (q / 2 ^ Double.lastDigit q) * 2 ^ Double.lastDigit q
  if 2 ^ 1024 ≤ |r| then Double.inf (decide (q < 0)) else Double.fin r

/-- The sum `x + y` of two JavaScript numbers. -/
def Double.add : Double → Double → Double
  | Double.fin a, Double.fin b => Double.ofRat (a + b)
  | Double.fin _, Double.inf s => Double.inf s
  | Double.inf s, Double.fin _ => Double.inf s
  | Double.inf s, Double.inf t => if s = t then Double.inf s else Double.nan
  | Double.nan, _ => Double.nan
  | _, Double.nan => Double.nan

/-- The negation `-x` of a JavaScript number. -/
def Double.neg : Double → Double
  | Double.fin a => Double.fin (-a)
  | Double.inf s => Double.inf (!s)
  | Double.nan => Double.nan

/-- The test `if (x)` on a JavaScript number: false for `0` and NaN. -/
def Double.truthy : Double → Bool
  | Double.fin a => decide (a ≠ 0)
  | Double.inf _ => true
  | Double.nan => false

/-- Lines 76-81 in double arithmetic: the state is the row `L[i]` and `deg`. -/
def doubleLaplacianStep (adj : Mat Double) (i : ℕ) (st : List Double × Double) (j : ℕ) :
    List Double × Double :=
  match rd adj i j with
  | some a => if a.truthy then (st.1.set j a.neg, st.2.add a) else st
  | none => st

/-- Lines 74-83 in double arithmetic: row `i` of the Laplacian. -/
def doubleLaplacianRow (n : ℕ) (adj : Mat Double) (i : ℕ) : List Double :=
  let st := (List.range n).foldl (doubleLaplacianStep adj i)
    (List.replicate n (Double.fin 0), Double.fin 0)
  st.1.set i st.2

/-- Lines 71-85 in double arithmetic: `graphLaplacian(adj)`. -/
def doubleGraphLaplacian (adj : Mat Double) : Mat Double :=
  let n := adj.length
  (List.range n).map (doubleLaplacianRow n adj)

/-- A matrix of finite numbers as a matrix of JavaScript numbers. -/
def toDouble (A : Mat ℚ) : Mat Double := A.map (List.map Double.fin)

/-- No partial sum `a₀ + … + aₖ₋₁` of the row is rounded when `deg` accumulates it:
each is a double. -/
def ExactRow (row : List ℚ) : Prop :=
  ∀ k, k ≤ row.length → Double.ofRat ((row.take k).sum) = Double.fin ((row.take k).sum)

instance (row : List ℚ) : Decidable (ExactRow row) := by
  unfold ExactRow; infer_instance

end DoubleDefs

section InitDefs

variable {α : Type} [LinearOrderedField α]

/-- Lines 1232-1304 of `initSpectralEmbedding`: the network is generated with
`const N = 24` (line 1232) from the draws `rand`, and embedded with the same `N`. -/
def initSpectralEmbedding (T : JSMath α) (rand : ℕ → ℕ → α) : Option (List (Point3 α)) :=
  spectralEmbedding T 24 (generateNetwork rand)

end InitDefs

/-! # Theorems -/

/-! ## Shapes and entries -/

section Basics

variable {α : Type}

theorem Square.length {n : ℕ} {A : Mat α} (h : Square n A) : A.length = n := h.1

theorem Square.row_length {n : ℕ} {A : Mat α} (h : Square n A) {i : ℕ} (hi : i < n) :
    (A.getD i []).length = n := by
  have hi' : i < A.length := by rw [h.1]; exact hi
  rw [List.getD_eq_getElem _ _ hi']
  exact h.2 _ (List.getElem_mem _)

theorem rd_eq [Zero α] {n : ℕ} {A : Mat α} (h : Square n A) {i j : ℕ} (hi : i < n)
    (hj : j < n) : rd A i j = some (ent A i j) := by
  have hi' : i < A.length := by rw [h.1]; exact hi
  have hr := h.row_length hi
  rw [List.getD_eq_getElem _ _ hi'] at hr
  have hj' : j < (A[i]).length := by rw [hr]; exact hj
  simp [rd, ent, List.getElem?_eq_getElem hi', List.getD_eq_getElem _ _ hi',
    List.getElem?_eq_getElem hj', List.getD_eq_getElem _ _ hj']

theorem wr_eq {n : ℕ} {A : Mat α} (h : Square n A) {i j : ℕ} (hi : i < n) (hj : j < n)
    (v : α) : wr A i j v = some (upd A i j v) := by
  have hi' : i < A.length := by rw [h.1]; exact hi
  have hr := h.row_length hi
  rw [List.getD_eq_getElem _ _ hi'] at hr
  simp [wr, upd, List.getElem?_eq_getElem hi', List.getD_eq_getElem _ _ hi', hr, hj]

theorem Square.upd {n : ℕ} {A : Mat α} (h : Square n A) (i j : ℕ) (v : α) :
    Square n (upd A i j v) := by
  refine ⟨by simp [Eigenspace.upd, h.1], fun r hr => ?_⟩
  by_cases hi : i < n
  · rcases List.mem_or_eq_of_mem_set hr with h1 | h1
    · exact h.2 r h1
    · rw [h1, List.length_set]
      exact h.row_length hi
  · have : A.length ≤ i := by rw [h.1]; omega
    unfold Eigenspace.upd at hr
    rw [List.set_eq_of_length_le this] at hr
    exact h.2 _ hr

theorem ent_upd [Zero α] {n : ℕ} {A : Mat α} (h : Square n A) {i j : ℕ} (hi : i < n)
    (hj : j < n) (v : α) (a b : ℕ) :
    ent (upd A i j v) a b = if a = i ∧ b = j then v else ent A a b := by
  have hi' : i < A.length := by rw [h.1]; exact hi
  have hr := h.row_length hi
  have hr' : (A[i]).length = n := by rw [← List.getD_eq_getElem _ [] hi']; exact hr
  unfold ent upd
  by_cases ha : a = i
  · subst ha
    by_cases hb : b = j
    · subst hb
      simp [List.getD_eq_getElem?_getD, List.getElem?_set, hi', hr', hj]
    · have hb' : ¬ j = b := fun h => hb h.symm
      simp [List.getD_eq_getElem?_getD, List.getElem?_set, hi', hb, hb']
  · have ha' : ¬ i = a := fun h => ha h.symm
    simp [List.getD_eq_getElem?_getD, List.getElem?_set, ha, ha']

/-- Two square matrices with the same entries are the same list of rows. -/
theorem Square.ext [Zero α] {n : ℕ} {A B : Mat α} (hA : Square n A) (hB : Square n B)
    (h : ∀ i j, i < n → j < n → ent A i j = ent B i j) : A = B := by
  apply List.ext_getElem (by rw [hA.1, hB.1])
  intro i h1 h2
  have hi : i < n := by rw [← hA.1]; exact h1
  have hra := hA.row_length hi
  have hrb := hB.row_length hi
  rw [List.getD_eq_getElem _ _ h1] at hra
  rw [List.getD_eq_getElem _ _ h2] at hrb
  apply List.ext_getElem (by rw [hra, hrb])
  intro j h3 h4
  have hj : j < n := by rw [← hra]; exact h3
  have := h i j hi hj
  unfold ent at this
  rw [List.getD_eq_getElem _ _ h1, List.getD_eq_getElem _ _ h2,
    List.getD_eq_getElem _ _ h3, List.getD_eq_getElem _ _ h4] at this
  exact this

/-- An invariant of a loop `for (let i = 0; i < n; i++)` whose body may fail. -/
theorem foldlM_range_inv {σ : Type} (f : σ → ℕ → Option σ) (Inv : ℕ → σ → Prop) (n : ℕ)
    (s0 : σ) (h0 : Inv 0 s0)
    (hstep : ∀ k s, k < n → Inv k s → ∃ s', f s k = some s' ∧ Inv (k + 1) s') :
    ∃ s', (List.range n).foldlM f s0 = some s' ∧ Inv n s' := by
  induction n with
  | zero => exact ⟨s0, by simp, h0⟩
  | succ m ih =>
    obtain ⟨s1, h1, hInv⟩ := ih fun k s hk hs => hstep k s (Nat.lt_succ_of_lt hk) hs
    obtain ⟨s2, h2, hInv2⟩ := hstep m s1 (Nat.lt_succ_self m) hInv
    refine ⟨s2, ?_, hInv2⟩
    rw [List.range_succ, List.foldlM_append, h1]
    simp [h2]

end Basics

/-! ## One rotation, entry by entry -/

section Rotation

variable {α : Type} [LinearOrderedField α]

theorem rotateDiag_spec {n : ℕ} {A : Mat α} (h : Square n A) {p q : ℕ} (hp : p < n)
    (hq : q < n) (c s : α) :
    ∃ A', rotateDiag c s A p q = some A' ∧ Square n A' ∧
      ∀ a b, ent A' a b = diagEnt c s p q (ent A) a b := by
  have h1 := h.upd p p (c * c * ent A p p + 2 * s * c * ent A p q + s * s * ent A q q)
  have h2 := h1.upd q q (s * s * ent A p p - 2 * s * c * ent A p q + c * c * ent A q q)
  have h3 := h2.upd p q 0
  have h4 := h3.upd q p 0
  refine ⟨_, ?_, h4, ?_⟩
  · simp only [rotateDiag, rd_eq h hp hp, rd_eq h hq hq, rd_eq h hp hq, Option.bind_eq_bind,
      Option.some_bind, wr_eq h hp hp, wr_eq h1 hq hq, wr_eq h2 hp hq, wr_eq h3 hq hp]
  · intro a b
    rw [ent_upd h3 hq hp, ent_upd h2 hp hq, ent_upd h1 hq hq, ent_upd h hp hp]
    rfl

theorem rotateOffStep_spec {n : ℕ} {A : Mat α} (h : Square n A) {p q : ℕ} (hp : p < n)
    (hq : q < n) (hpq : p ≠ q) (c s : α) (A0 : Mat α) {k : ℕ} (hk : k < n)
    (hA : ∀ a b, ent A a b = offEnt c s p q k (ent A0) a b) :
    ∃ A', rotateOffStep c s p q A k = some A' ∧ Square n A' ∧
      ∀ a b, ent A' a b = offEnt c s p q (k + 1) (ent A0) a b := by
  by_cases hkp : k ≠ p ∧ k ≠ q
  · have e1 : ent A k p = ent A0 k p := by
      rw [hA]; unfold offEnt; split_ifs <;> first | rfl | (exfalso; omega)
    have e2 : ent A k q = ent A0 k q := by
      rw [hA]; unfold offEnt; split_ifs <;> first | rfl | (exfalso; omega)
    have h1 := h.upd k p (c * ent A k p + s * ent A k q)
    have r1 : ent (upd A k p (c * ent A k p + s * ent A k q)) k p
        = c * ent A k p + s * ent A k q := by
      rw [ent_upd h hk hp]; simp
    have h2 := h1.upd p k (c * ent A k p + s * ent A k q)
    have h3 := h2.upd k q (-s * ent A k p + c * ent A k q)
    have r3 : ent (upd (upd (upd A k p (c * ent A k p + s * ent A k q)) p k
        (c * ent A k p + s * ent A k q)) k q (-s * ent A k p + c * ent A k q)) k q
        = -s * ent A k p + c * ent A k q := by
      rw [ent_upd h2 hk hq]; simp
    have h4 := h3.upd q k (-s * ent A k p + c * ent A k q)
    refine ⟨_, ?_, h4, ?_⟩
    · rw [rotateOffStep, if_pos hkp]
      simp only [rd_eq h hk hp, rd_eq h hk hq,
        Option.bind_eq_bind, Option.some_bind, wr_eq h hk hp, rd_eq h1 hk hp, r1,
        wr_eq h1 hp hk, wr_eq h2 hk hq, rd_eq h3 hk hq, r3, wr_eq h3 hq hk]
    · intro a b
      rw [ent_upd h3 hq hk, ent_upd h2 hk hq, ent_upd h1 hp hk, ent_upd h hk hp, e1, e2, hA]
      unfold offEnt
      obtain ⟨hk1, hk2⟩ := hkp
      have hqp : q ≠ p := fun e => hpq e.symm
      by_cases ha : a = k <;> by_cases hb : b = k
      · subst ha; subst hb
        simp [hk1, hk2]
      · subst ha
        simp [hk1, hk2, hb]
        split_ifs <;> first | rfl | (exfalso; omega)
      · subst hb
        simp [hk1, hk2, ha]
        split_ifs <;> first | rfl | (exfalso; omega)
      · have e3 : a < k + 1 ↔ a < k := by omega
        have e4 : b < k + 1 ↔ b < k := by omega
        simp only [ha, hb, e3, e4, and_false, false_and, if_false]
  · refine ⟨A, by rw [rotateOffStep, if_neg hkp], h, ?_⟩
    intro a b
    rw [hA]
    unfold offEnt
    have e3 : a ≠ p ∧ a ≠ q ∧ a < k + 1 ↔ a ≠ p ∧ a ≠ q ∧ a < k := by omega
    have e4 : b ≠ p ∧ b ≠ q ∧ b < k + 1 ↔ b ≠ p ∧ b ≠ q ∧ b < k := by omega
    simp only [← and_assoc] at e3 e4 ⊢
    simp only [e3, e4]

theorem rotateVStep_spec {n : ℕ} {V : Mat α} (h : Square n V) {p q : ℕ} (hp : p < n)
    (hq : q < n) (hpq : p ≠ q) (c s : α) (V0 : Mat α) {k : ℕ} (hk : k < n)
    (hV : ∀ a b, ent V a b = vEnt c s p q k (ent V0) a b) :
    ∃ V', rotateVStep c s p q V k = some V' ∧ Square n V' ∧
      ∀ a b, ent V' a b = vEnt c s p q (k + 1) (ent V0) a b := by
  have e1 : ent V k p = ent V0 k p := by
    rw [hV]; unfold vEnt; split_ifs <;> first | rfl | (exfalso; omega)
  have e2 : ent V k q = ent V0 k q := by
    rw [hV]; unfold vEnt; split_ifs <;> first | rfl | (exfalso; omega)
  have h1 := h.upd k p (c * ent V k p + s * ent V k q)
  have h2 := h1.upd k q (-s * ent V k p + c * ent V k q)
  refine ⟨_, ?_, h2, ?_⟩
  · simp only [rotateVStep, rd_eq h hk hp, rd_eq h hk hq, Option.bind_eq_bind,
      Option.some_bind, wr_eq h hk hp, wr_eq h1 hk hq]
  · intro a b
    rw [ent_upd h1 hk hq, ent_upd h hk hp, e1, e2, hV]
    unfold vEnt
    have hqp : q ≠ p := fun e => hpq e.symm
    by_cases ha : a = k
    · subst ha
      simp
      split_ifs <;> first | rfl | (exfalso; omega)
    · have e3 : a < k + 1 ↔ a < k := by omega
      simp only [ha, e3, and_false, false_and, if_false]

end Rotation

/-! ## One rotation as a whole -/

section RotateSpec

variable {α : Type} [LinearOrderedField α]

theorem rotationAngle_eq (T : JSMath α) {n : ℕ} {A : Mat α} (h : Square n A) {p q : ℕ}
    (hp : p < n) (hq : q < n) : rotationAngle T A p q = some (angle T A p q) := by
  simp only [rotationAngle, rd_eq h hp hq, rd_eq h hp hp, rd_eq h hq hq, Option.bind_eq_bind,
    Option.some_bind, angle]
  rfl

theorem offLoop_spec {n : ℕ} {A : Mat α} (h : Square n A) {p q : ℕ} (hp : p < n)
    (hq : q < n) (hpq : p ≠ q) (c s : α) :
    ∃ A', (List.range n).foldlM (rotateOffStep c s p q) A = some A' ∧ Square n A' ∧
      ∀ a b, ent A' a b = offEnt c s p q n (ent A) a b := by
  have := foldlM_range_inv (rotateOffStep c s p q)
    (fun k B => Square n B ∧ ∀ a b, ent B a b = offEnt c s p q k (ent A) a b) n A
    ⟨h, fun a b => by unfold offEnt; simp⟩
    (fun k B hk hB => rotateOffStep_spec hB.1 hp hq hpq c s A hk hB.2)
  exact this

theorem vLoop_spec {n : ℕ} {V : Mat α} (h : Square n V) {p q : ℕ} (hp : p < n)
    (hq : q < n) (hpq : p ≠ q) (c s : α) :
    ∃ V', (List.range n).foldlM (rotateVStep c s p q) V = some V' ∧ Square n V' ∧
      ∀ a b, ent V' a b = vEnt c s p q n (ent V) a b := by
  have := foldlM_range_inv (rotateVStep c s p q)
    (fun k B => Square n B ∧ ∀ a b, ent B a b = vEnt c s p q k (ent V) a b) n V
    ⟨h, fun a b => by unfold vEnt; simp⟩
    (fun k B hk hB => rotateVStep_spec hB.1 hp hq hpq c s V hk hB.2)
  exact this

/-- One rotation on a pivot `p ≠ q` inside an `n × n` matrix succeeds, keeps the
shapes, and changes the entries as `rotEnt` and `vEnt` say. -/
theorem rotate_spec (T : JSMath α) {n : ℕ} {A V : Mat α} (hA : Square n A)
    (hV : Square n V) {p q : ℕ} (hp : p < n) (hq : q < n) (hpq : p ≠ q) :
    ∃ A' V', rotate T n A V p q = some (A', V') ∧ Square n A' ∧ Square n V' ∧
      (∀ a b, ent A' a b
        = rotEnt (T.cos (angle T A p q)) (T.sin (angle T A p q)) n p q (ent A) a b) ∧
      (∀ a b, ent V' a b
        = vEnt (T.cos (angle T A p q)) (T.sin (angle T A p q)) p q n (ent V) a b) := by
  obtain ⟨A1, e1, s1, f1⟩ :=
    rotateDiag_spec hA hp hq (T.cos (angle T A p q)) (T.sin (angle T A p q))
  obtain ⟨A2, e2, s2, f2⟩ :=
    offLoop_spec s1 hp hq hpq (T.cos (angle T A p q)) (T.sin (angle T A p q))
  obtain ⟨V2, e3, s3, f3⟩ :=
    vLoop_spec hV hp hq hpq (T.cos (angle T A p q)) (T.sin (angle T A p q))
  refine ⟨A2, V2, ?_, s2, s3, ?_, f3⟩
  · simp only [rotate, rotationAngle_eq T hA hp hq, Option.bind_eq_bind, Option.some_bind,
      e1, e2, e3]
    rfl
  · intro a b
    rw [f2]
    unfold rotEnt offEnt
    simp only [f1]

end RotateSpec

/-! ## The pivot scan -/

section Scan

variable {α : Type} [LinearOrderedField α]

/-- An invariant of a loop `for (let k = a; k < a + len; k++)` whose body cannot fail. -/
theorem foldl_range'_inv {σ : Type} (f : σ → ℕ → σ) (Inv : ℕ → σ → Prop) (len : ℕ) :
    ∀ (a : ℕ) (s0 : σ), Inv a s0 →
      (∀ k s, a ≤ k → k < a + len → Inv k s → Inv (k + 1) (f s k)) →
      Inv (a + len) ((List.range' a len).foldl f s0) := by
  induction len with
  | zero => intro a s0 h0 _; simpa using h0
  | succ m ih =>
    intro a s0 h0 hstep
    rw [List.range'_succ, List.foldl_cons]
    have := ih (a + 1) (f s0 a) (hstep a s0 (le_refl a) (by omega) h0)
      (fun k s hk1 hk2 hs => hstep k s (by omega) (by omega) hs)
    rwa [show a + 1 + m = a + (m + 1) by omega] at this

theorem scanStep_inv {n : ℕ} {A : Mat α} (h : Square n A) {i j : ℕ} (hij : i < j)
    (hj : j < n) (st : α × ℕ × ℕ) (hst : ScanInv n A i j st) :
    ScanInv n A i (j + 1) (scanStep A i st j) := by
  obtain ⟨h1, h2, h3⟩ := hst
  have hi : i < n := lt_trans hij hj
  unfold scanStep
  rw [rd_eq h hi hj]
  by_cases hgt : |ent A i j| > st.1
  · simp only [hgt, if_true]
    refine ⟨abs_nonneg _, ?_, Or.inr ⟨hij, hj, rfl, lt_of_le_of_lt h1 hgt, ?_⟩⟩
    · intro i' j' h4 h5 h6
      by_cases h7 : i' = i ∧ j' = j
      · rw [h7.1, h7.2]
      · exact le_of_lt (lt_of_le_of_lt (h2 i' j' h4 h5 (by omega)) hgt)
    · intro i' j' h4 h5 h6
      exact lt_of_le_of_lt (h2 i' j' h4 h5 h6) hgt
  · simp only [hgt, if_false]
    refine ⟨h1, ?_, h3⟩
    intro i' j' h4 h5 h6
    by_cases h7 : i' = i ∧ j' = j
    · rw [h7.1, h7.2]; exact not_lt.mp hgt
    · exact h2 i' j' h4 h5 (by omega)

theorem scanRow_inv {n : ℕ} {A : Mat α} (h : Square n A) {i : ℕ} (hi : i < n)
    (st : α × ℕ × ℕ) (hst : ScanInv n A i 0 st) :
    ScanInv n A (i + 1) 0 (scanRow n A st i) := by
  have h0 : ScanInv n A i (i + 1) st := by
    obtain ⟨h1, h2, h3⟩ := hst
    exact ⟨h1, fun i' j' h4 h5 h6 => h2 i' j' h4 h5 (by omega), h3⟩
  have := foldl_range'_inv (scanStep A i) (fun j st => ScanInv n A i j st) (n - (i + 1))
    (i + 1) st h0 (fun k s hk1 hk2 hs => scanStep_inv h (by omega) (by omega) s hs)
  obtain ⟨h1, h2, h3⟩ := this
  exact ⟨h1, fun i' j' h4 h5 h6 => h2 i' j' h4 h5 (by omega), h3⟩

/-- What the pivot scan returns on an `n × n` matrix. -/
theorem pivotScan_inv {n : ℕ} {A : Mat α} (h : Square n A) :
    ScanInv n A n 0 (pivotScan n A) := by
  have h0 : ScanInv n A 0 0 ((0 : α), 0, 1) :=
    ⟨le_refl _, fun i j _ _ h6 => by omega, Or.inl rfl⟩
  have := foldl_range'_inv (scanRow n A) (fun i st => ScanInv n A i 0 st) n 0 (0, 0, 1) h0
    (fun k s _ hk2 hs => scanRow_inv h (by omega) s hs)
  rw [Nat.zero_add] at this
  unfold pivotScan
  rw [List.range_eq_range']
  exact this

theorem threshold_pos : (0 : α) < threshold := by
  unfold threshold; positivity

/-- When the scan does not end the loop, the pivot is a position `p < q < n`. -/
theorem pivotScan_pivot {n : ℕ} {A : Mat α} (h : Square n A)
    (hm : ¬ (pivotScan n A).1 < threshold) :
    (pivotScan n A).2.1 < (pivotScan n A).2.2 ∧ (pivotScan n A).2.2 < n := by
  obtain ⟨_, _, h3⟩ := pivotScan_inv h
  rcases h3 with h3 | h3
  · exfalso
    apply hm
    rw [h3]
    exact threshold_pos
  · exact ⟨h3.1, h3.2.1⟩

/-- The value the scan returns bounds every strict-upper-triangle entry. -/
theorem pivotScan_max {n : ℕ} {A : Mat α} (h : Square n A) {i j : ℕ} (hij : i < j)
    (hj : j < n) : |ent A i j| ≤ (pivotScan n A).1 :=
  (pivotScan_inv h).2.1 i j hij hj (Or.inl (lt_trans hij hj))

end Scan

/-! ## Lines 60-67: diagonal, sorting, result -/

section Finish

variable {α : Type} [LinearOrderedField α]

theorem mapM_eq_some_map {β γ : Type} (f : β → Option γ) (g : β → γ) (l : List β)
    (h : ∀ x ∈ l, f x = some (g x)) : l.mapM f = some (l.map g) := by
  induction l with
  | nil => rfl
  | cons x xs ih =>
    rw [List.mapM_cons, h x (List.mem_cons_self _ _),
      ih fun y hy => h y (List.mem_cons_of_mem _ hy)]
    rfl

theorem diagonal_eq {n : ℕ} {A : Mat α} (h : Square n A) :
    diagonal A = some (diagList n A) := by
  unfold diagonal diagList
  rw [h.1]
  exact mapM_eq_some_map _ _ _ fun i hi => rd_eq h (List.mem_range.mp hi) (List.mem_range.mp hi)

theorem column_eq {n : ℕ} {V : Mat α} (h : Square n V) {k : ℕ} (hk : k < n) :
    column V k = some (colList n V k) := by
  unfold column
  rw [mapM_eq_some_map _ (fun row => row.getD k 0) V]
  · congr 1
    unfold colList
    apply List.ext_getElem
    · simp [h.1]
    · intro i h1 h2
      have hi : i < V.length := by simpa using h1
      simp [ent, List.getElem?_eq_getElem hi]
  · intro row hrow
    have : k < row.length := by rw [h.2 row hrow]; exact hk
    simp [List.getElem?_eq_getElem this]

theorem sortedIndices_perm (ev : List α) : (sortedIndices ev).Perm (List.range ev.length) :=
  List.perm_insertionSort _ _

theorem sortedIndices_sorted (ev : List α) :
    ((sortedIndices ev).map fun i => ev.getD i 0).Sorted (· ≤ ·) := by
  haveI : IsTotal ℕ (fun a b => ev.getD a 0 ≤ ev.getD b 0) := ⟨fun a b => le_total _ _⟩
  haveI : IsTrans ℕ (fun a b => ev.getD a 0 ≤ ev.getD b 0) :=
    ⟨fun a b c hab hbc => le_trans hab hbc⟩
  have := List.sorted_insertionSort (fun a b => ev.getD a 0 ≤ ev.getD b 0)
    (List.range ev.length)
  unfold List.Sorted at this ⊢
  rw [List.pairwise_map]
  exact this

theorem diagList_length (n : ℕ) (A : Mat α) : (diagList n A).length = n := by
  simp [diagList]

theorem diagList_getD {n : ℕ} (A : Mat α) {i : ℕ} (hi : i < n) :
    (diagList n A).getD i 0 = ent A i i := by
  simp [diagList, List.getD_eq_getElem?_getD, List.getElem?_range, hi]

/-- Lines 60-67 on `n × n` matrices: the result lists the diagonal of `A` and the
columns of `V` along the sorted index list. -/
theorem eigenSort_eq {n : ℕ} {A V : Mat α} (hA : Square n A) (hV : Square n V) :
    eigenSort A V = some
      { values := (sortedIndices (diagList n A)).map fun k => ent A k k
        vectors := (sortedIndices (diagList n A)).map fun k => colList n V k } := by
  have hmem : ∀ i ∈ sortedIndices (diagList n A), i < n := by
    intro i hi
    have := (sortedIndices_perm (diagList n A)).mem_iff.mp hi
    rwa [diagList_length, List.mem_range] at this
  unfold eigenSort
  rw [diagonal_eq hA]
  simp only [Option.bind_eq_bind, Option.some_bind]
  rw [mapM_eq_some_map _ (fun k => ent A k k), mapM_eq_some_map _ (fun k => colList n V k)]
  · rfl
  · intro i hi
    exact column_eq hV (hmem i hi)
  · intro i hi
    have h1 := hmem i hi
    simp [diagList, List.getElem?_range, h1]

end Finish

/-! ## The loop of `jacobiEigen` -/

section Loop

variable {α : Type} [LinearOrderedField α]

theorem identity_square (n : ℕ) : Square n (identity n : Mat α) := by
  refine ⟨by simp [identity], fun r hr => ?_⟩
  simp only [identity, List.mem_map] at hr
  obtain ⟨i, _, rfl⟩ := hr
  simp

theorem ent_identity {n : ℕ} {i j : ℕ} (hi : i < n) (hj : j < n) :
    ent (identity n : Mat α) i j = if i = j then 1 else 0 := by
  simp [ent, identity, List.getD_eq_getElem?_getD, List.getElem?_map, List.getElem?_range, hi, hj]

/-- The iteration that ends the loop at line 33. -/
theorem jacobiLoop_break (T : JSMath α) (n k : ℕ) (A V : Mat α)
    (h : (pivotScan n A).1 < threshold) : jacobiLoop T n (k + 1) A V = some (A, V) := by
  simp only [jacobiLoop, h, if_true]

/-- An iteration that rotates. -/
theorem jacobiLoop_rotate (T : JSMath α) (n k : ℕ) (A V A' V' : Mat α)
    (h : ¬ (pivotScan n A).1 < threshold)
    (hr : rotate T n A V (pivotScan n A).2.1 (pivotScan n A).2.2 = some (A', V')) :
    jacobiLoop T n (k + 1) A V = jacobiLoop T n k A' V' := by
  simp only [jacobiLoop, h, if_false, hr]

/-- A property of the working matrix and the accumulator that every rotation on a
scanned pivot keeps holds when the loop ends, and the loop does end with a result. -/
theorem jacobiLoop_inv (T : JSMath α) (n : ℕ) (P : Mat α → Mat α → Prop)
    (hstep : ∀ A V, P A V → ¬ (pivotScan n A).1 < threshold →
      ∃ A' V', rotate T n A V (pivotScan n A).2.1 (pivotScan n A).2.2 = some (A', V') ∧
        P A' V') :
    ∀ (k : ℕ) (A V : Mat α), P A V →
      ∃ A' V', jacobiLoop T n k A V = some (A', V') ∧ P A' V' := by
  intro k
  induction k with
  | zero => intro A V h; exact ⟨A, V, rfl, h⟩
  | succ k ih =>
    intro A V h
    by_cases hm : (pivotScan n A).1 < threshold
    · exact ⟨A, V, jacobiLoop_break T n k A V hm, h⟩
    · obtain ⟨A1, V1, hr, h1⟩ := hstep A V h hm
      obtain ⟨A2, V2, hl, h2⟩ := ih A1 V1 h1
      exact ⟨A2, V2, by rw [jacobiLoop_rotate T n k A V A1 V1 hm hr, hl], h2⟩

/-- The shape of `jacobiEigen`: the loop from `(matrix, identity)`, then lines 60-67. -/
theorem jacobiEigen_eq (T : JSMath α) (M : Mat α) {A V : Mat α}
    (h : jacobiLoop T M.length maxIter M (identity M.length) = some (A, V)) :
    jacobiEigen T M = eigenSort A V := by
  unfold jacobiEigen
  simp only [List.map_id', h, Option.bind_eq_bind, Option.some_bind]

/-- On a square matrix the loop of `jacobiEigen` ends with square `A` and `V`. -/
theorem jacobiLoop_square (T : JSMath α) {n : ℕ} (k : ℕ) {A V : Mat α} (hA : Square n A)
    (hV : Square n V) :
    ∃ A' V', jacobiLoop T n k A V = some (A', V') ∧ Square n A' ∧ Square n V' := by
  refine jacobiLoop_inv T n (fun A V => Square n A ∧ Square n V) ?_ k A V ⟨hA, hV⟩
  intro A V h hm
  obtain ⟨hp, hq⟩ := pivotScan_pivot h.1 hm
  obtain ⟨A', V', hr, h1, h2, _, _⟩ :=
    rotate_spec T h.1 h.2 (lt_trans hp hq) hq (Nat.ne_of_lt hp)
  exact ⟨A', V', hr, h1, h2⟩

end Loop

/-! ## The plane rotation as a matrix -/

section Givens

variable {α : Type} [LinearOrderedField α]

theorem sum_mul_ite_two {n : ℕ} (f : Fin n → α) {P Q : Fin n} (hPQ : P ≠ Q) (x y : α) :
    ∑ l, f l * (if l = P then x else if l = Q then y else 0) = f P * x + f Q * y := by
  have h : ∀ l, f l * (if l = P then x else if l = Q then y else 0)
      = (if l = P then f l * x else 0) + (if l = Q then f l * y else 0) := by
    intro l
    by_cases h1 : l = P
    · have h2 : ¬ l = Q := fun e => hPQ (h1.symm.trans e)
      rw [if_pos h1, if_pos h1, if_neg h2, add_zero]
    · by_cases h2 : l = Q
      · rw [if_neg h1, if_pos h2, if_neg h1, if_pos h2, zero_add]
      · rw [if_neg h1, if_neg h2, if_neg h1, if_neg h2, mul_zero, add_zero]
  simp only [h, Finset.sum_add_distrib, Finset.sum_ite_eq', Finset.mem_univ, if_true]

/-- Multiplying by the plane rotation on the right rotates columns `P` and `Q`. -/
theorem mul_givens {n : ℕ} (M : Matrix (Fin n) (Fin n) α) {P Q : Fin n} (hPQ : P ≠ Q)
    (c s : α) (i j : Fin n) :
    (M * givens P Q c s) i j =
      if j = P then c * M i P + s * M i Q
      else if j = Q then -s * M i P + c * M i Q
      else M i j := by
  rw [Matrix.mul_apply]
  unfold givens
  have hQP : ¬ Q = P := fun e => hPQ e.symm
  by_cases h1 : j = P
  · simp only [h1, if_true]
    rw [sum_mul_ite_two _ hPQ]; ring
  · by_cases h2 : j = Q
    · subst h2
      simp only [hQP, if_true, if_false]
      rw [sum_mul_ite_two _ hPQ]; ring
    · simp only [h1, h2, if_false]
      simp [Finset.sum_ite_eq']

/-- Multiplying by the transposed plane rotation on the left rotates rows `P` and `Q`. -/
theorem givens_transpose_mul {n : ℕ} (M : Matrix (Fin n) (Fin n) α) {P Q : Fin n}
    (hPQ : P ≠ Q) (c s : α) (i j : Fin n) :
    ((givens P Q c s).transpose * M) i j =
      if i = P then c * M P j + s * M Q j
      else if i = Q then -s * M P j + c * M Q j
      else M i j := by
  have h : (givens P Q c s).transpose * M = (M.transpose * givens P Q c s).transpose := by
    rw [Matrix.transpose_mul, Matrix.transpose_transpose]
  rw [h, Matrix.transpose_apply, mul_givens _ hPQ]
  simp only [Matrix.transpose_apply]

/-- The plane rotation is orthogonal when `c² + s² = 1`. -/
theorem givens_orthogonal {n : ℕ} {P Q : Fin n} (hPQ : P ≠ Q) {c s : α}
    (hcs : c * c + s * s = 1) : (givens P Q c s).transpose * givens P Q c s = 1 := by
  have hQP : Q ≠ P := fun e => hPQ e.symm
  ext i j
  rw [givens_transpose_mul _ hPQ, Matrix.one_apply]
  unfold givens
  by_cases hi1 : i = P
  · subst hi1
    by_cases hj1 : j = i
    · subst hj1; simp [hQP]; linarith
    · have hj1' : ¬ i = j := fun e => hj1 e.symm
      by_cases hj2 : j = Q
      · subst hj2; simp [hj1, hj1']; ring
      · have hj2' : ¬ Q = j := fun e => hj2 e.symm
        simp [hj1, hj1', hj2, hj2', hQP]
  · by_cases hi2 : i = Q
    · subst hi2
      by_cases hj1 : j = P
      · subst hj1; simp [hi1]; ring
      · by_cases hj2 : j = i
        · subst hj2; simp [hj1]; linarith
        · have hj2' : ¬ i = j := fun e => hj2 e.symm
          have hj1' : ¬ P = j := fun e => hj1 e.symm
          simp [hj1, hj2, hj2', hj1', hi1]
    · by_cases hj1 : j = P
      · subst hj1; simp [hi1, hi2]
      · by_cases hj2 : j = Q
        · subst hj2; simp [hi1, hi2, hj1]
        · simp [hi1, hi2, hj1, hj2]

/-- The accumulator update of lines 53-57 is `V ↦ V · G`. -/
theorem vEnt_eq_mul_givens {n : ℕ} (V : Mat α) {p q : ℕ} (hp : p < n) (hq : q < n)
    (hpq : p ≠ q) (c s : α) (a b : Fin n) :
    vEnt c s p q n (ent V) a b = (toMatrix n V * givens ⟨p, hp⟩ ⟨q, hq⟩ c s) a b := by
  have hPQ : (⟨p, hp⟩ : Fin n) ≠ ⟨q, hq⟩ := fun e => hpq (Fin.mk.inj e)
  rw [mul_givens _ hPQ]
  unfold vEnt toMatrix
  have e1 : (b = (⟨p, hp⟩ : Fin n)) ↔ (b : ℕ) = p := Fin.ext_iff
  have e2 : (b = (⟨q, hq⟩ : Fin n)) ↔ (b : ℕ) = q := Fin.ext_iff
  simp only [e1, e2, a.isLt, true_and]

end Givens

/-! ## Orthonormal eigenvectors -/

section Orthonormal

variable {α : Type} [LinearOrderedField α]

theorem sum_map_range (f : ℕ → α) (n : ℕ) :
    ((List.range n).map f).sum = ∑ i in Finset.range n, f i := by
  induction n with
  | zero => simp
  | succ m ih =>
    rw [List.range_succ, List.map_append, List.sum_append, ih, Finset.sum_range_succ]
    simp

theorem dot_colList (n : ℕ) (V : Mat α) (a b : ℕ) :
    dot (colList n V a) (colList n V b) = ∑ i : Fin n, ent V i a * ent V i b := by
  unfold dot colList
  rw [List.zipWith_map, List.zipWith_same, sum_map_range,
    Finset.sum_range fun i => ent V i a * ent V i b]

theorem toMatrix_identity (n : ℕ) : toMatrix n (identity n : Mat α) = 1 := by
  ext i j
  unfold toMatrix
  rw [ent_identity i.isLt j.isLt, Matrix.one_apply]
  simp only [Fin.ext_iff]

/-- With `cos² + sin² = 1`, the loop keeps the columns of the accumulator orthonormal. -/
theorem jacobiLoop_orthogonal (T : JSMath α)
    (hT : ∀ t, T.cos t * T.cos t + T.sin t * T.sin t = 1) {n : ℕ} (k : ℕ) {A V : Mat α}
    (hA : Square n A) (hV : Square n V)
    (hO : (toMatrix n V).transpose * toMatrix n V = 1) :
    ∃ A' V', jacobiLoop T n k A V = some (A', V') ∧ Square n A' ∧ Square n V' ∧
      (toMatrix n V').transpose * toMatrix n V' = 1 := by
  refine jacobiLoop_inv T n
    (fun A V => Square n A ∧ Square n V ∧ (toMatrix n V).transpose * toMatrix n V = 1)
    ?_ k A V ⟨hA, hV, hO⟩
  intro A V h hm
  obtain ⟨hp, hq⟩ := pivotScan_pivot h.1 hm
  have hp' := lt_trans hp hq
  have hpq := Nat.ne_of_lt hp
  obtain ⟨A', V', hr, h1, h2, _, h4⟩ := rotate_spec T h.1 h.2.1 hp' hq hpq
  refine ⟨A', V', hr, h1, h2, ?_⟩
  have hV' : toMatrix n V' = toMatrix n V * givens ⟨_, hp'⟩ ⟨_, hq⟩
      (T.cos (angle T A (pivotScan n A).2.1 (pivotScan n A).2.2))
      (T.sin (angle T A (pivotScan n A).2.1 (pivotScan n A).2.2)) := by
    ext a b
    rw [← vEnt_eq_mul_givens V hp' hq hpq]
    exact h4 a b
  have hPQ : (⟨_, hp'⟩ : Fin n) ≠ ⟨_, hq⟩ := fun e => hpq (Fin.mk.inj e)
  rw [hV', Matrix.transpose_mul, Matrix.mul_assoc, ← Matrix.mul_assoc _ (toMatrix n V),
    h.2.2, Matrix.one_mul, givens_orthogonal hPQ (hT _)]

/-- The vectors listed by lines 60-67 are orthonormal when the columns of `V` are. -/
theorem eigenSort_orthonormal {n : ℕ} {A V : Mat α} (hA : Square n A) (hV : Square n V)
    (hO : (toMatrix n V).transpose * toMatrix n V = 1) :
    ∃ r, eigenSort A V = some r ∧ r.vectors.length = n ∧
      ∀ k l, k < n → l < n →
        dot (r.vectors.getD k []) (r.vectors.getD l []) = if k = l then 1 else 0 := by
  refine ⟨_, eigenSort_eq hA hV, ?_, ?_⟩
  · have := (sortedIndices_perm (diagList n A)).length_eq
    simpa [diagList_length] using this
  · intro k l hk hl
    have hperm := sortedIndices_perm (diagList n A)
    have hlen : (sortedIndices (diagList n A)).length = n := by
      simpa [diagList_length] using hperm.length_eq
    have hnd : (sortedIndices (diagList n A)).Nodup :=
      hperm.nodup_iff.mpr (List.nodup_range _)
    have hk' : k < (sortedIndices (diagList n A)).length := by rw [hlen]; exact hk
    have hl' : l < (sortedIndices (diagList n A)).length := by rw [hlen]; exact hl
    have hmem : ∀ i ∈ sortedIndices (diagList n A), i < n := by
      intro i hi
      have := hperm.mem_iff.mp hi
      rwa [diagList_length, List.mem_range] at this
    have hsk := hmem _ (List.getElem_mem hk')
    have hsl := hmem _ (List.getElem_mem hl')
    simp only [List.getD_eq_getElem?_getD, List.getElem?_map, List.getElem?_eq_getElem hk',
      List.getElem?_eq_getElem hl', Option.map_some', Option.getD_some]
    rw [dot_colList]
    have := congrFun (congrFun hO ⟨_, hsk⟩) ⟨_, hsl⟩
    rw [Matrix.mul_apply] at this
    simp only [Matrix.transpose_apply, toMatrix] at this
    rw [this, Matrix.one_apply]
    have hinj : (sortedIndices (diagList n A))[k] = (sortedIndices (diagList n A))[l] ↔ k = l :=
      hnd.getElem_inj_iff
    simp only [Fin.mk.injEq, hinj]

end Orthonormal

section RealClaims

/-- Claim C1. For every square `n × n` real matrix (symmetric or not), with the real
`atan2`, `cos` and `sin`, `jacobiEigen` returns `n` vectors that are mutually
orthonormal: `dot(vectors[k], vectors[l])` is `1` when `k = l` and `0` otherwise,
whether the loop ended by the threshold or by the cap of 100 iterations. -/
theorem jacobiEigen_orthonormal (n : ℕ) (M : Mat ℝ) (hM : Square n M) :
    ∃ r, jacobiEigen ⟨fun y x => Complex.arg ⟨x, y⟩, Real.cos, Real.sin⟩ M = some r ∧
      r.vectors.length = n ∧
      ∀ k l, k < n → l < n →
        dot (r.vectors.getD k []) (r.vectors.getD l []) = if k = l then 1 else 0 := by
  have hT : ∀ t : ℝ, Real.cos t * Real.cos t + Real.sin t * Real.sin t = 1 := by
    intro t
    have := Real.cos_sq_add_sin_sq t
    nlinarith [this]
  obtain ⟨A, V, hl, hA, hV, hO⟩ :=
    jacobiLoop_orthogonal ⟨fun y x => Complex.arg ⟨x, y⟩, Real.cos, Real.sin⟩ hT maxIter hM
      (identity_square n) (by rw [toMatrix_identity, Matrix.transpose_one, Matrix.one_mul])
  obtain ⟨r, hr, h1, h2⟩ := eigenSort_orthonormal hA hV hO
  refine ⟨r, ?_, h1, h2⟩
  rw [← hM.1] at hl
  rw [jacobiEigen_eq _ M hl, hr]

/-- Claim C1 on the matrix `[[2, 1], [1, 2]]`. -/
theorem jacobiEigen_orthonormal_witness :
    Square 2 ([[2, 1], [1, 2]] : Mat ℝ) ∧
    ∃ r, jacobiEigen ⟨fun y x => Complex.arg ⟨x, y⟩, Real.cos, Real.sin⟩
        ([[2, 1], [1, 2]] : Mat ℝ) = some r ∧
      r.vectors.length = 2 ∧
      ∀ k l, k < 2 → l < 2 →
        dot (r.vectors.getD k []) (r.vectors.getD l []) = if k = l then 1 else 0 :=
  ⟨by decide, jacobiEigen_orthonormal 2 [[2, 1], [1, 2]] (by decide)⟩

end RealClaims

/-! ## Trace -/

section Trace

variable {α : Type} [LinearOrderedField α]

/-- The diagonal after one rotation: only the entries `p` and `q` change. -/
theorem rotEnt_diag (c s : α) (n : ℕ) {p q : ℕ} (hpq : p ≠ q) (f : ℕ → ℕ → α) (a : ℕ) :
    rotEnt c s n p q f a a =
      if a = q then s * s * f p p - 2 * s * c * f p q + c * c * f q q
      else if a = p then c * c * f p p + 2 * s * c * f p q + s * s * f q q
      else f a a := by
  have hqp : q ≠ p := fun e => hpq e.symm
  unfold rotEnt offEnt diagEnt
  by_cases h1 : a = p
  · subst h1; simp [hpq]
  · by_cases h2 : a = q
    · subst h2; simp [hqp]
    · simp [h1, h2]

theorem trace_eq_sum (n : ℕ) (A : Mat α) : trace n A = ∑ i in Finset.range n, ent A i i := by
  unfold trace diagList
  exact sum_map_range _ n

/-- One rotation with `c² + s² = 1` keeps the trace. -/
theorem rotEnt_trace {c s : α} (hcs : c * c + s * s = 1) {n p q : ℕ} (hp : p < n)
    (hq : q < n) (hpq : p ≠ q) (f : ℕ → ℕ → α) :
    ∑ a in Finset.range n, rotEnt c s n p q f a a = ∑ a in Finset.range n, f a a := by
  have hqp : q ≠ p := fun e => hpq e.symm
  have h : ∀ a, rotEnt c s n p q f a a = f a a
      + (if a = p then c * c * f p p + 2 * s * c * f p q + s * s * f q q - f p p else 0)
      + (if a = q then s * s * f p p - 2 * s * c * f p q + c * c * f q q - f q q else 0) := by
    intro a
    rw [rotEnt_diag c s n hpq]
    by_cases h1 : a = p
    · subst h1; rw [if_neg hpq, if_pos rfl, if_pos rfl, if_neg hpq]; ring
    · by_cases h2 : a = q
      · subst h2; rw [if_pos rfl, if_neg h1, if_pos rfl]; ring
      · rw [if_neg h2, if_neg h1, if_neg h1, if_neg h2]; ring
  simp only [h, Finset.sum_add_distrib, Finset.sum_ite_eq', Finset.mem_range, hp, hq, if_true]
  have e1 : c * c = 1 - s * s := by linarith
  rw [e1]; ring

/-- With `cos² + sin² = 1`, the loop keeps the trace of the working matrix. -/
theorem jacobiLoop_trace (T : JSMath α)
    (hT : ∀ t, T.cos t * T.cos t + T.sin t * T.sin t = 1) {n : ℕ} (k : ℕ) {A V : Mat α}
    (hA : Square n A) (hV : Square n V) (t : α) (ht : trace n A = t) :
    ∃ A' V', jacobiLoop T n k A V = some (A', V') ∧ Square n A' ∧ Square n V' ∧
      trace n A' = t := by
  refine jacobiLoop_inv T n (fun A V => Square n A ∧ Square n V ∧ trace n A = t)
    ?_ k A V ⟨hA, hV, ht⟩
  intro A V h hm
  obtain ⟨hp, hq⟩ := pivotScan_pivot h.1 hm
  have hp' := lt_trans hp hq
  have hpq := Nat.ne_of_lt hp
  obtain ⟨A', V', hr, h1, h2, h3, _⟩ := rotate_spec T h.1 h.2.1 hp' hq hpq
  refine ⟨A', V', hr, h1, h2, ?_⟩
  rw [← h.2.2, trace_eq_sum, trace_eq_sum]
  simp only [h3]
  exact rotEnt_trace (hT _) hp' hq hpq _

/-- The values listed by lines 60-67 add up to the trace of `A`. -/
theorem eigenSort_sum {n : ℕ} {A V : Mat α} (hA : Square n A) (hV : Square n V) :
    ∃ r, eigenSort A V = some r ∧ r.values.sum = trace n A := by
  refine ⟨_, eigenSort_eq hA hV, ?_⟩
  have hperm := sortedIndices_perm (diagList n A)
  rw [diagList_length] at hperm
  exact (hperm.map fun k => ent A k k).sum_eq

end Trace

section RealClaims

/-- Claim C3. For every square `n × n` real matrix `M`, with the real `atan2`, `cos`
and `sin`, the values returned by `jacobiEigen` add up to the trace of `M`; and one
rotation on a pivot `p ≠ q` leaves `A[p][p] + A[q][q]` and every other diagonal
entry as they were. -/
theorem jacobiEigen_trace (n : ℕ) (M : Mat ℝ) (hM : Square n M) :
    (∃ r, jacobiEigen ⟨fun y x => Complex.arg ⟨x, y⟩, Real.cos, Real.sin⟩ M = some r ∧
      r.values.sum = trace n M) ∧
    ∀ (V : Mat ℝ) (p q : ℕ), Square n V → p < n → q < n → p ≠ q →
      ∃ A' V', rotate ⟨fun y x => Complex.arg ⟨x, y⟩, Real.cos, Real.sin⟩ n M V p q
          = some (A', V') ∧
        ent A' p p + ent A' q q = ent M p p + ent M q q ∧
        ∀ i, i < n → i ≠ p → i ≠ q → ent A' i i = ent M i i := by
  have hT : ∀ t : ℝ, Real.cos t * Real.cos t + Real.sin t * Real.sin t = 1 := by
    intro t
    have := Real.cos_sq_add_sin_sq t
    nlinarith [this]
  constructor
  · obtain ⟨A, V, hl, hA, hV, ht⟩ :=
      jacobiLoop_trace ⟨fun y x => Complex.arg ⟨x, y⟩, Real.cos, Real.sin⟩ hT maxIter hM
        (identity_square n) (trace n M) rfl
    obtain ⟨r, hr, h1⟩ := eigenSort_sum hA hV
    refine ⟨r, ?_, by rw [h1, ht]⟩
    rw [← hM.1] at hl
    rw [jacobiEigen_eq _ M hl, hr]
  · intro V p q hV hp hq hpq
    obtain ⟨A', V', hr, _, _, h3, _⟩ :=
      rotate_spec ⟨fun y x => Complex.arg ⟨x, y⟩, Real.cos, Real.sin⟩ hM hV hp hq hpq
    refine ⟨A', V', hr, ?_, ?_⟩
    · have hqp : q ≠ p := fun e => hpq e.symm
      rw [h3, h3, rotEnt_diag _ _ n hpq, rotEnt_diag _ _ n hpq, if_neg hpq, if_pos rfl,
        if_pos rfl]
      have := hT (angle ⟨fun y x => Complex.arg ⟨x, y⟩, Real.cos, Real.sin⟩ M p q)
      simp only at this
      linear_combination (ent M p p + ent M q q) * this
    · intro i _ h1 h2
      rw [h3, rotEnt_diag _ _ n hpq, if_neg h2, if_neg h1]

/-- Claim C3 on the matrix `[[2, 1], [1, 2]]`. -/
theorem jacobiEigen_trace_witness :
    Square 2 ([[2, 1], [1, 2]] : Mat ℝ) ∧
    ((∃ r, jacobiEigen ⟨fun y x => Complex.arg ⟨x, y⟩, Real.cos, Real.sin⟩
        ([[2, 1], [1, 2]] : Mat ℝ) = some r ∧
      r.values.sum = trace 2 [[2, 1], [1, 2]]) ∧
    ∀ (V : Mat ℝ) (p q : ℕ), Square 2 V → p < 2 → q < 2 → p ≠ q →
      ∃ A' V', rotate ⟨fun y x => Complex.arg ⟨x, y⟩, Real.cos, Real.sin⟩ 2
          [[2, 1], [1, 2]] V p q = some (A', V') ∧
        ent A' p p + ent A' q q
          = ent ([[2, 1], [1, 2]] : Mat ℝ) p p + ent ([[2, 1], [1, 2]] : Mat ℝ) q q ∧
        ∀ i, i < 2 → i ≠ p → i ≠ q → ent A' i i = ent ([[2, 1], [1, 2]] : Mat ℝ) i i) :=
  ⟨by decide, jacobiEigen_trace 2 [[2, 1], [1, 2]] (by decide)⟩

end RealClaims

/-! ## Sorted values, eigenpairs kept together -/

section Sorting

variable {α : Type} [LinearOrderedField α]

theorem sortedIndices_lt {n : ℕ} (A : Mat α) {i : ℕ} (hi : i ∈ sortedIndices (diagList n A)) :
    i < n := by
  have := (sortedIndices_perm (diagList n A)).mem_iff.mp hi
  rwa [diagList_length, List.mem_range] at this

theorem sortedIndices_length (n : ℕ) (A : Mat α) :
    (sortedIndices (diagList n A)).length = n := by
  simpa [diagList_length] using (sortedIndices_perm (diagList n A)).length_eq

/-- The diagonal entries listed along the sorted index list are non-decreasing. -/
theorem sortedIndices_values_sorted (n : ℕ) (A : Mat α) :
    ((sortedIndices (diagList n A)).map fun k => ent A k k).Sorted (· ≤ ·) := by
  have h := sortedIndices_sorted (diagList n A)
  have e : (sortedIndices (diagList n A)).map (fun i => (diagList n A).getD i 0)
      = (sortedIndices (diagList n A)).map fun k => ent A k k :=
    List.map_congr_left fun i hi => diagList_getD A (sortedIndices_lt A hi)
  rwa [e] at h

theorem colList_length (n : ℕ) (V : Mat α) (k : ℕ) : (colList n V k).length = n := by
  simp [colList]

end Sorting

section RealClaims

/-- Claim C4. For every square `n × n` real matrix, whatever the `Math` functions
return, the list `values` returned by `jacobiEigen` has `n` entries and is
non-decreasing: `values[k] ≤ values[k+1]` for every `k` with `k + 1 < n`. -/
theorem jacobiEigen_values_sorted (T : JSMath ℝ) (n : ℕ) (M : Mat ℝ) (hM : Square n M) :
    ∃ r, jacobiEigen T M = some r ∧ r.values.length = n ∧ r.values.Sorted (· ≤ ·) ∧
      ∀ k, k + 1 < n → r.values.getD k 0 ≤ r.values.getD (k + 1) 0 := by
  obtain ⟨A, V, hl, hA, hV⟩ := jacobiLoop_square T maxIter hM (identity_square n)
  rw [← hM.1] at hl
  have hs := sortedIndices_values_sorted n A
  have hlen : ((sortedIndices (diagList n A)).map fun k => ent A k k).length = n := by
    rw [List.length_map, sortedIndices_length]
  refine ⟨_, by rw [jacobiEigen_eq T M hl, eigenSort_eq hA hV], hlen, hs, ?_⟩
  intro k hk
  have h1 : k < ((sortedIndices (diagList n A)).map fun k => ent A k k).length := by
    rw [hlen]; omega
  have h2 : k + 1 < ((sortedIndices (diagList n A)).map fun k => ent A k k).length := by
    rw [hlen]; exact hk
  show List.getD _ k 0 ≤ List.getD _ (k + 1) 0
  rw [List.getD_eq_getElem _ _ h1, List.getD_eq_getElem _ _ h2]
  exact List.pairwise_iff_getElem.mp hs k (k + 1) h1 h2 (Nat.lt_succ_self k)

/-- Claim C4 on the matrix `[[2, 1], [1, 2]]`, with the real `Math` functions. -/
theorem jacobiEigen_values_sorted_witness :
    Square 2 ([[2, 1], [1, 2]] : Mat ℝ) ∧
    ∃ r, jacobiEigen ⟨fun y x => Complex.arg ⟨x, y⟩, Real.cos, Real.sin⟩ ([[2, 1], [1, 2]] : Mat ℝ)
        = some r ∧ r.values.length = 2 ∧ r.values.Sorted (· ≤ ·) ∧
      ∀ k, k + 1 < 2 → r.values.getD k 0 ≤ r.values.getD (k + 1) 0 :=
  ⟨by decide, jacobiEigen_values_sorted _ 2 [[2, 1], [1, 2]] (by decide)⟩

/-- Claim C5. The sorting step keeps eigenpairs together: for every square `n × n`
real matrix the loop ends with a working matrix `A` and an accumulator `V`, and
there is a permutation `σ` of `0, …, n-1` such that `values` lists the diagonal
entries `A[σ(k)][σ(k)]` and `vectors` lists the full columns `σ(k)` of `V`,
in the same order `k = 0, …, n-1`. -/
theorem jacobiEigen_pairs (T : JSMath ℝ) (n : ℕ) (M : Mat ℝ) (hM : Square n M) :
    ∃ (A V : Mat ℝ) (σ : List ℕ),
      jacobiLoop T n maxIter M (identity n) = some (A, V) ∧ Square n A ∧ Square n V ∧
      σ.Perm (List.range n) ∧
      jacobiEigen T M = some
        { values := σ.map fun k => ent A k k
          vectors := σ.map fun k => (List.range n).map fun i => ent V i k } := by
  obtain ⟨A, V, hl, hA, hV⟩ := jacobiLoop_square T maxIter hM (identity_square n)
  refine ⟨A, V, sortedIndices (diagList n A), hl, hA, hV, ?_, ?_⟩
  · have := sortedIndices_perm (diagList n A)
    rwa [diagList_length] at this
  · rw [← hM.1] at hl
    rw [jacobiEigen_eq T M hl, eigenSort_eq hA hV]
    rfl

/-- Claim C5 on the matrix `[[2, 1], [1, 2]]`, with the real `Math` functions. -/
theorem jacobiEigen_pairs_witness :
    Square 2 ([[2, 1], [1, 2]] : Mat ℝ) ∧
    ∃ (A V : Mat ℝ) (σ : List ℕ),
      jacobiLoop ⟨fun y x => Complex.arg ⟨x, y⟩, Real.cos, Real.sin⟩ 2 maxIter
        [[2, 1], [1, 2]] (identity 2) = some (A, V) ∧ Square 2 A ∧ Square 2 V ∧
      σ.Perm (List.range 2) ∧
      jacobiEigen ⟨fun y x => Complex.arg ⟨x, y⟩, Real.cos, Real.sin⟩ [[2, 1], [1, 2]] = some
        { values := σ.map fun k => ent A k k
          vectors := σ.map fun k => (List.range 2).map fun i => ent V i k } :=
  ⟨by decide, jacobiEigen_pairs _ 2 [[2, 1], [1, 2]] (by decide)⟩

end RealClaims

/-! ## Totality -/

section Total

variable {α : Type} [LinearOrderedField α]

omit [LinearOrderedField α] in
theorem rd_none {n : ℕ} {A : Mat α} (h : Square n A) {i j : ℕ} (hij : ¬ (i < n ∧ j < n)) :
    rd A i j = none := by
  unfold rd
  by_cases hi : i < n
  · have hi' : i < A.length := by rw [h.1]; exact hi
    have hr := h.2 _ (List.getElem_mem hi')
    have hj : (A[i]).length ≤ j := by rw [hr]; omega
    simp [List.getElem?_eq_getElem hi', List.getElem?_eq_none hj]
  · have hi' : A.length ≤ i := by rw [h.1]; omega
    simp [List.getElem?_eq_none hi']

/-- A rotation on a position outside the matrix reads a missing element. -/
theorem rotate_none (T : JSMath α) {n : ℕ} {A : Mat α} (h : Square n A) (V : Mat α)
    {p q : ℕ} (hpq : ¬ (p < n ∧ q < n)) : rotate T n A V p q = none := by
  simp [rotate, rotationAngle, rd_none h hpq]

/-- With fewer than two rows the scan sees no entry and keeps `(0, 0, 1)`. -/
theorem pivotScan_small {n : ℕ} (hn : n ≤ 1) (A : Mat α) : pivotScan n A = (0, 0, 1) := by
  interval_cases n
  · rfl
  · have hr : List.range 1 = [0] := rfl
    simp [pivotScan, scanRow, hr]

/-- With fewer than two rows the loop ends in its first iteration, at line 33. -/
theorem jacobiLoop_small (T : JSMath α) {n : ℕ} (hn : n ≤ 1) (A V : Mat α) :
    jacobiLoop T n maxIter A V = some (A, V) := by
  apply jacobiLoop_break
  rw [pivotScan_small hn]
  exact threshold_pos

theorem eigenSort_small {n : ℕ} (hn : n ≤ 1) {A : Mat α} (hA : Square n A) :
    eigenSort A (identity n) = some { values := diagList n A, vectors := identity n } := by
  rw [eigenSort_eq hA (identity_square n)]
  interval_cases n
  · rfl
  · have hr : List.range 1 = [0] := rfl
    simp [sortedIndices, diagList, colList, identity, ent, hr]

end Total

section RealClaims

/-- Claim C9. On every square `n × n` real matrix, whatever the `Math` functions
return, `jacobiEigen` returns a result: `n` values and `n` vectors of length `n`
each, with no read or write of a missing element.  For `n ≤ 1` the scan keeps the
initial pivot `(0, 1)`, a rotation on it would read a missing element, and the
threshold test ends the loop before that: the result is the diagonal and the
identity (for `n = 1`: `values = [M[0][0]]`, `vectors = [[1]]`). -/
theorem jacobiEigen_total (T : JSMath ℝ) (n : ℕ) (M : Mat ℝ) (hM : Square n M) :
    (∃ r, jacobiEigen T M = some r ∧ r.values.length = n ∧ r.vectors.length = n ∧
      ∀ v ∈ r.vectors, v.length = n) ∧
    (n ≤ 1 → pivotScan n M = (0, 0, 1) ∧ rotate T n M (identity n) 0 1 = none ∧
      jacobiEigen T M = some { values := diagList n M, vectors := identity n }) ∧
    (n = 1 → jacobiEigen T M = some { values := [ent M 0 0], vectors := [[1]] }) := by
  have hsmall : n ≤ 1 →
      jacobiEigen T M = some { values := diagList n M, vectors := identity n } := by
    intro hn
    have hl := jacobiLoop_small T hn M (identity n)
    rw [← hM.1] at hl
    rw [jacobiEigen_eq T M hl, hM.1]
    exact eigenSort_small hn hM
  refine ⟨?_, fun hn => ⟨pivotScan_small hn M, rotate_none T hM _ (by omega), hsmall hn⟩, ?_⟩
  · obtain ⟨A, V, hl, hA, hV⟩ := jacobiLoop_square T maxIter hM (identity_square n)
    rw [← hM.1] at hl
    refine ⟨_, by rw [jacobiEigen_eq T M hl, eigenSort_eq hA hV], ?_, ?_, ?_⟩
    · rw [List.length_map, sortedIndices_length]
    · rw [List.length_map, sortedIndices_length]
    · intro v hv
      simp only [List.mem_map] at hv
      obtain ⟨k, _, rfl⟩ := hv
      exact colList_length n V k
  · intro hn
    subst hn
    rw [hsmall (le_refl 1)]
    rfl

/-- Claim C9 on the matrix `[[5]]`, with the real `Math` functions. -/
theorem jacobiEigen_total_witness :
    Square 1 ([[5]] : Mat ℝ) ∧
    ((∃ r, jacobiEigen ⟨fun y x => Complex.arg ⟨x, y⟩, Real.cos, Real.sin⟩ ([[5]] : Mat ℝ)
        = some r ∧ r.values.length = 1 ∧ r.vectors.length = 1 ∧
      ∀ v ∈ r.vectors, v.length = 1) ∧
    (1 ≤ 1 → pivotScan 1 ([[5]] : Mat ℝ) = (0, 0, 1) ∧
      rotate ⟨fun y x => Complex.arg ⟨x, y⟩, Real.cos, Real.sin⟩ 1 ([[5]] : Mat ℝ)
        (identity 1) 0 1 = none ∧
      jacobiEigen ⟨fun y x => Complex.arg ⟨x, y⟩, Real.cos, Real.sin⟩ ([[5]] : Mat ℝ)
        = some { values := diagList 1 [[5]], vectors := identity 1 }) ∧
    (1 = 1 → jacobiEigen ⟨fun y x => Complex.arg ⟨x, y⟩, Real.cos, Real.sin⟩ ([[5]] : Mat ℝ)
        = some { values := [ent ([[5]] : Mat ℝ) 0 0], vectors := [[1]] })) :=
  ⟨by decide, jacobiEigen_total _ 1 [[5]] (by decide)⟩

end RealClaims

/-! ## The graph Laplacian -/

section Laplacian

variable {α : Type} [LinearOrderedField α]

/-- Row `i` of a square matrix lists its entries. -/
theorem row_eq {n : ℕ} {A : Mat α} (h : Square n A) {i : ℕ} (hi : i < n) :
    A.getD i [] = (List.range n).map fun j => ent A i j := by
  apply List.ext_getElem
  · rw [h.row_length hi]; simp
  · intro j h1 h2
    simp only [List.getElem_map, List.getElem_range, ent]
    rw [List.getD_eq_getElem _ _ h1]

theorem laplacianStep_inv {n : ℕ} {adj : Mat α} (h : Square n adj) {i : ℕ} (hi : i < n)
    {k : ℕ} (hk : k < n) (st : List α × α)
    (hst : st.1.length = n ∧ (∀ b, st.1.getD b 0 = if b < k then -ent adj i b else 0) ∧
      st.2 = ∑ j in Finset.range k, ent adj i j) :
    (laplacianStep adj i st k).1.length = n ∧
      (∀ b, (laplacianStep adj i st k).1.getD b 0 = if b < k + 1 then -ent adj i b else 0) ∧
      (laplacianStep adj i st k).2 = ∑ j in Finset.range (k + 1), ent adj i j := by
  obtain ⟨h1, h2, h3⟩ := hst
  have e : laplacianStep adj i st k = if ent adj i k ≠ 0
      then (st.1.set k (-ent adj i k), st.2 + ent adj i k) else st := by
    unfold laplacianStep
    rw [rd_eq h hi hk]
  rw [e]
  by_cases ha : ent adj i k ≠ 0
  · rw [if_pos ha]
    refine ⟨by rw [List.length_set, h1], fun b => ?_, by rw [Finset.sum_range_succ, h3]⟩
    by_cases hb : b = k
    · subst hb
      simp [List.getD_eq_getElem?_getD, List.getElem?_set, h1, hk]
    · have hb' : ¬ k = b := fun e => hb e.symm
      have := h2 b
      simp only [List.getD_eq_getElem?_getD] at this
      simp only [List.getD_eq_getElem?_getD, List.getElem?_set, hb', if_false, this]
      by_cases hbk : b < k
      · rw [if_pos hbk, if_pos (by omega)]
      · rw [if_neg hbk, if_neg (by omega)]
  · rw [if_neg ha]
    have ha0 : ent adj i k = 0 := not_not.mp ha
    refine ⟨h1, fun b => ?_, by rw [Finset.sum_range_succ, h3, ha0, add_zero]⟩
    rw [h2 b]
    by_cases hb : b = k
    · subst hb
      rw [if_neg (lt_irrefl b), if_pos (Nat.lt_succ_self b), ha0, neg_zero]
    · by_cases hbk : b < k
      · rw [if_pos hbk, if_pos (by omega)]
      · rw [if_neg hbk, if_neg (by omega)]

/-- Row `i` of the Laplacian: its length and its entries. -/
theorem laplacianRow_spec {n : ℕ} {adj : Mat α} (h : Square n adj) {i : ℕ} (hi : i < n) :
    (laplacianRow n adj i).length = n ∧
      ∀ b, b < n → (laplacianRow n adj i).getD b 0 =
        if b = i then ∑ j in Finset.range n, ent adj i j else -ent adj i b := by
  have := foldl_range'_inv (laplacianStep adj i)
    (fun k st => st.1.length = n ∧ (∀ b, st.1.getD b 0 = if b < k then -ent adj i b else 0) ∧
      st.2 = ∑ j in Finset.range k, ent adj i j) n 0 (List.replicate n 0, 0)
    ⟨by simp, fun b => by
      simp only [List.getD_eq_getElem?_getD, List.getElem?_replicate]
      rw [if_neg (Nat.not_lt_zero b)]
      split_ifs <;> rfl, by simp⟩
    (fun k st _ hk hst => laplacianStep_inv h hi (by omega) st hst)
  rw [Nat.zero_add, ← List.range_eq_range'] at this
  obtain ⟨h1, h2, h3⟩ := this
  unfold laplacianRow
  refine ⟨by simp only [List.length_set]; exact h1, fun b hb => ?_⟩
  by_cases hbi : b = i
  · subst hbi
    simp only [List.getD_eq_getElem?_getD, List.getElem?_set, h1, hb, if_true]
    simp [h3]
  · have hbi' : ¬ i = b := fun e => hbi e.symm
    have := h2 b
    simp only [List.getD_eq_getElem?_getD] at this
    simp only [List.getD_eq_getElem?_getD, List.getElem?_set, hbi', if_false, this, hb,
      if_true, hbi]

theorem graphLaplacian_square {n : ℕ} {adj : Mat α} (h : Square n adj) :
    Square n (graphLaplacian adj) := by
  unfold graphLaplacian
  rw [h.1]
  refine ⟨by simp, fun r hr => ?_⟩
  simp only [List.mem_map, List.mem_range] at hr
  obtain ⟨i, hi, rfl⟩ := hr
  exact (laplacianRow_spec h hi).1

/-- The entries of the Laplacian of a square matrix. -/
theorem ent_graphLaplacian {n : ℕ} {adj : Mat α} (h : Square n adj) {i j : ℕ} (hi : i < n)
    (hj : j < n) :
    ent (graphLaplacian adj) i j =
      if j = i then ∑ b in Finset.range n, ent adj i b else -ent adj i j := by
  have := (laplacianRow_spec h hi).2 j hj
  rw [← this]
  unfold ent graphLaplacian
  rw [h.1]
  simp [List.getD_eq_getElem?_getD, List.getElem?_map, List.getElem?_range, hi]

/-- The sum of row `i` of the Laplacian is the diagonal entry `adj[i][i]`. -/
theorem graphLaplacian_row_sum {n : ℕ} {adj : Mat α} (h : Square n adj) {i : ℕ}
    (hi : i < n) : ((graphLaplacian adj).getD i []).sum = ent adj i i := by
  rw [row_eq (graphLaplacian_square h) hi, sum_map_range]
  have e : ∀ j ∈ Finset.range n, ent (graphLaplacian adj) i j
      = -ent adj i j + if j = i then ent adj i i + ∑ b in Finset.range n, ent adj i b else 0 := by
    intro j hj
    rw [ent_graphLaplacian h hi (Finset.mem_range.mp hj)]
    by_cases hji : j = i
    · subst hji; simp
    · simp [hji]
  rw [Finset.sum_congr rfl e, Finset.sum_add_distrib, Finset.sum_ite_eq', if_pos
    (Finset.mem_range.mpr hi), Finset.sum_neg_distrib]
  ring

end Laplacian

section LaplacianClaims

variable {α : Type} [LinearOrderedField α]

/-- In exact arithmetic: for every square `n × n` matrix `adj`, `graphLaplacian(adj)`
is an `n × n` matrix `L` with `L[i][i]` the sum of all the entries of row `i` of `adj`
and `L[i][j] = -adj[i][j]` for every `i ≠ j`. -/
theorem graphLaplacian_entries (n : ℕ) (adj : Mat α) (h : Square n adj) :
    Square n (graphLaplacian adj) ∧
    ∀ i, i < n →
      ent (graphLaplacian adj) i i = (adj.getD i []).sum ∧
      ∀ j, j < n → i ≠ j → ent (graphLaplacian adj) i j = -ent adj i j := by
  refine ⟨graphLaplacian_square h, fun i hi => ⟨?_, fun j hj hij => ?_⟩⟩
  · rw [ent_graphLaplacian h hi hi, if_pos rfl, row_eq h hi, sum_map_range]
  · rw [ent_graphLaplacian h hi hj, if_neg fun e => hij e.symm]

/-- The entries of the exact Laplacian of `[[0, 1, 2], [1, 0, 0], [2, 0, 0]]`. -/
theorem graphLaplacian_entries_witness :
    Square 3 ([[0, 1, 2], [1, 0, 0], [2, 0, 0]] : Mat ℚ) ∧
    (Square 3 (graphLaplacian ([[0, 1, 2], [1, 0, 0], [2, 0, 0]] : Mat ℚ)) ∧
    ∀ i, i < 3 →
      ent (graphLaplacian ([[0, 1, 2], [1, 0, 0], [2, 0, 0]] : Mat ℚ)) i i
        = (([[0, 1, 2], [1, 0, 0], [2, 0, 0]] : Mat ℚ).getD i []).sum ∧
      ∀ j, j < 3 → i ≠ j →
        ent (graphLaplacian ([[0, 1, 2], [1, 0, 0], [2, 0, 0]] : Mat ℚ)) i j
          = -ent ([[0, 1, 2], [1, 0, 0], [2, 0, 0]] : Mat ℚ) i j) :=
  ⟨by decide, graphLaplacian_entries 3 [[0, 1, 2], [1, 0, 0], [2, 0, 0]] (by decide)⟩

/-- In exact arithmetic: for a square `n × n` matrix `adj` with zero diagonal (as
every adjacency matrix of the data model has; the sign of the weights plays no part),
every row of `graphLaplacian(adj)` sums to zero. -/
theorem graphLaplacian_row_sum_zero (n : ℕ) (adj : Mat α) (h : Square n adj)
    (hdiag : ZeroDiag n adj) :
    ∀ i, i < n → ((graphLaplacian adj).getD i []).sum = 0 := by
  intro i hi
  rw [graphLaplacian_row_sum h hi, hdiag i hi]

/-- The row sums of the exact Laplacian of `[[0, 1, 2], [1, 0, 0], [2, 0, 0]]`. -/
theorem graphLaplacian_row_sum_zero_witness :
    Square 3 ([[0, 1, 2], [1, 0, 0], [2, 0, 0]] : Mat ℚ) ∧
    ZeroDiag 3 ([[0, 1, 2], [1, 0, 0], [2, 0, 0]] : Mat ℚ) ∧
    ∀ i, i < 3 →
      ((graphLaplacian ([[0, 1, 2], [1, 0, 0], [2, 0, 0]] : Mat ℚ)).getD i []).sum = 0 :=
  ⟨by decide, by decide,
    graphLaplacian_row_sum_zero 3 [[0, 1, 2], [1, 0, 0], [2, 0, 0]] (by decide) (by decide)⟩

end LaplacianClaims

/-! ## The quadratic form of the Laplacian -/

section Quadratic

variable {α : Type} [LinearOrderedField α]

/-- A double sum of a symmetric function that vanishes on the diagonal is twice
its sum over the pairs `i < j`. -/
theorem sum_symm_upper (g : ℕ → ℕ → α) (n : ℕ)
    (hsym : ∀ i j, i < n → j < n → g i j = g j i) (hd : ∀ i, i < n → g i i = 0) :
    ∑ i in Finset.range n, ∑ j in Finset.range n, g i j
      = 2 * ∑ i in Finset.range n, ∑ j in Finset.range n, if i < j then g i j else 0 := by
  have h1 : ∀ i ∈ Finset.range n, ∀ j ∈ Finset.range n,
      g i j = (if i < j then g i j else 0) + (if j < i then g j i else 0) := by
    intro i hi j hj
    rw [Finset.mem_range] at hi hj
    rcases Nat.lt_trichotomy i j with h | h | h
    · rw [if_pos h, if_neg (by omega), add_zero]
    · subst h; rw [if_neg (lt_irrefl i), add_zero, hd i hi]
    · rw [if_neg (by omega), if_pos h, zero_add, hsym i j hi hj]
  have h2 : ∑ i in Finset.range n, ∑ j in Finset.range n, g i j
      = ∑ i in Finset.range n, ∑ j in Finset.range n,
        ((if i < j then g i j else 0) + (if j < i then g j i else 0)) :=
    Finset.sum_congr rfl fun i hi => Finset.sum_congr rfl fun j hj => h1 i hi j hj
  have h3 : ∑ i in Finset.range n, ∑ j in Finset.range n, (if j < i then g j i else 0)
      = ∑ i in Finset.range n, ∑ j in Finset.range n, if i < j then g i j else 0 :=
    Finset.sum_comm
  rw [h2]
  simp only [Finset.sum_add_distrib]
  rw [h3]; ring

/-- The quadratic form of the Laplacian of a symmetric matrix with zero diagonal. -/
theorem graphLaplacian_quadratic {n : ℕ} {adj : Mat α} (h : Square n adj)
    (hsym : Symmetric n adj) (hdiag : ZeroDiag n adj) (x : ℕ → α) :
    ∑ i in Finset.range n, ∑ j in Finset.range n, x i * ent (graphLaplacian adj) i j * x j
      = ∑ i in Finset.range n, ∑ j in Finset.range n,
          if i < j then ent adj i j * (x i - x j) ^ 2 else 0 := by
  -- every row of the form, in terms of `adj`
  have hrow : ∀ i ∈ Finset.range n,
      ∑ j in Finset.range n, x i * ent (graphLaplacian adj) i j * x j
        = ∑ j in Finset.range n, ent adj i j * (x i * x i - x i * x j) := by
    intro i hi
    have hi' := Finset.mem_range.mp hi
    have e : ∀ j ∈ Finset.range n, x i * ent (graphLaplacian adj) i j * x j
        = -(ent adj i j * (x i * x j))
          + if j = i then x i * x i * ∑ b in Finset.range n, ent adj i b else 0 := by
      intro j hj
      rw [ent_graphLaplacian h hi' (Finset.mem_range.mp hj)]
      by_cases hji : j = i
      · subst hji; rw [if_pos rfl, if_pos rfl, hdiag j hi']; ring
      · rw [if_neg hji, if_neg hji]; ring
    rw [Finset.sum_congr rfl e, Finset.sum_add_distrib, Finset.sum_ite_eq', if_pos hi,
      Finset.mul_sum, ← Finset.sum_add_distrib]
    exact Finset.sum_congr rfl fun j _ => by ring
  rw [Finset.sum_congr rfl hrow]
  -- the symmetric double sum
  have hg := sum_symm_upper (fun i j => ent adj i j * (x i - x j) ^ 2) n
    (fun i j hi hj => by simp only; rw [hsym i hi j hj]; ring)
    (fun i _ => by simp)
  have hswap : ∑ i in Finset.range n, ∑ j in Finset.range n, ent adj i j * (x j * x j)
      = ∑ i in Finset.range n, ∑ j in Finset.range n, ent adj i j * (x i * x i) := by
    rw [Finset.sum_comm]
    exact Finset.sum_congr rfl fun i hi => Finset.sum_congr rfl fun j hj => by
      rw [hsym j (Finset.mem_range.mp hj) i (Finset.mem_range.mp hi)]
  have hexp : ∑ i in Finset.range n, ∑ j in Finset.range n, ent adj i j * (x i - x j) ^ 2
      = 2 * ∑ i in Finset.range n, ∑ j in Finset.range n,
          ent adj i j * (x i * x i - x i * x j) := by
    have e : ∀ i ∈ Finset.range n, ∀ j ∈ Finset.range n, ent adj i j * (x i - x j) ^ 2
        = 2 * (ent adj i j * (x i * x i - x i * x j))
          + (ent adj i j * (x j * x j) - ent adj i j * (x i * x i)) := by
      intro i _ j _; ring
    rw [Finset.sum_congr rfl fun i hi => Finset.sum_congr rfl fun j hj => e i hi j hj]
    simp only [Finset.sum_add_distrib, Finset.sum_sub_distrib, ← Finset.mul_sum]
    rw [hswap]; ring
  have h2 : (2 : α) ≠ 0 := two_ne_zero
  apply mul_left_cancel₀ h2
  rw [← hexp, hg]

end Quadratic

section LaplacianClaims

variable {α : Type} [LinearOrderedField α]

/-- In exact arithmetic: for every symmetric `n × n` adjacency matrix `adj` with
non-negative weights and zero diagonal, `L = graphLaplacian(adj)` is symmetric and
positive-semidefinite: for every vector `x`,
`xᵀ·L·x = Σ_{i<j} adj[i][j]·(x[i] − x[j])² ≥ 0`. -/
theorem graphLaplacian_psd (n : ℕ) (adj : Mat α) (h : Square n adj)
    (hsym : Symmetric n adj) (hnn : NonNeg n adj) (hdiag : ZeroDiag n adj) :
    Symmetric n (graphLaplacian adj) ∧
    ∀ x : List α,
      ∑ i in Finset.range n, ∑ j in Finset.range n,
          x.getD i 0 * ent (graphLaplacian adj) i j * x.getD j 0
        = ∑ i in Finset.range n, ∑ j in Finset.range n,
            (if i < j then ent adj i j * (x.getD i 0 - x.getD j 0) ^ 2 else 0) ∧
      0 ≤ ∑ i in Finset.range n, ∑ j in Finset.range n,
          x.getD i 0 * ent (graphLaplacian adj) i j * x.getD j 0 := by
  refine ⟨fun i hi j hj => ?_, fun x => ?_⟩
  · rw [ent_graphLaplacian h hi hj, ent_graphLaplacian h hj hi]
    by_cases hij : j = i
    · subst hij; rfl
    · rw [if_neg hij, if_neg fun e => hij e.symm, hsym i hi j hj]
  · have hq := graphLaplacian_quadratic h hsym hdiag fun i => x.getD i 0
    refine ⟨hq, ?_⟩
    rw [hq]
    refine Finset.sum_nonneg fun i hi => Finset.sum_nonneg fun j hj => ?_
    split_ifs
    · exact mul_nonneg (hnn i (Finset.mem_range.mp hi) j (Finset.mem_range.mp hj))
        (sq_nonneg _)
    · exact le_refl 0

/-- The quadratic form of the exact Laplacian of `[[0, 1, 2], [1, 0, 0], [2, 0, 0]]`. -/
theorem graphLaplacian_psd_witness :
    Square 3 ([[0, 1, 2], [1, 0, 0], [2, 0, 0]] : Mat ℚ) ∧
    Symmetric 3 ([[0, 1, 2], [1, 0, 0], [2, 0, 0]] : Mat ℚ) ∧
    NonNeg 3 ([[0, 1, 2], [1, 0, 0], [2, 0, 0]] : Mat ℚ) ∧
    ZeroDiag 3 ([[0, 1, 2], [1, 0, 0], [2, 0, 0]] : Mat ℚ) ∧
    (Symmetric 3 (graphLaplacian ([[0, 1, 2], [1, 0, 0], [2, 0, 0]] : Mat ℚ)) ∧
    ∀ x : List ℚ,
      ∑ i in Finset.range 3, ∑ j in Finset.range 3,
          x.getD i 0 * ent (graphLaplacian ([[0, 1, 2], [1, 0, 0], [2, 0, 0]] : Mat ℚ)) i j
            * x.getD j 0
        = ∑ i in Finset.range 3, ∑ j in Finset.range 3,
            (if i < j then ent ([[0, 1, 2], [1, 0, 0], [2, 0, 0]] : Mat ℚ) i j
              * (x.getD i 0 - x.getD j 0) ^ 2 else 0) ∧
      0 ≤ ∑ i in Finset.range 3, ∑ j in Finset.range 3,
          x.getD i 0 * ent (graphLaplacian ([[0, 1, 2], [1, 0, 0], [2, 0, 0]] : Mat ℚ)) i j
            * x.getD j 0) :=
  ⟨by decide, by decide, by decide, by decide,
    graphLaplacian_psd 3 [[0, 1, 2], [1, 0, 0], [2, 0, 0]] (by decide) (by decide) (by decide)
      (by decide)⟩

end LaplacianClaims

/-! ## The matrix `[[2, 1], [1, 2]]` -/

section TwoByTwo

theorem arg_zero_two : Complex.arg ⟨0, 2⟩ = Real.pi / 2 := by
  have h : (⟨0, 2⟩ : ℂ) = ((2 : ℝ) : ℂ) * Complex.I := by
    apply Complex.ext <;> simp
  rw [h, Complex.arg_real_mul _ (by norm_num : (0 : ℝ) < 2), Complex.arg_I]

theorem pivotScan_two_one : pivotScan 2 ([[2, 1], [1, 2]] : Mat ℝ) = (1, 0, 1) := by
  have hr : List.range 2 = [0, 1] := rfl
  simp [pivotScan, scanRow, scanStep, rd, hr, List.range']

theorem pivotScan_three_one : pivotScan 2 ([[3, 0], [0, 1]] : Mat ℝ) = (0, 0, 1) := by
  have hr : List.range 2 = [0, 1] := rfl
  simp [pivotScan, scanRow, scanStep, rd, hr, List.range']

theorem rotate_two_one :
    rotate ⟨fun y x => Complex.arg ⟨x, y⟩, Real.cos, Real.sin⟩ 2
      ([[2, 1], [1, 2]] : Mat ℝ) [[1, 0], [0, 1]] 0 1
    = some ([[3, 0], [0, 1]],
        [[Real.sqrt 2 / 2, -(Real.sqrt 2 / 2)], [Real.sqrt 2 / 2, Real.sqrt 2 / 2]]) := by
  have hr : List.range 2 = [0, 1] := rfl
  have hθ : (1 / 2 * Complex.arg ⟨(2 : ℝ) - 2, 2 * 1⟩ : ℝ) = Real.pi / 4 := by
    rw [show ((2 : ℝ) - 2) = 0 by norm_num, show ((2 : ℝ) * 1) = 2 by norm_num, arg_zero_two]
    ring
  have hs : Real.sqrt 2 * Real.sqrt 2 = 2 := Real.mul_self_sqrt (by norm_num)
  simp only [rotate, rotationAngle, rd, List.getElem?_cons_zero, List.getElem?_cons_succ,
    Option.bind_eq_bind, Option.some_bind, Option.pure_def, hθ, Real.cos_pi_div_four,
    Real.sin_pi_div_four, rotateDiag, wr, hr, List.foldlM_cons, List.foldlM_nil,
    rotateOffStep, rotateVStep]
  simp
  constructor
  · linear_combination (3 / 2) * hs
  · linear_combination (1 / 2) * hs

theorem pivotScan_not_lt_two_one :
    ¬ (pivotScan 2 ([[2, 1], [1, 2]] : Mat ℝ)).1 < threshold := by
  rw [pivotScan_two_one]
  unfold threshold
  norm_num

theorem eigenSort_three_one :
    eigenSort ([[3, 0], [0, 1]] : Mat ℝ)
      [[Real.sqrt 2 / 2, -(Real.sqrt 2 / 2)], [Real.sqrt 2 / 2, Real.sqrt 2 / 2]]
    = some { values := [1, 3]
             vectors := [[-(Real.sqrt 2 / 2), Real.sqrt 2 / 2],
               [Real.sqrt 2 / 2, Real.sqrt 2 / 2]] } := by
  have hr : List.range 2 = [0, 1] := rfl
  rw [eigenSort_eq (by decide : Square 2 _) (by decide : Square 2 _)]
  simp [sortedIndices, diagList, colList, ent, hr, List.insertionSort, List.orderedInsert]

/-- The loop on `[[2, 1], [1, 2]]`: one rotation by `π/4`, then the threshold test. -/
theorem jacobiLoop_two_one :
    jacobiLoop ⟨fun y x => Complex.arg ⟨x, y⟩, Real.cos, Real.sin⟩ 2 maxIter
      ([[2, 1], [1, 2]] : Mat ℝ) (identity 2)
    = some ([[3, 0], [0, 1]],
        [[Real.sqrt 2 / 2, -(Real.sqrt 2 / 2)], [Real.sqrt 2 / 2, Real.sqrt 2 / 2]]) := by
  have h1 : rotate ⟨fun y x => Complex.arg ⟨x, y⟩, Real.cos, Real.sin⟩ 2
      ([[2, 1], [1, 2]] : Mat ℝ) [[1, 0], [0, 1]]
      (pivotScan 2 ([[2, 1], [1, 2]] : Mat ℝ)).2.1
      (pivotScan 2 ([[2, 1], [1, 2]] : Mat ℝ)).2.2
      = some ([[3, 0], [0, 1]],
        [[Real.sqrt 2 / 2, -(Real.sqrt 2 / 2)], [Real.sqrt 2 / 2, Real.sqrt 2 / 2]]) := by
    rw [pivotScan_two_one]
    exact rotate_two_one
  have hi : (identity 2 : Mat ℝ) = [[1, 0], [0, 1]] := by
    have hr : List.range 2 = [0, 1] := rfl
    simp [identity, hr]
  rw [hi]
  show jacobiLoop _ 2 (99 + 1) _ _ = _
  rw [jacobiLoop_rotate _ 2 99 _ _ _ _ pivotScan_not_lt_two_one h1]
  show jacobiLoop _ 2 (98 + 1) _ _ = _
  apply jacobiLoop_break
  rw [pivotScan_three_one]
  exact threshold_pos

end TwoByTwo

section RealClaims

/-- Claim C10. With the real `atan2`, `cos` and `sin`, `jacobiEigen([[2,1],[1,2]])`
returns `values = [1, 3]`; `vectors[0]` (for the value 1) is `(-√2/2, √2/2)`, which
is `-(1, -1)/√2`, and `vectors[1]` (for the value 3) is `(√2/2, √2/2)`, which is
`(1, 1)/√2`. -/
theorem jacobiEigen_two_one :
    jacobiEigen ⟨fun y x => Complex.arg ⟨x, y⟩, Real.cos, Real.sin⟩
      ([[2, 1], [1, 2]] : Mat ℝ)
    = some { values := [1, 3]
             vectors := [[-(Real.sqrt 2 / 2), Real.sqrt 2 / 2],
               [Real.sqrt 2 / 2, Real.sqrt 2 / 2]] } ∧
    Real.sqrt 2 / 2 = 1 / Real.sqrt 2 := by
  constructor
  · rw [jacobiEigen_eq _ _ jacobiLoop_two_one, eigenSort_three_one]
  · have hs : Real.sqrt 2 * Real.sqrt 2 = 2 := Real.mul_self_sqrt (by norm_num)
    have h0 : Real.sqrt 2 ≠ 0 := by
      intro h; rw [h] at hs; norm_num at hs
    field_simp

end RealClaims

/-! ## The rotation as a similarity transform -/

section Similarity

variable {α : Type} [LinearOrderedField α]

/-- On a symmetric matrix, with an angle for which the rotated entry `(p, q)`
vanishes, the update of lines 38-51 is the similarity `A ↦ Gᵀ · A · G`. -/
theorem rotEnt_eq_similarity {n : ℕ} (A : Mat α) (hsym : Symmetric n A) {p q : ℕ}
    (hp : p < n) (hq : q < n) (hpq : p ≠ q) {c s : α}
    (hid : (c * c - s * s) * ent A p q = c * s * (ent A p p - ent A q q)) (a b : Fin n) :
    rotEnt c s n p q (ent A) a b
      = ((givens ⟨p, hp⟩ ⟨q, hq⟩ c s).transpose * toMatrix n A
          * givens ⟨p, hp⟩ ⟨q, hq⟩ c s) a b := by
  have hPQ : (⟨p, hp⟩ : Fin n) ≠ ⟨q, hq⟩ := fun e => hpq (Fin.mk.inj e)
  have hqp : q ≠ p := fun e => hpq e.symm
  have ea : ∀ x : Fin n, (x = (⟨p, hp⟩ : Fin n)) ↔ (x : ℕ) = p := fun x => Fin.ext_iff
  have eb : ∀ x : Fin n, (x = (⟨q, hq⟩ : Fin n)) ↔ (x : ℕ) = q := fun x => Fin.ext_iff
  have hqp' : ent A q p = ent A p q := hsym q hq p hp
  rw [Matrix.mul_assoc, givens_transpose_mul _ hPQ]
  simp only [mul_givens _ hPQ, ea, eb, toMatrix]
  unfold rotEnt offEnt diagEnt
  have han := a.isLt
  have hbn := b.isLt
  by_cases ha1 : (a : ℕ) = p
  · by_cases hb1 : (b : ℕ) = p
    · simp [ha1, hb1, hpq, hqp, hqp']; ring
    · by_cases hb2 : (b : ℕ) = q
      · simp [ha1, hb2, hpq, hqp, hqp']; linear_combination -hid
      · have h1 : ent A p b = ent A b p := hsym p hp b hbn
        have h2 : ent A q b = ent A b q := hsym q hq b hbn
        simp [ha1, hb1, hb2, hpq, hqp, h1, h2, hbn]
  · by_cases ha2 : (a : ℕ) = q
    · by_cases hb1 : (b : ℕ) = p
      · simp [ha2, hb1, hpq, hqp, hqp']; linear_combination -hid
      · by_cases hb2 : (b : ℕ) = q
        · simp [ha2, hb2, hpq, hqp, hqp']; ring
        · have h1 : ent A p b = ent A b p := hsym p hp b hbn
          have h2 : ent A q b = ent A b q := hsym q hq b hbn
          simp [ha2, hb1, hb2, hpq, hqp, h1, h2, hbn]
    · by_cases hb1 : (b : ℕ) = p
      · simp [ha1, ha2, hb1, hpq, hqp, han]
      · by_cases hb2 : (b : ℕ) = q
        · simp [ha1, ha2, hb2, hpq, hqp, han]
        · simp [ha1, ha2, hb1, hb2]

end Similarity

section RealAngle

/-- The half angle of `atan2(y, x)` makes `cos(2θ)·y = sin(2θ)·x`. -/
theorem real_half_angle (x y : ℝ) :
    (Real.cos (1 / 2 * Complex.arg ⟨x, y⟩) * Real.cos (1 / 2 * Complex.arg ⟨x, y⟩)
        - Real.sin (1 / 2 * Complex.arg ⟨x, y⟩) * Real.sin (1 / 2 * Complex.arg ⟨x, y⟩)) * y
      = 2 * (Real.cos (1 / 2 * Complex.arg ⟨x, y⟩) * Real.sin (1 / 2 * Complex.arg ⟨x, y⟩))
          * x := by
  set t := 1 / 2 * Complex.arg ⟨x, y⟩ with ht
  have h2 : 2 * t = Complex.arg ⟨x, y⟩ := by rw [ht]; ring
  have hc : Real.cos t * Real.cos t - Real.sin t * Real.sin t = Real.cos (2 * t) := by
    rw [Real.cos_two_mul']; ring
  have hs : 2 * (Real.cos t * Real.sin t) = Real.sin (2 * t) := by
    rw [Real.sin_two_mul]; ring
  rw [hc, hs, h2]
  by_cases hz : (⟨x, y⟩ : ℂ) = 0
  · have hx : x = 0 := by simpa using congrArg Complex.re hz
    have hy : y = 0 := by simpa using congrArg Complex.im hz
    rw [hx, hy]; ring
  · have habs : Complex.abs ⟨x, y⟩ ≠ 0 := fun h => hz (Complex.abs.eq_zero.mp h)
    rw [Complex.cos_arg hz, Complex.sin_arg]
    simp only
    field_simp
    ring

end RealAngle

/-! ## The loop invariant `M = V · A · Vᵀ` -/

section DecompLoop

variable {α : Type} [LinearOrderedField α]

theorem symmetric_iff_transpose (n : ℕ) (A : Mat α) :
    Symmetric n A ↔ (toMatrix n A).transpose = toMatrix n A := by
  constructor
  · intro h
    ext i j
    exact h j j.isLt i i.isLt
  · intro h i hi j hj
    have := congrFun (congrFun h ⟨j, hj⟩) ⟨i, hi⟩
    exact this

theorem real_exactMath : ExactMath ⟨fun y x => Complex.arg ⟨x, y⟩, Real.cos, Real.sin⟩ := by
  refine ⟨fun t => ?_, fun x y => real_half_angle x y⟩
  have := Real.cos_sq_add_sin_sq t
  simp only
  nlinarith [this]

/-- One rotation on a scanned pivot keeps the loop invariant. -/
theorem rotate_decomp (T : JSMath α) (hT : ExactMath T) {n : ℕ} {M A V : Mat α}
    (h : Decomp n M A V) {p q : ℕ} (hp : p < n) (hq : q < n) (hpq : p ≠ q) :
    ∃ A' V', rotate T n A V p q = some (A', V') ∧ Decomp n M A' V' := by
  obtain ⟨hA, hV, hsym, hO, hM⟩ := h
  obtain ⟨A', V', hr, h1, h2, h3, h4⟩ := rotate_spec T hA hV hp hq hpq
  refine ⟨A', V', hr, h1, h2, ?_⟩
  have hPQ : (⟨p, hp⟩ : Fin n) ≠ ⟨q, hq⟩ := fun e => hpq (Fin.mk.inj e)
  have hid : (T.cos (angle T A p q) * T.cos (angle T A p q)
      - T.sin (angle T A p q) * T.sin (angle T A p q)) * ent A p q
      = T.cos (angle T A p q) * T.sin (angle T A p q) * (ent A p p - ent A q q) := by
    have := hT.2 (ent A p p - ent A q q) (2 * ent A p q)
    unfold angle
    linear_combination (1 / 2) * this
  have hG := givens_orthogonal hPQ (hT.1 (angle T A p q))
  have hG' := Matrix.mul_eq_one_comm.mp hG
  have hA' : toMatrix n A' = (givens ⟨p, hp⟩ ⟨q, hq⟩ (T.cos (angle T A p q))
      (T.sin (angle T A p q))).transpose * toMatrix n A
        * givens ⟨p, hp⟩ ⟨q, hq⟩ (T.cos (angle T A p q)) (T.sin (angle T A p q)) := by
    ext a b
    rw [← rotEnt_eq_similarity A hsym hp hq hpq hid]
    exact h3 a b
  have hV' : toMatrix n V' = toMatrix n V
      * givens ⟨p, hp⟩ ⟨q, hq⟩ (T.cos (angle T A p q)) (T.sin (angle T A p q)) := by
    ext a b
    rw [← vEnt_eq_mul_givens V hp hq hpq]
    exact h4 a b
  have hAt := (symmetric_iff_transpose n A).mp hsym
  refine ⟨?_, ?_, ?_⟩
  · rw [symmetric_iff_transpose, hA', Matrix.transpose_mul, Matrix.transpose_mul,
      Matrix.transpose_transpose, hAt, Matrix.mul_assoc]
  · rw [hV', Matrix.transpose_mul, Matrix.mul_assoc, ← Matrix.mul_assoc _ (toMatrix n V),
      hO, Matrix.one_mul, hG]
  · rw [hM, hV', hA', Matrix.transpose_mul]
    set G := givens ⟨p, hp⟩ ⟨q, hq⟩ (T.cos (angle T A p q)) (T.sin (angle T A p q))
    calc toMatrix n V * toMatrix n A * (toMatrix n V).transpose
        = toMatrix n V * (1 * toMatrix n A * 1) * (toMatrix n V).transpose := by
          rw [Matrix.one_mul, Matrix.mul_one]
      _ = toMatrix n V * ((G * G.transpose) * toMatrix n A * (G * G.transpose))
            * (toMatrix n V).transpose := by rw [hG']
      _ = toMatrix n V * G * (G.transpose * toMatrix n A * G)
            * (G.transpose * (toMatrix n V).transpose) := by
          simp only [Matrix.mul_assoc]

/-- On a symmetric input the loop ends with `M = V · A · Vᵀ`, `V` orthogonal and
`A` symmetric. -/
theorem jacobiLoop_decomp (T : JSMath α) (hT : ExactMath T) {n : ℕ} (M : Mat α) (k : ℕ)
    {A V : Mat α} (h : Decomp n M A V) :
    ∃ A' V', jacobiLoop T n k A V = some (A', V') ∧ Decomp n M A' V' := by
  refine jacobiLoop_inv T n (fun A V => Decomp n M A V) ?_ k A V h
  intro A V h hm
  obtain ⟨hp, hq⟩ := pivotScan_pivot h.1 hm
  exact rotate_decomp T hT h (lt_trans hp hq) hq (Nat.ne_of_lt hp)

theorem decomp_init {n : ℕ} {M : Mat α} (hM : Square n M) (hsym : Symmetric n M) :
    Decomp n M M (identity n) := by
  refine ⟨hM, identity_square n, hsym, ?_, ?_⟩
  · rw [toMatrix_identity, Matrix.transpose_one, Matrix.one_mul]
  · rw [toMatrix_identity, Matrix.transpose_one, Matrix.one_mul, Matrix.mul_one]

end DecompLoop

/-! ## Reconstruction error -/

section ErrorBound

variable {α : Type} [LinearOrderedField α]

/-- The absolute values of a row of an orthogonal matrix add up to at most `√n`. -/
theorem row_abs_sum_sq_le {n : ℕ} {V : Mat α}
    (hO : (toMatrix n V).transpose * toMatrix n V = 1) (i : Fin n) :
    (∑ k : Fin n, |ent V i k|) ^ 2 ≤ n := by
  have hO' : toMatrix n V * (toMatrix n V).transpose = 1 := Matrix.mul_eq_one_comm.mp hO
  have h1 : ∑ k : Fin n, ent V i k * ent V i k = 1 := by
    have := congrFun (congrFun hO' i) i
    rw [Matrix.mul_apply] at this
    simpa [toMatrix, Matrix.transpose_apply] using this
  have h2 := sq_sum_le_card_mul_sum_sq (s := (Finset.univ : Finset (Fin n)))
    (f := fun k => |ent V i k|)
  have h3 : ∑ k : Fin n, |ent V i k| ^ 2 = 1 := by
    rw [← h1]
    exact Finset.sum_congr rfl fun k _ => by rw [sq_abs]; ring
  rw [h3] at h2
  simpa using h2

/-- With `M = V · A · Vᵀ` and every off-diagonal entry of the symmetric `A` at most
`ε` in magnitude, the diagonal of `A` and the columns of `V` reconstruct the entry
`(i, j)` of `M` within `ε` times the sums of the magnitudes of rows `i` and `j`
of `V`. -/
theorem decomp_error_le {n : ℕ} {M A V : Mat α} (h : Decomp n M A V) {ε : α}
    (hε0 : 0 ≤ ε) (hε : ∀ k l, k < l → l < n → |ent A k l| ≤ ε) (i j : Fin n) :
    |∑ k : Fin n, ent A k k * ent V i k * ent V j k - ent M i j|
      ≤ ε * ((∑ k : Fin n, |ent V i k|) * ∑ l : Fin n, |ent V j l|) := by
  obtain ⟨_, _, hsym, _, hM⟩ := h
  -- the off-diagonal entries, on both sides of the diagonal
  have hoff : ∀ k l : Fin n, k ≠ l → |ent A k l| ≤ ε := by
    intro k l hkl
    rcases Nat.lt_or_gt_of_ne (fun e => hkl (Fin.ext e)) with h1 | h1
    · exact hε k l h1 l.isLt
    · rw [hsym k k.isLt l l.isLt]
      exact hε l k h1 k.isLt
  have hMij : ent M i j = ∑ l : Fin n, ∑ k : Fin n, ent V i k * ent A k l * ent V j l := by
    have := congrFun (congrFun hM i) j
    rw [Matrix.mul_apply] at this
    simp only [Matrix.mul_apply, Matrix.transpose_apply, toMatrix, Finset.sum_mul] at this
    exact this
  have hdiag : ∑ k : Fin n, ent A k k * ent V i k * ent V j k
      = ∑ l : Fin n, ∑ k : Fin n,
          if k = l then ent V i k * ent A k l * ent V j l else 0 := by
    refine Finset.sum_congr rfl fun l _ => ?_
    rw [Finset.sum_ite_eq' Finset.univ l, if_pos (Finset.mem_univ l)]
    ring
  have hD : ∑ k : Fin n, ent A k k * ent V i k * ent V j k - ent M i j
      = ∑ l : Fin n, ∑ k : Fin n,
          -(if k = l then 0 else ent V i k * ent A k l * ent V j l) := by
    rw [hdiag, hMij, ← Finset.sum_sub_distrib]
    refine Finset.sum_congr rfl fun l _ => ?_
    rw [← Finset.sum_sub_distrib]
    refine Finset.sum_congr rfl fun k _ => ?_
    split_ifs <;> ring
  have hterm : ∀ l k : Fin n,
      |-(if k = l then 0 else ent V i k * ent A k l * ent V j l)|
        ≤ |ent V i k| * ε * |ent V j l| := by
    intro l k
    rw [abs_neg]
    split_ifs with hkl
    · rw [abs_zero]
      exact mul_nonneg (mul_nonneg (abs_nonneg _) hε0) (abs_nonneg _)
    · rw [abs_mul, abs_mul]
      exact mul_le_mul_of_nonneg_right
        (mul_le_mul_of_nonneg_left (hoff k l hkl) (abs_nonneg _)) (abs_nonneg _)
  rw [hD]
  calc |∑ l : Fin n, ∑ k : Fin n,
          -(if k = l then 0 else ent V i k * ent A k l * ent V j l)|
      ≤ ∑ l : Fin n, |∑ k : Fin n,
          -(if k = l then 0 else ent V i k * ent A k l * ent V j l)| :=
        Finset.abs_sum_le_sum_abs _ _
    _ ≤ ∑ l : Fin n, ∑ k : Fin n,
          |-(if k = l then 0 else ent V i k * ent A k l * ent V j l)| :=
        Finset.sum_le_sum fun l _ => Finset.abs_sum_le_sum_abs _ _
    _ ≤ ∑ l : Fin n, ∑ k : Fin n, |ent V i k| * ε * |ent V j l| :=
        Finset.sum_le_sum fun l _ => Finset.sum_le_sum fun k _ => hterm l k
    _ = ε * ((∑ k : Fin n, |ent V i k|) * ∑ l : Fin n, |ent V j l|) := by
        rw [Finset.sum_mul_sum, Finset.mul_sum, Finset.sum_comm]
        refine Finset.sum_congr rfl fun k _ => ?_
        rw [Finset.mul_sum]
        exact Finset.sum_congr rfl fun l _ => by ring

/-- With `M = V · A · Vᵀ`, `V` orthogonal, and every off-diagonal entry of the
symmetric `A` at most `ε` in magnitude, the diagonal of `A` and the columns of `V`
reconstruct every entry of `M` within `n · ε`. -/
theorem decomp_error_bound {n : ℕ} {M A V : Mat α} (h : Decomp n M A V) {ε : α}
    (hε0 : 0 ≤ ε) (hε : ∀ k l, k < l → l < n → |ent A k l| ≤ ε) (i j : Fin n) :
    |∑ k : Fin n, ent A k k * ent V i k * ent V j k - ent M i j| ≤ n * ε := by
  have hsum := decomp_error_le h hε0 hε i j
  have hO := h.2.2.2.1
  have ha := row_abs_sum_sq_le hO i
  have hb := row_abs_sum_sq_le hO j
  have ha0 : 0 ≤ ∑ k : Fin n, |ent V i k| := Finset.sum_nonneg fun k _ => abs_nonneg _
  have hb0 : 0 ≤ ∑ l : Fin n, |ent V j l| := Finset.sum_nonneg fun k _ => abs_nonneg _
  have hab : (∑ k : Fin n, |ent V i k|) * ∑ l : Fin n, |ent V j l| ≤ n := by
    nlinarith [sq_nonneg ((∑ k : Fin n, |ent V i k|) - ∑ l : Fin n, |ent V j l|)]
  calc |∑ k : Fin n, ent A k k * ent V i k * ent V j k - ent M i j|
      ≤ ε * ((∑ k : Fin n, |ent V i k|) * ∑ l : Fin n, |ent V j l|) := hsum
    _ ≤ ε * n := mul_le_mul_of_nonneg_left hab hε0
    _ = n * ε := mul_comm _ _

end ErrorBound

section Reconstruct

variable {α : Type} [LinearOrderedField α]

theorem sum_range_getD (σ : List ℕ) (g : ℕ → α) :
    ∑ k in Finset.range σ.length, g (σ.getD k 0) = (σ.map g).sum := by
  induction σ with
  | nil => simp
  | cons a l ih =>
    rw [List.length_cons, Finset.sum_range_succ', List.map_cons, List.sum_cons, ← ih, add_comm]
    simp

theorem colList_getD {n : ℕ} (V : Mat α) (c : ℕ) {i : ℕ} (hi : i < n) :
    (colList n V c).getD i 0 = ent V i c := by
  simp [colList, List.getD_eq_getElem?_getD, List.getElem?_range, hi]

/-- The reconstruction from the result of lines 60-67 is `Σ_c A[c][c]·V[i][c]·V[j][c]`:
the order of the eigenpairs plays no part. -/
theorem eigenSort_reconstruct {n : ℕ} {A V : Mat α} (hA : Square n A) (hV : Square n V) :
    ∃ r, eigenSort A V = some r ∧
      ∀ i j, i < n → j < n →
        reconstruct n r i j = ∑ c : Fin n, ent A c c * ent V i c * ent V j c := by
  refine ⟨_, eigenSort_eq hA hV, fun i j hi hj => ?_⟩
  have hlen := sortedIndices_length n A
  have hperm := sortedIndices_perm (diagList n A)
  rw [diagList_length] at hperm
  have hterm : ∀ k ∈ Finset.range n,
      (List.map (fun k => ent A k k) (sortedIndices (diagList n A))).getD k 0
        * ((List.map (fun k => colList n V k) (sortedIndices (diagList n A))).getD k []).getD i 0
        * ((List.map (fun k => colList n V k) (sortedIndices (diagList n A))).getD k []).getD j 0
      = (fun c => ent A c c * ent V i c * ent V j c)
          ((sortedIndices (diagList n A)).getD k 0) := by
    intro k hk
    have hk' : k < (sortedIndices (diagList n A)).length := by
      rw [hlen]; exact Finset.mem_range.mp hk
    simp only [List.getD_eq_getElem?_getD, List.getElem?_map, List.getElem?_eq_getElem hk',
      Option.map_some', Option.getD_some]
    have e1 := colList_getD V ((sortedIndices (diagList n A))[k]) hi
    have e2 := colList_getD V ((sortedIndices (diagList n A))[k]) hj
    simp only [List.getD_eq_getElem?_getD] at e1 e2
    rw [e1, e2]
  unfold reconstruct
  rw [Finset.sum_congr rfl hterm]
  have hsum := sum_range_getD (sortedIndices (diagList n A))
    fun c => ent A c c * ent V i c * ent V j c
  rw [hlen] at hsum
  rw [hsum, (hperm.map _).sum_eq, sum_map_range,
    Finset.sum_range fun c => ent A c c * ent V i c * ent V j c]

/-- On a symmetric input, when the final working matrix passes the threshold test
of line 33, the result reconstructs every entry of the input within `n · 1e-10`. -/
theorem jacobiEigen_error_bound (T : JSMath α) (hT : ExactMath T) {n : ℕ} {M : Mat α}
    (hM : Square n M) (hsym : Symmetric n M)
    (hconv : ∀ A V, jacobiLoop T n maxIter M (identity n) = some (A, V) →
      (pivotScan n A).1 < threshold) :
    ∃ r, jacobiEigen T M = some r ∧
      ∀ i j, i < n → j < n → |reconstruct n r i j - ent M i j| ≤ n * threshold := by
  obtain ⟨A, V, hl, hD⟩ := jacobiLoop_decomp T hT M maxIter (decomp_init hM hsym)
  obtain ⟨r, hr, hrec⟩ := eigenSort_reconstruct hD.1 hD.2.1
  have hl' := hl
  rw [← hM.1] at hl'
  refine ⟨r, by rw [jacobiEigen_eq T M hl', hr], fun i j hi hj => ?_⟩
  rw [hrec i j hi hj]
  have hlt := hconv A V hl
  exact decomp_error_bound hD (le_of_lt threshold_pos)
    (fun k l hkl hl => le_trans (pivotScan_max hD.1 hkl hl) (le_of_lt hlt)) ⟨i, hi⟩ ⟨j, hj⟩

end Reconstruct

/-! ## Matrices given by their entries -/

section OfFn

variable {α : Type} [LinearOrderedField α]

omit [LinearOrderedField α] in
theorem ofFn_square (n : ℕ) (f : ℕ → ℕ → α) : Square n (ofFn n f) := by
  refine ⟨by simp [ofFn], fun r hr => ?_⟩
  simp only [ofFn, List.mem_map] at hr
  obtain ⟨i, _, rfl⟩ := hr
  simp

theorem ent_ofFn {n : ℕ} (f : ℕ → ℕ → α) {i j : ℕ} (hi : i < n) (hj : j < n) :
    ent (ofFn n f) i j = f i j := by
  simp [ent, ofFn, List.getD_eq_getElem?_getD, List.getElem?_map, List.getElem?_range, hi, hj]

/-- A square matrix is the matrix of its entries. -/
theorem eq_ofFn {n : ℕ} {A : Mat α} (h : Square n A) (f : ℕ → ℕ → α)
    (hf : ∀ i j, i < n → j < n → ent A i j = f i j) : A = ofFn n f :=
  h.ext (ofFn_square n f) fun i j hi hj => by rw [hf i j hi hj, ent_ofFn f hi hj]

/-- The scan returns the first position, in row-major order, of the largest
magnitude in the strict upper triangle, when that magnitude is not zero. -/
theorem pivotScan_eq {n : ℕ} {A : Mat α} (h : Square n A) {p q : ℕ} (hpq : p < q)
    (hq : q < n) (hpos : 0 < |ent A p q|)
    (hmax : ∀ i j, i < j → j < n → |ent A i j| ≤ |ent A p q|)
    (hfirst : ∀ i j, i < j → j < n → (i < p ∨ (i = p ∧ j < q)) → |ent A i j| < |ent A p q|) :
    pivotScan n A = (|ent A p q|, p, q) := by
  obtain ⟨_, h2, h3⟩ := pivotScan_inv h
  have hge : |ent A p q| ≤ (pivotScan n A).1 := h2 p q hpq hq (Or.inl (lt_trans hpq hq))
  rcases h3 with h3 | ⟨h4, h5, h6, h7, h8⟩
  · rw [h3] at hge
    exact absurd hge (not_le.mpr hpos)
  · have hle : (pivotScan n A).1 ≤ |ent A p q| := by rw [h6]; exact hmax _ _ h4 h5
    have hm : (pivotScan n A).1 = |ent A p q| := le_antisymm hle hge
    have hp1 : ¬ ((pivotScan n A).2.1 < p ∨
        ((pivotScan n A).2.1 = p ∧ (pivotScan n A).2.2 < q)) := by
      intro hc
      have := hfirst _ _ h4 h5 hc
      rw [← h6, hm] at this
      exact lt_irrefl _ this
    have hp2 : ¬ (p < (pivotScan n A).2.1 ∨
        (p = (pivotScan n A).2.1 ∧ q < (pivotScan n A).2.2)) := by
      intro hc
      have := h8 p q hpq hq hc
      rw [hm] at this
      exact lt_irrefl _ this
    have e1 : (pivotScan n A).2.1 = p := by omega
    have e2 : (pivotScan n A).2.2 = q := by omega
    rw [← hm, ← e1, ← e2]

end OfFn

/-! ## The matrix of 101 blocks: 100 iterations are not enough -/

section Blocks

variable {α : Type} [LinearOrderedField α]

theorem blockMatrix_eq (m : ℕ) : (blockMatrix m : Mat α) = ofFn (2 * m) (blockA 0) := by
  unfold blockMatrix
  congr 1
  funext i j
  unfold blockA
  by_cases h1 : i / 2 = j / 2
  · by_cases h2 : i = j
    · simp [h2]
    · simp [h1, h2]
  · simp [h1]

theorem identity_eq_blockV (c : α) (m : ℕ) :
    (identity (2 * m) : Mat α) = ofFn (2 * m) (blockV c 0) := by
  unfold identity ofFn
  congr 1
  funext i
  congr 1
  funext j
  unfold blockV
  by_cases h2 : i = j
  · simp [h2]
  · by_cases h1 : i / 2 = j / 2
    · simp [h1, h2]
    · simp [h1, h2]

theorem rotEnt_blockA {c : α} (hc : c * c = 1 / 2) {m k : ℕ} (hk : k < m) {a b : ℕ}
    (ha : a < 2 * m) (hb : b < 2 * m) :
    rotEnt c c (2 * m) (2 * k) (2 * k + 1) (ent (ofFn (2 * m) (blockA k : ℕ → ℕ → α))) a b
      = blockA (k + 1) a b := by
  have hp : 2 * k < 2 * m := by omega
  have hq : 2 * k + 1 < 2 * m := by omega
  unfold rotEnt offEnt diagEnt
  simp only [ent_ofFn _ ha hb, ent_ofFn _ ha hp, ent_ofFn _ ha hq, ent_ofFn _ hb hp,
    ent_ofFn _ hb hq, ent_ofFn _ hp hp, ent_ofFn _ hp hq, ent_ofFn _ hq hq]
  have d1 : 2 * k / 2 = k := by omega
  have d2 : (2 * k + 1) / 2 = k := by omega
  have d3 : 2 * k % 2 = 0 := by omega
  have d4 : (2 * k + 1) % 2 = 1 := by omega
  by_cases ha1 : a = 2 * k
  · subst ha1
    by_cases hb1 : b = 2 * k
    · subst hb1
      simp [blockA, d1, d2, d3]
      linear_combination 2 * hc
    · by_cases hb2 : b = 2 * k + 1
      · subst hb2
        simp [blockA, d1, d2]
      · have hb3 : ¬ b / 2 = k := by omega
        have hb4 : ¬ k = b / 2 := by omega
        simp [blockA, d1, d2, hb1, hb2, hb3, hb4, hb]
  · by_cases ha2 : a = 2 * k + 1
    · subst ha2
      by_cases hb1 : b = 2 * k
      · subst hb1
        simp [blockA, d1, d2]
      · by_cases hb2 : b = 2 * k + 1
        · subst hb2
          simp [blockA, d1, d2, d4]
          linear_combination 2 * hc
        · have hb3 : ¬ b / 2 = k := by omega
          have hb4 : ¬ k = b / 2 := by omega
          simp [blockA, d1, d2, hb1, hb2, hb3, hb4, hb]
    · have ha3 : ¬ a / 2 = k := by omega
      have ha4 : ¬ k = a / 2 := by omega
      have ha5 : a / 2 < k + 1 ↔ a / 2 < k := by omega
      by_cases hb1 : b = 2 * k
      · subst hb1
        simp [blockA, d1, d2, ha1, ha2, ha3, ha4, ha]
      · by_cases hb2 : b = 2 * k + 1
        · subst hb2
          simp [blockA, d1, d2, ha1, ha2, ha3, ha4, ha]
        · simp only [blockA, ha1, ha2, hb1, hb2, ha5, false_and, and_false, if_false]

theorem vEnt_blockV (c : α) {m k : ℕ} (hk : k < m) {a b : ℕ}
    (ha : a < 2 * m) (hb : b < 2 * m) :
    vEnt c c (2 * k) (2 * k + 1) (2 * m) (ent (ofFn (2 * m) (blockV c k))) a b
      = blockV c (k + 1) a b := by
  have hp : 2 * k < 2 * m := by omega
  have hq : 2 * k + 1 < 2 * m := by omega
  unfold vEnt
  simp only [ent_ofFn _ ha hb, ent_ofFn _ ha hp, ent_ofFn _ ha hq]
  have d1 : 2 * k / 2 = k := by omega
  have d2 : (2 * k + 1) / 2 = k := by omega
  have d3 : 2 * k % 2 = 0 := by omega
  have d4 : (2 * k + 1) % 2 = 1 := by omega
  by_cases ha1 : a = 2 * k
  · subst ha1
    by_cases hb1 : b = 2 * k
    · subst hb1
      simp [blockV, d1, d2, d3, ha]
    · by_cases hb2 : b = 2 * k + 1
      · subst hb2
        simp [blockV, d1, d2, d3, d4, ha]
      · have hb3 : ¬ b / 2 = k := by omega
        have hb4 : ¬ k = b / 2 := by omega
        simp [blockV, d1, d2, hb1, hb2, hb3, hb4, ha]
  · by_cases ha2 : a = 2 * k + 1
    · subst ha2
      by_cases hb1 : b = 2 * k
      · subst hb1
        simp [blockV, d1, d2, d3, d4, ha]
      · by_cases hb2 : b = 2 * k + 1
        · subst hb2
          simp [blockV, d1, d2, d3, d4, ha]
        · have hb3 : ¬ b / 2 = k := by omega
          have hb4 : ¬ k = b / 2 := by omega
          simp [blockV, d1, d2, hb1, hb2, hb3, hb4, ha]
    · have ha3 : ¬ a / 2 = k := by omega
      have ha4 : ¬ k = a / 2 := by omega
      have ha5 : a / 2 < k + 1 ↔ a / 2 < k := by omega
      by_cases hb1 : b = 2 * k
      · subst hb1
        simp [blockV, d1, d2, ha1, ha2, ha3, ha4, ha]
      · by_cases hb2 : b = 2 * k + 1
        · subst hb2
          simp [blockV, d1, d2, ha1, ha2, ha3, ha4, ha]
        · simp only [blockV, hb1, hb2, ha5, and_false, if_false]

end Blocks

section BlockLoop

variable {α : Type} [LinearOrderedField α]

theorem abs_blockA_le (k i j : ℕ) : |(blockA k i j : α)| ≤ 1 := by
  unfold blockA
  split_ifs <;> simp

/-- On the block matrix after `k` rotations the scan returns the next block. -/
theorem pivotScan_block {m k : ℕ} (hk : k < m) :
    pivotScan (2 * m) (ofFn (2 * m) (blockA k : ℕ → ℕ → α)) = (1, 2 * k, 2 * k + 1) := by
  have hp : 2 * k < 2 * m := by omega
  have hq : 2 * k + 1 < 2 * m := by omega
  have d1 : 2 * k / 2 = k := by omega
  have d2 : (2 * k + 1) / 2 = k := by omega
  have e : ent (ofFn (2 * m) (blockA k : ℕ → ℕ → α)) (2 * k) (2 * k + 1) = 1 := by
    rw [ent_ofFn _ hp hq]
    simp [blockA, d1, d2]
  have := pivotScan_eq (ofFn_square (2 * m) (blockA k : ℕ → ℕ → α)) (Nat.lt_succ_self (2 * k))
    hq (by rw [e]; simp)
    (fun i j hij hj => by
      rw [e, ent_ofFn _ (lt_trans hij hj) hj, abs_one]
      exact abs_blockA_le k i j)
    (fun i j hij hj hlt => by
      rw [e, ent_ofFn _ (lt_trans hij hj) hj, abs_one]
      have hi : i < 2 * k := by omega
      unfold blockA
      by_cases h1 : i / 2 = j / 2
      · have h2 : i / 2 < k := by omega
        have h3 : i ≠ j := by omega
        simp [h1.symm, h2, h3]
      · simp [h1])
  rw [this, e, abs_one]

end BlockLoop

section RealBlocks

theorem arg_block : (1 / 2 * Complex.arg ⟨(0 : ℝ) - 0, 2 * 1⟩ : ℝ) = Real.pi / 4 := by
  rw [show ((0 : ℝ) - 0) = 0 by norm_num, show ((2 : ℝ) * 1) = 2 by norm_num, arg_zero_two]
  ring

/-- One rotation on the block matrix after `k` rotations diagonalises block `k`. -/
theorem rotate_block {m k : ℕ} (hk : k < m) :
    rotate ⟨fun y x => Complex.arg ⟨x, y⟩, Real.cos, Real.sin⟩ (2 * m)
      (ofFn (2 * m) (blockA k)) (ofFn (2 * m) (blockV (Real.sqrt 2 / 2) k))
      (2 * k) (2 * k + 1)
    = some (ofFn (2 * m) (blockA (k + 1)), ofFn (2 * m) (blockV (Real.sqrt 2 / 2) (k + 1))) := by
  have hp : 2 * k < 2 * m := by omega
  have hq : 2 * k + 1 < 2 * m := by omega
  have d1 : 2 * k / 2 = k := by omega
  have d2 : (2 * k + 1) / 2 = k := by omega
  obtain ⟨A', V', hr, h1, h2, h3, h4⟩ :=
    rotate_spec ⟨fun y x => Complex.arg ⟨x, y⟩, Real.cos, Real.sin⟩
      (ofFn_square (2 * m) (blockA k : ℕ → ℕ → ℝ))
      (ofFn_square (2 * m) (blockV (Real.sqrt 2 / 2) k)) hp hq (Nat.ne_of_lt (Nat.lt_succ_self _))
  have hang : angle ⟨fun y x => Complex.arg ⟨x, y⟩, Real.cos, Real.sin⟩
      (ofFn (2 * m) (blockA k : ℕ → ℕ → ℝ)) (2 * k) (2 * k + 1) = Real.pi / 4 := by
    unfold angle
    rw [ent_ofFn _ hp hq, ent_ofFn _ hp hp, ent_ofFn _ hq hq]
    simp only [blockA, d1, d2, lt_irrefl, if_true, if_false,
      Nat.ne_of_lt (Nat.lt_succ_self (2 * k))]
    exact arg_block
  rw [hang] at h3 h4
  simp only [Real.cos_pi_div_four, Real.sin_pi_div_four] at h3 h4
  have hc : Real.sqrt 2 / 2 * (Real.sqrt 2 / 2) = 1 / 2 := by
    have hs : Real.sqrt 2 * Real.sqrt 2 = 2 := Real.mul_self_sqrt (by norm_num)
    linear_combination (1 / 4) * hs
  have eA : A' = ofFn (2 * m) (blockA (k + 1)) :=
    eq_ofFn h1 _ fun a b ha hb => by rw [h3, rotEnt_blockA hc hk ha hb]
  have eV : V' = ofFn (2 * m) (blockV (Real.sqrt 2 / 2) (k + 1)) :=
    eq_ofFn h2 _ fun a b ha hb => by rw [h4, vEnt_blockV _ hk ha hb]
  rw [hr, eA, eV]

/-- From the state after `k` rotations, `j` more iterations rotate the next `j`
blocks, as long as there are that many. -/
theorem jacobiLoop_block (m : ℕ) :
    ∀ j k : ℕ, k + j ≤ m →
      jacobiLoop ⟨fun y x => Complex.arg ⟨x, y⟩, Real.cos, Real.sin⟩ (2 * m) j
        (ofFn (2 * m) (blockA k)) (ofFn (2 * m) (blockV (Real.sqrt 2 / 2) k))
      = some (ofFn (2 * m) (blockA (k + j)),
          ofFn (2 * m) (blockV (Real.sqrt 2 / 2) (k + j))) := by
  intro j
  induction j with
  | zero => intro k _; rfl
  | succ j ih =>
    intro k hkj
    have hk : k < m := by omega
    have hscan := pivotScan_block (α := ℝ) hk
    have hnot : ¬ (pivotScan (2 * m) (ofFn (2 * m) (blockA k : ℕ → ℕ → ℝ))).1 < threshold := by
      rw [hscan]
      unfold threshold
      norm_num
    have hrot := rotate_block hk
    rw [jacobiLoop_rotate _ (2 * m) j _ _ _ _ hnot (by rw [hscan]; exact hrot),
      ih (k + 1) (by omega)]
    rw [show k + 1 + j = k + (j + 1) by omega]

end RealBlocks

section RealClaims

/-- Claim C2 fails as stated. On the symmetric `202 × 202` matrix of 101 blocks
`[[0, 1], [1, 0]]`, the 100 iterations rotate the first 100 blocks and leave the last
one: the result reconstructs the entry `(200, 201)`, which is `1`, as `0`. -/
theorem jacobiEigen_reconstruct_cap :
    Square 202 (blockMatrix 101 : Mat ℝ) ∧ Symmetric 202 (blockMatrix 101 : Mat ℝ) ∧
    ∃ r, jacobiEigen ⟨fun y x => Complex.arg ⟨x, y⟩, Real.cos, Real.sin⟩
        (blockMatrix 101 : Mat ℝ) = some r ∧
      ¬ |reconstruct 202 r 200 201 - ent (blockMatrix 101 : Mat ℝ) 200 201| ≤ 1 / 10 ^ 6 := by
  have hsq : Square 202 (blockMatrix 101 : Mat ℝ) := ofFn_square (2 * 101) _
  have hent : ∀ i j, i < 202 → j < 202 →
      ent (blockMatrix 101 : Mat ℝ) i j = if i / 2 = j / 2 ∧ i ≠ j then 1 else 0 :=
    fun i j hi hj => ent_ofFn (n := 2 * 101) _ hi hj
  refine ⟨hsq, ?_, ?_⟩
  · intro i hi j hj
    rw [hent i j hi hj, hent j i hj hi]
    by_cases h : i / 2 = j / 2 ∧ i ≠ j
    · rw [if_pos h, if_pos ⟨h.1.symm, fun e => h.2 e.symm⟩]
    · rw [if_neg h, if_neg fun h' => h ⟨h'.1.symm, fun e => h'.2 e.symm⟩]
  · have hl := jacobiLoop_block 101 100 0 (by norm_num)
    rw [← blockMatrix_eq, ← identity_eq_blockV] at hl
    have hl' : jacobiLoop ⟨fun y x => Complex.arg ⟨x, y⟩, Real.cos, Real.sin⟩
        (blockMatrix 101 : Mat ℝ).length maxIter (blockMatrix 101)
        (identity (blockMatrix 101 : Mat ℝ).length)
        = some (ofFn (2 * 101) (blockA (0 + 100)),
            ofFn (2 * 101) (blockV (Real.sqrt 2 / 2) (0 + 100))) := by
      rw [hsq.1]
      exact hl
    obtain ⟨r, hr, hrec⟩ := eigenSort_reconstruct
      (ofFn_square (2 * 101) (blockA (0 + 100) : ℕ → ℕ → ℝ))
      (ofFn_square (2 * 101) (blockV (Real.sqrt 2 / 2) (0 + 100)))
    refine ⟨r, by rw [jacobiEigen_eq _ _ hl', hr], ?_⟩
    have hzero : reconstruct 202 r 200 201 = 0 := by
      rw [hrec 200 201 (by norm_num) (by norm_num)]
      refine Finset.sum_eq_zero fun c _ => ?_
      have hc : (c : ℕ) < 2 * 101 := c.isLt
      rw [ent_ofFn _ hc hc, ent_ofFn _ (by norm_num : 200 < 2 * 101) hc]
      by_cases h : (c : ℕ) = 200
      · rw [h]
        simp [blockA]
      · have h1 : ¬ 200 = (c : ℕ) := fun e => h e.symm
        have h2 : (blockV (Real.sqrt 2 / 2) (0 + 100) 200 c : ℝ) = 0 := by
          unfold blockV
          by_cases h3 : 200 / 2 = (c : ℕ) / 2
          · simp [h3.symm, h1]
          · simp [h3]
        rw [h2]; ring
    rw [hzero, hent 200 201 (by norm_num) (by norm_num)]
    norm_num

end RealClaims

/-! ## Rows of the accumulator after at most 100 rotations -/

section Support

variable {α : Type} [LinearOrderedField α]

/-- A row of an orthogonal matrix with at most `c` non-zero entries has magnitudes
that add up to at most `√c`. -/
theorem row_support_sum_sq_le {n : ℕ} {V : Mat α}
    (hO : (toMatrix n V).transpose * toMatrix n V = 1) (i : Fin n) {c : ℕ}
    (hc : (rowSupport n V i).card ≤ c) : (∑ k : Fin n, |ent V i k|) ^ 2 ≤ c := by
  have hO' : toMatrix n V * (toMatrix n V).transpose = 1 := Matrix.mul_eq_one_comm.mp hO
  have h1 : ∑ k : Fin n, ent V i k * ent V i k = 1 := by
    have := congrFun (congrFun hO' i) i
    rw [Matrix.mul_apply] at this
    simpa [toMatrix, Matrix.transpose_apply] using this
  have hsub : ∑ k in rowSupport n V i, |ent V i k| = ∑ k : Fin n, |ent V i k| := by
    apply Finset.sum_subset (Finset.subset_univ _)
    intro k _ hk
    simp only [rowSupport, Finset.mem_filter, Finset.mem_univ, true_and, not_not] at hk
    rw [hk, abs_zero]
  have h2 := sq_sum_le_card_mul_sum_sq (s := rowSupport n V i) (f := fun k => |ent V i k|)
  have h3 : ∑ k in rowSupport n V i, |ent V i k| ^ 2 ≤ 1 := by
    rw [← h1]
    calc ∑ k in rowSupport n V i, |ent V i k| ^ 2
        ≤ ∑ k : Fin n, |ent V i k| ^ 2 :=
          Finset.sum_le_sum_of_subset_of_nonneg (Finset.subset_univ _)
            fun k _ _ => sq_nonneg _
      _ = ∑ k : Fin n, ent V i k * ent V i k :=
          Finset.sum_congr rfl fun k _ => by rw [sq_abs]; ring
  rw [hsub] at h2
  have hc' : ((rowSupport n V i).card : α) ≤ c := by exact_mod_cast hc
  calc (∑ k : Fin n, |ent V i k|) ^ 2
      ≤ (rowSupport n V i).card * ∑ k in rowSupport n V i, |ent V i k| ^ 2 := h2
    _ ≤ (rowSupport n V i).card * 1 :=
        mul_le_mul_of_nonneg_left h3 (Nat.cast_nonneg _)
    _ ≤ c := by rw [mul_one]; exact hc'

theorem rowSupport_identity (n : ℕ) {i : ℕ} (hi : i < n) :
    (rowSupport n (identity n : Mat α) i).card ≤ 1 := by
  have hsub : rowSupport n (identity n : Mat α) i ⊆ {⟨i, hi⟩} := by
    intro k hk
    simp only [rowSupport, Finset.mem_filter, Finset.mem_univ, true_and] at hk
    rw [ent_identity hi k.isLt] at hk
    by_cases h : i = k
    · rw [Finset.mem_singleton]; exact Fin.ext h.symm
    · rw [if_neg h] at hk; exact absurd rfl hk
  calc (rowSupport n (identity n : Mat α) i).card ≤ ({⟨i, hi⟩} : Finset (Fin n)).card :=
        Finset.card_le_card hsub
    _ = 1 := Finset.card_singleton _

/-- The accumulator update of lines 53-57 adds at most one non-zero entry to a row. -/
theorem rowSupport_rotate {n : ℕ} {V V' : Mat α} {p q : ℕ} (hp : p < n) (hq : q < n)
    (c s : α) (hV' : ∀ a b, ent V' a b = vEnt c s p q n (ent V) a b) {i : ℕ} (hi : i < n) :
    (rowSupport n V' i).card ≤ (rowSupport n V i).card + 1 := by
  have hent : ∀ k : Fin n, (k : ℕ) ≠ p → (k : ℕ) ≠ q → ent V' i k = ent V i k := by
    intro k h1 h2
    rw [hV']
    unfold vEnt
    rw [if_neg fun h => h1 h.2, if_neg fun h => h2 h.2]
  have hP : ent V' i p = c * ent V i p + s * ent V i q := by
    rw [hV']; unfold vEnt; rw [if_pos ⟨hi, rfl⟩]
  have hQ : ent V i p = 0 → ent V i q = 0 → ent V' i q = 0 := by
    intro h1 h2
    rw [hV']; unfold vEnt
    split_ifs <;> simp [h1, h2]
  by_cases h1 : ent V i p = 0
  · by_cases h2 : ent V i q = 0
    · -- neither column is in the row: nothing changes
      have hsub : rowSupport n V' i ⊆ rowSupport n V i := by
        intro k hk
        simp only [rowSupport, Finset.mem_filter, Finset.mem_univ, true_and] at hk ⊢
        by_cases hkp : (k : ℕ) = p
        · rw [hkp, hP, h1, h2] at hk; simp at hk
        · by_cases hkq : (k : ℕ) = q
          · rw [hkq, hQ h1 h2] at hk; exact absurd rfl hk
          · rwa [hent k hkp hkq] at hk
      exact le_trans (Finset.card_le_card hsub) (Nat.le_succ _)
    · -- column `q` is in the row: column `p` may join
      have hsub : rowSupport n V' i ⊆ insert ⟨p, hp⟩ (rowSupport n V i) := by
        intro k hk
        simp only [rowSupport, Finset.mem_filter, Finset.mem_univ, true_and,
          Finset.mem_insert] at hk ⊢
        by_cases hkp : (k : ℕ) = p
        · exact Or.inl (Fin.ext hkp)
        · by_cases hkq : (k : ℕ) = q
          · right; rw [hkq]; exact h2
          · right; rwa [hent k hkp hkq] at hk
      exact le_trans (Finset.card_le_card hsub) (Finset.card_insert_le _ _)
  · -- column `p` is in the row: column `q` may join
    have hsub : rowSupport n V' i ⊆ insert ⟨q, hq⟩ (rowSupport n V i) := by
      intro k hk
      simp only [rowSupport, Finset.mem_filter, Finset.mem_univ, true_and,
        Finset.mem_insert] at hk ⊢
      by_cases hkq : (k : ℕ) = q
      · exact Or.inl (Fin.ext hkq)
      · by_cases hkp : (k : ℕ) = p
        · right; rw [hkp]; exact h1
        · right; rwa [hent k hkp hkq] at hk
    exact le_trans (Finset.card_le_card hsub) (Finset.card_insert_le _ _)

/-- A property indexed by the number of rotations done so far. -/
theorem jacobiLoop_inv_count (T : JSMath α) (n : ℕ) (P : ℕ → Mat α → Mat α → Prop)
    (hstep : ∀ r A V, P r A V → ¬ (pivotScan n A).1 < threshold →
      ∃ A' V', rotate T n A V (pivotScan n A).2.1 (pivotScan n A).2.2 = some (A', V') ∧
        P (r + 1) A' V') :
    ∀ (k r : ℕ) (A V : Mat α), P r A V →
      ∃ r' A' V', r' ≤ r + k ∧ jacobiLoop T n k A V = some (A', V') ∧ P r' A' V' := by
  intro k
  induction k with
  | zero => intro r A V h; exact ⟨r, A, V, le_refl _, rfl, h⟩
  | succ k ih =>
    intro r A V h
    by_cases hm : (pivotScan n A).1 < threshold
    · exact ⟨r, A, V, by omega, jacobiLoop_break T n k A V hm, h⟩
    · obtain ⟨A1, V1, hr, h1⟩ := hstep r A V h hm
      obtain ⟨r', A2, V2, hle, hl, h2⟩ := ih (r + 1) A1 V1 h1
      exact ⟨r', A2, V2, by omega, by rw [jacobiLoop_rotate T n k A V A1 V1 hm hr, hl], h2⟩

/-- On a symmetric input the loop ends with `M = V · A · Vᵀ`, and every row of `V`
has at most `maxIter + 1` non-zero entries. -/
theorem jacobiLoop_decomp_support (T : JSMath α) (hT : ExactMath T) {n : ℕ} {M : Mat α}
    (hM : Square n M) (hsym : Symmetric n M) :
    ∃ A V, jacobiLoop T n maxIter M (identity n) = some (A, V) ∧ Decomp n M A V ∧
      ∀ i, i < n → (rowSupport n V i).card ≤ maxIter + 1 := by
  obtain ⟨r, A, V, hr, hl, hD, hS⟩ := jacobiLoop_inv_count T n
    (fun r A V => Decomp n M A V ∧ ∀ i, i < n → (rowSupport n V i).card ≤ r + 1)
    (fun r A V h hm => by
      obtain ⟨hp, hq⟩ := pivotScan_pivot h.1.1 hm
      have hp' := lt_trans hp hq
      have hpq := Nat.ne_of_lt hp
      obtain ⟨A', V', hr, h1⟩ := rotate_decomp T hT h.1 hp' hq hpq
      obtain ⟨A'', V'', hr', _, _, _, h4⟩ := rotate_spec T h.1.1 h.1.2.1 hp' hq hpq
      rw [hr] at hr'
      cases hr'
      exact ⟨A', V', hr, h1, fun i hi =>
        le_trans (rowSupport_rotate hp' hq _ _ h4 hi) (Nat.succ_le_succ (h.2 i hi))⟩)
    maxIter 0 M (identity n)
    ⟨decomp_init hM hsym, fun i hi => rowSupport_identity n hi⟩
  exact ⟨A, V, hl, hD, fun i hi => le_trans (hS i hi) (by omega)⟩

/-- On a symmetric input, when the final working matrix passes the threshold test
of line 33, the result reconstructs every entry of the input within
`(maxIter + 1) · 1e-10`, whatever the size of the matrix. -/
theorem jacobiEigen_error_cap (T : JSMath α) (hT : ExactMath T) {n : ℕ} {M : Mat α}
    (hM : Square n M) (hsym : Symmetric n M)
    (hconv : ∀ A V, jacobiLoop T n maxIter M (identity n) = some (A, V) →
      (pivotScan n A).1 < threshold) :
    ∃ r, jacobiEigen T M = some r ∧
      ∀ i j, i < n → j < n →
        |reconstruct n r i j - ent M i j| ≤ ((maxIter + 1 : ℕ) : α) * threshold := by
  obtain ⟨A, V, hl, hD, hS⟩ := jacobiLoop_decomp_support T hT hM hsym
  obtain ⟨r, hr, hrec⟩ := eigenSort_reconstruct hD.1 hD.2.1
  have hl' := hl
  rw [← hM.1] at hl'
  refine ⟨r, by rw [jacobiEigen_eq T M hl', hr], fun i j hi hj => ?_⟩
  rw [hrec i j hi hj]
  have hlt := hconv A V hl
  have hsum := decomp_error_le hD (le_of_lt threshold_pos)
    (fun k l hkl hl => le_trans (pivotScan_max hD.1 hkl hl) (le_of_lt hlt)) ⟨i, hi⟩ ⟨j, hj⟩
  have hO := hD.2.2.2.1
  have ha := row_support_sum_sq_le hO ⟨i, hi⟩ (hS i hi)
  have hb := row_support_sum_sq_le hO ⟨j, hj⟩ (hS j hj)
  have ha0 : 0 ≤ ∑ k : Fin n, |ent V i k| := Finset.sum_nonneg fun k _ => abs_nonneg _
  have hb0 : 0 ≤ ∑ l : Fin n, |ent V j l| := Finset.sum_nonneg fun k _ => abs_nonneg _
  have hab : (∑ k : Fin n, |ent V i k|) * ∑ l : Fin n, |ent V j l|
      ≤ ((maxIter + 1 : ℕ) : α) := by
    nlinarith [sq_nonneg ((∑ k : Fin n, |ent V i k|) - ∑ l : Fin n, |ent V j l|)]
  calc |∑ c : Fin n, ent A c c * ent V i c * ent V j c - ent M i j|
      ≤ threshold * ((∑ k : Fin n, |ent V i k|) * ∑ l : Fin n, |ent V j l|) := hsum
    _ ≤ threshold * ((maxIter + 1 : ℕ) : α) :=
        mul_le_mul_of_nonneg_left hab (le_of_lt threshold_pos)
    _ = ((maxIter + 1 : ℕ) : α) * threshold := mul_comm _ _

end Support

section RealClaims

/-- Claim C2, amended. For every symmetric `n × n` real matrix `M`, when the working
matrix at the end of the loop passes the threshold test of line 33 (every
strict-upper-triangle entry below `1e-10` in magnitude: the loop did not run into
its cap of 100 iterations with a residual left), the result of `jacobiEigen`
reconstructs `M`: `|Σ_k values[k]·vectors[k][i]·vectors[k][j] − M[i][j]| ≤ 1e-6`
for all `i, j`. -/
theorem jacobiEigen_reconstruct (n : ℕ) (M : Mat ℝ) (hM : Square n M)
    (hsym : Symmetric n M)
    (hconv : ∀ A V,
      jacobiLoop ⟨fun y x => Complex.arg ⟨x, y⟩, Real.cos, Real.sin⟩ n maxIter M (identity n)
        = some (A, V) → (pivotScan n A).1 < threshold) :
    ∃ r, jacobiEigen ⟨fun y x => Complex.arg ⟨x, y⟩, Real.cos, Real.sin⟩ M = some r ∧
      ∀ i j, i < n → j < n → |reconstruct n r i j - ent M i j| ≤ 1 / 10 ^ 6 := by
  obtain ⟨r, hr, hb⟩ := jacobiEigen_error_cap _ real_exactMath hM hsym hconv
  refine ⟨r, hr, fun i j hi hj => le_trans (hb i j hi hj) ?_⟩
  unfold threshold maxIter
  norm_num

/-- Claim C2, amended, on the matrix `[[2, 1], [1, 2]]`. -/
theorem jacobiEigen_reconstruct_witness :
    Square 2 ([[2, 1], [1, 2]] : Mat ℝ) ∧ Symmetric 2 ([[2, 1], [1, 2]] : Mat ℝ) ∧
    (∀ A V,
      jacobiLoop ⟨fun y x => Complex.arg ⟨x, y⟩, Real.cos, Real.sin⟩ 2 maxIter
        ([[2, 1], [1, 2]] : Mat ℝ) (identity 2) = some (A, V) →
      (pivotScan 2 A).1 < threshold) ∧
    ∃ r, jacobiEigen ⟨fun y x => Complex.arg ⟨x, y⟩, Real.cos, Real.sin⟩
        ([[2, 1], [1, 2]] : Mat ℝ) = some r ∧
      ∀ i j, i < 2 → j < 2 →
        |reconstruct 2 r i j - ent ([[2, 1], [1, 2]] : Mat ℝ) i j| ≤ 1 / 10 ^ 6 :=
  have hsym : Symmetric 2 ([[2, 1], [1, 2]] : Mat ℝ) := by
    intro i hi j hj
    interval_cases i <;> interval_cases j <;> simp [ent]
  have hconv : ∀ A V,
      jacobiLoop ⟨fun y x => Complex.arg ⟨x, y⟩, Real.cos, Real.sin⟩ 2 maxIter
        ([[2, 1], [1, 2]] : Mat ℝ) (identity 2) = some (A, V) →
      (pivotScan 2 A).1 < threshold := by
    intro A V h
    rw [jacobiLoop_two_one] at h
    cases h
    rw [pivotScan_three_one]
    exact threshold_pos
  ⟨by decide, hsym, hconv,
    jacobiEigen_reconstruct 2 [[2, 1], [1, 2]] (by decide) hsym hconv⟩

end RealClaims

section NoRotation

variable {α : Type} [LinearOrderedField α]

/-- When the first scan is below the threshold the result is read off the input
and the identity. -/
theorem jacobiEigen_of_scan_lt (T : JSMath α) (M : Mat α)
    (h : (pivotScan M.length M).1 < threshold) :
    jacobiEigen T M = eigenSort M (identity M.length) :=
  jacobiEigen_eq T M (jacobiLoop_break T M.length 99 M (identity M.length) h)

end NoRotation

section RealClaims

theorem pivotScan_identity_four :
    pivotScan 4 ([[1, 0, 0, 0], [0, 1, 0, 0], [0, 0, 1, 0], [0, 0, 0, 1]] : Mat ℝ)
      = (0, 0, 1) := by
  have hr : List.range 4 = [0, 1, 2, 3] := rfl
  simp [pivotScan, scanRow, scanStep, rd, hr, List.range']

/-- Claim C11. On the `4 × 4` identity matrix, whatever the `Math` functions return,
`jacobiEigen` performs no rotation and returns `values = [1, 1, 1, 1]` with the four
standard basis vectors, which are mutually orthonormal. -/
theorem jacobiEigen_identity_four (T : JSMath ℝ) :
    jacobiEigen T ([[1, 0, 0, 0], [0, 1, 0, 0], [0, 0, 1, 0], [0, 0, 0, 1]] : Mat ℝ)
      = some { values := [1, 1, 1, 1]
               vectors := [[1, 0, 0, 0], [0, 1, 0, 0], [0, 0, 1, 0], [0, 0, 0, 1]] } ∧
    ∀ k l, k < 4 → l < 4 →
      dot (([[1, 0, 0, 0], [0, 1, 0, 0], [0, 0, 1, 0], [0, 0, 0, 1]] : Mat ℝ).getD k [])
          (([[1, 0, 0, 0], [0, 1, 0, 0], [0, 0, 1, 0], [0, 0, 0, 1]] : Mat ℝ).getD l [])
        = if k = l then 1 else 0 := by
  have hr : List.range 4 = [0, 1, 2, 3] := rfl
  constructor
  · rw [jacobiEigen_of_scan_lt T _ (by
      show (pivotScan 4 _).1 < threshold
      rw [pivotScan_identity_four]; exact threshold_pos)]
    show eigenSort _ (identity 4) = _
    rw [eigenSort_eq (by decide : Square 4 _) (identity_square 4)]
    simp [sortedIndices, diagList, colList, ent, identity, hr, List.insertionSort,
      List.orderedInsert]
  · intro k l hk hl
    interval_cases k <;> interval_cases l <;> simp [dot]

end RealClaims

/-! ## The cap of 100 iterations -/

section Cap

variable {α : Type} [LinearOrderedField α]

/-- With `k` iterations left the loop on square matrices performs `r ≤ k` rotations
and returns the state it reached; with `r < k` it ended at the threshold test. -/
theorem jacobiLoop_steps (T : JSMath α) {n : ℕ} :
    ∀ (k : ℕ) {A V : Mat α}, Square n A → Square n V →
      ∃ r A' V', r ≤ k ∧ RotSteps T n r (A, V) (A', V') ∧
        jacobiLoop T n k A V = some (A', V') ∧
        (r < k → (pivotScan n A').1 < threshold) ∧ Square n A' ∧ Square n V' := by
  intro k
  induction k with
  | zero =>
    intro A V hA hV
    exact ⟨0, A, V, le_refl _, RotSteps.refl _, rfl, fun h => absurd h (lt_irrefl 0), hA, hV⟩
  | succ k ih =>
    intro A V hA hV
    by_cases hm : (pivotScan n A).1 < threshold
    · exact ⟨0, A, V, Nat.zero_le _, RotSteps.refl _, jacobiLoop_break T n k A V hm,
        fun _ => hm, hA, hV⟩
    · obtain ⟨hp, hq⟩ := pivotScan_pivot hA hm
      obtain ⟨A1, V1, hr, h1, h2, _, _⟩ :=
        rotate_spec T hA hV (lt_trans hp hq) hq (Nat.ne_of_lt hp)
      obtain ⟨r, A2, V2, hle, hsteps, hl, hlt, h3, h4⟩ := ih h1 h2
      exact ⟨r + 1, A2, V2, Nat.succ_le_succ hle, RotSteps.step hm hr hsteps,
        by rw [jacobiLoop_rotate T n k A V A1 V1 hm hr, hl],
        fun h => hlt (Nat.lt_of_succ_lt_succ h), h3, h4⟩

end Cap

section RealClaims

/-- Claim C19. On every square `n × n` real matrix, whatever the `Math` functions
return, the loop of `jacobiEigen` performs `r ≤ 100` rotations and `jacobiEigen`
returns a result read off the state `(A, V)` reached; with `r < 100` the loop ended
at the threshold test, with `r = 100` it returns the current diagonal and accumulator
all the same.  On the symmetric `202 × 202` matrix of 101 blocks `[[0, 1], [1, 0]]`,
with the real `Math` functions, the state returned has the off-diagonal entry
`A[200][201] = 1`, at or above the threshold `1e-10`, and a result is returned. -/
theorem jacobiEigen_cap (T : JSMath ℝ) (n : ℕ) (M : Mat ℝ) (hM : Square n M) :
    (∃ r A V, r ≤ 100 ∧ RotSteps T n r (M, identity n) (A, V) ∧
      jacobiLoop T n maxIter M (identity n) = some (A, V) ∧
      (r < 100 → (pivotScan n A).1 < threshold) ∧
      ∃ res, jacobiEigen T M = some res ∧ eigenSort A V = some res) ∧
    ∃ A V,
      jacobiLoop ⟨fun y x => Complex.arg ⟨x, y⟩, Real.cos, Real.sin⟩ 202 maxIter
        (blockMatrix 101 : Mat ℝ) (identity 202) = some (A, V) ∧
      Symmetric 202 (blockMatrix 101 : Mat ℝ) ∧
      ent A 200 201 = 1 ∧ threshold ≤ |ent A 200 201| ∧
      ¬ (pivotScan 202 A).1 < threshold ∧
      ∃ res, jacobiEigen ⟨fun y x => Complex.arg ⟨x, y⟩, Real.cos, Real.sin⟩
          (blockMatrix 101 : Mat ℝ) = some res ∧ eigenSort A V = some res := by
  constructor
  · obtain ⟨r, A, V, hle, hsteps, hl, hlt, hA, hV⟩ :=
      jacobiLoop_steps T maxIter hM (identity_square n)
    refine ⟨r, A, V, hle, hsteps, hl, hlt, _, ?_, eigenSort_eq hA hV⟩
    have hl' := hl
    rw [← hM.1] at hl'
    rw [jacobiEigen_eq T M hl', eigenSort_eq hA hV]
  · have hsq : Square 202 (blockMatrix 101 : Mat ℝ) := ofFn_square (2 * 101) _
    have hl := jacobiLoop_block 101 100 0 (by norm_num)
    rw [← blockMatrix_eq, ← identity_eq_blockV] at hl
    have hA := ofFn_square (2 * 101) (blockA (0 + 100) : ℕ → ℕ → ℝ)
    have hV := ofFn_square (2 * 101) (blockV (Real.sqrt 2 / 2) (0 + 100))
    have hent : ent (ofFn (2 * 101) (blockA (0 + 100) : ℕ → ℕ → ℝ)) 200 201 = 1 := by
      rw [ent_ofFn _ (by norm_num) (by norm_num)]
      simp [blockA]
    have hthr : (threshold : ℝ) ≤ 1 := by unfold threshold; norm_num
    refine ⟨_, _, hl, ?_, hent, ?_, ?_, _, ?_, eigenSort_eq hA hV⟩
    · intro i hi j hj
      rw [blockMatrix, ent_ofFn (n := 2 * 101) _ hi hj, ent_ofFn (n := 2 * 101) _ hj hi]
      by_cases h : i / 2 = j / 2 ∧ i ≠ j
      · rw [if_pos h, if_pos ⟨h.1.symm, fun e => h.2 e.symm⟩]
      · rw [if_neg h, if_neg fun h' => h ⟨h'.1.symm, fun e => h'.2 e.symm⟩]
    · rw [hent, abs_one]; exact hthr
    · intro hlt
      have hmax := pivotScan_max hA (by norm_num : 200 < 201) (by norm_num : 201 < 2 * 101)
      rw [hent, abs_one] at hmax
      exact absurd (lt_of_le_of_lt hmax hlt) (not_lt.mpr hthr)
    · have hl' : jacobiLoop ⟨fun y x => Complex.arg ⟨x, y⟩, Real.cos, Real.sin⟩
          (blockMatrix 101 : Mat ℝ).length maxIter (blockMatrix 101)
          (identity (blockMatrix 101 : Mat ℝ).length)
          = some (ofFn (2 * 101) (blockA (0 + 100)),
              ofFn (2 * 101) (blockV (Real.sqrt 2 / 2) (0 + 100))) := by
        rw [hsq.1]; exact hl
      rw [jacobiEigen_eq _ _ hl', eigenSort_eq hA hV]

/-- Claim C19 on the matrix `[[2, 1], [1, 2]]`, with the real `Math` functions. -/
theorem jacobiEigen_cap_witness :
    Square 2 ([[2, 1], [1, 2]] : Mat ℝ) ∧
    ((∃ r A V, r ≤ 100 ∧
      RotSteps ⟨fun y x => Complex.arg ⟨x, y⟩, Real.cos, Real.sin⟩ 2 r
        (([[2, 1], [1, 2]] : Mat ℝ), identity 2) (A, V) ∧
      jacobiLoop ⟨fun y x => Complex.arg ⟨x, y⟩, Real.cos, Real.sin⟩ 2 maxIter
        ([[2, 1], [1, 2]] : Mat ℝ) (identity 2) = some (A, V) ∧
      (r < 100 → (pivotScan 2 A).1 < threshold) ∧
      ∃ res, jacobiEigen ⟨fun y x => Complex.arg ⟨x, y⟩, Real.cos, Real.sin⟩
          ([[2, 1], [1, 2]] : Mat ℝ) = some res ∧ eigenSort A V = some res) ∧
    ∃ A V,
      jacobiLoop ⟨fun y x => Complex.arg ⟨x, y⟩, Real.cos, Real.sin⟩ 202 maxIter
        (blockMatrix 101 : Mat ℝ) (identity 202) = some (A, V) ∧
      Symmetric 202 (blockMatrix 101 : Mat ℝ) ∧
      ent A 200 201 = 1 ∧ threshold ≤ |ent A 200 201| ∧
      ¬ (pivotScan 202 A).1 < threshold ∧
      ∃ res, jacobiEigen ⟨fun y x => Complex.arg ⟨x, y⟩, Real.cos, Real.sin⟩
          (blockMatrix 101 : Mat ℝ) = some res ∧ eigenSort A V = some res) :=
  ⟨by decide, jacobiEigen_cap _ 2 [[2, 1], [1, 2]] (by decide)⟩

end RealClaims

/-! ## The spectral embedding -/

section Embedding

variable {α : Type} [LinearOrderedField α]

omit [LinearOrderedField α] in
theorem getElem?_map_range {β : Type} (f : ℕ → β) {N i : ℕ} (hi : i < N) :
    ((List.range N).map f)[i]? = some (f i) := by
  simp [List.getElem?_range, hi]

theorem embedCoord_eq {N : ℕ} {vectors : Mat α} (h : Square N vectors) (k : ℕ) {i : ℕ}
    (hi : i < N) : embedCoord vectors k i = some (axisCoord N vectors k i) := by
  unfold embedCoord axisCoord
  by_cases hk : k < N
  · have hk' : k < vectors.length := by rw [h.1]; exact hk
    have hr := h.2 _ (List.getElem_mem hk')
    have hi' : i < (vectors[k]).length := by rw [hr]; exact hi
    simp [List.getElem?_eq_getElem hk', List.getElem?_eq_getElem hi', hk, ent, embedScale]
  · have hk' : vectors.length ≤ k := by rw [h.1]; omega
    simp [List.getElem?_eq_none hk', hk]

/-- The embedding of `N` nodes from `N` eigenvectors of length `N`: one point per
node, with three coordinates each. -/
theorem embed3D_eq {N : ℕ} {vectors : Mat α} (h : Square N vectors) :
    embed3D N vectors = some ((List.range N).map fun i =>
      { x := axisCoord N vectors 1 i, y := axisCoord N vectors 2 i,
        z := axisCoord N vectors 3 i }) := by
  unfold embed3D
  apply mapM_eq_some_map
  intro i hi
  have hi' := List.mem_range.mp hi
  simp only [embedCoord_eq h _ hi', Option.bind_eq_bind, Option.some_bind]
  rfl

/-- The vectors returned on a square matrix form a square matrix. -/
theorem jacobiEigen_vectors_square (T : JSMath α) {n : ℕ} {M : Mat α} (hM : Square n M) :
    ∃ r, jacobiEigen T M = some r ∧ Square n r.vectors := by
  obtain ⟨A, V, hl, hA, hV⟩ := jacobiLoop_square T maxIter hM (identity_square n)
  rw [← hM.1] at hl
  refine ⟨_, by rw [jacobiEigen_eq T M hl, eigenSort_eq hA hV], ?_, ?_⟩
  · simp only [List.length_map]
    exact sortedIndices_length n A
  · intro v hv
    simp only [List.mem_map] at hv
    obtain ⟨k, _, rfl⟩ := hv
    exact colList_length n V k

/-- The embedding of the `N` nodes of an `N × N` adjacency matrix. -/
theorem spectralEmbedding_eq (T : JSMath α) {N : ℕ} {adj : Mat α} (h : Square N adj) :
    ∃ eigen, jacobiEigen T (graphLaplacian adj) = some eigen ∧ Square N eigen.vectors ∧
      spectralEmbedding T N adj = some ((List.range N).map fun i =>
        { x := axisCoord N eigen.vectors 1 i, y := axisCoord N eigen.vectors 2 i,
          z := axisCoord N eigen.vectors 3 i }) := by
  obtain ⟨eigen, he, hsq⟩ := jacobiEigen_vectors_square T (graphLaplacian_square h)
  refine ⟨eigen, he, hsq, ?_⟩
  unfold spectralEmbedding
  simp only [he, Option.bind_eq_bind, Option.some_bind]
  exact embed3D_eq hsq

end Embedding

section EmbeddingClaims

/-- Claim C14. For an `N × N` adjacency matrix with `N ≥ 4` (the source has `N = 24`),
whatever the `Math` functions return, the embedding computes
`eigen = jacobiEigen(graphLaplacian(adj))`, skips eigenvector 0, and produces `N`
points: the point of node `i` has `x = vectors[1][i]·120`, `y = vectors[2][i]·120`
and `z = vectors[3][i]·120`. -/
theorem spectralEmbedding_axes (T : JSMath ℝ) (N : ℕ) (adj : Mat ℝ) (h : Square N adj)
    (hN : 4 ≤ N) :
    ∃ eigen pts, jacobiEigen T (graphLaplacian adj) = some eigen ∧
      spectralEmbedding T N adj = some pts ∧ pts.length = N ∧
      ∀ i, i < N → ∃ p, pts[i]? = some p ∧
        p.x = (eigen.vectors.getD 1 []).getD i 0 * 120 ∧
        p.y = (eigen.vectors.getD 2 []).getD i 0 * 120 ∧
        p.z = (eigen.vectors.getD 3 []).getD i 0 * 120 := by
  obtain ⟨eigen, he, _, hemb⟩ := spectralEmbedding_eq T h
  refine ⟨eigen, _, he, hemb, by simp, fun i hi => ?_⟩
  refine ⟨_, getElem?_map_range _ hi, ?_, ?_, ?_⟩ <;>
    simp only [axisCoord, ent] <;> rw [if_pos (by omega)]

/-- Claim C14 on the adjacency matrix of the path on four nodes, with the real `Math`
functions. -/
theorem spectralEmbedding_axes_witness :
    Square 4 ([[0, 1, 0, 0], [1, 0, 1, 0], [0, 1, 0, 1], [0, 0, 1, 0]] : Mat ℝ) ∧ 4 ≤ 4 ∧
    ∃ eigen pts,
      jacobiEigen ⟨fun y x => Complex.arg ⟨x, y⟩, Real.cos, Real.sin⟩
        (graphLaplacian ([[0, 1, 0, 0], [1, 0, 1, 0], [0, 1, 0, 1], [0, 0, 1, 0]] : Mat ℝ))
        = some eigen ∧
      spectralEmbedding ⟨fun y x => Complex.arg ⟨x, y⟩, Real.cos, Real.sin⟩ 4
        ([[0, 1, 0, 0], [1, 0, 1, 0], [0, 1, 0, 1], [0, 0, 1, 0]] : Mat ℝ) = some pts ∧
      pts.length = 4 ∧
      ∀ i, i < 4 → ∃ p, pts[i]? = some p ∧
        p.x = (eigen.vectors.getD 1 []).getD i 0 * 120 ∧
        p.y = (eigen.vectors.getD 2 []).getD i 0 * 120 ∧
        p.z = (eigen.vectors.getD 3 []).getD i 0 * 120 :=
  ⟨by decide, le_refl 4, spectralEmbedding_axes _ 4 _ (by decide) (le_refl 4)⟩

/-- The guard of lines 1297-1299 for any value `N` of the constant of line 1232: for
every `N × N` adjacency matrix, whatever the `Math` functions return, every node gets the three coordinates `x`, `y`, `z`, also when
fewer than four eigenvectors exist: the axis that reads eigenvector `1 + k` holds
`vectors[1+k][i]·120` when that eigenvector exists (`1 + k < N`) and `0` when it does
not. -/
theorem spectralEmbedding_padded (T : JSMath ℝ) (N : ℕ) (adj : Mat ℝ) (h : Square N adj) :
    ∃ eigen pts, jacobiEigen T (graphLaplacian adj) = some eigen ∧
      eigen.vectors.length = N ∧
      spectralEmbedding T N adj = some pts ∧ pts.length = N ∧
      ∀ i, i < N → ∃ p, pts[i]? = some p ∧ p.coords.length = 3 ∧
        ∀ k, k < 3 →
          p.coords.getD k 0 =
            if 1 + k < N then (eigen.vectors.getD (1 + k) []).getD i 0 * 120 else 0 := by
  obtain ⟨eigen, he, hsq, hemb⟩ := spectralEmbedding_eq T h
  refine ⟨eigen, _, he, hsq.1, hemb, by simp, fun i hi => ?_⟩
  refine ⟨_, getElem?_map_range _ hi, rfl, fun k hk => ?_⟩
  interval_cases k <;> simp [Point3.coords, axisCoord, ent]

/-- The guard of lines 1297-1299 with `N = 2`, on the two-node graph with one edge, with
the real `Math` functions. -/
theorem spectralEmbedding_padded_witness :
    Square 2 ([[0, 1], [1, 0]] : Mat ℝ) ∧
    ∃ eigen pts,
      jacobiEigen ⟨fun y x => Complex.arg ⟨x, y⟩, Real.cos, Real.sin⟩
        (graphLaplacian ([[0, 1], [1, 0]] : Mat ℝ)) = some eigen ∧
      eigen.vectors.length = 2 ∧
      spectralEmbedding ⟨fun y x => Complex.arg ⟨x, y⟩, Real.cos, Real.sin⟩ 2
        ([[0, 1], [1, 0]] : Mat ℝ) = some pts ∧ pts.length = 2 ∧
      ∀ i, i < 2 → ∃ p, pts[i]? = some p ∧ p.coords.length = 3 ∧
        ∀ k, k < 3 →
          p.coords.getD k 0 =
            if 1 + k < 2 then (eigen.vectors.getD (1 + k) []).getD i 0 * 120 else 0 :=
  ⟨by decide, spectralEmbedding_padded _ 2 _ (by decide)⟩

end EmbeddingClaims

/-! ## Inputs that are not square -/

section Truncate

variable {α : Type}

theorem Wide.truncate_square {n : ℕ} {A : Mat α} (h : Wide n A) : Square n (truncate n A) := by
  refine ⟨by simp [truncate, h.1], fun r hr => ?_⟩
  simp only [truncate, List.mem_map] at hr
  obtain ⟨r0, hr0, rfl⟩ := hr
  simp [h.2 r0 hr0]

theorem rd_truncate (n : ℕ) (A : Mat α) (i : ℕ) {j : ℕ} (hj : j < n) :
    rd (truncate n A) i j = rd A i j := by
  unfold rd truncate
  rw [List.getElem?_map]
  cases A[i]? with
  | none => rfl
  | some row => simp [List.getElem?_take, hj]

theorem wr_truncate {n : ℕ} {A : Mat α} (h : Wide n A) {i j : ℕ} (hi : i < n) (hj : j < n)
    (v : α) :
    ∃ A', wr A i j v = some A' ∧ Wide n A' ∧ wr (truncate n A) i j v = some (truncate n A') := by
  have hi' : i < A.length := by rw [h.1]; exact hi
  have hrow := h.2 _ (List.getElem_mem hi')
  have hj' : j < (A[i]).length := lt_of_lt_of_le hj hrow
  refine ⟨A.set i ((A[i]).set j v), ?_, ?_, ?_⟩
  · simp [wr, List.getElem?_eq_getElem hi', hj']
  · refine ⟨by simp [h.1], fun r hr => ?_⟩
    rcases List.mem_or_eq_of_mem_set hr with h1 | h1
    · exact h.2 r h1
    · rw [h1, List.length_set]; exact hrow
  · have hlen : (List.take n A[i]).length = n := by simp [hrow]
    unfold wr truncate
    rw [List.getElem?_map, List.getElem?_eq_getElem hi']
    simp only [Option.map_some', hlen, hj, if_true]
    congr 1
    rw [List.map_set, List.set_take]

end Truncate

section TruncateLoop

variable {α : Type} [LinearOrderedField α]

/-- Two loops that succeed in lockstep on related states end in related states. -/
theorem foldlM_range_rel {σ τ : Type} (f : σ → ℕ → Option σ) (g : τ → ℕ → Option τ)
    (R : σ → τ → Prop) (n : ℕ)
    (hstep : ∀ k s t, k < n → R s t → ∃ s' t', f s k = some s' ∧ g t k = some t' ∧ R s' t')
    (s0 : σ) (t0 : τ) (h0 : R s0 t0) :
    ∃ s' t', (List.range n).foldlM f s0 = some s' ∧ (List.range n).foldlM g t0 = some t' ∧
      R s' t' := by
  have := foldlM_range_inv (fun (st : σ × τ) k =>
      match f st.1 k, g st.2 k with
      | some s', some t' => some (s', t')
      | _, _ => none)
    (fun k st => R st.1 st.2 ∧ (List.range k).foldlM f s0 = some st.1 ∧
      (List.range k).foldlM g t0 = some st.2) n (s0, t0) ⟨h0, rfl, rfl⟩
    (fun k st hk hst => by
      obtain ⟨s', t', hf, hg, hR⟩ := hstep k st.1 st.2 hk hst.1
      refine ⟨(s', t'), by simp only [hf, hg], hR, ?_, ?_⟩
      · rw [List.range_succ, List.foldlM_append, hst.2.1]; simp [hf]
      · rw [List.range_succ, List.foldlM_append, hst.2.2]; simp [hg])
  obtain ⟨st, _, hR, h1, h2⟩ := this
  exact ⟨st.1, st.2, h1, h2, hR⟩

/-- The scan reads the strict upper triangle only. -/
theorem pivotScan_congr {n : ℕ} {A B : Mat α}
    (h : ∀ i j, i < j → j < n → rd A i j = rd B i j) : pivotScan n A = pivotScan n B := by
  unfold pivotScan
  have hrow : ∀ i st, scanRow n A st i = scanRow n B st i := by
    intro i st
    unfold scanRow
    have hstep : ∀ l : List ℕ, (∀ j ∈ l, i < j ∧ j < n) →
        ∀ st, l.foldl (scanStep A i) st = l.foldl (scanStep B i) st := by
      intro l
      induction l with
      | nil => intro _ _; rfl
      | cons j l ih =>
        intro hl st
        have hj := hl j (List.mem_cons_self _ _)
        rw [List.foldl_cons, List.foldl_cons]
        have e : scanStep A i st j = scanStep B i st j := by
          unfold scanStep; rw [h i j hj.1 hj.2]
        rw [e]
        exact ih (fun j' hj' => hl j' (List.mem_cons_of_mem _ hj')) _
    apply hstep
    intro j hj
    rw [List.mem_range'_1] at hj
    omega
  have : scanRow n A = scanRow n B := by funext st i; exact hrow i st
  rw [this]

theorem pivotScan_truncate (n : ℕ) (A : Mat α) : pivotScan n (truncate n A) = pivotScan n A :=
  pivotScan_congr fun i _ _ hj => rd_truncate n A i hj

theorem rotationAngle_truncate (T : JSMath α) (n : ℕ) (A : Mat α) {p q : ℕ} (hp : p < n)
    (hq : q < n) : rotationAngle T (truncate n A) p q = rotationAngle T A p q := by
  unfold rotationAngle
  rw [rd_truncate n A p hq, rd_truncate n A p hp, rd_truncate n A q hq]

theorem rotateDiag_truncate {n : ℕ} {A : Mat α} (h : Wide n A) {p q : ℕ} (hp : p < n)
    (hq : q < n) (c s : α) :
    ∃ A', rotateDiag c s A p q = some A' ∧ Wide n A' ∧
      rotateDiag c s (truncate n A) p q = some (truncate n A') := by
  have hsq := h.truncate_square
  unfold rotateDiag
  rw [rd_truncate n A p hp, rd_truncate n A q hq, rd_truncate n A p hq, ← rd_truncate n A p hp,
    ← rd_truncate n A q hq, ← rd_truncate n A p hq, rd_eq hsq hp hp, rd_eq hsq hq hq,
    rd_eq hsq hp hq]
  simp only [Option.bind_eq_bind, Option.some_bind]
  obtain ⟨A1, e1, w1, t1⟩ := wr_truncate h hp hp
    (c * c * ent (truncate n A) p p + 2 * s * c * ent (truncate n A) p q
      + s * s * ent (truncate n A) q q)
  obtain ⟨A2, e2, w2, t2⟩ := wr_truncate w1 hq hq
    (s * s * ent (truncate n A) p p - 2 * s * c * ent (truncate n A) p q
      + c * c * ent (truncate n A) q q)
  obtain ⟨A3, e3, w3, t3⟩ := wr_truncate w2 hp hq (0 : α)
  obtain ⟨A4, e4, w4, t4⟩ := wr_truncate w3 hq hp (0 : α)
  refine ⟨A4, ?_, w4, ?_⟩
  · simp only [e1, e2, e3, e4, Option.some_bind]
  · simp only [t1, t2, t3, t4, Option.some_bind]

theorem rd_wide {n : ℕ} {A : Mat α} (h : Wide n A) {i j : ℕ} (hi : i < n) (hj : j < n) :
    rd A i j = some (ent (truncate n A) i j) ∧
      rd (truncate n A) i j = some (ent (truncate n A) i j) := by
  have := rd_eq h.truncate_square hi hj
  exact ⟨by rw [← rd_truncate n A i hj, this], this⟩

theorem rotateOffStep_truncate {n : ℕ} {A : Mat α} (h : Wide n A) {p q i : ℕ} (hp : p < n)
    (hq : q < n) (hi : i < n) (c s : α) :
    ∃ A', rotateOffStep c s p q A i = some A' ∧ Wide n A' ∧
      rotateOffStep c s p q (truncate n A) i = some (truncate n A') := by
  unfold rotateOffStep
  by_cases hipq : i ≠ p ∧ i ≠ q
  · rw [if_pos hipq, if_pos hipq]
    obtain ⟨ra, rta⟩ := rd_wide h hi hp
    obtain ⟨rb, rtb⟩ := rd_wide h hi hq
    obtain ⟨A1, e1, w1, t1⟩ := wr_truncate h hi hp
      (c * ent (truncate n A) i p + s * ent (truncate n A) i q)
    obtain ⟨ra1, rta1⟩ := rd_wide w1 hi hp
    obtain ⟨A2, e2, w2, t2⟩ := wr_truncate w1 hp hi (ent (truncate n A1) i p)
    obtain ⟨A3, e3, w3, t3⟩ := wr_truncate w2 hi hq
      (-s * ent (truncate n A) i p + c * ent (truncate n A) i q)
    obtain ⟨rb3, rtb3⟩ := rd_wide w3 hi hq
    obtain ⟨A4, e4, w4, t4⟩ := wr_truncate w3 hq hi (ent (truncate n A3) i q)
    refine ⟨A4, ?_, w4, ?_⟩
    · simp only [ra, rb, Option.bind_eq_bind, Option.some_bind, e1, ra1, e2, e3, rb3, e4]
    · simp only [rta, rtb, Option.bind_eq_bind, Option.some_bind, t1, rta1, t2, t3, rtb3, t4]
  · rw [if_neg hipq, if_neg hipq]
    exact ⟨A, rfl, h, rfl⟩

/-- One rotation on a matrix with extra columns is the rotation on its first `n`
columns; the extra columns are neither read nor written. -/
theorem rotate_truncate (T : JSMath α) {n : ℕ} {A V : Mat α} (h : Wide n A)
    (hV : Square n V) {p q : ℕ} (hp : p < n) (hq : q < n) (hpq : p ≠ q) :
    ∃ A' V', rotate T n A V p q = some (A', V') ∧ Wide n A' ∧ Square n V' ∧
      rotate T n (truncate n A) V p q = some (truncate n A', V') := by
  have hsq := h.truncate_square
  have hang := rotationAngle_eq T hsq hp hq
  have hang' : rotationAngle T A p q = some (angle T (truncate n A) p q) := by
    rw [← rotationAngle_truncate T n A hp hq, hang]
  obtain ⟨A1, e1, w1, t1⟩ := rotateDiag_truncate h hp hq
    (T.cos (angle T (truncate n A) p q)) (T.sin (angle T (truncate n A) p q))
  obtain ⟨A2, B2, e2, t2, w2, hB⟩ := foldlM_range_rel
    (rotateOffStep (T.cos (angle T (truncate n A) p q))
      (T.sin (angle T (truncate n A) p q)) p q)
    (rotateOffStep (T.cos (angle T (truncate n A) p q))
      (T.sin (angle T (truncate n A) p q)) p q)
    (fun X Y => Wide n X ∧ Y = truncate n X) n
    (fun k X Y hk hXY => by
      obtain ⟨X', ex, wx, tx⟩ := rotateOffStep_truncate hXY.1 hp hq hk
        (T.cos (angle T (truncate n A) p q)) (T.sin (angle T (truncate n A) p q))
      exact ⟨X', truncate n X', ex, by rw [hXY.2, tx], wx, rfl⟩)
    A1 (truncate n A1) ⟨w1, rfl⟩
  obtain ⟨V', e3, s3, _⟩ := vLoop_spec hV hp hq hpq
    (T.cos (angle T (truncate n A) p q)) (T.sin (angle T (truncate n A) p q))
  refine ⟨A2, V', ?_, w2, s3, ?_⟩
  · simp only [rotate, hang', Option.bind_eq_bind, Option.some_bind, e1, e2, e3]
    rfl
  · simp only [rotate, hang, Option.bind_eq_bind, Option.some_bind, t1, t2, e3, hB]
    rfl

/-- The loop on a matrix with extra columns runs as on its first `n` columns. -/
theorem jacobiLoop_truncate (T : JSMath α) {n : ℕ} :
    ∀ (k : ℕ) {A V : Mat α}, Wide n A → Square n V →
      ∃ A' V', jacobiLoop T n k A V = some (A', V') ∧ Wide n A' ∧ Square n V' ∧
        jacobiLoop T n k (truncate n A) V = some (truncate n A', V') := by
  intro k
  induction k with
  | zero => intro A V h hV; exact ⟨A, V, rfl, h, hV, rfl⟩
  | succ k ih =>
    intro A V h hV
    have hscan := pivotScan_truncate n A
    by_cases hm : (pivotScan n A).1 < threshold
    · exact ⟨A, V, jacobiLoop_break T n k A V hm, h, hV,
        jacobiLoop_break T n k _ V (by rw [hscan]; exact hm)⟩
    · have hm' : ¬ (pivotScan n (truncate n A)).1 < threshold := by rw [hscan]; exact hm
      obtain ⟨hp, hq⟩ := pivotScan_pivot h.truncate_square hm'
      rw [hscan] at hp hq
      obtain ⟨A1, V1, e1, w1, s1, t1⟩ :=
        rotate_truncate T h hV (lt_trans hp hq) hq (Nat.ne_of_lt hp)
      obtain ⟨A2, V2, e2, w2, s2, t2⟩ := ih w1 s1
      refine ⟨A2, V2, ?_, w2, s2, ?_⟩
      · rw [jacobiLoop_rotate T n k A V A1 V1 hm e1, e2]
      · rw [jacobiLoop_rotate T n k _ V (truncate n A1) V1 hm' (by rw [hscan]; exact t1), t2]

theorem eigenSort_truncate {n : ℕ} {A : Mat α} (h : Wide n A) (V : Mat α) :
    eigenSort (truncate n A) V = eigenSort A V := by
  have hd : diagonal (truncate n A) = diagonal A := by
    unfold diagonal
    have hlen : (truncate n A).length = A.length := by simp [truncate]
    rw [hlen, h.1]
    rw [mapM_eq_some_map _ (fun i => ent (truncate n A) i i),
      mapM_eq_some_map _ (fun i => ent (truncate n A) i i)]
    · intro i hi
      exact (rd_wide h (List.mem_range.mp hi) (List.mem_range.mp hi)).1
    · intro i hi
      exact (rd_wide h (List.mem_range.mp hi) (List.mem_range.mp hi)).2
  unfold eigenSort
  rw [hd]

/-- On an input with `n` rows of at least `n` entries `jacobiEigen` returns what it
returns on the first `n` columns. -/
theorem jacobiEigen_truncate (T : JSMath α) {n : ℕ} {M : Mat α} (h : Wide n M) :
    jacobiEigen T M = jacobiEigen T (truncate n M) ∧ ∃ r, jacobiEigen T M = some r := by
  obtain ⟨A, V, e, w, s, t⟩ := jacobiLoop_truncate T maxIter h (identity_square n)
  have hlen : (truncate n M).length = n := by simp [truncate, h.1]
  have e' := e
  rw [← h.1] at e'
  have h1 : jacobiEigen T M = eigenSort A V := jacobiEigen_eq T M e'
  have h2 : jacobiEigen T (truncate n M) = eigenSort (truncate n A) V := by
    have := jacobiEigen_eq T (truncate n M) (A := truncate n A) (V := V)
    rw [hlen] at this
    exact this t
  rw [h1, h2, eigenSort_truncate w]
  exact ⟨rfl, _, by rw [← eigenSort_truncate w]; exact eigenSort_eq w.truncate_square s⟩

theorem laplacianStep_squareOf {n : ℕ} (adj : Mat α) {i j : ℕ} (hi : i < n) (hj : j < n)
    (st : List α × α) :
    laplacianStep (squareOf n adj) i st j = laplacianStep adj i st j := by
  have e : rd (squareOf n adj) i j = some ((rd adj i j).getD 0) := by
    unfold squareOf
    rw [rd_eq (ofFn_square n _) hi hj, ent_ofFn _ hi hj]
  unfold laplacianStep
  rw [e]
  cases h : rd adj i j with
  | none => simp
  | some a => simp

/-- The Laplacian reads the entries `adj[i][j]` with `i, j < n` only, and takes a
missing one for no edge. -/
theorem graphLaplacian_squareOf (adj : Mat α) :
    graphLaplacian adj = graphLaplacian (squareOf adj.length adj) ∧
      Square adj.length (graphLaplacian adj) := by
  have hsq : Square adj.length (squareOf adj.length adj) := ofFn_square _ _
  have hstep : ∀ i, i < adj.length → ∀ (l : List ℕ), (∀ j ∈ l, j < adj.length) →
      ∀ st, l.foldl (laplacianStep (squareOf adj.length adj) i) st
        = l.foldl (laplacianStep adj i) st := by
    intro i hi l
    induction l with
    | nil => intro _ _; rfl
    | cons j l ih =>
      intro hl st
      rw [List.foldl_cons, List.foldl_cons,
        laplacianStep_squareOf adj hi (hl j (List.mem_cons_self _ _))]
      exact ih (fun j' hj' => hl j' (List.mem_cons_of_mem _ hj')) _
  have heq : graphLaplacian adj = graphLaplacian (squareOf adj.length adj) := by
    unfold graphLaplacian
    rw [hsq.1]
    apply List.map_congr_left
    intro i hi
    unfold laplacianRow
    rw [hstep i (List.mem_range.mp hi) _ fun j hj => List.mem_range.mp hj]
  refine ⟨heq, ?_⟩
  rw [heq]
  exact graphLaplacian_square hsq

end TruncateLoop

section ShapeClaims

theorem jacobiEigen_two_one_diag (T : JSMath ℝ) :
    jacobiEigen T ([[2, 0], [0, 1]] : Mat ℝ)
      = some { values := [1, 2], vectors := [[0, 1], [1, 0]] } := by
  have hr : List.range 2 = [0, 1] := rfl
  have hscan : pivotScan 2 ([[2, 0], [0, 1]] : Mat ℝ) = (0, 0, 1) := by
    simp [pivotScan, scanRow, scanStep, rd, hr, List.range']
  rw [jacobiEigen_of_scan_lt T _ (by
    show (pivotScan 2 _).1 < threshold
    rw [hscan]; exact threshold_pos)]
  show eigenSort _ (identity 2) = _
  rw [eigenSort_eq (by decide : Square 2 _) (identity_square 2)]
  simp [sortedIndices, diagList, colList, ent, identity, hr, List.insertionSort,
    List.orderedInsert]

/-- Claim C17 fails as stated. Neither function checks the shape: on the `2 × 3`
matrix `[[0, 1, 5], [1, 0, 7]]` `graphLaplacian` returns the Laplacian of
`[[0, 1], [1, 0]]`, and on `[[2, 0, 9], [0, 1, 9]]` `jacobiEigen` returns the result
of `[[2, 0], [0, 1]]`: the third column is silently dropped. -/
theorem shape_not_rejected :
    ¬ Square 2 ([[0, 1, 5], [1, 0, 7]] : Mat ℝ) ∧
    graphLaplacian ([[0, 1, 5], [1, 0, 7]] : Mat ℝ) = [[1, -1], [-1, 1]] ∧
    graphLaplacian ([[0, 1], [1, 0]] : Mat ℝ) = [[1, -1], [-1, 1]] ∧
    ¬ Square 2 ([[2, 0, 9], [0, 1, 9]] : Mat ℝ) ∧
    jacobiEigen ⟨fun y x => Complex.arg ⟨x, y⟩, Real.cos, Real.sin⟩
        ([[2, 0, 9], [0, 1, 9]] : Mat ℝ)
      = some { values := [1, 2], vectors := [[0, 1], [1, 0]] } ∧
    jacobiEigen ⟨fun y x => Complex.arg ⟨x, y⟩, Real.cos, Real.sin⟩ ([[2, 0], [0, 1]] : Mat ℝ)
      = some { values := [1, 2], vectors := [[0, 1], [1, 0]] } := by
  have hr : List.range 2 = [0, 1] := rfl
  refine ⟨by decide, ?_, ?_, by decide, ?_, jacobiEigen_two_one_diag _⟩
  · simp [graphLaplacian, laplacianRow, laplacianStep, rd, hr]
  · simp [graphLaplacian, laplacianRow, laplacianStep, rd, hr]
  · rw [(jacobiEigen_truncate _ (by decide : Wide 2 ([[2, 0, 9], [0, 1, 9]] : Mat ℝ))).1]
    exact jacobiEigen_two_one_diag _

/-- Claim C17, amended. Neither function validates the shape of its input, whatever
the `Math` functions return.  On any array of `n` rows `graphLaplacian` returns an
`n × n` matrix, the Laplacian of the entries `adj[i][j]` with `i, j < n` (columns
beyond `n` are ignored, a missing entry counts as no edge).  On `n` rows of at least
`n` entries each `jacobiEigen` ignores the columns beyond `n` and returns the result
of the first `n` columns. -/
theorem shape_not_checked (T : JSMath ℝ) (M : Mat ℝ) :
    Square M.length (graphLaplacian M) ∧
    graphLaplacian M = graphLaplacian (squareOf M.length M) ∧
    (Wide M.length M →
      ∃ r, jacobiEigen T M = some r ∧ jacobiEigen T (truncate M.length M) = some r) := by
  refine ⟨(graphLaplacian_squareOf M).2, (graphLaplacian_squareOf M).1, fun h => ?_⟩
  obtain ⟨e, r, hr⟩ := jacobiEigen_truncate T h
  exact ⟨r, hr, by rw [← e, hr]⟩

/-- Claim C17, amended, on the matrix `[[2, 0, 9], [0, 1, 9]]`, with the real `Math`
functions. -/
theorem shape_not_checked_witness :
    Wide 2 ([[2, 0, 9], [0, 1, 9]] : Mat ℝ) ∧
    (Square 2 (graphLaplacian ([[2, 0, 9], [0, 1, 9]] : Mat ℝ)) ∧
    graphLaplacian ([[2, 0, 9], [0, 1, 9]] : Mat ℝ)
      = graphLaplacian (squareOf 2 ([[2, 0, 9], [0, 1, 9]] : Mat ℝ)) ∧
    (Wide 2 ([[2, 0, 9], [0, 1, 9]] : Mat ℝ) →
      ∃ r, jacobiEigen ⟨fun y x => Complex.arg ⟨x, y⟩, Real.cos, Real.sin⟩
          ([[2, 0, 9], [0, 1, 9]] : Mat ℝ) = some r ∧
        jacobiEigen ⟨fun y x => Complex.arg ⟨x, y⟩, Real.cos, Real.sin⟩
          (truncate 2 ([[2, 0, 9], [0, 1, 9]] : Mat ℝ)) = some r)) :=
  ⟨by decide, shape_not_checked _ [[2, 0, 9], [0, 1, 9]]⟩

end ShapeClaims

/-! ## Following the working matrix alone -/

section Working

variable {α : Type} [LinearOrderedField α]

/-- One rotation, as far as the working matrix goes. -/
theorem rotate_fst (T : JSMath α) {n : ℕ} {A V : Mat α} (hA : Square n A) (hV : Square n V)
    {p q : ℕ} (hp : p < n) (hq : q < n) (hpq : p ≠ q) :
    ∃ V', Square n V' ∧ rotate T n A V p q = some (rotA T n A p q, V') := by
  obtain ⟨A', V', hr, h1, h2, h3, _⟩ := rotate_spec T hA hV hp hq hpq
  refine ⟨V', h2, ?_⟩
  rw [hr, eq_ofFn h1 _ fun a b _ _ => h3 a b]
  rfl

/-- An iteration whose scan is at or above the threshold, as far as the working
matrix goes. -/
theorem jacobiLoop_rotA (T : JSMath α) {n : ℕ} (k : ℕ) {A V : Mat α} (hA : Square n A)
    (hV : Square n V) {m : α} {p q : ℕ} (hscan : pivotScan n A = (m, p, q))
    (hm : ¬ m < threshold) :
    ∃ V', Square n V' ∧ jacobiLoop T n (k + 1) A V = jacobiLoop T n k (rotA T n A p q) V' := by
  have hm' : ¬ (pivotScan n A).1 < threshold := by rw [hscan]; exact hm
  obtain ⟨hp, hq⟩ := pivotScan_pivot hA hm'
  rw [hscan] at hp hq
  obtain ⟨V', hV', hr⟩ := rotate_fst T hA hV (lt_trans hp hq) hq (Nat.ne_of_lt hp)
  exact ⟨V', hV', jacobiLoop_rotate T n k A V _ V' hm' (by rw [hscan]; exact hr)⟩

/-- An iteration whose scan is below the threshold. -/
theorem jacobiLoop_done (T : JSMath α) {n : ℕ} (k : ℕ) (A V : Mat α) {m : α} {p q : ℕ}
    (hscan : pivotScan n A = (m, p, q)) (hm : m < threshold) :
    jacobiLoop T n (k + 1) A V = some (A, V) :=
  jacobiLoop_break T n k A V (by rw [hscan]; exact hm)

/-- The working matrix after a rotation, from its entries. -/
theorem rotA_eq (T : JSMath α) {n : ℕ} (A : Mat α) (p q : ℕ) {A' : Mat α}
    (hA' : Square n A')
    (h : ∀ i j, i < n → j < n →
      rotEnt (T.cos (angle T A p q)) (T.sin (angle T A p q)) n p q (ent A) i j = ent A' i j) :
    rotA T n A p q = A' :=
  (eq_ofFn hA' _ fun i j hi hj => (h i j hi hj).symm).symm

/-- The values returned depend on the final working matrix only. -/
theorem eigenSort_values {n : ℕ} {A V : Mat α} (hA : Square n A) (hV : Square n V) :
    ∃ r, eigenSort A V = some r ∧
      r.values = (sortedIndices (diagList n A)).map fun k => ent A k k :=
  ⟨_, eigenSort_eq hA hV, rfl⟩

end Working

section RealRotation

/-- For the angle `θ = atan2(y, x) / 2` with `x² + y² = r²`, `r > 0`: the squares and
the product of `cos θ` and `sin θ`. -/
theorem real_rot_sq (x y r : ℝ) (hr : 0 < r) (h : x * x + y * y = r * r) :
    Real.cos (1 / 2 * Complex.arg ⟨x, y⟩) * Real.cos (1 / 2 * Complex.arg ⟨x, y⟩)
        = (1 + x / r) / 2 ∧
    Real.sin (1 / 2 * Complex.arg ⟨x, y⟩) * Real.sin (1 / 2 * Complex.arg ⟨x, y⟩)
        = (1 - x / r) / 2 ∧
    Real.sin (1 / 2 * Complex.arg ⟨x, y⟩) * Real.cos (1 / 2 * Complex.arg ⟨x, y⟩)
        = y / (2 * r) := by
  set t := 1 / 2 * Complex.arg ⟨x, y⟩ with ht
  have h2 : 2 * t = Complex.arg ⟨x, y⟩ := by rw [ht]; ring
  have habs : Complex.abs ⟨x, y⟩ = r := by
    rw [Complex.abs_apply, Complex.normSq_mk, h, Real.sqrt_mul_self (le_of_lt hr)]
  have hz : (⟨x, y⟩ : ℂ) ≠ 0 := by
    intro hz
    rw [hz, map_zero] at habs
    exact absurd habs.symm (ne_of_gt hr)
  have hcos : Real.cos (2 * t) = x / r := by
    rw [h2, Complex.cos_arg hz, habs]
  have hsin : Real.sin (2 * t) = y / r := by
    rw [h2, Complex.sin_arg, habs]
  have hpy := Real.cos_sq_add_sin_sq t
  rw [Real.cos_two_mul] at hcos
  rw [Real.sin_two_mul] at hsin
  have hr0 : r ≠ 0 := ne_of_gt hr
  refine ⟨?_, ?_, ?_⟩
  · linear_combination (1 / 2) * hcos
  · linear_combination hpy - (1 / 2) * hcos
  · have e : y / (2 * r) = (y / r) / 2 := by rw [div_div, mul_comm]
    rw [e]
    linear_combination (1 / 2) * hsin

theorem arg_zero_neg_two : Complex.arg ⟨0, -2⟩ = -(Real.pi / 2) := by
  have h : (⟨0, -2⟩ : ℂ) = ((2 : ℝ) : ℂ) * (-Complex.I) := by
    apply Complex.ext <;> simp
  rw [h, Complex.arg_real_mul _ (by norm_num : (0 : ℝ) < 2), Complex.arg_neg_I]

end RealRotation

/-! ## Entries below the diagonal -/

section LowerTriangle

variable {α : Type} [LinearOrderedField α]

theorem AgreeUpper.rd_congr {n : ℕ} {A B : Mat α} (hA : Square n A) (hB : Square n B)
    (h : AgreeUpper n A B) {i j : ℕ} (hij : i ≤ j) (hj : j < n) : rd A i j = rd B i j := by
  have hi : i < n := lt_of_le_of_lt hij hj
  rw [Eigenspace.rd_eq hA hi hj, Eigenspace.rd_eq hB hi hj, h i hi j hj hij]

/-- C18 (amended): for two square matrices that agree on and above the diagonal, the
pivot scan (lines 24-32) returns the same maximum and pivot, the rotation angle of line 35
is the same on every pivot `p ≤ q`, and when the scan is below the threshold (no rotation
is performed) `jacobiEigen` returns the same result for both. The rotation itself reads
`A[i][p]` and `A[i][q]` below the diagonal (lines 46-47), so nothing is claimed after a
rotation. -/
theorem jacobiEigen_reads_upper (T : JSMath α) {n : ℕ} {A B : Mat α} (hA : Square n A)
    (hB : Square n B) (h : AgreeUpper n A B) :
    pivotScan n A = pivotScan n B ∧
    (∀ p q, p ≤ q → q < n → rotationAngle T A p q = rotationAngle T B p q) ∧
    ((pivotScan n A).1 < threshold → jacobiEigen T A = jacobiEigen T B) := by
  have hscan : pivotScan n A = pivotScan n B :=
    pivotScan_congr fun i j hij hj => h.rd_congr hA hB (le_of_lt hij) hj
  refine ⟨hscan, fun p q hpq hq => ?_, fun hlt => ?_⟩
  · unfold rotationAngle
    rw [h.rd_congr hA hB hpq hq, h.rd_congr hA hB (le_refl p) (lt_of_le_of_lt hpq hq),
      h.rd_congr hA hB (le_refl q) hq]
  · have hltA : (pivotScan A.length A).1 < threshold := by rw [hA.1]; exact hlt
    have hltB : (pivotScan B.length B).1 < threshold := by rw [hB.1, ← hscan]; exact hlt
    rw [jacobiEigen_of_scan_lt T A hltA, jacobiEigen_of_scan_lt T B hltB, hA.1, hB.1,
      eigenSort_eq hA (identity_square n), eigenSort_eq hB (identity_square n)]
    have hd : diagList n A = diagList n B := by
      unfold diagList
      exact List.map_congr_left fun i hi =>
        h i (List.mem_range.mp hi) i (List.mem_range.mp hi) (le_refl i)
    rw [hd]
    congr 2
    exact List.map_congr_left fun i hi => by
      have hi' := sortedIndices_lt B hi
      exact h i hi' i hi' (le_refl i)

end LowerTriangle

section LowerExample

theorem sqrt_two_not_lt_threshold : ¬ Real.sqrt 2 < threshold := by
  have hs : Real.sqrt 2 * Real.sqrt 2 = 2 := Real.mul_self_sqrt (by norm_num)
  unfold threshold
  intro h
  nlinarith [Real.sqrt_nonneg 2]

theorem one_not_lt_threshold : ¬ (1 : ℝ) < threshold := by
  unfold threshold; norm_num

theorem rotA_lower_one :
    rotA ⟨fun y x => Complex.arg ⟨x, y⟩, Real.cos, Real.sin⟩ 3
      ([[0, 1, 0], [1, 0, 0], [1, 1, 0]] : Mat ℝ) 0 1
    = [[1, 0, Real.sqrt 2], [0, -1, 0], [Real.sqrt 2, 0, 0]] := by
  apply rotA_eq _ _ _ _ (by decide)
  intro i j hi hj
  have hang : angle ⟨fun y x => Complex.arg ⟨x, y⟩, Real.cos, Real.sin⟩
      ([[0, 1, 0], [1, 0, 0], [1, 1, 0]] : Mat ℝ) 0 1 = Real.pi / 4 := by
    simp only [angle, ent, List.getD_cons_zero, List.getD_cons_succ]
    exact arg_block
  rw [hang]
  simp only [Real.cos_pi_div_four, Real.sin_pi_div_four]
  have hs : Real.sqrt 2 * Real.sqrt 2 = 2 := Real.mul_self_sqrt (by norm_num)
  interval_cases i <;> interval_cases j <;> simp [rotEnt, offEnt, diagEnt, ent]
  all_goals linear_combination (1 / 2) * hs

theorem rotA_lower_two :
    rotA ⟨fun y x => Complex.arg ⟨x, y⟩, Real.cos, Real.sin⟩ 3
      ([[1, 0, Real.sqrt 2], [0, -1, 0], [Real.sqrt 2, 0, 0]] : Mat ℝ) 0 2
    = [[2, 0, 0], [0, -1, 0], [0, 0, -1]] := by
  apply rotA_eq _ _ _ _ (by decide)
  intro i j hi hj
  have hs : Real.sqrt 2 * Real.sqrt 2 = 2 := Real.mul_self_sqrt (by norm_num)
  obtain ⟨hcc, hss, hsc⟩ := real_rot_sq (1 - 0) (2 * Real.sqrt 2) 3 (by norm_num)
    (by linear_combination 4 * hs)
  have hang : angle ⟨fun y x => Complex.arg ⟨x, y⟩, Real.cos, Real.sin⟩
      ([[1, 0, Real.sqrt 2], [0, -1, 0], [Real.sqrt 2, 0, 0]] : Mat ℝ) 0 2
      = 1 / 2 * Complex.arg ⟨1 - 0, 2 * Real.sqrt 2⟩ := by
    simp only [angle, ent, List.getD_cons_zero, List.getD_cons_succ]
  rw [hang]
  dsimp only
  generalize Real.cos (1 / 2 * Complex.arg ⟨1 - 0, 2 * Real.sqrt 2⟩) = c at hcc hss hsc ⊢
  generalize Real.sin (1 / 2 * Complex.arg ⟨1 - 0, 2 * Real.sqrt 2⟩) = s at hss hsc ⊢
  interval_cases i <;> interval_cases j <;> simp [rotEnt, offEnt, diagEnt, ent]
  · linear_combination hcc + 2 * Real.sqrt 2 * hsc + (2 / 3) * hs
  · linear_combination hss - 2 * Real.sqrt 2 * hsc - (2 / 3) * hs

theorem rotA_upper_one :
    rotA ⟨fun y x => Complex.arg ⟨x, y⟩, Real.cos, Real.sin⟩ 3
      ([[0, 1, 0], [1, 0, 0], [0, 0, 0]] : Mat ℝ) 0 1
    = [[1, 0, 0], [0, -1, 0], [0, 0, 0]] := by
  apply rotA_eq _ _ _ _ (by decide)
  intro i j hi hj
  have hang : angle ⟨fun y x => Complex.arg ⟨x, y⟩, Real.cos, Real.sin⟩
      ([[0, 1, 0], [1, 0, 0], [0, 0, 0]] : Mat ℝ) 0 1 = Real.pi / 4 := by
    simp only [angle, ent, List.getD_cons_zero, List.getD_cons_succ]
    exact arg_block
  rw [hang]
  simp only [Real.cos_pi_div_four, Real.sin_pi_div_four]
  have hs : Real.sqrt 2 * Real.sqrt 2 = 2 := Real.mul_self_sqrt (by norm_num)
  interval_cases i <;> interval_cases j <;> simp [rotEnt, offEnt, diagEnt, ent]
  all_goals linear_combination (1 / 2) * hs

theorem scan_lower_zero :
    pivotScan 3 ([[0, 1, 0], [1, 0, 0], [1, 1, 0]] : Mat ℝ) = (1, 0, 1) := by
  have hr : List.range 3 = [0, 1, 2] := rfl
  have h1 : ¬ (1 : ℝ) < 0 := by norm_num
  simp [pivotScan, scanRow, scanStep, rd, hr, List.range', h1]

theorem scan_upper_zero :
    pivotScan 3 ([[0, 1, 0], [1, 0, 0], [0, 0, 0]] : Mat ℝ) = (1, 0, 1) := by
  have hr : List.range 3 = [0, 1, 2] := rfl
  have h1 : ¬ (1 : ℝ) < 0 := by norm_num
  simp [pivotScan, scanRow, scanStep, rd, hr, List.range', h1]

theorem scan_lower_one :
    pivotScan 3 ([[1, 0, Real.sqrt 2], [0, -1, 0], [Real.sqrt 2, 0, 0]] : Mat ℝ)
      = (Real.sqrt 2, 0, 2) := by
  have hr : List.range 3 = [0, 1, 2] := rfl
  have h1 : ¬ Real.sqrt 2 < 0 := not_lt.mpr (Real.sqrt_nonneg 2)
  simp [pivotScan, scanRow, scanStep, rd, hr, List.range', abs_of_nonneg (Real.sqrt_nonneg 2), h1]

theorem scan_lower_two :
    pivotScan 3 ([[2, 0, 0], [0, -1, 0], [0, 0, -1]] : Mat ℝ) = (0, 0, 1) := by
  have hr : List.range 3 = [0, 1, 2] := rfl
  simp [pivotScan, scanRow, scanStep, rd, hr, List.range']

theorem scan_upper_one :
    pivotScan 3 ([[1, 0, 0], [0, -1, 0], [0, 0, 0]] : Mat ℝ) = (0, 0, 1) := by
  have hr : List.range 3 = [0, 1, 2] := rfl
  simp [pivotScan, scanRow, scanStep, rd, hr, List.range']

theorem values_lower_two :
    ((sortedIndices (diagList 3 ([[2, 0, 0], [0, -1, 0], [0, 0, -1]] : Mat ℝ))).map
      fun k => ent ([[2, 0, 0], [0, -1, 0], [0, 0, -1]] : Mat ℝ) k k) = [-1, -1, 2] := by
  have hr : List.range 3 = [0, 1, 2] := rfl
  norm_num [sortedIndices, diagList, ent, hr, List.insertionSort, List.orderedInsert]

theorem values_upper_one :
    ((sortedIndices (diagList 3 ([[1, 0, 0], [0, -1, 0], [0, 0, 0]] : Mat ℝ))).map
      fun k => ent ([[1, 0, 0], [0, -1, 0], [0, 0, 0]] : Mat ℝ) k k) = [-1, 0, 1] := by
  have hr : List.range 3 = [0, 1, 2] := rfl
  norm_num [sortedIndices, diagList, ent, hr, List.insertionSort, List.orderedInsert]

/-- The run on `[[0,1,0],[1,0,0],[1,1,0]]`: two rotations, values `[-1, -1, 2]`. -/
theorem jacobiEigen_lower_values :
    ∃ r, jacobiEigen ⟨fun y x => Complex.arg ⟨x, y⟩, Real.cos, Real.sin⟩
        ([[0, 1, 0], [1, 0, 0], [1, 1, 0]] : Mat ℝ) = some r ∧ r.values = [-1, -1, 2] := by
  obtain ⟨V1, hV1, e1⟩ := jacobiLoop_rotA ⟨fun y x => Complex.arg ⟨x, y⟩, Real.cos, Real.sin⟩
    99 (by decide : Square 3 ([[0, 1, 0], [1, 0, 0], [1, 1, 0]] : Mat ℝ))
    (identity_square 3) scan_lower_zero one_not_lt_threshold
  rw [rotA_lower_one] at e1
  obtain ⟨V2, hV2, e2⟩ := jacobiLoop_rotA ⟨fun y x => Complex.arg ⟨x, y⟩, Real.cos, Real.sin⟩
    98 (by decide : Square 3 ([[1, 0, Real.sqrt 2], [0, -1, 0], [Real.sqrt 2, 0, 0]] : Mat ℝ))
    hV1 scan_lower_one sqrt_two_not_lt_threshold
  rw [rotA_lower_two] at e2
  have e3 := jacobiLoop_done ⟨fun y x => Complex.arg ⟨x, y⟩, Real.cos, Real.sin⟩ 97
    ([[2, 0, 0], [0, -1, 0], [0, 0, -1]] : Mat ℝ) V2 scan_lower_two threshold_pos
  obtain ⟨r, hr, hv⟩ := eigenSort_values
    (by decide : Square 3 ([[2, 0, 0], [0, -1, 0], [0, 0, -1]] : Mat ℝ)) hV2
  refine ⟨r, ?_, hv.trans values_lower_two⟩
  rw [← hr]
  exact jacobiEigen_eq _ _ (e1.trans (e2.trans e3))

/-- The run on `[[0,1,0],[1,0,0],[0,0,0]]`: one rotation, values `[-1, 0, 1]`. -/
theorem jacobiEigen_upper_values :
    ∃ r, jacobiEigen ⟨fun y x => Complex.arg ⟨x, y⟩, Real.cos, Real.sin⟩
        ([[0, 1, 0], [1, 0, 0], [0, 0, 0]] : Mat ℝ) = some r ∧ r.values = [-1, 0, 1] := by
  obtain ⟨V1, hV1, e1⟩ := jacobiLoop_rotA ⟨fun y x => Complex.arg ⟨x, y⟩, Real.cos, Real.sin⟩
    99 (by decide : Square 3 ([[0, 1, 0], [1, 0, 0], [0, 0, 0]] : Mat ℝ))
    (identity_square 3) scan_upper_zero one_not_lt_threshold
  rw [rotA_upper_one] at e1
  have e3 := jacobiLoop_done ⟨fun y x => Complex.arg ⟨x, y⟩, Real.cos, Real.sin⟩ 98
    ([[1, 0, 0], [0, -1, 0], [0, 0, 0]] : Mat ℝ) V1 scan_upper_one threshold_pos
  obtain ⟨r, hr, hv⟩ := eigenSort_values
    (by decide : Square 3 ([[1, 0, 0], [0, -1, 0], [0, 0, 0]] : Mat ℝ)) hV1
  refine ⟨r, ?_, hv.trans values_upper_one⟩
  rw [← hr]
  exact jacobiEigen_eq _ _ (e1.trans e3)

/-- C18 (counterexample): the matrices `[[0,1,0],[1,0,0],[1,1,0]]` and
`[[0,1,0],[1,0,0],[0,0,0]]` of the claim are square and agree on and above the diagonal,
and `jacobiEigen` returns values `[-1, -1, 2]` for the first and `[-1, 0, 1]` for the
second: the rotation on the pivot `(0, 1)` reads `A[2][0]` and `A[2][1]`. -/
theorem jacobiEigen_lower_triangle_read :
    Square 3 ([[0, 1, 0], [1, 0, 0], [1, 1, 0]] : Mat ℝ) ∧
    Square 3 ([[0, 1, 0], [1, 0, 0], [0, 0, 0]] : Mat ℝ) ∧
    AgreeUpper 3 ([[0, 1, 0], [1, 0, 0], [1, 1, 0]] : Mat ℝ) [[0, 1, 0], [1, 0, 0], [0, 0, 0]] ∧
    ∃ r₁ r₂,
      jacobiEigen ⟨fun y x => Complex.arg ⟨x, y⟩, Real.cos, Real.sin⟩
        ([[0, 1, 0], [1, 0, 0], [1, 1, 0]] : Mat ℝ) = some r₁ ∧
      jacobiEigen ⟨fun y x => Complex.arg ⟨x, y⟩, Real.cos, Real.sin⟩
        ([[0, 1, 0], [1, 0, 0], [0, 0, 0]] : Mat ℝ) = some r₂ ∧
      r₁.values = [-1, -1, 2] ∧ r₂.values = [-1, 0, 1] ∧ r₁.values ≠ r₂.values := by
  obtain ⟨r₁, h₁, v₁⟩ := jacobiEigen_lower_values
  obtain ⟨r₂, h₂, v₂⟩ := jacobiEigen_upper_values
  refine ⟨by decide, by decide, ?_, r₁, r₂, h₁, h₂, v₁, v₂, ?_⟩
  · intro i hi j hj hij
    interval_cases i <;> interval_cases j <;> first | omega | simp [ent]
  · rw [v₁, v₂]
    norm_num

/-- C18 (amended), at `[[1,0],[5,2]]` and `[[1,0],[0,2]]`: no rotation, equal results. -/
theorem jacobiEigen_reads_upper_witness :
    Square 2 ([[1, 0], [5, 2]] : Mat ℝ) ∧ Square 2 ([[1, 0], [0, 2]] : Mat ℝ) ∧
    AgreeUpper 2 ([[1, 0], [5, 2]] : Mat ℝ) [[1, 0], [0, 2]] ∧
    (pivotScan 2 ([[1, 0], [5, 2]] : Mat ℝ)).1 < threshold ∧
    jacobiEigen ⟨fun y x => Complex.arg ⟨x, y⟩, Real.cos, Real.sin⟩ ([[1, 0], [5, 2]] : Mat ℝ)
      = jacobiEigen ⟨fun y x => Complex.arg ⟨x, y⟩, Real.cos, Real.sin⟩ [[1, 0], [0, 2]] := by
  have hu : AgreeUpper 2 ([[1, 0], [5, 2]] : Mat ℝ) [[1, 0], [0, 2]] := by
    intro i hi j hj hij
    interval_cases i <;> interval_cases j <;> first | omega | simp [ent]
  have hs : (pivotScan 2 ([[1, 0], [5, 2]] : Mat ℝ)).1 < threshold := by
    have hr : List.range 2 = [0, 1] := rfl
    simp [pivotScan, scanRow, scanStep, rd, hr, List.range', threshold_pos]
  exact ⟨by decide, by decide, hu, hs,
    (jacobiEigen_reads_upper _ (by decide) (by decide) hu).2.2 hs⟩

end LowerExample

section TwoTriangles

theorem graphLaplacian_two_triangles :
    graphLaplacian ([[0, 1, 1, 0, 0, 0], [1, 0, 1, 0, 0, 0], [1, 1, 0, 0, 0, 0],
      [0, 0, 0, 0, 1, 1], [0, 0, 0, 1, 0, 1], [0, 0, 0, 1, 1, 0]] : Mat ℝ)
    = [[2, -1, -1, 0, 0, 0], [-1, 2, -1, 0, 0, 0], [-1, -1, 2, 0, 0, 0],
      [0, 0, 0, 2, -1, -1], [0, 0, 0, -1, 2, -1], [0, 0, 0, -1, -1, 2]] := by
  have hr : List.range 6 = [0, 1, 2, 3, 4, 5] := rfl
  simp [graphLaplacian, laplacianRow, laplacianStep, rd, hr, List.replicate]
  norm_num

theorem arg_neg_quarter : (1 / 2 * Complex.arg ⟨(2 : ℝ) - 2, 2 * -1⟩ : ℝ) = -(Real.pi / 4) := by
  have : (⟨(2 : ℝ) - 2, 2 * -1⟩ : ℂ) = ⟨0, -2⟩ := by norm_num
  rw [this, arg_zero_neg_two]
  ring

theorem rotA_triangles_one :
    rotA ⟨fun y x => Complex.arg ⟨x, y⟩, Real.cos, Real.sin⟩ 6
      ([[2, -1, -1, 0, 0, 0], [-1, 2, -1, 0, 0, 0], [-1, -1, 2, 0, 0, 0],
      [0, 0, 0, 2, -1, -1], [0, 0, 0, -1, 2, -1], [0, 0, 0, -1, -1, 2]] : Mat ℝ) 0 1
    = [[3, 0, 0, 0, 0, 0], [0, 1, -Real.sqrt 2, 0, 0, 0], [0, -Real.sqrt 2, 2, 0, 0, 0],
      [0, 0, 0, 2, -1, -1], [0, 0, 0, -1, 2, -1], [0, 0, 0, -1, -1, 2]] := by
  apply rotA_eq _ _ _ _ (by decide)
  intro i j hi hj
  have hang : angle ⟨fun y x => Complex.arg ⟨x, y⟩, Real.cos, Real.sin⟩
      ([[2, -1, -1, 0, 0, 0], [-1, 2, -1, 0, 0, 0], [-1, -1, 2, 0, 0, 0],
      [0, 0, 0, 2, -1, -1], [0, 0, 0, -1, 2, -1], [0, 0, 0, -1, -1, 2]] : Mat ℝ) 0 1
      = -(Real.pi / 4) := by
    simp only [angle, ent, List.getD_cons_zero, List.getD_cons_succ]
    exact arg_neg_quarter
  rw [hang]
  simp only [Real.cos_neg, Real.sin_neg, Real.cos_pi_div_four, Real.sin_pi_div_four]
  have hs : Real.sqrt 2 * Real.sqrt 2 = 2 := Real.mul_self_sqrt (by norm_num)
  interval_cases i <;> interval_cases j <;> simp [rotEnt, offEnt, diagEnt, ent]
  all_goals first | linear_combination (3 / 2) * hs | linear_combination (1 / 2) * hs | ring1

theorem rotA_triangles_two :
    rotA ⟨fun y x => Complex.arg ⟨x, y⟩, Real.cos, Real.sin⟩ 6
      ([[3, 0, 0, 0, 0, 0], [0, 1, -Real.sqrt 2, 0, 0, 0], [0, -Real.sqrt 2, 2, 0, 0, 0],
      [0, 0, 0, 2, -1, -1], [0, 0, 0, -1, 2, -1], [0, 0, 0, -1, -1, 2]] : Mat ℝ) 1 2
    = [[3, 0, 0, 0, 0, 0], [0, 3, 0, 0, 0, 0], [0, 0, 0, 0, 0, 0],
      [0, 0, 0, 2, -1, -1], [0, 0, 0, -1, 2, -1], [0, 0, 0, -1, -1, 2]] := by
  apply rotA_eq _ _ _ _ (by decide)
  intro i j hi hj
  have hs : Real.sqrt 2 * Real.sqrt 2 = 2 := Real.mul_self_sqrt (by norm_num)
  obtain ⟨hcc, hss, hsc⟩ := real_rot_sq (1 - 2) (2 * -Real.sqrt 2) 3 (by norm_num)
    (by linear_combination 4 * hs)
  have hang : angle ⟨fun y x => Complex.arg ⟨x, y⟩, Real.cos, Real.sin⟩
      ([[3, 0, 0, 0, 0, 0], [0, 1, -Real.sqrt 2, 0, 0, 0], [0, -Real.sqrt 2, 2, 0, 0, 0],
      [0, 0, 0, 2, -1, -1], [0, 0, 0, -1, 2, -1], [0, 0, 0, -1, -1, 2]] : Mat ℝ) 1 2
      = 1 / 2 * Complex.arg ⟨1 - 2, 2 * -Real.sqrt 2⟩ := by
    simp only [angle, ent, List.getD_cons_zero, List.getD_cons_succ]
  rw [hang]
  dsimp only
  generalize Real.cos (1 / 2 * Complex.arg ⟨1 - 2, 2 * -Real.sqrt 2⟩) = c at hcc hss hsc ⊢
  generalize Real.sin (1 / 2 * Complex.arg ⟨1 - 2, 2 * -Real.sqrt 2⟩) = s at hss hsc ⊢
  interval_cases i <;> interval_cases j <;> simp [rotEnt, offEnt, diagEnt, ent]
  · linear_combination hcc - 2 * Real.sqrt 2 * hsc + 2 * hss + (2 / 3) * hs
  · linear_combination hss + 2 * Real.sqrt 2 * hsc + 2 * hcc - (2 / 3) * hs

theorem rotA_triangles_three :
    rotA ⟨fun y x => Complex.arg ⟨x, y⟩, Real.cos, Real.sin⟩ 6
      ([[3, 0, 0, 0, 0, 0], [0, 3, 0, 0, 0, 0], [0, 0, 0, 0, 0, 0],
      [0, 0, 0, 2, -1, -1], [0, 0, 0, -1, 2, -1], [0, 0, 0, -1, -1, 2]] : Mat ℝ) 3 4
    = [[3, 0, 0, 0, 0, 0], [0, 3, 0, 0, 0, 0], [0, 0, 0, 0, 0, 0],
      [0, 0, 0, 3, 0, 0], [0, 0, 0, 0, 1, -Real.sqrt 2], [0, 0, 0, 0, -Real.sqrt 2, 2]] := by
  apply rotA_eq _ _ _ _ (by decide)
  intro i j hi hj
  have hang : angle ⟨fun y x => Complex.arg ⟨x, y⟩, Real.cos, Real.sin⟩
      ([[3, 0, 0, 0, 0, 0], [0, 3, 0, 0, 0, 0], [0, 0, 0, 0, 0, 0],
      [0, 0, 0, 2, -1, -1], [0, 0, 0, -1, 2, -1], [0, 0, 0, -1, -1, 2]] : Mat ℝ) 3 4
      = -(Real.pi / 4) := by
    simp only [angle, ent, List.getD_cons_zero, List.getD_cons_succ]
    exact arg_neg_quarter
  rw [hang]
  simp only [Real.cos_neg, Real.sin_neg, Real.cos_pi_div_four, Real.sin_pi_div_four]
  have hs : Real.sqrt 2 * Real.sqrt 2 = 2 := Real.mul_self_sqrt (by norm_num)
  interval_cases i <;> interval_cases j <;> simp [rotEnt, offEnt, diagEnt, ent]
  all_goals first | linear_combination (3 / 2) * hs | linear_combination (1 / 2) * hs | ring1

theorem rotA_triangles_four :
    rotA ⟨fun y x => Complex.arg ⟨x, y⟩, Real.cos, Real.sin⟩ 6
      ([[3, 0, 0, 0, 0, 0], [0, 3, 0, 0, 0, 0], [0, 0, 0, 0, 0, 0],
      [0, 0, 0, 3, 0, 0], [0, 0, 0, 0, 1, -Real.sqrt 2], [0, 0, 0, 0, -Real.sqrt 2, 2]] : Mat ℝ) 4 5
    = [[3, 0, 0, 0, 0, 0], [0, 3, 0, 0, 0, 0], [0, 0, 0, 0, 0, 0],
      [0, 0, 0, 3, 0, 0], [0, 0, 0, 0, 3, 0], [0, 0, 0, 0, 0, 0]] := by
  apply rotA_eq _ _ _ _ (by decide)
  intro i j hi hj
  have hs : Real.sqrt 2 * Real.sqrt 2 = 2 := Real.mul_self_sqrt (by norm_num)
  obtain ⟨hcc, hss, hsc⟩ := real_rot_sq (1 - 2) (2 * -Real.sqrt 2) 3 (by norm_num)
    (by linear_combination 4 * hs)
  have hang : angle ⟨fun y x => Complex.arg ⟨x, y⟩, Real.cos, Real.sin⟩
      ([[3, 0, 0, 0, 0, 0], [0, 3, 0, 0, 0, 0], [0, 0, 0, 0, 0, 0],
      [0, 0, 0, 3, 0, 0], [0, 0, 0, 0, 1, -Real.sqrt 2], [0, 0, 0, 0, -Real.sqrt 2, 2]] : Mat ℝ) 4 5
      = 1 / 2 * Complex.arg ⟨1 - 2, 2 * -Real.sqrt 2⟩ := by
    simp only [angle, ent, List.getD_cons_zero, List.getD_cons_succ]
  rw [hang]
  dsimp only
  generalize Real.cos (1 / 2 * Complex.arg ⟨1 - 2, 2 * -Real.sqrt 2⟩) = c at hcc hss hsc ⊢
  generalize Real.sin (1 / 2 * Complex.arg ⟨1 - 2, 2 * -Real.sqrt 2⟩) = s at hss hsc ⊢
  interval_cases i <;> interval_cases j <;> simp [rotEnt, offEnt, diagEnt, ent]
  · linear_combination hcc - 2 * Real.sqrt 2 * hsc + 2 * hss + (2 / 3) * hs
  · linear_combination hss + 2 * Real.sqrt 2 * hsc + 2 * hcc - (2 / 3) * hs

theorem scan_triangles_zero :
    pivotScan 6
      ([[2, -1, -1, 0, 0, 0], [-1, 2, -1, 0, 0, 0], [-1, -1, 2, 0, 0, 0],
      [0, 0, 0, 2, -1, -1], [0, 0, 0, -1, 2, -1], [0, 0, 0, -1, -1, 2]] : Mat ℝ)
    = (1, 0, 1) := by
  have hr : List.range 6 = [0, 1, 2, 3, 4, 5] := rfl
  have h0 : ¬ Real.sqrt 2 < 0 := not_lt.mpr (Real.sqrt_nonneg 2)
  have h1 : ¬ (1 : ℝ) < 0 := by norm_num
  have h2 : (1 : ℝ) < Real.sqrt 2 := by
    rw [Real.lt_sqrt (by norm_num)]; norm_num
  have h3 : ¬ Real.sqrt 2 < 1 := not_lt.mpr h2.le
  simp [pivotScan, scanRow, scanStep, rd, hr, List.range', abs_of_nonneg (Real.sqrt_nonneg 2),
    h0, h1, h2, h3]

theorem scan_triangles_one :
    pivotScan 6
      ([[3, 0, 0, 0, 0, 0], [0, 1, -Real.sqrt 2, 0, 0, 0], [0, -Real.sqrt 2, 2, 0, 0, 0],
      [0, 0, 0, 2, -1, -1], [0, 0, 0, -1, 2, -1], [0, 0, 0, -1, -1, 2]] : Mat ℝ)
    = (Real.sqrt 2, 1, 2) := by
  have hr : List.range 6 = [0, 1, 2, 3, 4, 5] := rfl
  have h0 : ¬ Real.sqrt 2 < 0 := not_lt.mpr (Real.sqrt_nonneg 2)
  have h1 : ¬ (1 : ℝ) < 0 := by norm_num
  have h2 : (1 : ℝ) < Real.sqrt 2 := by
    rw [Real.lt_sqrt (by norm_num)]; norm_num
  have h3 : ¬ Real.sqrt 2 < 1 := not_lt.mpr h2.le
  simp [pivotScan, scanRow, scanStep, rd, hr, List.range', abs_of_nonneg (Real.sqrt_nonneg 2),
    h0, h1, h2, h3]

theorem scan_triangles_two :
    pivotScan 6
      ([[3, 0, 0, 0, 0, 0], [0, 3, 0, 0, 0, 0], [0, 0, 0, 0, 0, 0],
      [0, 0, 0, 2, -1, -1], [0, 0, 0, -1, 2, -1], [0, 0, 0, -1, -1, 2]] : Mat ℝ)
    = (1, 3, 4) := by
  have hr : List.range 6 = [0, 1, 2, 3, 4, 5] := rfl
  have h0 : ¬ Real.sqrt 2 < 0 := not_lt.mpr (Real.sqrt_nonneg 2)
  have h1 : ¬ (1 : ℝ) < 0 := by norm_num
  have h2 : (1 : ℝ) < Real.sqrt 2 := by
    rw [Real.lt_sqrt (by norm_num)]; norm_num
  have h3 : ¬ Real.sqrt 2 < 1 := not_lt.mpr h2.le
  simp [pivotScan, scanRow, scanStep, rd, hr, List.range', abs_of_nonneg (Real.sqrt_nonneg 2),
    h0, h1, h2, h3]

theorem scan_triangles_three :
    pivotScan 6
      ([[3, 0, 0, 0, 0, 0], [0, 3, 0, 0, 0, 0], [0, 0, 0, 0, 0, 0],
      [0, 0, 0, 3, 0, 0], [0, 0, 0, 0, 1, -Real.sqrt 2], [0, 0, 0, 0, -Real.sqrt 2, 2]] : Mat ℝ)
    = (Real.sqrt 2, 4, 5) := by
  have hr : List.range 6 = [0, 1, 2, 3, 4, 5] := rfl
  have h0 : ¬ Real.sqrt 2 < 0 := not_lt.mpr (Real.sqrt_nonneg 2)
  have h1 : ¬ (1 : ℝ) < 0 := by norm_num
  have h2 : (1 : ℝ) < Real.sqrt 2 := by
    rw [Real.lt_sqrt (by norm_num)]; norm_num
  have h3 : ¬ Real.sqrt 2 < 1 := not_lt.mpr h2.le
  simp [pivotScan, scanRow, scanStep, rd, hr, List.range', abs_of_nonneg (Real.sqrt_nonneg 2),
    h0, h1, h2, h3]

theorem scan_triangles_four :
    pivotScan 6
      ([[3, 0, 0, 0, 0, 0], [0, 3, 0, 0, 0, 0], [0, 0, 0, 0, 0, 0],
      [0, 0, 0, 3, 0, 0], [0, 0, 0, 0, 3, 0], [0, 0, 0, 0, 0, 0]] : Mat ℝ)
    = (0, 0, 1) := by
  have hr : List.range 6 = [0, 1, 2, 3, 4, 5] := rfl
  have h0 : ¬ Real.sqrt 2 < 0 := not_lt.mpr (Real.sqrt_nonneg 2)
  have h1 : ¬ (1 : ℝ) < 0 := by norm_num
  have h2 : (1 : ℝ) < Real.sqrt 2 := by
    rw [Real.lt_sqrt (by norm_num)]; norm_num
  have h3 : ¬ Real.sqrt 2 < 1 := not_lt.mpr h2.le
  simp [pivotScan, scanRow, scanStep, rd, hr, List.range', abs_of_nonneg (Real.sqrt_nonneg 2),
    h0, h1, h2, h3]

theorem values_triangles :
    ((sortedIndices (diagList 6
      ([[3, 0, 0, 0, 0, 0], [0, 3, 0, 0, 0, 0], [0, 0, 0, 0, 0, 0],
      [0, 0, 0, 3, 0, 0], [0, 0, 0, 0, 3, 0], [0, 0, 0, 0, 0, 0]] : Mat ℝ))).map
      fun k => ent
      ([[3, 0, 0, 0, 0, 0], [0, 3, 0, 0, 0, 0], [0, 0, 0, 0, 0, 0],
      [0, 0, 0, 3, 0, 0], [0, 0, 0, 0, 3, 0], [0, 0, 0, 0, 0, 0]] : Mat ℝ) k k)
      = [0, 0, 3, 3, 3, 3] := by
  have hr : List.range 6 = [0, 1, 2, 3, 4, 5] := rfl
  norm_num [sortedIndices, diagList, ent, hr, List.insertionSort, List.orderedInsert]

/-- C12: on the Laplacian of two disjoint unit-weight triangles (nodes 0, 1, 2 and
3, 4, 5) `jacobiEigen` returns, in real arithmetic, the values `[0, 0, 3, 3, 3, 3]` after
four rotations: exactly the first two values are below `1e-6` in magnitude. -/
theorem jacobiEigen_two_triangles :
    ∃ r, jacobiEigen ⟨fun y x => Complex.arg ⟨x, y⟩, Real.cos, Real.sin⟩
        (graphLaplacian ([[0, 1, 1, 0, 0, 0], [1, 0, 1, 0, 0, 0], [1, 1, 0, 0, 0, 0],
      [0, 0, 0, 0, 1, 1], [0, 0, 0, 1, 0, 1], [0, 0, 0, 1, 1, 0]] : Mat ℝ)) = some r ∧
      r.values = [0, 0, 3, 3, 3, 3] ∧
      ∀ k : Fin 6, |r.values.getD k 0| < 1 / 10 ^ 6 ↔ k.val < 2 := by
  rw [graphLaplacian_two_triangles]
  obtain ⟨V1, hV1, e1⟩ := jacobiLoop_rotA ⟨fun y x => Complex.arg ⟨x, y⟩, Real.cos, Real.sin⟩
    99 (by decide : Square 6 ([[2, -1, -1, 0, 0, 0], [-1, 2, -1, 0, 0, 0], [-1, -1, 2, 0, 0, 0],
      [0, 0, 0, 2, -1, -1], [0, 0, 0, -1, 2, -1], [0, 0, 0, -1, -1, 2]] : Mat ℝ))
    (identity_square 6) scan_triangles_zero one_not_lt_threshold
  rw [rotA_triangles_one] at e1
  obtain ⟨V2, hV2, e2⟩ := jacobiLoop_rotA ⟨fun y x => Complex.arg ⟨x, y⟩, Real.cos, Real.sin⟩
    98 (by decide : Square 6 ([[3, 0, 0, 0, 0, 0], [0, 1, -Real.sqrt 2, 0, 0, 0], [0, -Real.sqrt 2, 2, 0, 0, 0],
      [0, 0, 0, 2, -1, -1], [0, 0, 0, -1, 2, -1], [0, 0, 0, -1, -1, 2]] : Mat ℝ))
    hV1 scan_triangles_one sqrt_two_not_lt_threshold
  rw [rotA_triangles_two] at e2
  obtain ⟨V3, hV3, e3⟩ := jacobiLoop_rotA ⟨fun y x => Complex.arg ⟨x, y⟩, Real.cos, Real.sin⟩
    97 (by decide : Square 6 ([[3, 0, 0, 0, 0, 0], [0, 3, 0, 0, 0, 0], [0, 0, 0, 0, 0, 0],
      [0, 0, 0, 2, -1, -1], [0, 0, 0, -1, 2, -1], [0, 0, 0, -1, -1, 2]] : Mat ℝ))
    hV2 scan_triangles_two one_not_lt_threshold
  rw [rotA_triangles_three] at e3
  obtain ⟨V4, hV4, e4⟩ := jacobiLoop_rotA ⟨fun y x => Complex.arg ⟨x, y⟩, Real.cos, Real.sin⟩
    96 (by decide : Square 6 ([[3, 0, 0, 0, 0, 0], [0, 3, 0, 0, 0, 0], [0, 0, 0, 0, 0, 0],
      [0, 0, 0, 3, 0, 0], [0, 0, 0, 0, 1, -Real.sqrt 2], [0, 0, 0, 0, -Real.sqrt 2, 2]] : Mat ℝ))
    hV3 scan_triangles_three sqrt_two_not_lt_threshold
  rw [rotA_triangles_four] at e4
  have e5 := jacobiLoop_done ⟨fun y x => Complex.arg ⟨x, y⟩, Real.cos, Real.sin⟩ 95
    ([[3, 0, 0, 0, 0, 0], [0, 3, 0, 0, 0, 0], [0, 0, 0, 0, 0, 0],
      [0, 0, 0, 3, 0, 0], [0, 0, 0, 0, 3, 0], [0, 0, 0, 0, 0, 0]] : Mat ℝ) V4
    scan_triangles_four threshold_pos
  obtain ⟨r, hr, hv⟩ := eigenSort_values
    (by decide : Square 6 ([[3, 0, 0, 0, 0, 0], [0, 3, 0, 0, 0, 0], [0, 0, 0, 0, 0, 0],
      [0, 0, 0, 3, 0, 0], [0, 0, 0, 0, 3, 0], [0, 0, 0, 0, 0, 0]] : Mat ℝ)) hV4
  refine ⟨r, ?_, hv.trans values_triangles, ?_⟩
  · rw [← hr]
    exact jacobiEigen_eq _ _ (e1.trans (e2.trans (e3.trans (e4.trans e5))))
  · rw [hv.trans values_triangles]
    intro k
    fin_cases k <;> norm_num

end TwoTriangles

/-! ## The first eigenpair of a Laplacian -/

section FirstPair

variable {α : Type} [LinearOrderedField α]

theorem graphLaplacian_symmetric {n : ℕ} {adj : Mat α} (h : Square n adj)
    (hsym : Symmetric n adj) : Symmetric n (graphLaplacian adj) := by
  intro i hi j hj
  rw [ent_graphLaplacian h hi hj, ent_graphLaplacian h hj hi]
  by_cases hij : j = i
  · subst hij; rfl
  · rw [if_neg hij, if_neg fun e => hij e.symm, hsym i hi j hj]

/-- With `M = V · A · Vᵀ` and `V` orthogonal, `A = Vᵀ · M · V`. -/
theorem decomp_conj {n : ℕ} {M A V : Mat α} (h : Decomp n M A V) :
    toMatrix n A = (toMatrix n V).transpose * toMatrix n M * toMatrix n V := by
  obtain ⟨_, _, _, hO, hM⟩ := h
  rw [hM]
  simp only [Matrix.mul_assoc]
  rw [hO, Matrix.mul_one, ← Matrix.mul_assoc, hO, Matrix.one_mul]

/-- The diagonal entry `c` of `A = Vᵀ · M · V` is the quadratic form of `M` at column
`c` of `V`. -/
theorem decomp_diag {n : ℕ} {M A V : Mat α} (h : Decomp n M A V) {c : ℕ} (hc : c < n) :
    ent A c c
      = ∑ i in Finset.range n, ∑ j in Finset.range n, ent V i c * ent M i j * ent V j c := by
  have := congrFun (congrFun (decomp_conj h) ⟨c, hc⟩) ⟨c, hc⟩
  simp only [toMatrix, Matrix.mul_apply, Matrix.transpose_apply, Finset.sum_mul] at this
  rw [this, Finset.sum_comm, Finset.sum_range]
  refine Finset.sum_congr rfl fun i _ => ?_
  rw [Finset.sum_range]

/-- One term of the quadratic form of the Laplacian is at most the whole form. -/
theorem laplacian_edge_le {n : ℕ} {adj : Mat α} (h : Square n adj) (hsym : Symmetric n adj)
    (hnn : NonNeg n adj) (hdiag : ZeroDiag n adj) (x : ℕ → α) {i j : ℕ} (hi : i < n)
    (hj : j < n) :
    ent adj i j * (x i - x j) ^ 2
      ≤ ∑ a in Finset.range n, ∑ b in Finset.range n,
          x a * ent (graphLaplacian adj) a b * x b := by
  rw [graphLaplacian_quadratic h hsym hdiag x]
  have hterm : ∀ a ∈ Finset.range n, ∀ b ∈ Finset.range n,
      0 ≤ (if a < b then ent adj a b * (x a - x b) ^ 2 else 0) := by
    intro a ha b hb
    split_ifs
    · exact mul_nonneg (hnn a (Finset.mem_range.mp ha) b (Finset.mem_range.mp hb))
        (sq_nonneg _)
    · exact le_refl 0
  have hrow : ∀ a ∈ Finset.range n,
      0 ≤ ∑ b in Finset.range n, (if a < b then ent adj a b * (x a - x b) ^ 2 else 0) :=
    fun a ha => Finset.sum_nonneg fun b hb => hterm a ha b hb
  have hlt : ∀ a b, a < n → b < n → a < b →
      ent adj a b * (x a - x b) ^ 2
        ≤ ∑ a in Finset.range n, ∑ b in Finset.range n,
          (if a < b then ent adj a b * (x a - x b) ^ 2 else 0) := by
    intro a b ha hb hab
    have h1 : (if a < b then ent adj a b * (x a - x b) ^ 2 else 0)
        ≤ ∑ b in Finset.range n, (if a < b then ent adj a b * (x a - x b) ^ 2 else 0) :=
      Finset.single_le_sum (f := fun b => if a < b then ent adj a b * (x a - x b) ^ 2 else 0)
        (fun b hb => hterm a (Finset.mem_range.mpr ha) b hb) (Finset.mem_range.mpr hb)
    rw [if_pos hab] at h1
    exact le_trans h1 (Finset.single_le_sum
      (f := fun a => ∑ b in Finset.range n,
        (if a < b then ent adj a b * (x a - x b) ^ 2 else 0))
      hrow (Finset.mem_range.mpr ha))
  rcases Nat.lt_trichotomy i j with hij | hij | hij
  · exact hlt i j hi hj hij
  · subst hij
    rw [sub_self, pow_two, mul_zero, mul_zero]
    exact Finset.sum_nonneg hrow
  · have := hlt j i hj hi hij
    rw [hsym i hi j hj]
    calc ent adj j i * (x i - x j) ^ 2 = ent adj j i * (x j - x i) ^ 2 := by ring
      _ ≤ _ := this

/-- The first value of the result is the smallest diagonal entry of the final working
matrix, and the first vector the matching column of the accumulator. -/
theorem eigenSort_first {n : ℕ} {A V : Mat α} (hA : Square n A) (hV : Square n V)
    (hn : 0 < n) :
    ∃ s r, s < n ∧ eigenSort A V = some r ∧ r.values.getD 0 0 = ent A s s ∧
      (∀ i, i < n → (r.vectors.getD 0 []).getD i 0 = ent V i s) ∧
      ∀ c, c < n → ent A s s ≤ ent A c c := by
  have hlen := sortedIndices_length n A
  have hsorted := sortedIndices_values_sorted n A
  have hperm := sortedIndices_perm (diagList n A)
  rw [diagList_length] at hperm
  have hlt : ∀ i ∈ sortedIndices (diagList n A), i < n := fun i hi => sortedIndices_lt A hi
  cases hσ : sortedIndices (diagList n A) with
  | nil => rw [hσ] at hlen; simp at hlen; omega
  | cons s l =>
    rw [hσ] at hsorted hperm hlt
    refine ⟨s, _, hlt s (List.mem_cons_self s l), eigenSort_eq hA hV, ?_, ?_, ?_⟩
    · rw [hσ]; rfl
    · intro i hi
      rw [hσ]
      exact colList_getD V s hi
    · intro c hc
      have hmem : c ∈ s :: l := hperm.mem_iff.mpr (List.mem_range.mpr hc)
      rcases List.mem_cons.mp hmem with rfl | hcl
      · exact le_refl _
      · rw [List.map_cons] at hsorted
        exact List.rel_of_sorted_cons hsorted _ (List.mem_map.mpr ⟨c, hcl, rfl⟩)

end FirstPair

section MinDiag

variable {α : Type} [LinearOrderedField α]

open Matrix in
/-- With `M = V · A · Vᵀ`, `V` orthogonal, the entries of `M` adding up to zero and the
off-diagonal entries of the symmetric `A` at most `ε` in magnitude, a lower bound `m` of
the diagonal of `A` satisfies `m · n ≤ ε · n · n`. -/
theorem decomp_min_diag_le {n : ℕ} {M A V : Mat α} (h : Decomp n M A V)
    (hzero : ∑ i in Finset.range n, ∑ j in Finset.range n, ent M i j = 0) {ε : α}
    (hε0 : 0 ≤ ε) (hε : ∀ k l, k < l → l < n → |ent A k l| ≤ ε) {m : α}
    (hm : ∀ c, c < n → m ≤ ent A c c) : m * n ≤ ε * n * n := by
  obtain ⟨_, _, hsym, hO, hM⟩ := h
  have hO' : toMatrix n V * (toMatrix n V).transpose = 1 := Matrix.mul_eq_one_comm.mp hO
  have hoff : ∀ k l : Fin n, k ≠ l → |ent A k l| ≤ ε := by
    intro k l hkl
    rcases Nat.lt_or_gt_of_ne (fun e => hkl (Fin.ext e)) with h1 | h1
    · exact hε k l h1 l.isLt
    · rw [hsym k k.isLt l l.isLt]
      exact hε l k h1 k.isLt
  set u : Fin n → α := Matrix.vecMul 1 (toMatrix n V) with hu
  have hu' : u = (toMatrix n V).transpose *ᵥ 1 := by rw [hu, Matrix.mulVec_transpose]
  -- the squares of `u` add up to `n`
  have huu : ∑ c : Fin n, u c * u c = n := by
    have : u ⬝ᵥ u = n := by
      nth_rewrite 2 [hu']
      rw [hu, ← Matrix.dotProduct_mulVec, Matrix.mulVec_mulVec, hO', Matrix.one_mulVec]
      simp [Matrix.dotProduct]
    simpa [Matrix.dotProduct] using this
  -- the form of `A` at `u` is the sum of the entries of `M`
  have huAu : ∑ c : Fin n, ∑ d : Fin n, u c * ent A c d * u d = 0 := by
    have e : u ⬝ᵥ (toMatrix n A *ᵥ u) = 0 := by
      nth_rewrite 2 [hu']
      rw [hu, ← Matrix.dotProduct_mulVec, Matrix.mulVec_mulVec, Matrix.mulVec_mulVec, ← hM]
      simp only [Matrix.dotProduct, Matrix.mulVec, Pi.one_apply, one_mul, mul_one, toMatrix]
      rw [← hzero, Finset.sum_range]
      exact Finset.sum_congr rfl fun i _ => by rw [Finset.sum_range]
    rw [← e]
    simp only [Matrix.dotProduct, Matrix.mulVec, toMatrix, Finset.mul_sum]
    exact Finset.sum_congr rfl fun c _ => Finset.sum_congr rfl fun d _ => by ring
  -- split the form into its diagonal and the rest
  have hsplit : ∑ c : Fin n, ent A c c * (u c * u c)
      = ∑ c : Fin n, ∑ d : Fin n, -(if d = c then 0 else u c * ent A c d * u d) := by
    have e : ∀ c : Fin n, ∑ d : Fin n, -(if d = c then 0 else u c * ent A c d * u d)
        = ent A c c * (u c * u c) - ∑ d : Fin n, u c * ent A c d * u d := by
      intro c
      have : ∀ d : Fin n, -(if d = c then 0 else u c * ent A c d * u d)
          = (if d = c then ent A c c * (u c * u c) else 0) - u c * ent A c d * u d := by
        intro d
        by_cases hdc : d = c
        · subst hdc; rw [if_pos rfl, if_pos rfl]; ring
        · rw [if_neg hdc, if_neg hdc]; ring
      rw [Finset.sum_congr rfl fun d _ => this d, Finset.sum_sub_distrib,
        Finset.sum_ite_eq' Finset.univ c, if_pos (Finset.mem_univ c)]
    rw [Finset.sum_congr rfl fun c _ => e c, Finset.sum_sub_distrib, huAu, sub_zero]
  have hterm : ∀ c d : Fin n, -(if d = c then 0 else u c * ent A c d * u d)
      ≤ |u c| * ε * |u d| := by
    intro c d
    split_ifs with hdc
    · rw [neg_zero]
      exact mul_nonneg (mul_nonneg (abs_nonneg _) hε0) (abs_nonneg _)
    · refine le_trans (neg_le_abs _) ?_
      rw [abs_mul, abs_mul]
      exact mul_le_mul_of_nonneg_right
        (mul_le_mul_of_nonneg_left (hoff c d fun e => hdc e.symm) (abs_nonneg _))
        (abs_nonneg _)
  have hcs : (∑ c : Fin n, |u c|) ^ 2 ≤ n * n := by
    have h2 := sq_sum_le_card_mul_sum_sq (s := (Finset.univ : Finset (Fin n)))
      (f := fun c => |u c|)
    have h3 : ∑ c : Fin n, |u c| ^ 2 = n := by
      rw [← huu]
      exact Finset.sum_congr rfl fun c _ => by rw [sq_abs]; ring
    rw [h3] at h2
    simpa using h2
  calc m * n = ∑ c : Fin n, m * (u c * u c) := by rw [← Finset.mul_sum, huu]
    _ ≤ ∑ c : Fin n, ent A c c * (u c * u c) :=
        Finset.sum_le_sum fun c _ =>
          mul_le_mul_of_nonneg_right (hm c c.isLt) (mul_self_nonneg _)
    _ = ∑ c : Fin n, ∑ d : Fin n, -(if d = c then 0 else u c * ent A c d * u d) := hsplit
    _ ≤ ∑ c : Fin n, ∑ d : Fin n, |u c| * ε * |u d| :=
        Finset.sum_le_sum fun c _ => Finset.sum_le_sum fun d _ => hterm c d
    _ = ε * (∑ c : Fin n, |u c|) ^ 2 := by
        rw [pow_two, Finset.sum_mul_sum, Finset.mul_sum]
        refine Finset.sum_congr rfl fun c _ => ?_
        rw [Finset.mul_sum]
        exact Finset.sum_congr rfl fun d _ => by ring
    _ ≤ ε * (n * n) := mul_le_mul_of_nonneg_left hcs hε0
    _ = ε * n * n := by ring

end MinDiag

section FirstPairLoop

variable {α : Type} [LinearOrderedField α]

/-- The entries of the Laplacian of a symmetric matrix with zero diagonal add up to
zero. -/
theorem graphLaplacian_sum_zero {n : ℕ} {adj : Mat α} (h : Square n adj)
    (hsym : Symmetric n adj) (hdiag : ZeroDiag n adj) :
    ∑ i in Finset.range n, ∑ j in Finset.range n, ent (graphLaplacian adj) i j = 0 := by
  have hq := graphLaplacian_quadratic h hsym hdiag fun _ => (1 : α)
  simp only [one_mul, mul_one, sub_self, ne_eq, OfNat.ofNat_ne_zero, not_false_eq_true,
    zero_pow, mul_zero, ite_self, Finset.sum_const_zero] at hq
  exact hq

/-- The first eigenpair returned for the Laplacian of a symmetric, non-negative adjacency
matrix with zero diagonal, with exact `Math` functions: the first value is non-negative,
it bounds `adj[i][j] · (v[i] - v[j])²` for the first vector `v`, and it is at most
`n · 1e-10` when the final working matrix passes the threshold test. -/
theorem laplacian_first_pair_exact (T : JSMath α) (hT : ExactMath T) {n : ℕ} {adj : Mat α}
    (h : Square n adj) (hsym : Symmetric n adj) (hnn : NonNeg n adj)
    (hdiag : ZeroDiag n adj) :
    ∃ A V r, jacobiLoop T n maxIter (graphLaplacian adj) (identity n) = some (A, V) ∧
      jacobiEigen T (graphLaplacian adj) = some r ∧
      0 ≤ r.values.getD 0 0 ∧
      (∀ i j, i < n → j < n →
        ent adj i j * ((r.vectors.getD 0 []).getD i 0 - (r.vectors.getD 0 []).getD j 0) ^ 2
          ≤ r.values.getD 0 0) ∧
      ((pivotScan n A).1 < threshold → r.values.getD 0 0 ≤ n * threshold) := by
  have hL := graphLaplacian_square h
  have hLs := graphLaplacian_symmetric h hsym
  obtain ⟨A, V, hl, hD⟩ := jacobiLoop_decomp T hT (graphLaplacian adj) maxIter
    (decomp_init hL hLs)
  have hl' := hl
  rw [← hL.1] at hl'
  rcases Nat.eq_zero_or_pos n with hn | hn
  · subst hn
    refine ⟨A, V, _, hl, by rw [jacobiEigen_eq T _ hl', eigenSort_eq hD.1 hD.2.1], ?_, ?_, ?_⟩
    · have : sortedIndices (diagList 0 A) = [] :=
        List.eq_nil_of_length_eq_zero (sortedIndices_length 0 A)
      simp [this]
    · intro i j hi
      omega
    · intro _
      have : sortedIndices (diagList 0 A) = [] :=
        List.eq_nil_of_length_eq_zero (sortedIndices_length 0 A)
      simp [this]
  · obtain ⟨s, r, hs, hr, hv, hvec, hmin⟩ := eigenSort_first hD.1 hD.2.1 hn
    have hform := decomp_diag hD hs
    have hedge : ∀ i j, i < n → j < n →
        ent adj i j * (ent V i s - ent V j s) ^ 2 ≤ ent A s s := by
      intro i j hi hj
      rw [hform]
      exact laplacian_edge_le h hsym hnn hdiag (fun i => ent V i s) hi hj
    refine ⟨A, V, r, hl, by rw [jacobiEigen_eq T _ hl', hr], ?_, ?_, ?_⟩
    · rw [hv]
      have := hedge 0 0 hn hn
      rwa [sub_self, pow_two, mul_zero, mul_zero] at this
    · intro i j hi hj
      rw [hv, hvec i hi, hvec j hj]
      exact hedge i j hi hj
    · intro hlt
      rw [hv]
      have hb := decomp_min_diag_le hD (graphLaplacian_sum_zero h hsym hdiag)
        (le_of_lt threshold_pos)
        (fun k l hkl hl => le_trans (pivotScan_max hD.1 hkl hl) (le_of_lt hlt)) hmin
      have hn' : (0 : α) < n := Nat.cast_pos.mpr hn
      have : ent A s s * n ≤ (n * threshold) * n := by
        calc ent A s s * n ≤ threshold * n * n := hb
          _ = (n * threshold) * n := by ring
      exact le_of_mul_le_mul_right this hn'

end FirstPairLoop

section RealClaims

/-- Claim C13 fails on the code. The two nodes joined by an edge of weight `1e-11` form a
connected graph with a symmetric, non-negative adjacency matrix with zero diagonal. The
only off-diagonal entry of its Laplacian is below the threshold `1e-10`, so no rotation
is performed: the values are `[1e-11, 1e-11]` and the first vector is `[1, 0]`, whose
components differ by `1`. -/
theorem laplacian_first_vector_not_constant :
    Square 2 ([[0, 1 / 10 ^ 11], [1 / 10 ^ 11, 0]] : Mat ℝ) ∧
    Symmetric 2 ([[0, 1 / 10 ^ 11], [1 / 10 ^ 11, 0]] : Mat ℝ) ∧
    NonNeg 2 ([[0, 1 / 10 ^ 11], [1 / 10 ^ 11, 0]] : Mat ℝ) ∧
    ZeroDiag 2 ([[0, 1 / 10 ^ 11], [1 / 10 ^ 11, 0]] : Mat ℝ) ∧
    Connected 2 ([[0, 1 / 10 ^ 11], [1 / 10 ^ 11, 0]] : Mat ℝ) ∧
    ∃ r, jacobiEigen ⟨fun y x => Complex.arg ⟨x, y⟩, Real.cos, Real.sin⟩
        (graphLaplacian ([[0, 1 / 10 ^ 11], [1 / 10 ^ 11, 0]] : Mat ℝ)) = some r ∧
      r.values = [1 / 10 ^ 11, 1 / 10 ^ 11] ∧ r.vectors = [[1, 0], [0, 1]] ∧
      (r.vectors.getD 0 []).getD 0 0 - (r.vectors.getD 0 []).getD 1 0 = 1 := by
  have hr : List.range 2 = [0, 1] := rfl
  have hL : graphLaplacian ([[0, 1 / 10 ^ 11], [1 / 10 ^ 11, 0]] : Mat ℝ)
      = [[1 / 10 ^ 11, -(1 / 10 ^ 11)], [-(1 / 10 ^ 11), 1 / 10 ^ 11]] := by
    simp [graphLaplacian, laplacianRow, laplacianStep, rd, hr, List.replicate]
  have hscan : (pivotScan 2
      ([[1 / 10 ^ 11, -(1 / 10 ^ 11)], [-(1 / 10 ^ 11), 1 / 10 ^ 11]] : Mat ℝ)).1
        < threshold := by
    have e : pivotScan 2
        ([[1 / 10 ^ 11, -(1 / 10 ^ 11)], [-(1 / 10 ^ 11), 1 / 10 ^ 11]] : Mat ℝ)
          = (1 / 10 ^ 11, 0, 1) := by
      simp [pivotScan, scanRow, scanStep, rd, hr, List.range']
    rw [e]
    unfold threshold
    norm_num
  refine ⟨by decide, ?_, ?_, ?_, ?_, ?_⟩
  · intro i hi j hj
    interval_cases i <;> interval_cases j <;> simp [ent]
  · intro i hi j hj
    interval_cases i <;> interval_cases j <;> simp [ent]
  · intro i hi
    interval_cases i <;> simp [ent]
  · have e01 : (0 : ℝ) < ent ([[0, 1 / 10 ^ 11], [1 / 10 ^ 11, 0]] : Mat ℝ) 0 1 := by
      simp [ent]
    have e10 : (0 : ℝ) < ent ([[0, 1 / 10 ^ 11], [1 / 10 ^ 11, 0]] : Mat ℝ) 1 0 := by
      simp [ent]
    intro i hi j hj
    interval_cases i <;> interval_cases j
    · exact Relation.ReflTransGen.refl
    · exact Relation.ReflTransGen.single ⟨by omega, by omega, e01⟩
    · exact Relation.ReflTransGen.single ⟨by omega, by omega, e10⟩
    · exact Relation.ReflTransGen.refl
  · rw [hL, jacobiEigen_of_scan_lt _ _ hscan]
    refine ⟨_, eigenSort_eq (by decide : Square 2 _) (identity_square 2), ?_, ?_, ?_⟩ <;>
      simp [sortedIndices, diagList, colList, ent, identity, hr, List.insertionSort,
        List.orderedInsert]

/-- What the first pair of the result does satisfy: for every symmetric `n × n`
adjacency matrix with non-negative weights and zero diagonal (connected or not), in real
arithmetic the result of
`jacobiEigen(graphLaplacian(adj))` satisfies `0 ≤ values[0]` and
`adj[i][j] · (vectors[0][i] - vectors[0][j])² ≤ values[0]` for all nodes `i`, `j`; and
when the final working matrix passes the threshold test of line 33 (the loop did not stop
at its cap with a residual left), `values[0] ≤ n · 1e-10`, which is below `1e-6` for
`n < 10000`. -/
theorem laplacian_first_pair (n : ℕ) (adj : Mat ℝ) (h : Square n adj)
    (hsym : Symmetric n adj) (hnn : NonNeg n adj) (hdiag : ZeroDiag n adj) :
    ∃ r, jacobiEigen ⟨fun y x => Complex.arg ⟨x, y⟩, Real.cos, Real.sin⟩
        (graphLaplacian adj) = some r ∧
      0 ≤ r.values.getD 0 0 ∧
      (∀ i j, i < n → j < n →
        ent adj i j * ((r.vectors.getD 0 []).getD i 0 - (r.vectors.getD 0 []).getD j 0) ^ 2
          ≤ r.values.getD 0 0) ∧
      ((∀ A V, jacobiLoop ⟨fun y x => Complex.arg ⟨x, y⟩, Real.cos, Real.sin⟩ n maxIter
          (graphLaplacian adj) (identity n) = some (A, V) → (pivotScan n A).1 < threshold) →
        r.values.getD 0 0 ≤ n * (1 / 10 ^ 10) ∧
        (n < 10000 → r.values.getD 0 0 < 1 / 10 ^ 6)) := by
  obtain ⟨A, V, r, hl, hr, h0, hedge, hconv⟩ :=
    laplacian_first_pair_exact _ real_exactMath h hsym hnn hdiag
  refine ⟨r, hr, h0, hedge, fun hc => ?_⟩
  have hb : r.values.getD 0 0 ≤ n * (1 / 10 ^ 10) := hconv (hc A V hl)
  refine ⟨hb, fun hn => lt_of_le_of_lt hb ?_⟩
  have hn' : (n : ℝ) < 10000 := by exact_mod_cast hn
  linarith

theorem arg_neg_quarter_one :
    (1 / 2 * Complex.arg ⟨(1 : ℝ) - 1, 2 * -1⟩ : ℝ) = -(Real.pi / 4) := by
  have : (⟨(1 : ℝ) - 1, 2 * -1⟩ : ℂ) = ⟨0, -2⟩ := by norm_num
  rw [this, arg_zero_neg_two]
  ring

theorem rotA_edge :
    rotA ⟨fun y x => Complex.arg ⟨x, y⟩, Real.cos, Real.sin⟩ 2
      ([[1, -1], [-1, 1]] : Mat ℝ) 0 1 = [[2, 0], [0, 0]] := by
  apply rotA_eq _ _ _ _ (by decide)
  intro i j hi hj
  have hang : angle ⟨fun y x => Complex.arg ⟨x, y⟩, Real.cos, Real.sin⟩
      ([[1, -1], [-1, 1]] : Mat ℝ) 0 1 = -(Real.pi / 4) := by
    simp only [angle, ent, List.getD_cons_zero, List.getD_cons_succ]
    exact arg_neg_quarter_one
  rw [hang]
  simp only [Real.cos_neg, Real.sin_neg, Real.cos_pi_div_four, Real.sin_pi_div_four]
  have hs : Real.sqrt 2 * Real.sqrt 2 = 2 := Real.mul_self_sqrt (by norm_num)
  interval_cases i <;> interval_cases j <;> simp [rotEnt, offEnt, diagEnt, ent]
  all_goals first | linear_combination hs | ring1

/-- The loop on the Laplacian of a single unit edge: one rotation, then the scan finds
nothing left. -/
theorem jacobiLoop_edge :
    ∃ V, jacobiLoop ⟨fun y x => Complex.arg ⟨x, y⟩, Real.cos, Real.sin⟩ 2 maxIter
      ([[1, -1], [-1, 1]] : Mat ℝ) (identity 2) = some ([[2, 0], [0, 0]], V) := by
  have hr : List.range 2 = [0, 1] := rfl
  have h1 : ¬ (1 : ℝ) < 0 := by norm_num
  have s0 : pivotScan 2 ([[1, -1], [-1, 1]] : Mat ℝ) = (1, 0, 1) := by
    simp [pivotScan, scanRow, scanStep, rd, hr, List.range', h1]
  have s1 : pivotScan 2 ([[2, 0], [0, 0]] : Mat ℝ) = (0, 0, 1) := by
    simp [pivotScan, scanRow, scanStep, rd, hr, List.range']
  obtain ⟨V1, _, e1⟩ := jacobiLoop_rotA ⟨fun y x => Complex.arg ⟨x, y⟩, Real.cos, Real.sin⟩
    99 (by decide : Square 2 ([[1, -1], [-1, 1]] : Mat ℝ))
    (identity_square 2) s0 one_not_lt_threshold
  rw [rotA_edge] at e1
  exact ⟨V1, e1.trans (jacobiLoop_done _ 98 _ V1 s1 threshold_pos)⟩

/-- The first pair on a single unit edge: the loop converges after one rotation, so the
bound `values[0] ≤ 2 · 1e-10` holds. -/
theorem laplacian_first_pair_witness :
    Square 2 ([[0, 1], [1, 0]] : Mat ℝ) ∧ Symmetric 2 ([[0, 1], [1, 0]] : Mat ℝ) ∧
    NonNeg 2 ([[0, 1], [1, 0]] : Mat ℝ) ∧ ZeroDiag 2 ([[0, 1], [1, 0]] : Mat ℝ) ∧
    ∃ r, jacobiEigen ⟨fun y x => Complex.arg ⟨x, y⟩, Real.cos, Real.sin⟩
        (graphLaplacian ([[0, 1], [1, 0]] : Mat ℝ)) = some r ∧
      0 ≤ r.values.getD 0 0 ∧
      (∀ i j, i < 2 → j < 2 →
        ent ([[0, 1], [1, 0]] : Mat ℝ) i j
          * ((r.vectors.getD 0 []).getD i 0 - (r.vectors.getD 0 []).getD j 0) ^ 2
          ≤ r.values.getD 0 0) ∧
      r.values.getD 0 0 ≤ ((2 : ℕ) : ℝ) * (1 / 10 ^ 10) ∧ r.values.getD 0 0 < 1 / 10 ^ 6 := by
  have hr : List.range 2 = [0, 1] := rfl
  have hL : graphLaplacian ([[0, 1], [1, 0]] : Mat ℝ) = [[1, -1], [-1, 1]] := by
    simp [graphLaplacian, laplacianRow, laplacianStep, rd, hr, List.replicate]
  have hsym : Symmetric 2 ([[0, 1], [1, 0]] : Mat ℝ) := by
    intro i hi j hj
    interval_cases i <;> interval_cases j <;> simp [ent]
  have hnn : NonNeg 2 ([[0, 1], [1, 0]] : Mat ℝ) := by
    intro i hi j hj
    interval_cases i <;> interval_cases j <;> simp [ent]
  have hdiag : ZeroDiag 2 ([[0, 1], [1, 0]] : Mat ℝ) := by
    intro i hi
    interval_cases i <;> simp [ent]
  obtain ⟨r, hres, h0, hedge, hconv⟩ :=
    laplacian_first_pair 2 [[0, 1], [1, 0]] (by decide) hsym hnn hdiag
  have hc : ∀ A V, jacobiLoop ⟨fun y x => Complex.arg ⟨x, y⟩, Real.cos, Real.sin⟩ 2 maxIter
      (graphLaplacian ([[0, 1], [1, 0]] : Mat ℝ)) (identity 2) = some (A, V) →
      (pivotScan 2 A).1 < threshold := by
    intro A V hl
    obtain ⟨V1, e⟩ := jacobiLoop_edge
    rw [hL, e] at hl
    have hA : A = [[2, 0], [0, 0]] := (congrArg Prod.fst (Option.some.inj hl)).symm
    rw [hA]
    have s1 : pivotScan 2 ([[2, 0], [0, 0]] : Mat ℝ) = (0, 0, 1) := by
      simp [pivotScan, scanRow, scanStep, rd, hr, List.range']
    rw [s1]
    exact threshold_pos
  exact ⟨by decide, hsym, hnn, hdiag, r, hres, h0, hedge, (hconv hc).1,
    (hconv hc).2 (by norm_num)⟩

end RealClaims

/-! ## Heap cells of freshly allocated matrices -/

section HeapCells

variable {α : Type}

/-- The heap after the allocation of `A` and then `V` on top of `H0`. -/
theorem heapAlloc_two (H0 : Heap α) (A V : Mat α) :
    (heapAlloc (heapAlloc H0 A).1 V).1
      = H0 ++ heapBlock H0.length A ++ heapBlock (H0.length + 1 + A.length) V := by
  simp [heapAlloc, heapBlock, Nat.add_assoc, Nat.add_comm 1]

theorem getElem?_range'_one (b n i : ℕ) :
    (List.range' b n)[i]? = if i < n then some (b + i) else none := by
  split_ifs with h
  · rw [List.getElem?_eq_getElem (by simpa using h)]
    simp
  · exact List.getElem?_eq_none (by simpa using h)

theorem heapBlock_length (b : ℕ) (A : Mat α) : (heapBlock b A).length = A.length + 1 := by
  simp [heapBlock]

theorem heapBlock_zero (b : ℕ) (A : Mat α) :
    (heapBlock b A)[0]? = some (Cell.arr (List.range' (b + 1) A.length)) := by
  simp [heapBlock]

theorem heapBlock_succ (b : ℕ) (A : Mat α) (i : ℕ) :
    (heapBlock b A)[i + 1]? = (A[i]?).map Cell.row := by
  simp [heapBlock, List.getElem?_map]

theorem heapBlock_set (b : ℕ) (A : Mat α) (i : ℕ) (r : List α) :
    (heapBlock b A).set (i + 1) (Cell.row r) = heapBlock b (A.set i r) := by
  simp [heapBlock, List.map_set]

/-- The heap below a freshly allocated matrix is the heap before the allocation. -/
theorem block_old (H0 : Heap α) (B X : List (Cell α)) {x : ℕ} (hx : x < H0.length) :
    (H0 ++ B ++ X)[x]? = H0[x]? := by
  rw [List.append_assoc, List.getElem?_append_left hx]

theorem block_arr (H0 : Heap α) (A : Mat α) (X : List (Cell α)) :
    heapArr (H0 ++ heapBlock H0.length A ++ X) H0.length
      = some (List.range' (H0.length + 1) A.length) := by
  unfold heapArr
  rw [List.append_assoc, List.getElem?_append_right (le_refl _), Nat.sub_self,
    List.getElem?_append_left (by rw [heapBlock_length]; omega), heapBlock_zero]

theorem block_row (H0 : Heap α) (A : Mat α) (X : List (Cell α)) {i : ℕ}
    (hi : i < A.length) :
    heapRow (H0 ++ heapBlock H0.length A ++ X) (H0.length + 1 + i) = some A[i] := by
  unfold heapRow
  rw [List.append_assoc, List.getElem?_append_right (by omega),
    List.getElem?_append_left (by rw [heapBlock_length]; omega),
    show H0.length + 1 + i - H0.length = i + 1 by omega, heapBlock_succ,
    List.getElem?_eq_getElem hi]
  rfl

theorem block_set (H0 : Heap α) (A : Mat α) (X : List (Cell α)) {i : ℕ}
    (hi : i < A.length) (r : List α) :
    (H0 ++ heapBlock H0.length A ++ X).set (H0.length + 1 + i) (Cell.row r)
      = H0 ++ heapBlock H0.length (A.set i r) ++ X := by
  rw [List.append_assoc, List.set_append_right _ _ (by omega),
    List.set_append_left _ _ (by rw [heapBlock_length]; omega),
    show H0.length + 1 + i - H0.length = i + 1 by omega, heapBlock_set, List.append_assoc]

/-- A read of a freshly allocated matrix is the read of its rows. -/
theorem heapRd_block (H0 : Heap α) (A : Mat α) (X : List (Cell α)) (i j : ℕ) :
    heapRd (H0 ++ heapBlock H0.length A ++ X) H0.length i j = rd A i j := by
  unfold heapRd rd
  rw [block_arr]
  simp only [Option.bind_eq_bind, Option.some_bind, getElem?_range'_one]
  by_cases hi : i < A.length
  · rw [if_pos hi, Option.some_bind, block_row H0 A X hi, Option.some_bind,
      List.getElem?_eq_getElem hi]
  · rw [if_neg hi, List.getElem?_eq_none (by omega)]
    rfl

/-- An assignment to a freshly allocated matrix changes its rows only. -/
theorem heapWr_block (H0 : Heap α) (A : Mat α) (X : List (Cell α)) (i j : ℕ) (x : α) :
    heapWr (H0 ++ heapBlock H0.length A ++ X) H0.length i j x
      = (wr A i j x).map fun A' => H0 ++ heapBlock H0.length A' ++ X := by
  unfold heapWr wr
  rw [block_arr]
  simp only [Option.bind_eq_bind, Option.some_bind, getElem?_range'_one]
  by_cases hi : i < A.length
  · rw [if_pos hi, Option.some_bind, block_row H0 A X hi, Option.some_bind,
      List.getElem?_eq_getElem hi]
    simp only
    split_ifs
    · rw [block_set H0 A X hi]; rfl
    · rfl
  · rw [if_neg hi, List.getElem?_eq_none (by omega)]
    rfl

theorem wr_length {A A' : Mat α} {i j : ℕ} {x : α} (h : wr A i j x = some A') :
    A'.length = A.length := by
  unfold wr at h
  split at h
  · split_ifs at h
    rw [← Option.some.inj h, List.length_set]
  · exact absurd h (by simp)

theorem layout_old (H0 : Heap α) (A V : Mat α) {x : ℕ} (hx : x < H0.length) :
    (layout H0 A V)[x]? = H0[x]? :=
  block_old H0 _ _ hx

theorem layout_arr_A (H0 : Heap α) (A V : Mat α) :
    heapArr (layout H0 A V) H0.length = some (List.range' (H0.length + 1) A.length) :=
  block_arr H0 A _

theorem layout_row_A (H0 : Heap α) (A V : Mat α) {i : ℕ} (hi : i < A.length) :
    heapRow (layout H0 A V) (H0.length + 1 + i) = some A[i] :=
  block_row H0 A _ hi

theorem layout_arr_V (H0 : Heap α) (A V : Mat α) :
    heapArr (layout H0 A V) (H0.length + 1 + A.length)
      = some (List.range' (H0.length + 1 + A.length + 1) V.length) := by
  unfold heapArr layout
  rw [List.getElem?_append_right (by rw [List.length_append, heapBlock_length]; omega),
    show H0.length + 1 + A.length - (H0 ++ heapBlock H0.length A).length = 0 by
      rw [List.length_append, heapBlock_length]; omega,
    heapBlock_zero]

theorem layout_row_V (H0 : Heap α) (A V : Mat α) {i : ℕ} (hi : i < V.length) :
    heapRow (layout H0 A V) (H0.length + 1 + A.length + 1 + i) = some V[i] := by
  unfold heapRow layout
  rw [List.getElem?_append_right (by rw [List.length_append, heapBlock_length]; omega),
    show H0.length + 1 + A.length + 1 + i - (H0 ++ heapBlock H0.length A).length = i + 1 by
      rw [List.length_append, heapBlock_length]; omega,
    heapBlock_succ, List.getElem?_eq_getElem hi]
  rfl

theorem layout_set_V (H0 : Heap α) (A V : Mat α) (i : ℕ) (r : List α) :
    (layout H0 A V).set (H0.length + 1 + A.length + 1 + i) (Cell.row r)
      = layout H0 A (V.set i r) := by
  unfold layout
  rw [List.set_append_right _ _ (by rw [List.length_append, heapBlock_length]; omega),
    show H0.length + 1 + A.length + 1 + i - (H0 ++ heapBlock H0.length A).length = i + 1 by
      rw [List.length_append, heapBlock_length]; omega,
    heapBlock_set]

/-- A read of the working matrix on the heap is the read of `A`. -/
theorem heapRd_layout_A (H0 : Heap α) (A V : Mat α) (i j : ℕ) :
    heapRd (layout H0 A V) H0.length i j = rd A i j :=
  heapRd_block H0 A _ i j

/-- A read of the accumulator on the heap is the read of `V`. -/
theorem heapRd_layout_V (H0 : Heap α) (A V : Mat α) (i j : ℕ) :
    heapRd (layout H0 A V) (H0.length + 1 + A.length) i j = rd V i j := by
  unfold heapRd rd
  rw [layout_arr_V]
  simp only [Option.bind_eq_bind, Option.some_bind, getElem?_range'_one]
  by_cases hi : i < V.length
  · rw [if_pos hi, Option.some_bind, layout_row_V H0 A V hi, Option.some_bind,
      List.getElem?_eq_getElem hi]
  · rw [if_neg hi, List.getElem?_eq_none (by omega)]
    rfl

/-- An assignment to the working matrix on the heap is the assignment to `A`. -/
theorem heapWr_layout_A (H0 : Heap α) (A V : Mat α) (i j : ℕ) (x : α) :
    heapWr (layout H0 A V) H0.length i j x = (wr A i j x).map fun A' => layout H0 A' V := by
  unfold layout
  rw [heapWr_block]
  cases h : wr A i j x with
  | none => rfl
  | some A' => simp only [Option.map_some', wr_length h]

/-- An assignment to the accumulator on the heap is the assignment to `V`. -/
theorem heapWr_layout_V (H0 : Heap α) (A V : Mat α) (i j : ℕ) (x : α) :
    heapWr (layout H0 A V) (H0.length + 1 + A.length) i j x
      = (wr V i j x).map fun V' => layout H0 A V' := by
  unfold heapWr wr
  rw [layout_arr_V]
  simp only [Option.bind_eq_bind, Option.some_bind, getElem?_range'_one]
  by_cases hi : i < V.length
  · rw [if_pos hi, Option.some_bind, layout_row_V H0 A V hi, Option.some_bind,
      List.getElem?_eq_getElem hi]
    simp only
    split_ifs
    · rw [layout_set_V H0 A V]; rfl
    · rfl
  · rw [if_neg hi, List.getElem?_eq_none (by omega)]
    rfl

end HeapCells

/-! ## The rotation on the heap and on the matrices -/

section HeapRotation

variable {α : Type} [LinearOrderedField α]

theorem bind_map_eq {β γ δ : Type} (o : Option β) (f : β → δ) (g : δ → Option δ)
    (k : β → Option γ) (f' : γ → δ) (h : ∀ b, g (f b) = (k b).map f') :
    (o.map f).bind g = (o.bind k).map f' := by
  cases o with
  | none => rfl
  | some b => exact h b

theorem heapPivotScan_layout (n : ℕ) (H0 : Heap α) (A V : Mat α) :
    heapPivotScan n (layout H0 A V) H0.length = pivotScan n A := by
  have hstep : ∀ i, heapScanStep (layout H0 A V) H0.length i = scanStep A i := by
    intro i
    funext st j
    unfold heapScanStep scanStep
    rw [heapRd_layout_A]
  have hrow : heapScanRow n (layout H0 A V) H0.length = scanRow n A := by
    funext st i
    unfold heapScanRow scanRow
    rw [hstep]
  unfold heapPivotScan pivotScan
  rw [hrow]

theorem heapRotationAngle_layout (T : JSMath α) (H0 : Heap α) (A V : Mat α) (p q : ℕ) :
    heapRotationAngle T (layout H0 A V) H0.length p q = rotationAngle T A p q := by
  unfold heapRotationAngle rotationAngle
  simp only [heapRd_layout_A]

theorem heapRotateDiag_layout (c s : α) (H0 : Heap α) (A V : Mat α) (p q : ℕ) :
    heapRotateDiag c s (layout H0 A V) H0.length p q
      = (rotateDiag c s A p q).map fun A' => layout H0 A' V := by
  unfold heapRotateDiag rotateDiag
  simp only [heapRd_layout_A, Option.bind_eq_bind]
  cases rd A p p with
  | none => rfl
  | some App =>
    cases rd A q q with
    | none => rfl
    | some Aqq =>
      cases rd A p q with
      | none => rfl
      | some Apq =>
        simp only [Option.some_bind]
        rw [heapWr_layout_A]
        refine bind_map_eq _ _ _ _ _ fun A1 => ?_
        rw [heapWr_layout_A]
        refine bind_map_eq _ _ _ _ _ fun A2 => ?_
        rw [heapWr_layout_A]
        refine bind_map_eq _ _ _ _ _ fun A3 => ?_
        rw [heapWr_layout_A]

theorem heapRotateOffStep_layout (c s : α) (H0 : Heap α) (A V : Mat α) (p q i : ℕ) :
    heapRotateOffStep c s H0.length p q (layout H0 A V) i
      = (rotateOffStep c s p q A i).map fun A' => layout H0 A' V := by
  unfold heapRotateOffStep rotateOffStep
  split_ifs
  · simp only [heapRd_layout_A, Option.bind_eq_bind]
    cases rd A i p with
    | none => rfl
    | some Aip =>
      cases rd A i q with
      | none => rfl
      | some Aiq =>
        simp only [Option.some_bind]
        rw [heapWr_layout_A]
        refine bind_map_eq _ _ _ _ _ fun A1 => ?_
        rw [heapRd_layout_A]
        cases rd A1 i p with
        | none => rfl
        | some x =>
          simp only [Option.some_bind]
          rw [heapWr_layout_A]
          refine bind_map_eq _ _ _ _ _ fun A2 => ?_
          rw [heapWr_layout_A]
          refine bind_map_eq _ _ _ _ _ fun A3 => ?_
          rw [heapRd_layout_A]
          cases rd A3 i q with
          | none => rfl
          | some y =>
            simp only [Option.some_bind]
            rw [heapWr_layout_A]
  · rfl

theorem heapRotateVStep_layout (c s : α) (H0 : Heap α) (A V : Mat α) (p q i : ℕ) :
    heapRotateVStep c s (H0.length + 1 + A.length) p q (layout H0 A V) i
      = (rotateVStep c s p q V i).map fun V' => layout H0 A V' := by
  unfold heapRotateVStep rotateVStep
  simp only [heapRd_layout_V, Option.bind_eq_bind]
  cases rd V i p with
  | none => rfl
  | some Vip =>
    cases rd V i q with
    | none => rfl
    | some Viq =>
      simp only [Option.some_bind]
      rw [heapWr_layout_V]
      refine bind_map_eq _ _ _ _ _ fun V1 => ?_
      rw [heapWr_layout_V]

/-- A loop of steps that act alike on the heap and on the matrix. -/
theorem foldlM_map_eq {β δ : Type} (g : δ → ℕ → Option δ) (k : β → ℕ → Option β)
    (f : β → δ) (h : ∀ b i, g (f b) i = (k b i).map f) (l : List ℕ) (b : β) :
    l.foldlM g (f b) = (l.foldlM k b).map f := by
  induction l generalizing b with
  | nil => rfl
  | cons i l ih =>
    rw [List.foldlM_cons, List.foldlM_cons, h]
    cases k b i with
    | none => rfl
    | some b' => exact ih b'

theorem rotateDiag_length {c s : α} {A A' : Mat α} {p q : ℕ}
    (h : rotateDiag c s A p q = some A') : A'.length = A.length := by
  unfold rotateDiag at h
  simp only [Option.bind_eq_bind, Option.bind_eq_some] at h
  obtain ⟨_, _, _, _, _, _, A1, h1, A2, h2, A3, h3, h4⟩ := h
  rw [wr_length h4, wr_length h3, wr_length h2, wr_length h1]

theorem rotateOffStep_length {c s : α} {A A' : Mat α} {p q i : ℕ}
    (h : rotateOffStep c s p q A i = some A') : A'.length = A.length := by
  unfold rotateOffStep at h
  split_ifs at h
  · simp only [Option.bind_eq_bind, Option.bind_eq_some] at h
    obtain ⟨_, _, _, _, A1, h1, _, _, A2, h2, A3, h3, _, _, h4⟩ := h
    rw [wr_length h4, wr_length h3, wr_length h2, wr_length h1]
  · rw [← Option.some.inj h]

omit [LinearOrderedField α] in
theorem foldlM_length {k : Mat α → ℕ → Option (Mat α)}
    (hk : ∀ A i A', k A i = some A' → A'.length = A.length) (l : List ℕ) {A A' : Mat α}
    (h : l.foldlM k A = some A') : A'.length = A.length := by
  induction l generalizing A with
  | nil =>
    rw [List.foldlM_nil] at h
    rw [← Option.some.inj h]
  | cons i l ih =>
    rw [List.foldlM_cons] at h
    cases hk1 : k A i with
    | none => rw [hk1] at h; exact absurd h (by simp)
    | some A1 =>
      rw [hk1] at h
      rw [ih h, hk A i A1 hk1]

/-- One rotation on the heap is the rotation of `A` and `V`; the caller's part `H0` of
the heap is not touched. -/
theorem heapRotate_layout (T : JSMath α) (n : ℕ) (H0 : Heap α) (A V : Mat α) (p q : ℕ) :
    heapRotate T n (layout H0 A V) H0.length (H0.length + 1 + A.length) p q
      = (rotate T n A V p q).map fun AV => layout H0 AV.1 AV.2 := by
  unfold heapRotate rotate
  rw [heapRotationAngle_layout]
  simp only [Option.bind_eq_bind]
  cases rotationAngle T A p q with
  | none => rfl
  | some theta =>
    simp only [Option.some_bind]
    rw [heapRotateDiag_layout]
    cases h1 : rotateDiag (T.cos theta) (T.sin theta) A p q with
    | none => rfl
    | some A1 =>
      simp only [Option.map_some', Option.some_bind]
      rw [foldlM_map_eq _ (rotateOffStep (T.cos theta) (T.sin theta) p q)
        (fun A' => layout H0 A' V)
        (fun b i => heapRotateOffStep_layout (T.cos theta) (T.sin theta) H0 b V p q i)]
      cases h2 : (List.range n).foldlM (rotateOffStep (T.cos theta) (T.sin theta) p q) A1 with
      | none => rfl
      | some A2 =>
        simp only [Option.map_some', Option.some_bind]
        have hlen : A2.length = A.length := by
          rw [foldlM_length (fun A i A' h => rotateOffStep_length h) _ h2,
            rotateDiag_length h1]
        rw [← hlen]
        rw [foldlM_map_eq _ (rotateVStep (T.cos theta) (T.sin theta) p q)
          (fun V' => layout H0 A2 V')
          (fun b i => heapRotateVStep_layout (T.cos theta) (T.sin theta) H0 A2 b p q i)]
        cases (List.range n).foldlM (rotateVStep (T.cos theta) (T.sin theta) p q) V with
        | none => rfl
        | some V2 => rfl

theorem rotate_length {T : JSMath α} {n : ℕ} {A V A' V' : Mat α} {p q : ℕ}
    (h : rotate T n A V p q = some (A', V')) : A'.length = A.length := by
  unfold rotate at h
  simp only [Option.bind_eq_bind, Option.bind_eq_some] at h
  obtain ⟨_, _, A1, h1, A2, h2, V2, _, h4⟩ := h
  have e : A2 = A' := congrArg Prod.fst (Option.some.inj h4)
  rw [← e, foldlM_length (fun A i A' h => rotateOffStep_length h) _ h2, rotateDiag_length h1]

theorem jacobiLoop_length {T : JSMath α} {n : ℕ} (k : ℕ) {A V A' V' : Mat α}
    (h : jacobiLoop T n k A V = some (A', V')) : A'.length = A.length := by
  induction k generalizing A V with
  | zero =>
    unfold jacobiLoop at h
    have e : A = A' := congrArg Prod.fst (Option.some.inj h)
    rw [e]
  | succ k ih =>
    unfold jacobiLoop at h
    simp only at h
    split_ifs at h
    · have e : A = A' := congrArg Prod.fst (Option.some.inj h)
      rw [e]
    · cases hr : rotate T n A V (pivotScan n A).2.1 (pivotScan n A).2.2 with
      | none => rw [hr] at h; exact absurd h (by simp)
      | some AV =>
        obtain ⟨A1, V1⟩ := AV
        rw [hr] at h
        rw [ih h, rotate_length hr]

/-- The loop on the heap is the loop on `A` and `V`. -/
theorem heapJacobiLoop_layout (T : JSMath α) (n : ℕ) (H0 : Heap α) (k : ℕ) (A V : Mat α) :
    heapJacobiLoop T n H0.length (H0.length + 1 + A.length) k (layout H0 A V)
      = (jacobiLoop T n k A V).map fun AV => layout H0 AV.1 AV.2 := by
  induction k generalizing A V with
  | zero => rfl
  | succ k ih =>
    unfold heapJacobiLoop jacobiLoop
    simp only [heapPivotScan_layout]
    split_ifs
    · rfl
    · rw [heapRotate_layout]
      cases h : rotate T n A V (pivotScan n A).2.1 (pivotScan n A).2.2 with
      | none => rfl
      | some AV =>
        obtain ⟨A', V'⟩ := AV
        simp only [Option.map_some']
        rw [← rotate_length h]
        exact ih A' V'

end HeapRotation

/-! ## `jacobiEigen` on the heap -/

section HeapSolver

variable {α : Type} [LinearOrderedField α]

omit [LinearOrderedField α] in
theorem mapM_length {β γ : Type} (f : β → Option γ) (l : List β) {l' : List γ}
    (h : l.mapM f = some l') : l'.length = l.length := by
  induction l generalizing l' with
  | nil =>
    rw [List.mapM_nil] at h
    rw [← Option.some.inj h]
    rfl
  | cons x xs ih =>
    rw [List.mapM_cons] at h
    simp only [Option.bind_eq_bind, Option.bind_eq_some] at h
    obtain ⟨y, _, ys, hys, h2⟩ := h
    rw [← Option.some.inj h2, List.length_cons, List.length_cons, ih hys]

omit [LinearOrderedField α] in
theorem heapView_block (H0 : Heap α) (A : Mat α) (X : List (Cell α)) :
    heapView (H0 ++ heapBlock H0.length A ++ X) H0.length = some A := by
  unfold heapView
  rw [block_arr]
  simp only [Option.bind_eq_bind, Option.some_bind]
  rw [mapM_eq_some_map _ (fun a => A.getD (a - (H0.length + 1)) [])]
  · congr 1
    apply List.ext_getElem
    · simp
    · intro i h1 h2
      simp [List.getD_eq_getElem?_getD, List.getElem?_eq_getElem h2]
  · intro a ha
    rw [List.mem_range'_1] at ha
    obtain ⟨i, rfl⟩ := Nat.exists_eq_add_of_le ha.1
    have hi : i < A.length := by omega
    rw [block_row H0 A X hi]
    simp [List.getD_eq_getElem?_getD, List.getElem?_eq_getElem hi]

omit [LinearOrderedField α] in
theorem heapView_layout_A (H0 : Heap α) (A V : Mat α) :
    heapView (layout H0 A V) H0.length = some A :=
  heapView_block H0 A _

omit [LinearOrderedField α] in
theorem heapView_layout_V (H0 : Heap α) (A V : Mat α) :
    heapView (layout H0 A V) (H0.length + 1 + A.length) = some V := by
  unfold heapView
  rw [layout_arr_V]
  simp only [Option.bind_eq_bind, Option.some_bind]
  rw [mapM_eq_some_map _ (fun a => V.getD (a - (H0.length + 1 + A.length + 1)) [])]
  · congr 1
    apply List.ext_getElem
    · simp
    · intro i h1 h2
      simp [List.getD_eq_getElem?_getD, List.getElem?_eq_getElem h2]
  · intro a ha
    rw [List.mem_range'_1] at ha
    obtain ⟨i, rfl⟩ := Nat.exists_eq_add_of_le ha.1
    have hi : i < V.length := by omega
    rw [layout_row_V H0 A V hi]
    simp [List.getD_eq_getElem?_getD, List.getElem?_eq_getElem hi]

theorem heapEigenSort_layout (H0 : Heap α) (A V : Mat α) :
    heapEigenSort (layout H0 A V) H0.length (H0.length + 1 + A.length) = eigenSort A V := by
  unfold heapEigenSort
  rw [heapView_layout_A, heapView_layout_V]
  rfl

/-- The call `jacobiEigen(matrix)` on a heap where the argument shows the matrix `M`: the
heap after the call is the heap before it followed by the two matrices the call
allocated, and the result is computed from them. -/
theorem heapJacobiEigen_eq (T : JSMath α) (H : Heap α) (m : ℕ) (M : Mat α)
    (hM : heapView H m = some M) :
    heapJacobiEigen T H m
      = (jacobiLoop T M.length maxIter M (identity M.length)).bind fun AV =>
          (eigenSort AV.1 AV.2).map fun r => (layout H AV.1 AV.2, r) := by
  unfold heapView at hM
  simp only [Option.bind_eq_bind, Option.bind_eq_some] at hM
  obtain ⟨rs, harr, hrows⟩ := hM
  have hlen := mapM_length _ _ hrows
  unfold heapJacobiEigen
  simp only [harr, hrows, Option.bind_eq_bind, Option.some_bind, List.map_id']
  have hH : (heapAlloc (heapAlloc H M).1 (identity rs.length)).1
      = layout H M (identity rs.length) := heapAlloc_two H M _
  have ha : (heapAlloc H M).2 = H.length := rfl
  have hv : (heapAlloc (heapAlloc H M).1 (identity rs.length)).2 = H.length + 1 + M.length := by
    simp [heapAlloc, heapBlock_length]; omega
  rw [hH, ha, hv, heapJacobiLoop_layout, ← hlen]
  cases hl : jacobiLoop T M.length maxIter M (identity M.length) with
  | none => rfl
  | some AV =>
    obtain ⟨A, V⟩ := AV
    have hlenA : A.length = M.length := jacobiLoop_length _ hl
    simp only [Option.map_some', Option.some_bind]
    rw [← hlenA, heapEigenSort_layout]
    cases eigenSort A V <;> rfl

end HeapSolver

/-! ## `graphLaplacian` on the heap -/

section HeapLaplacian

variable {α : Type} [LinearOrderedField α]

omit [LinearOrderedField α] in
theorem heapArr_append {H : Heap α} {m : ℕ} {rs : List ℕ} (X : List (Cell α))
    (h : heapArr H m = some rs) : heapArr (H ++ X) m = some rs := by
  unfold heapArr at h ⊢
  cases hc : H[m]? with
  | none => rw [hc] at h; exact absurd h (by simp)
  | some c =>
    have hlt : m < H.length := by
      by_contra hge
      rw [List.getElem?_eq_none (by omega)] at hc
      exact absurd hc (by simp)
    rw [List.getElem?_append_left hlt, hc]
    rw [hc] at h
    exact h

omit [LinearOrderedField α] in
theorem heapRow_append {H : Heap α} {a : ℕ} {xs : List α} (X : List (Cell α))
    (h : heapRow H a = some xs) : heapRow (H ++ X) a = some xs := by
  unfold heapRow at h ⊢
  cases hc : H[a]? with
  | none => rw [hc] at h; exact absurd h (by simp)
  | some c =>
    have hlt : a < H.length := by
      by_contra hge
      rw [List.getElem?_eq_none (by omega)] at hc
      exact absurd hc (by simp)
    rw [List.getElem?_append_left hlt, hc]
    rw [hc] at h
    exact h

omit [LinearOrderedField α] in
theorem mapM_getElem {β γ : Type} (f : β → Option γ) (l : List β) {l' : List γ}
    (h : l.mapM f = some l') (i : ℕ) (hi : i < l.length) (hi' : i < l'.length) :
    f l[i] = some l'[i] := by
  induction l generalizing l' i with
  | nil => exact absurd hi (by simp)
  | cons x xs ih =>
    rw [List.mapM_cons] at h
    simp only [Option.bind_eq_bind, Option.bind_eq_some] at h
    obtain ⟨y, hy, ys, hys, h2⟩ := h
    have e : y :: ys = l' := Option.some.inj h2
    subst e
    cases i with
    | zero => exact hy
    | succ i =>
      simp only [List.getElem_cons_succ]
      exact ih hys i (by simpa using hi) (by simpa using hi')

omit [LinearOrderedField α] in
/-- A read of the caller's matrix, on the heap of the call or any heap that extends it. -/
theorem heapRd_append {H : Heap α} {m : ℕ} {M : Mat α} (hM : heapView H m = some M)
    (X : List (Cell α)) (i j : ℕ) : heapRd (H ++ X) m i j = rd M i j := by
  unfold heapView at hM
  simp only [Option.bind_eq_bind, Option.bind_eq_some] at hM
  obtain ⟨rs, harr, hrows⟩ := hM
  have hlen := mapM_length _ _ hrows
  unfold heapRd rd
  rw [heapArr_append X harr]
  simp only [Option.bind_eq_bind, Option.some_bind]
  by_cases hi : i < rs.length
  · have hi' : i < M.length := by omega
    rw [List.getElem?_eq_getElem hi, Option.some_bind,
      heapRow_append X (mapM_getElem _ _ hrows i hi hi'), Option.some_bind,
      List.getElem?_eq_getElem hi']
  · rw [List.getElem?_eq_none (by omega), List.getElem?_eq_none (by omega)]
    rfl

omit [LinearOrderedField α] in
theorem set_getElem_same {β : Type} (A : List β) {i : ℕ} (hi : i < A.length) :
    A.set i A[i] = A := by
  apply List.ext_getElem
  · simp
  · intro k h1 h2
    rw [List.getElem_set]
    split_ifs with h
    · subst h; rfl
    · rfl

omit [LinearOrderedField α] in
theorem getD_wr (A : Mat α) (i j : ℕ) (x : α) : (wr A i j x).getD A = upd A i j x := by
  unfold wr upd
  by_cases hi : i < A.length
  · rw [List.getElem?_eq_getElem hi]
    simp only [List.getD_eq_getElem?_getD, List.getElem?_eq_getElem hi, Option.getD_some]
    split_ifs with hj
    · rfl
    · rw [Option.getD_none, List.set_eq_of_length_le (by omega : A[i].length ≤ j)]
      exact (set_getElem_same A hi).symm
  · rw [List.getElem?_eq_none (by omega), List.set_eq_of_length_le (by omega)]
    rfl

omit [LinearOrderedField α] in
/-- The assignment `L[i][j] = x` to a freshly allocated matrix. -/
theorem heapSet_block (H0 : Heap α) (L : Mat α) (X : List (Cell α)) (i j : ℕ) (x : α) :
    heapSet (H0 ++ heapBlock H0.length L ++ X) H0.length i j x
      = H0 ++ heapBlock H0.length (upd L i j x) ++ X := by
  unfold heapSet
  rw [heapWr_block, ← getD_wr]
  cases wr L i j x <;> rfl

omit [LinearOrderedField α] in
theorem upd_set (L : Mat α) {i : ℕ} (hi : i < L.length) (r : List α) (j : ℕ) (v : α) :
    upd (L.set i r) i j v = L.set i (r.set j v) := by
  unfold upd
  simp [List.getD_eq_getElem?_getD, hi]

omit [LinearOrderedField α] in
theorem foldl_map_eq {β δ : Type} (g : δ → ℕ → δ) (k : β → ℕ → β) (f : β → δ)
    (h : ∀ b j, g (f b) j = f (k b j)) (l : List ℕ) (b : β) :
    l.foldl g (f b) = f (l.foldl k b) := by
  induction l generalizing b with
  | nil => rfl
  | cons j l ih => rw [List.foldl_cons, List.foldl_cons, h, ih]

/-- One step of the inner loop, on the heap and on the row under construction. -/
theorem heapLaplacianStep_block {H0 : Heap α} {adj : ℕ} {M : Mat α}
    (hM : heapView H0 adj = some M) (L : Mat α) (X : List (Cell α)) {i : ℕ}
    (hi : i < L.length) (st : List α × α) (j : ℕ) :
    heapLaplacianStep adj H0.length i
        (H0 ++ heapBlock H0.length (L.set i st.1) ++ X, st.2) j
      = (H0 ++ heapBlock H0.length (L.set i (laplacianStep M i st j).1) ++ X,
          (laplacianStep M i st j).2) := by
  unfold heapLaplacianStep laplacianStep
  simp only
  rw [List.append_assoc, heapRd_append hM, ← List.append_assoc]
  cases rd M i j with
  | none => rfl
  | some a =>
    simp only
    split_ifs
    · rw [heapSet_block, upd_set L hi]
    · rfl

/-- Lines 74-83 for one row, on the heap and on the matrix `L`. -/
theorem heapLaplacianRow_block {H0 : Heap α} {adj : ℕ} {M : Mat α}
    (hM : heapView H0 adj = some M) (n : ℕ) (L : Mat α) (X : List (Cell α)) {i : ℕ}
    (hi : i < L.length) (hrow : L[i] = List.replicate n 0) :
    heapLaplacianRow n adj H0.length (H0 ++ heapBlock H0.length L ++ X) i
      = H0 ++ heapBlock H0.length (L.set i (laplacianRow n M i)) ++ X := by
  unfold heapLaplacianRow laplacianRow
  simp only
  have h0 : (H0 ++ heapBlock H0.length L ++ X, (0 : α))
      = (fun st : List α × α => (H0 ++ heapBlock H0.length (L.set i st.1) ++ X, st.2))
          (List.replicate n 0, 0) := by
    simp only
    rw [← hrow, set_getElem_same L hi]
  rw [h0, foldl_map_eq (heapLaplacianStep adj H0.length i) (laplacianStep M i)
    (fun st : List α × α => (H0 ++ heapBlock H0.length (L.set i st.1) ++ X, st.2))
    (fun st j => heapLaplacianStep_block hM L X hi st j)]
  simp only
  rw [heapSet_block, upd_set L hi]

/-- The call `graphLaplacian(adj)` on a heap where the argument shows the matrix `M`:
the heap after the call is the heap before it followed by the matrix `L`. -/
theorem heapGraphLaplacian_eq (H : Heap α) (adj : ℕ) (M : Mat α)
    (hM : heapView H adj = some M) :
    heapGraphLaplacian H adj
      = some (H ++ heapBlock H.length (graphLaplacian M), H.length) := by
  have hM' := hM
  unfold heapView at hM'
  simp only [Option.bind_eq_bind, Option.bind_eq_some] at hM'
  obtain ⟨rs, harr, hrows⟩ := hM'
  have hlen := mapM_length _ _ hrows
  unfold heapGraphLaplacian
  simp only [harr, Option.bind_eq_bind, Option.some_bind, heapAlloc]
  rw [← hlen]
  have hloop : ∀ k, k ≤ M.length →
      (List.range k).foldl (heapLaplacianRow M.length adj H.length)
        (H ++ heapBlock H.length (List.replicate M.length (List.replicate M.length 0)) ++ [])
        = H ++ heapBlock H.length ((List.range M.length).map fun i =>
            if i < k then laplacianRow M.length M i else List.replicate M.length 0) ++ [] := by
    intro k
    induction k with
    | zero =>
      intro _
      rw [List.range_zero, List.foldl_nil]
      congr 3
      apply List.ext_getElem
      · simp
      · intro i h1 h2
        simp
    | succ k ih =>
      intro hk
      rw [List.range_succ, List.foldl_append, ih (by omega), List.foldl_cons, List.foldl_nil,
        heapLaplacianRow_block hM M.length _ _ (by simpa using hk) (by simp)]
      congr 3
      apply List.ext_getElem
      · simp
      · intro i h1 h2
        simp only [List.getElem_set, List.getElem_map, List.getElem_range]
        by_cases hik : k = i
        · subst hik
          rw [if_pos rfl, if_pos (Nat.lt_succ_self _)]
        · rw [if_neg hik]
          by_cases hlt : i < k
          · rw [if_pos hlt, if_pos (by omega)]
          · rw [if_neg hlt, if_neg (by omega)]
  have hfin := hloop M.length (le_refl _)
  rw [List.append_nil, List.append_nil] at hfin
  rw [hfin]
  congr 4
  unfold graphLaplacian
  exact List.map_congr_left fun i hi => by rw [if_pos (List.mem_range.mp hi)]

end HeapLaplacian

/-! ## The caller's matrix after a call -/

section Frame

variable {α : Type} [LinearOrderedField α]

omit [LinearOrderedField α] in
theorem mapM_congr_some {β γ : Type} {f g : β → Option γ} (l : List β) {l' : List γ}
    (h : l.mapM f = some l') (hfg : ∀ x y, f x = some y → g x = some y) :
    l.mapM g = some l' := by
  induction l generalizing l' with
  | nil => exact h
  | cons x xs ih =>
    rw [List.mapM_cons] at h ⊢
    simp only [Option.bind_eq_bind, Option.bind_eq_some] at h
    obtain ⟨y, hy, ys, hys, h2⟩ := h
    rw [hfg x y hy, ih hys]
    exact h2

omit [LinearOrderedField α] in
/-- A matrix of the caller is seen unchanged on every heap that extends the caller's. -/
theorem heapView_append {H : Heap α} {m : ℕ} {M : Mat α} (hM : heapView H m = some M)
    (X : List (Cell α)) : heapView (H ++ X) m = some M := by
  unfold heapView at hM ⊢
  simp only [Option.bind_eq_bind, Option.bind_eq_some] at hM
  obtain ⟨rs, harr, hrows⟩ := hM
  rw [heapArr_append X harr]
  exact mapM_congr_some rs hrows fun a xs h => heapRow_append X h

/-- C20: `graphLaplacian` and `jacobiEigen` on a heap of arrays, called on the address `m`
of a matrix that shows the rows `M` (rows may be shared or of any length).
`graphLaplacian` returns the address of a matrix that shows `graphLaplacian M`; the result
of `jacobiEigen` is the result `jacobiEigen M` of the functional model, and the call returns
on every square matrix. After either call every cell of the heap that existed before the
call is unchanged, so the caller's matrix still shows `M`: all writes go to the arrays
allocated by the call. -/
theorem heap_input_unchanged (T : JSMath α) (H : Heap α) (m : ℕ) (M : Mat α)
    (hM : heapView H m = some M) :
    (∃ H' l, heapGraphLaplacian H m = some (H', l) ∧
      heapView H' l = some (graphLaplacian M) ∧
      (∀ x, x < H.length → H'[x]? = H[x]?) ∧ heapView H' m = some M) ∧
    (heapJacobiEigen T H m).map Prod.snd = jacobiEigen T M ∧
    (∀ H' r, heapJacobiEigen T H m = some (H', r) →
      (∀ x, x < H.length → H'[x]? = H[x]?) ∧ heapView H' m = some M) ∧
    (∀ n, Square n M → ∃ H' r, heapJacobiEigen T H m = some (H', r)) := by
  have hJ := heapJacobiEigen_eq T H m M hM
  refine ⟨⟨_, _, heapGraphLaplacian_eq H m M hM, ?_, fun x hx => ?_, heapView_append hM _⟩,
    ?_, ?_, ?_⟩
  · have := heapView_block H (graphLaplacian M) []
    rwa [List.append_nil] at this
  · exact List.getElem?_append_left hx
  · rw [hJ]
    unfold jacobiEigen
    simp only [List.map_id', Option.bind_eq_bind]
    cases jacobiLoop T M.length maxIter M (identity M.length) with
    | none => rfl
    | some AV =>
      obtain ⟨A, V⟩ := AV
      simp only [Option.some_bind]
      cases eigenSort A V <;> rfl
  · intro H' r h
    rw [hJ] at h
    simp only [Option.bind_eq_some, Option.map_eq_some'] at h
    obtain ⟨AV, _, r', _, h2⟩ := h
    have e : layout H AV.1 AV.2 = H' := congrArg Prod.fst h2
    rw [← e]
    refine ⟨fun x hx => layout_old H _ _ hx, ?_⟩
    unfold layout
    rw [List.append_assoc]
    exact heapView_append hM _
  · intro n hn
    obtain ⟨A, V, hl, hA, hV⟩ := jacobiLoop_square T maxIter hn (identity_square n)
    rw [hJ, hn.1, hl]
    exact ⟨_, _, by rw [Option.some_bind, eigenSort_eq hA hV]; rfl⟩

/-- C20 on the heap `[[2, 1], [1, 2], matrix]` whose cell 2 is the matrix of the rows
at the addresses 0 and 1. -/
theorem heap_input_unchanged_witness :
    heapView ([Cell.row [2, 1], Cell.row [1, 2], Cell.arr [0, 1]] : Heap ℚ) 2
      = some [[2, 1], [1, 2]] ∧
    ((∃ H' l,
      heapGraphLaplacian ([Cell.row [2, 1], Cell.row [1, 2], Cell.arr [0, 1]] : Heap ℚ) 2
        = some (H', l) ∧
      heapView H' l = some (graphLaplacian ([[2, 1], [1, 2]] : Mat ℚ)) ∧
      (∀ x, x < ([Cell.row [2, 1], Cell.row [1, 2], Cell.arr [0, 1]] : Heap ℚ).length →
        H'[x]? = ([Cell.row [2, 1], Cell.row [1, 2], Cell.arr [0, 1]] : Heap ℚ)[x]?) ∧
      heapView H' 2 = some [[2, 1], [1, 2]]) ∧
    (heapJacobiEigen ⟨fun _ _ => 0, fun _ => 1, fun _ => 0⟩
        ([Cell.row [2, 1], Cell.row [1, 2], Cell.arr [0, 1]] : Heap ℚ) 2).map Prod.snd
      = jacobiEigen ⟨fun _ _ => 0, fun _ => 1, fun _ => 0⟩ ([[2, 1], [1, 2]] : Mat ℚ) ∧
    (∀ H' r, heapJacobiEigen ⟨fun _ _ => 0, fun _ => 1, fun _ => 0⟩
        ([Cell.row [2, 1], Cell.row [1, 2], Cell.arr [0, 1]] : Heap ℚ) 2 = some (H', r) →
      (∀ x, x < ([Cell.row [2, 1], Cell.row [1, 2], Cell.arr [0, 1]] : Heap ℚ).length →
        H'[x]? = ([Cell.row [2, 1], Cell.row [1, 2], Cell.arr [0, 1]] : Heap ℚ)[x]?) ∧
      heapView H' 2 = some [[2, 1], [1, 2]]) ∧
    (∀ n, Square n ([[2, 1], [1, 2]] : Mat ℚ) →
      ∃ H' r, heapJacobiEigen ⟨fun _ _ => 0, fun _ => 1, fun _ => 0⟩
        ([Cell.row [2, 1], Cell.row [1, 2], Cell.arr [0, 1]] : Heap ℚ) 2 = some (H', r))) :=
  ⟨by decide, heap_input_unchanged _ _ 2 [[2, 1], [1, 2]] (by decide)⟩

end Frame

section ScanClaims

variable {α : Type} [LinearOrderedField α]

/-- Claim C21. On a square `n × n` working matrix with a non-zero entry in the strict
upper triangle (so `n ≥ 2`), the pivot scan of lines 24-32 returns `maxVal = |A[p][q]|`
for a position `p < q < n` such that `|A[i][j]| ≤ |A[p][q]|` for all `i < j < n`, and
every position before `(p, q)` in row-major order has a strictly smaller magnitude:
`(p, q)` is the first position that attains the maximum. -/
theorem pivotScan_first_max (n : ℕ) (A : Mat α) (h : Square n A)
    (hnz : ∃ i j, i < j ∧ j < n ∧ ent A i j ≠ 0) :
    2 ≤ n ∧
    (pivotScan n A).2.1 < (pivotScan n A).2.2 ∧ (pivotScan n A).2.2 < n ∧
    (pivotScan n A).1 = |ent A (pivotScan n A).2.1 (pivotScan n A).2.2| ∧
    (∀ i j, i < j → j < n →
      |ent A i j| ≤ |ent A (pivotScan n A).2.1 (pivotScan n A).2.2|) ∧
    ∀ i j, i < j → j < n →
      (i < (pivotScan n A).2.1 ∨ (i = (pivotScan n A).2.1 ∧ j < (pivotScan n A).2.2)) →
      |ent A i j| < |ent A (pivotScan n A).2.1 (pivotScan n A).2.2| := by
  obtain ⟨i0, j0, hij0, hj0, hne⟩ := hnz
  obtain ⟨_, h2, h3⟩ := pivotScan_inv h
  rcases h3 with h3 | ⟨h4, h5, h6, _, h8⟩
  · exfalso
    have := h2 i0 j0 hij0 hj0 (Or.inl (lt_trans hij0 hj0))
    rw [h3] at this
    exact hne (abs_eq_zero.mp (le_antisymm this (abs_nonneg _)))
  · refine ⟨by omega, h4, h5, h6, fun i j hij hj => ?_, fun i j hij hj hlt => ?_⟩
    · rw [← h6]
      exact h2 i j hij hj (Or.inl (lt_trans hij hj))
    · rw [← h6]
      exact h8 i j hij hj hlt

/-- Claim C21 on the rational matrix `[[0, 1, -3], [1, 0, 3], [-3, 3, 0]]`: the
magnitude `3` is attained at `(0, 2)` and at `(1, 2)`, and the scan returns `(0, 2)`. -/
theorem pivotScan_first_max_witness :
    Square 3 ([[0, 1, -3], [1, 0, 3], [-3, 3, 0]] : Mat ℚ) ∧
    (∃ i j, i < j ∧ j < 3 ∧ ent ([[0, 1, -3], [1, 0, 3], [-3, 3, 0]] : Mat ℚ) i j ≠ 0) ∧
    pivotScan 3 ([[0, 1, -3], [1, 0, 3], [-3, 3, 0]] : Mat ℚ) = (3, 0, 2) ∧
    (pivotScan 3 ([[0, 1, -3], [1, 0, 3], [-3, 3, 0]] : Mat ℚ)).1
      = |ent ([[0, 1, -3], [1, 0, 3], [-3, 3, 0]] : Mat ℚ)
          (pivotScan 3 ([[0, 1, -3], [1, 0, 3], [-3, 3, 0]] : Mat ℚ)).2.1
          (pivotScan 3 ([[0, 1, -3], [1, 0, 3], [-3, 3, 0]] : Mat ℚ)).2.2| :=
  ⟨by decide, ⟨0, 1, by decide, by decide, by decide⟩, by decide,
    (pivotScan_first_max 3 [[0, 1, -3], [1, 0, 3], [-3, 3, 0]] (by decide)
      ⟨0, 1, by decide, by decide, by decide⟩).2.2.2.1⟩

end ScanClaims

section LaplacianClaims

variable {α : Type} [LinearOrderedField α]

/-- In exact arithmetic: for every square `n × n` matrix `adj`, row `i` of
`graphLaplacian(adj)` sums to `adj[i][i]`; hence all rows sum to zero exactly when the diagonal of `adj` is
zero. -/
theorem graphLaplacian_row_sum_diag (n : ℕ) (adj : Mat α) (h : Square n adj) :
    (∀ i, i < n → ((graphLaplacian adj).getD i []).sum = ent adj i i) ∧
    ((∀ i, i < n → ((graphLaplacian adj).getD i []).sum = 0) ↔ ZeroDiag n adj) := by
  refine ⟨fun i hi => graphLaplacian_row_sum h hi, fun h0 i hi => ?_, fun hd i hi => ?_⟩
  · rw [← graphLaplacian_row_sum h hi]
    exact h0 i hi
  · rw [graphLaplacian_row_sum h hi]
    exact hd i hi

/-- The row sums of the exact Laplacian of `[[5, 1], [1, 0]]`, whose first row of the
Laplacian sums to `5`. -/
theorem graphLaplacian_row_sum_diag_witness :
    Square 2 ([[5, 1], [1, 0]] : Mat ℚ) ∧
    ((graphLaplacian ([[5, 1], [1, 0]] : Mat ℚ)).getD 0 []).sum = 5 ∧
    ((∀ i, i < 2 → ((graphLaplacian ([[5, 1], [1, 0]] : Mat ℚ)).getD i []).sum
      = ent ([[5, 1], [1, 0]] : Mat ℚ) i i) ∧
    ((∀ i, i < 2 → ((graphLaplacian ([[5, 1], [1, 0]] : Mat ℚ)).getD i []).sum = 0)
      ↔ ZeroDiag 2 ([[5, 1], [1, 0]] : Mat ℚ))) :=
  ⟨by decide,
    ((graphLaplacian_row_sum_diag 2 [[5, 1], [1, 0]] (by decide)).1 0 (by decide)).trans rfl,
    graphLaplacian_row_sum_diag 2 [[5, 1], [1, 0]] (by decide)⟩

end LaplacianClaims

section RealClaims

/-- Claim C28. For a symmetric `n × n` input `M`, in real arithmetic: if the loop of
`jacobiEigen` stops with a working matrix that passes the threshold test of line 33,
the returned decomposition reconstructs every entry of `M` within `n · 1e-10`. -/
theorem jacobiEigen_reconstruct_bound (n : ℕ) (M : Mat ℝ) (hM : Square n M)
    (hsym : Symmetric n M)
    (hconv : ∀ A V,
      jacobiLoop ⟨fun y x => Complex.arg ⟨x, y⟩, Real.cos, Real.sin⟩ n maxIter M (identity n)
        = some (A, V) → (pivotScan n A).1 < threshold) :
    ∃ r, jacobiEigen ⟨fun y x => Complex.arg ⟨x, y⟩, Real.cos, Real.sin⟩ M = some r ∧
      ∀ i j, i < n → j < n → |reconstruct n r i j - ent M i j| ≤ n * (1 / 10 ^ 10) :=
  jacobiEigen_error_bound _ real_exactMath hM hsym hconv

/-- Claim C28 on the matrix `[[2, 1], [1, 2]]`, which one rotation diagonalises. -/
theorem jacobiEigen_reconstruct_bound_witness :
    Square 2 ([[2, 1], [1, 2]] : Mat ℝ) ∧ Symmetric 2 ([[2, 1], [1, 2]] : Mat ℝ) ∧
    (∀ A V,
      jacobiLoop ⟨fun y x => Complex.arg ⟨x, y⟩, Real.cos, Real.sin⟩ 2 maxIter
        ([[2, 1], [1, 2]] : Mat ℝ) (identity 2) = some (A, V) →
      (pivotScan 2 A).1 < threshold) ∧
    ∃ r, jacobiEigen ⟨fun y x => Complex.arg ⟨x, y⟩, Real.cos, Real.sin⟩
        ([[2, 1], [1, 2]] : Mat ℝ) = some r ∧
      ∀ i j, i < 2 → j < 2 →
        |reconstruct 2 r i j - ent ([[2, 1], [1, 2]] : Mat ℝ) i j|
          ≤ ((2 : ℕ) : ℝ) * (1 / 10 ^ 10) :=
  have hsym : Symmetric 2 ([[2, 1], [1, 2]] : Mat ℝ) := by
    intro i hi j hj
    interval_cases i <;> interval_cases j <;> simp [ent]
  have hconv : ∀ A V,
      jacobiLoop ⟨fun y x => Complex.arg ⟨x, y⟩, Real.cos, Real.sin⟩ 2 maxIter
        ([[2, 1], [1, 2]] : Mat ℝ) (identity 2) = some (A, V) →
      (pivotScan 2 A).1 < threshold := by
    intro A V h
    rw [jacobiLoop_two_one] at h
    cases h
    rw [pivotScan_three_one]
    exact threshold_pos
  ⟨by decide, hsym, hconv,
    jacobiEigen_reconstruct_bound 2 [[2, 1], [1, 2]] (by decide) hsym hconv⟩

end RealClaims

/-! ## The loop invariant as a similarity -/

section SimilarityLoop

variable {α : Type} [LinearOrderedField α]

open Polynomial in
/-- A matrix and its conjugate by an orthogonal matrix have the same characteristic
polynomial, hence the same eigenvalues. -/
theorem charpoly_conj_orth {n : ℕ} (M V : Matrix (Fin n) (Fin n) α)
    (hO : V.transpose * V = 1) : (V.transpose * M * V).charpoly = M.charpoly := by
  have hO' : V * V.transpose = 1 := Matrix.mul_eq_one_comm.mp hO
  unfold Matrix.charpoly Matrix.charmatrix
  have hP : (C : α →+* α[X]).mapMatrix V.transpose * (C : α →+* α[X]).mapMatrix V = 1 := by
    rw [← map_mul, hO, map_one]
  have hP' : (C : α →+* α[X]).mapMatrix V * (C : α →+* α[X]).mapMatrix V.transpose = 1 := by
    rw [← map_mul, hO', map_one]
  have e : Matrix.scalar (Fin n) (X : α[X]) - (C : α →+* α[X]).mapMatrix (V.transpose * M * V)
      = (C : α →+* α[X]).mapMatrix V.transpose
        * (Matrix.scalar (Fin n) (X : α[X]) - (C : α →+* α[X]).mapMatrix M)
        * (C : α →+* α[X]).mapMatrix V := by
    rw [Matrix.mul_sub, Matrix.sub_mul, map_mul, map_mul]
    congr 1
    rw [← (Matrix.scalar_commute (X : α[X]) (fun r' => Commute.all _ _) _).eq,
      Matrix.mul_assoc, hP, Matrix.mul_one]
  rw [e, Matrix.det_mul, Matrix.det_mul, mul_comm, ← mul_assoc, ← Matrix.det_mul, hP',
    Matrix.det_one, one_mul]

/-- The entry the code sets to `0` in lines 41. -/
theorem rotEnt_pivot (c s : α) (n : ℕ) {p q : ℕ} (hpq : p ≠ q) (f : ℕ → ℕ → α) :
    rotEnt c s n p q f p q = 0 ∧ rotEnt c s n p q f q p = 0 := by
  have hqp : q ≠ p := fun e => hpq e.symm
  unfold rotEnt offEnt diagEnt
  constructor <;> simp [hpq, hqp]

/-- One rotation on a symmetric working matrix, with exact `Math` functions, is the
similarity `A ↦ Gᵀ · A · G` with the plane rotation `G`, and `V ↦ V · G`. -/
theorem rotate_similarity (T : JSMath α) (hT : ExactMath T) {n : ℕ} {A V : Mat α}
    (hA : Square n A) (hV : Square n V) (hsym : Symmetric n A) {p q : ℕ} (hp : p < n)
    (hq : q < n) (hpq : p ≠ q) :
    ∃ A' V', rotate T n A V p q = some (A', V') ∧ Square n A' ∧ Square n V' ∧
      toMatrix n A' = (givens ⟨p, hp⟩ ⟨q, hq⟩ (T.cos (angle T A p q))
          (T.sin (angle T A p q))).transpose * toMatrix n A
        * givens ⟨p, hp⟩ ⟨q, hq⟩ (T.cos (angle T A p q)) (T.sin (angle T A p q)) ∧
      toMatrix n V' = toMatrix n V
        * givens ⟨p, hp⟩ ⟨q, hq⟩ (T.cos (angle T A p q)) (T.sin (angle T A p q)) ∧
      ent A' p q = 0 ∧ ent A' q p = 0 := by
  obtain ⟨A', V', hr, h1, h2, h3, h4⟩ := rotate_spec T hA hV hp hq hpq
  have hid : (T.cos (angle T A p q) * T.cos (angle T A p q)
      - T.sin (angle T A p q) * T.sin (angle T A p q)) * ent A p q
      = T.cos (angle T A p q) * T.sin (angle T A p q) * (ent A p p - ent A q q) := by
    have := hT.2 (ent A p p - ent A q q) (2 * ent A p q)
    unfold angle
    linear_combination (1 / 2) * this
  refine ⟨A', V', hr, h1, h2, ?_, ?_, ?_, ?_⟩
  · ext a b
    rw [← rotEnt_eq_similarity A hsym hp hq hpq hid]
    exact h3 a b
  · ext a b
    rw [← vEnt_eq_mul_givens V hp hq hpq]
    exact h4 a b
  · rw [h3]; exact (rotEnt_pivot _ _ n hpq _).1
  · rw [h3]; exact (rotEnt_pivot _ _ n hpq _).2

end SimilarityLoop

section RealClaims

/-- Claim C24. For a symmetric `n × n` input `M`, in real arithmetic: after any number
`k` of iterations of the loop the working matrix `A` and the accumulator `V` exist, `A`
is symmetric, `V` is orthogonal, `A = Vᵀ·M·V`, `M = V·A·Vᵀ`, and `A` and `M` have the
same characteristic polynomial. One rotation on a symmetric `A` is the similarity
`A' = Gᵀ·A·G`, `V' = V·G` with the plane rotation `G` of the angle of line 35, and the
entries `(p, q)` and `(q, p)` of `Gᵀ·A·G`, which the code writes as `0`, are `0`. -/
theorem jacobiLoop_similarity (n : ℕ) (M : Mat ℝ) (hM : Square n M)
    (hsym : Symmetric n M) :
    (∀ k, ∃ A V,
      jacobiLoop ⟨fun y x => Complex.arg ⟨x, y⟩, Real.cos, Real.sin⟩ n k M (identity n)
        = some (A, V) ∧
      Symmetric n A ∧
      (toMatrix n V).transpose * toMatrix n V = 1 ∧
      toMatrix n V * (toMatrix n V).transpose = 1 ∧
      toMatrix n A = (toMatrix n V).transpose * toMatrix n M * toMatrix n V ∧
      toMatrix n M = toMatrix n V * toMatrix n A * (toMatrix n V).transpose ∧
      (toMatrix n A).charpoly = (toMatrix n M).charpoly) ∧
    ∀ (A V : Mat ℝ) (p q : ℕ) (hp : p < n) (hq : q < n), Square n A → Square n V →
      Symmetric n A → p ≠ q →
      ∃ A' V',
        rotate ⟨fun y x => Complex.arg ⟨x, y⟩, Real.cos, Real.sin⟩ n A V p q = some (A', V') ∧
        toMatrix n A' = (givens ⟨p, hp⟩ ⟨q, hq⟩
            (Real.cos (angle ⟨fun y x => Complex.arg ⟨x, y⟩, Real.cos, Real.sin⟩ A p q))
            (Real.sin (angle ⟨fun y x => Complex.arg ⟨x, y⟩, Real.cos, Real.sin⟩ A p q))
          ).transpose * toMatrix n A
          * givens ⟨p, hp⟩ ⟨q, hq⟩
            (Real.cos (angle ⟨fun y x => Complex.arg ⟨x, y⟩, Real.cos, Real.sin⟩ A p q))
            (Real.sin (angle ⟨fun y x => Complex.arg ⟨x, y⟩, Real.cos, Real.sin⟩ A p q)) ∧
        toMatrix n V' = toMatrix n V
          * givens ⟨p, hp⟩ ⟨q, hq⟩
            (Real.cos (angle ⟨fun y x => Complex.arg ⟨x, y⟩, Real.cos, Real.sin⟩ A p q))
            (Real.sin (angle ⟨fun y x => Complex.arg ⟨x, y⟩, Real.cos, Real.sin⟩ A p q)) ∧
        toMatrix n A' ⟨p, hp⟩ ⟨q, hq⟩ = 0 ∧ toMatrix n A' ⟨q, hq⟩ ⟨p, hp⟩ = 0 := by
  refine ⟨fun k => ?_, fun A V p q hp hq hA hV hs hpq => ?_⟩
  · obtain ⟨A, V, hl, hD⟩ := jacobiLoop_decomp _ real_exactMath M k (decomp_init hM hsym)
    have hc := decomp_conj hD
    refine ⟨A, V, hl, hD.2.2.1, hD.2.2.2.1, Matrix.mul_eq_one_comm.mp hD.2.2.2.1, hc,
      hD.2.2.2.2, ?_⟩
    rw [hc]
    exact charpoly_conj_orth _ _ hD.2.2.2.1
  · obtain ⟨A', V', hr, _, _, h3, h4, h5, h6⟩ :=
      rotate_similarity _ real_exactMath hA hV hs hp hq hpq
    exact ⟨A', V', hr, h3, h4, h5, h6⟩

/-- Claim C24 on the matrix `[[2, 1], [1, 2]]`. -/
theorem jacobiLoop_similarity_witness :
    Square 2 ([[2, 1], [1, 2]] : Mat ℝ) ∧ Symmetric 2 ([[2, 1], [1, 2]] : Mat ℝ) ∧
    ∃ A V,
      jacobiLoop ⟨fun y x => Complex.arg ⟨x, y⟩, Real.cos, Real.sin⟩ 2 1
        ([[2, 1], [1, 2]] : Mat ℝ) (identity 2) = some (A, V) ∧
      Symmetric 2 A ∧
      (toMatrix 2 V).transpose * toMatrix 2 V = 1 ∧
      toMatrix 2 V * (toMatrix 2 V).transpose = 1 ∧
      toMatrix 2 A
        = (toMatrix 2 V).transpose * toMatrix 2 ([[2, 1], [1, 2]] : Mat ℝ) * toMatrix 2 V ∧
      toMatrix 2 ([[2, 1], [1, 2]] : Mat ℝ)
        = toMatrix 2 V * toMatrix 2 A * (toMatrix 2 V).transpose ∧
      (toMatrix 2 A).charpoly = (toMatrix 2 ([[2, 1], [1, 2]] : Mat ℝ)).charpoly :=
  have hsym : Symmetric 2 ([[2, 1], [1, 2]] : Mat ℝ) := by
    intro i hi j hj
    interval_cases i <;> interval_cases j <;> simp [ent]
  ⟨by decide, hsym, (jacobiLoop_similarity 2 [[2, 1], [1, 2]] (by decide) hsym).1 1⟩

end RealClaims

/-! ## The off-diagonal mass -/

section OffDiagonal

variable {α : Type} [LinearOrderedField α]

theorem sum_sq_eq_trace {n : ℕ} (X : Matrix (Fin n) (Fin n) α) :
    ∑ i : Fin n, ∑ j : Fin n, X i j ^ 2 = (X.transpose * X).trace := by
  simp only [Matrix.trace, Matrix.diag_apply, Matrix.mul_apply, Matrix.transpose_apply]
  rw [Finset.sum_comm]
  exact Finset.sum_congr rfl fun j _ => Finset.sum_congr rfl fun i _ => by ring

/-- An orthogonal similarity keeps the sum of the squares of all entries. -/
theorem sum_sq_conj {n : ℕ} (B G : Matrix (Fin n) (Fin n) α)
    (hG : G.transpose * G = 1) :
    ∑ i : Fin n, ∑ j : Fin n, (G.transpose * B * G) i j ^ 2
      = ∑ i : Fin n, ∑ j : Fin n, B i j ^ 2 := by
  have hG' : G * G.transpose = 1 := Matrix.mul_eq_one_comm.mp hG
  rw [sum_sq_eq_trace, sum_sq_eq_trace]
  have e : (G.transpose * B * G).transpose * (G.transpose * B * G)
      = G.transpose * (B.transpose * B * G) := by
    rw [Matrix.transpose_mul, Matrix.transpose_mul, Matrix.transpose_transpose]
    calc G.transpose * (B.transpose * G) * (G.transpose * B * G)
        = G.transpose * B.transpose * (G * G.transpose) * B * G := by
          simp only [Matrix.mul_assoc]
      _ = G.transpose * (B.transpose * B * G) := by
          rw [hG', Matrix.mul_one]; simp only [Matrix.mul_assoc]
  rw [e, Matrix.trace_mul_comm, Matrix.mul_assoc, hG', Matrix.mul_one]

theorem offSq_eq (n : ℕ) (A : Mat α) :
    offSq n A = ∑ i : Fin n, ∑ j : Fin n, toMatrix n A i j ^ 2
      - ∑ i in Finset.range n, ent A i i ^ 2 := by
  unfold offSq toMatrix
  rw [← Finset.sum_range fun i => ∑ j : Fin n, ent A i j ^ 2]
  rw [← Finset.sum_sub_distrib]
  refine Finset.sum_congr rfl fun i hi => ?_
  rw [← Finset.sum_range fun j => ent A i j ^ 2]
  have e : ∀ j ∈ Finset.range n, (if i = j then 0 else ent A i j ^ 2)
      = ent A i j ^ 2 - if j = i then ent A i i ^ 2 else 0 := by
    intro j _
    by_cases hij : i = j
    · subst hij; simp
    · rw [if_neg hij, if_neg fun e => hij e.symm, sub_zero]
  rw [Finset.sum_congr rfl e, Finset.sum_sub_distrib, Finset.sum_ite_eq', if_pos hi]

/-- The squares of the diagonal after one rotation: the two pivot entries take up
`2·A[p][q]²`. -/
theorem rotEnt_diag_sq {c s : α} (hcs : c * c + s * s = 1) {n p q : ℕ} (hp : p < n)
    (hq : q < n) (hpq : p ≠ q) (f : ℕ → ℕ → α)
    (hid : (c * c - s * s) * f p q = c * s * (f p p - f q q)) :
    ∑ a in Finset.range n, rotEnt c s n p q f a a ^ 2
      = ∑ a in Finset.range n, f a a ^ 2 + 2 * f p q ^ 2 := by
  have hqp : q ≠ p := fun e => hpq e.symm
  have h : ∀ a, rotEnt c s n p q f a a ^ 2 = f a a ^ 2
      + (if a = p then (c * c * f p p + 2 * s * c * f p q + s * s * f q q) ^ 2 - f p p ^ 2
          else 0)
      + (if a = q then (s * s * f p p - 2 * s * c * f p q + c * c * f q q) ^ 2 - f q q ^ 2
          else 0) := by
    intro a
    rw [rotEnt_diag c s n hpq]
    by_cases h1 : a = p
    · subst h1; rw [if_neg hpq, if_pos rfl, if_pos rfl, if_neg hpq]; ring
    · by_cases h2 : a = q
      · subst h2; rw [if_pos rfl, if_neg h1, if_pos rfl]; ring
      · rw [if_neg h2, if_neg h1, if_neg h1, if_neg h2]; ring
  rw [Finset.sum_congr rfl fun a _ => h a, Finset.sum_add_distrib, Finset.sum_add_distrib,
    Finset.sum_ite_eq', Finset.sum_ite_eq', if_pos (Finset.mem_range.mpr hp),
    if_pos (Finset.mem_range.mpr hq)]
  have hsum : c * c * f p p + 2 * s * c * f p q + s * s * f q q
      + (s * s * f p p - 2 * s * c * f p q + c * c * f q q) = f p p + f q q := by
    linear_combination (f p p + f q q) * hcs
  have hprod : (c * c * f p p + 2 * s * c * f p q + s * s * f q q)
      * (s * s * f p p - 2 * s * c * f p q + c * c * f q q) = f p p * f q q - f p q * f p q := by
    linear_combination
      ((c * c - s * s) * f p q - c * s * (f p p - f q q)) * hid
        + (f p p * f q q - f p q * f p q) * (c * c + s * s + 1) * hcs
  linear_combination (f p p + f q q
      + (c * c * f p p + 2 * s * c * f p q + s * s * f q q
        + (s * s * f p p - 2 * s * c * f p q + c * c * f q q))) * hsum - 2 * hprod

/-- One rotation on a symmetric working matrix, with exact `Math` functions, takes
`2·A[p][q]²` off the sum of the squares of the off-diagonal entries. -/
theorem rotate_offSq (T : JSMath α) (hT : ExactMath T) {n : ℕ} {A V : Mat α}
    (hA : Square n A) (hV : Square n V) (hsym : Symmetric n A) {p q : ℕ} (hp : p < n)
    (hq : q < n) (hpq : p ≠ q) :
    ∃ A' V', rotate T n A V p q = some (A', V') ∧
      offSq n A' = offSq n A - 2 * ent A p q ^ 2 := by
  obtain ⟨A', V', hr, _, _, h3, _⟩ := rotate_spec T hA hV hp hq hpq
  obtain ⟨A'', V'', hr', _, _, hsim, _⟩ := rotate_similarity T hT hA hV hsym hp hq hpq
  rw [hr] at hr'
  have eA : A' = A'' := congrArg Prod.fst (Option.some.inj hr')
  subst eA
  have hPQ : (⟨p, hp⟩ : Fin n) ≠ ⟨q, hq⟩ := fun e => hpq (Fin.mk.inj e)
  have hG := givens_orthogonal hPQ (hT.1 (angle T A p q))
  have hid : (T.cos (angle T A p q) * T.cos (angle T A p q)
      - T.sin (angle T A p q) * T.sin (angle T A p q)) * ent A p q
      = T.cos (angle T A p q) * T.sin (angle T A p q) * (ent A p p - ent A q q) := by
    have := hT.2 (ent A p p - ent A q q) (2 * ent A p q)
    unfold angle
    linear_combination (1 / 2) * this
  refine ⟨A', V', hr, ?_⟩
  have hd : ∑ a in Finset.range n, ent A' a a ^ 2
      = ∑ a in Finset.range n,
          rotEnt (T.cos (angle T A p q)) (T.sin (angle T A p q)) n p q (ent A) a a ^ 2 :=
    Finset.sum_congr rfl fun a _ => by rw [h3 a a]
  rw [offSq_eq, offSq_eq, hsim, sum_sq_conj _ _ hG, hd,
    rotEnt_diag_sq (hT.1 (angle T A p q)) hp hq hpq (ent A) hid]
  ring

/-- A pivot on which the loop rotates holds a non-zero entry. -/
theorem pivotScan_ne_zero {n : ℕ} {A : Mat α} (h : Square n A)
    (hm : ¬ (pivotScan n A).1 < threshold) :
    ent A (pivotScan n A).2.1 (pivotScan n A).2.2 ≠ 0 := by
  obtain ⟨_, _, h3⟩ := pivotScan_inv h
  rcases h3 with h3 | ⟨_, _, h6, h7, _⟩
  · exfalso
    apply hm
    rw [h3]
    exact threshold_pos
  · intro h0
    rw [h6, h0, abs_zero] at h7
    exact lt_irrefl _ h7

end OffDiagonal

section RealClaims

/-- Claim C23. For a symmetric `n × n` working matrix `A` and a pivot `p ≠ q`, in real
arithmetic, one rotation of `jacobiEigen` returns a matrix `A'` with
`Σ_{i≠j} A'[i][j]² = Σ_{i≠j} A[i][j]² − 2·A[p][q]²`, a strict decrease when
`A[p][q] ≠ 0`; and the pivot of an iteration that rotates (scan not below the threshold)
holds a non-zero entry. -/
theorem rotate_offSq_decrease (n : ℕ) (A V : Mat ℝ) (p q : ℕ) (hA : Square n A)
    (hV : Square n V) (hsym : Symmetric n A) (hp : p < n) (hq : q < n) (hpq : p ≠ q) :
    (∃ A' V',
      rotate ⟨fun y x => Complex.arg ⟨x, y⟩, Real.cos, Real.sin⟩ n A V p q = some (A', V') ∧
      offSq n A' = offSq n A - 2 * ent A p q ^ 2 ∧
      (ent A p q ≠ 0 → offSq n A' < offSq n A)) ∧
    (¬ (pivotScan n A).1 < threshold →
      ent A (pivotScan n A).2.1 (pivotScan n A).2.2 ≠ 0) := by
  obtain ⟨A', V', hr, ho⟩ := rotate_offSq _ real_exactMath hA hV hsym hp hq hpq
  refine ⟨⟨A', V', hr, ho, fun hne => ?_⟩, fun hm => pivotScan_ne_zero hA hm⟩
  rw [ho]
  have : 0 < ent A p q ^ 2 := by positivity
  linarith

/-- Claim C23 on the matrix `[[2, 1], [1, 2]]`: the off-diagonal mass `2` drops to `0`. -/
theorem rotate_offSq_decrease_witness :
    Square 2 ([[2, 1], [1, 2]] : Mat ℝ) ∧ Square 2 ([[1, 0], [0, 1]] : Mat ℝ) ∧
    Symmetric 2 ([[2, 1], [1, 2]] : Mat ℝ) ∧
    offSq 2 ([[2, 1], [1, 2]] : Mat ℝ) = 2 ∧
    ∃ A' V',
      rotate ⟨fun y x => Complex.arg ⟨x, y⟩, Real.cos, Real.sin⟩ 2
        ([[2, 1], [1, 2]] : Mat ℝ) [[1, 0], [0, 1]] 0 1 = some (A', V') ∧
      offSq 2 A' = offSq 2 ([[2, 1], [1, 2]] : Mat ℝ)
        - 2 * ent ([[2, 1], [1, 2]] : Mat ℝ) 0 1 ^ 2 ∧
      (ent ([[2, 1], [1, 2]] : Mat ℝ) 0 1 ≠ 0 → offSq 2 A' < offSq 2 ([[2, 1], [1, 2]] : Mat ℝ)) :=
  have hsym : Symmetric 2 ([[2, 1], [1, 2]] : Mat ℝ) := by
    intro i hi j hj
    interval_cases i <;> interval_cases j <;> simp [ent]
  have ho : offSq 2 ([[2, 1], [1, 2]] : Mat ℝ) = 2 := by
    simp [offSq, Finset.sum_range_succ, ent]
    norm_num
  ⟨by decide, by decide, hsym, ho,
    (rotate_offSq_decrease 2 [[2, 1], [1, 2]] [[1, 0], [0, 1]] 0 1 (by decide) (by decide) hsym
      (by decide) (by decide) (by decide)).1⟩

end RealClaims

/-! ## The pivot block after one rotation -/

section PivotBlock

/-- The two diagonal entries written by lines 39-40 for the real angle of line 35, when
`A[p][q] ≠ 0`. -/
theorem real_pivot_diag (a d b : ℝ) (hb : b ≠ 0) :
    Real.cos (1 / 2 * Complex.arg ⟨a - d, 2 * b⟩) * Real.cos (1 / 2 * Complex.arg ⟨a - d, 2 * b⟩)
        * a
      + 2 * Real.sin (1 / 2 * Complex.arg ⟨a - d, 2 * b⟩)
        * Real.cos (1 / 2 * Complex.arg ⟨a - d, 2 * b⟩) * b
      + Real.sin (1 / 2 * Complex.arg ⟨a - d, 2 * b⟩)
        * Real.sin (1 / 2 * Complex.arg ⟨a - d, 2 * b⟩) * d
      = (a + d) / 2 + Real.sqrt ((a - d) ^ 2 + 4 * b ^ 2) / 2 ∧
    Real.sin (1 / 2 * Complex.arg ⟨a - d, 2 * b⟩) * Real.sin (1 / 2 * Complex.arg ⟨a - d, 2 * b⟩)
        * a
      - 2 * Real.sin (1 / 2 * Complex.arg ⟨a - d, 2 * b⟩)
        * Real.cos (1 / 2 * Complex.arg ⟨a - d, 2 * b⟩) * b
      + Real.cos (1 / 2 * Complex.arg ⟨a - d, 2 * b⟩)
        * Real.cos (1 / 2 * Complex.arg ⟨a - d, 2 * b⟩) * d
      = (a + d) / 2 - Real.sqrt ((a - d) ^ 2 + 4 * b ^ 2) / 2 ∧
    0 < Real.sqrt ((a - d) ^ 2 + 4 * b ^ 2) := by
  have hpos : 0 < (a - d) ^ 2 + 4 * b ^ 2 := by positivity
  have hr : 0 < Real.sqrt ((a - d) ^ 2 + 4 * b ^ 2) := Real.sqrt_pos.mpr hpos
  have hrr : Real.sqrt ((a - d) ^ 2 + 4 * b ^ 2) * Real.sqrt ((a - d) ^ 2 + 4 * b ^ 2)
      = (a - d) ^ 2 + 4 * b ^ 2 := Real.mul_self_sqrt (le_of_lt hpos)
  obtain ⟨hcc, hss, hsc⟩ := real_rot_sq (a - d) (2 * b) _ hr (by rw [hrr]; ring)
  generalize Real.cos (1 / 2 * Complex.arg ⟨a - d, 2 * b⟩) = c at hcc hss hsc ⊢
  generalize Real.sin (1 / 2 * Complex.arg ⟨a - d, 2 * b⟩) = s at hss hsc ⊢
  generalize Real.sqrt ((a - d) ^ 2 + 4 * b ^ 2) = r at hr hrr hcc hss hsc ⊢
  have hr0 : r ≠ 0 := ne_of_gt hr
  have hsc' : 2 * s * c = 2 * b / r := by
    rw [mul_assoc, hsc]; field_simp; ring
  have hx : (a - d) ^ 2 / r + 4 * b ^ 2 / r = r := by
    field_simp
    linarith
  refine ⟨?_, ?_, hr⟩
  · rw [hcc, hsc', hss]
    linear_combination (1 / 2) * hx
  · rw [hcc, hsc', hss]
    linear_combination (-1 / 2) * hx

/-- The angle of line 35 when the two diagonal entries of the pivot block are equal. -/
theorem real_angle_degenerate (a b : ℝ) (hb : b ≠ 0) :
    (0 < b ∧ 1 / 2 * Complex.arg ⟨a - a, 2 * b⟩ = Real.pi / 4) ∨
    (b < 0 ∧ 1 / 2 * Complex.arg ⟨a - a, 2 * b⟩ = -(Real.pi / 4)) := by
  rcases lt_or_gt_of_ne hb with h | h
  · right
    refine ⟨h, ?_⟩
    have : Complex.arg ⟨a - a, 2 * b⟩ = -(Real.pi / 2) :=
      Complex.arg_eq_neg_pi_div_two_iff.mpr ⟨by simp, by simp; linarith⟩
    rw [this]; ring
  · left
    refine ⟨h, ?_⟩
    have : Complex.arg ⟨a - a, 2 * b⟩ = Real.pi / 2 :=
      Complex.arg_eq_pi_div_two_iff.mpr ⟨by simp, by simp; linarith⟩
    rw [this]; ring

end PivotBlock

section RealClaims

/-- Claim C27. In real arithmetic, one rotation on a pivot `p ≠ q` with `A[p][q] ≠ 0`
returns `A'` with `A'[p][p] = (App + Aqq)/2 + r/2` and `A'[q][q] = (App + Aqq)/2 − r/2`,
`r = √((App − Aqq)² + 4·Apq²) > 0`: the two roots of
`λ² − (App + Aqq)·λ + (App·Aqq − Apq²)`, the larger one at index `p`. When `App = Aqq`
the angle is `π/4` (for `Apq > 0`) or `−π/4` (for `Apq < 0`) and the entries are
`App + |Apq|` and `App − |Apq|`. -/
theorem rotate_pivot_block (n : ℕ) (A V : Mat ℝ) (p q : ℕ) (hA : Square n A)
    (hV : Square n V) (hp : p < n) (hq : q < n) (hpq : p ≠ q) (hne : ent A p q ≠ 0) :
    ∃ A' V',
      rotate ⟨fun y x => Complex.arg ⟨x, y⟩, Real.cos, Real.sin⟩ n A V p q = some (A', V') ∧
      ent A' p p = (ent A p p + ent A q q) / 2
        + Real.sqrt ((ent A p p - ent A q q) ^ 2 + 4 * ent A p q ^ 2) / 2 ∧
      ent A' q q = (ent A p p + ent A q q) / 2
        - Real.sqrt ((ent A p p - ent A q q) ^ 2 + 4 * ent A p q ^ 2) / 2 ∧
      ent A' q q < ent A' p p ∧
      ent A' p p * ent A' p p - (ent A p p + ent A q q) * ent A' p p
        + (ent A p p * ent A q q - ent A p q * ent A p q) = 0 ∧
      ent A' q q * ent A' q q - (ent A p p + ent A q q) * ent A' q q
        + (ent A p p * ent A q q - ent A p q * ent A p q) = 0 ∧
      (ent A p p = ent A q q →
        rotationAngle ⟨fun y x => Complex.arg ⟨x, y⟩, Real.cos, Real.sin⟩ A p q
          = some (if 0 < ent A p q then Real.pi / 4 else -(Real.pi / 4)) ∧
        ent A' p p = ent A p p + |ent A p q| ∧ ent A' q q = ent A p p - |ent A p q|) := by
  obtain ⟨A', V', hr, _, _, h3, _⟩ :=
    rotate_spec ⟨fun y x => Complex.arg ⟨x, y⟩, Real.cos, Real.sin⟩ hA hV hp hq hpq
  obtain ⟨hP, hQ, hpos⟩ := real_pivot_diag (ent A p p) (ent A q q) (ent A p q) hne
  have hrr : Real.sqrt ((ent A p p - ent A q q) ^ 2 + 4 * ent A p q ^ 2)
      * Real.sqrt ((ent A p p - ent A q q) ^ 2 + 4 * ent A p q ^ 2)
      = (ent A p p - ent A q q) ^ 2 + 4 * ent A p q ^ 2 :=
    Real.mul_self_sqrt (by positivity)
  have hqp : q ≠ p := fun e => hpq e.symm
  have ePP : ent A' p p = (ent A p p + ent A q q) / 2
      + Real.sqrt ((ent A p p - ent A q q) ^ 2 + 4 * ent A p q ^ 2) / 2 := by
    rw [h3, rotEnt_diag _ _ n hpq, if_neg hpq, if_pos rfl, ← hP]
    simp only [angle]
  have eQQ : ent A' q q = (ent A p p + ent A q q) / 2
      - Real.sqrt ((ent A p p - ent A q q) ^ 2 + 4 * ent A p q ^ 2) / 2 := by
    rw [h3, rotEnt_diag _ _ n hpq, if_pos rfl, ← hQ]
    simp only [angle]
  refine ⟨A', V', hr, ePP, eQQ, by rw [ePP, eQQ]; linarith, ?_, ?_, fun heq => ?_⟩
  · rw [ePP]
    linear_combination (1 / 4) * hrr
  · rw [eQQ]
    linear_combination (1 / 4) * hrr
  · have hsq : Real.sqrt ((ent A p p - ent A q q) ^ 2 + 4 * ent A p q ^ 2)
        = 2 * |ent A p q| := by
      rw [heq, sub_self]
      have : (0 : ℝ) ^ 2 + 4 * ent A p q ^ 2 = (2 * |ent A p q|) ^ 2 := by
        rw [mul_pow, sq_abs]; ring
      rw [this, Real.sqrt_sq (by positivity)]
    refine ⟨?_, ?_, ?_⟩
    · unfold rotationAngle
      rw [rd_eq hA hp hq, rd_eq hA hp hp, rd_eq hA hq hq]
      simp only [Option.bind_eq_bind, Option.some_bind, Option.pure_def]
      congr 1
      rw [heq]
      rcases real_angle_degenerate (ent A q q) (ent A p q) hne with ⟨h1, h2⟩ | ⟨h1, h2⟩
      · rw [if_pos h1]; exact h2
      · rw [if_neg (not_lt.mpr (le_of_lt h1))]; exact h2
    · rw [ePP, hsq, heq]; ring
    · rw [eQQ, hsq, heq]; ring

/-- Claim C27 on the pivot `(0, 1)` of `[[2, 1], [1, 2]]`: the block has the eigenvalues
`3` and `1`. -/
theorem rotate_pivot_block_witness :
    Square 2 ([[2, 1], [1, 2]] : Mat ℝ) ∧ Square 2 ([[1, 0], [0, 1]] : Mat ℝ) ∧
    ent ([[2, 1], [1, 2]] : Mat ℝ) 0 1 ≠ 0 ∧
    ∃ A' V',
      rotate ⟨fun y x => Complex.arg ⟨x, y⟩, Real.cos, Real.sin⟩ 2
        ([[2, 1], [1, 2]] : Mat ℝ) [[1, 0], [0, 1]] 0 1 = some (A', V') ∧
      ent A' 0 0 = 3 ∧ ent A' 1 1 = 1 := by
  have hne : ent ([[2, 1], [1, 2]] : Mat ℝ) 0 1 ≠ 0 := by simp [ent]
  obtain ⟨A', V', hr, _, _, _, _, _, hdeg⟩ :=
    rotate_pivot_block 2 [[2, 1], [1, 2]] [[1, 0], [0, 1]] 0 1 (by decide) (by decide)
      (by decide) (by decide) (by decide) hne
  obtain ⟨_, h1, h2⟩ := hdeg (by simp [ent])
  refine ⟨by decide, by decide, hne, A', V', hr, ?_, ?_⟩
  · rw [h1]; simp [ent]; norm_num
  · rw [h2]; simp [ent]; norm_num

end RealClaims

/-! ## A matrix that is already diagonal within the threshold -/

section NoRotationSort

variable {α : Type} [LinearOrderedField α]

/-- When every strict-upper-triangle entry is below the threshold, so is the result of
the scan. -/
theorem pivotScan_lt_of_small {n : ℕ} {M : Mat α} (hM : Square n M)
    (hsmall : ∀ i j, i < j → j < n → |ent M i j| < threshold) :
    (pivotScan n M).1 < threshold := by
  obtain ⟨_, _, h3⟩ := pivotScan_inv hM
  rcases h3 with h3 | ⟨h4, h5, h6, _, _⟩
  · rw [h3]; exact threshold_pos
  · rw [h6]; exact hsmall _ _ h4 h5

omit [LinearOrderedField α] in
theorem pair_sublist_range {a b n : ℕ} (hab : a < b) (hb : b < n) :
    List.Sublist [a, b] (List.range n) := by
  induction n with
  | zero => omega
  | succ m ih =>
    rw [List.range_succ]
    rcases Nat.lt_or_ge b m with h | h
    · exact (ih h).trans (List.sublist_append_left _ _)
    · have hbm : b = m := by omega
      subst hbm
      have h1 : List.Sublist [a] (List.range b) :=
        List.singleton_sublist.mpr (List.mem_range.mpr hab)
      exact h1.append (List.Sublist.refl [b])

/-- The sort of line 62 is stable: of two indices with equal eigenvalues the smaller
one comes first. -/
theorem sortedIndices_stable (ev : List α) {a b : ℕ} (hab : a < b) (hb : b < ev.length)
    (he : ev.getD a 0 = ev.getD b 0) : List.Sublist [a, b] (sortedIndices ev) := by
  haveI : IsTotal ℕ (fun a b => ev.getD a 0 ≤ ev.getD b 0) := ⟨fun a b => le_total _ _⟩
  haveI : IsTrans ℕ (fun a b => ev.getD a 0 ≤ ev.getD b 0) :=
    ⟨fun a b c hab hbc => le_trans hab hbc⟩
  exact List.pair_sublist_insertionSort (r := fun a b => ev.getD a 0 ≤ ev.getD b 0)
    (le_of_eq he) (pair_sublist_range hab hb)

theorem colList_identity {n k : ℕ} (hk : k < n) :
    colList n (identity n : Mat α) k = (List.range n).map fun i => if i = k then 1 else 0 := by
  unfold colList
  exact List.map_congr_left fun i hi => ent_identity (List.mem_range.mp hi) hk

/-- Claim C22. If every strict-upper-triangle entry of a square input is below `1e-10`
in magnitude (as for every diagonal matrix), `jacobiEigen` performs no rotation,
whatever the `Math` functions return: with `σ` the permutation of `0 .. n-1` computed by
the sort, `values[k] = M[σ(k)][σ(k)]` in non-decreasing order, `vectors[k]` is the
standard basis vector `e_σ(k)`, and of two indices `a < b` with equal diagonal entries
`a` comes before `b` in `σ`. -/
theorem jacobiEigen_no_rotation (T : JSMath α) (n : ℕ) (M : Mat α) (hM : Square n M)
    (hsmall : ∀ i j, i < j → j < n → |ent M i j| < threshold) :
    ∃ σ : List ℕ, σ = sortedIndices (diagList n M) ∧ σ.Perm (List.range n) ∧
      jacobiLoop T n maxIter M (identity n) = some (M, identity n) ∧
      jacobiEigen T M = some
        { values := σ.map fun k => ent M k k
          vectors := σ.map fun k => (List.range n).map fun i => if i = k then 1 else 0 } ∧
      (σ.map fun k => ent M k k).Sorted (· ≤ ·) ∧
      ∀ a b, a < b → b < n → ent M a a = ent M b b → List.Sublist [a, b] σ := by
  have hlt := pivotScan_lt_of_small hM hsmall
  have hperm := sortedIndices_perm (diagList n M)
  rw [diagList_length] at hperm
  refine ⟨sortedIndices (diagList n M), rfl, hperm, jacobiLoop_break T n 99 M _ hlt, ?_,
    sortedIndices_values_sorted n M, fun a b hab hb he => ?_⟩
  · have hlt' : (pivotScan M.length M).1 < threshold := by rw [hM.1]; exact hlt
    rw [jacobiEigen_of_scan_lt T M hlt', hM.1, eigenSort_eq hM (identity_square n)]
    congr 2
    exact List.map_congr_left fun k hk => colList_identity (sortedIndices_lt M hk)
  · apply sortedIndices_stable (diagList n M) hab (by rw [diagList_length]; exact hb)
    rw [diagList_getD M (lt_trans hab hb), diagList_getD M hb]
    exact he

/-- Claim C22 on the rational diagonal matrix `diag(2, 1, 2)`: the values are
`[1, 2, 2]` and the vectors `e₁, e₀, e₂`. -/
theorem jacobiEigen_no_rotation_witness :
    Square 3 ([[2, 0, 0], [0, 1, 0], [0, 0, 2]] : Mat ℚ) ∧
    (∀ i j, i < j → j < 3 →
      |ent ([[2, 0, 0], [0, 1, 0], [0, 0, 2]] : Mat ℚ) i j| < threshold) ∧
    jacobiEigen ⟨fun _ _ => 0, fun _ => 1, fun _ => 0⟩
      ([[2, 0, 0], [0, 1, 0], [0, 0, 2]] : Mat ℚ)
      = some { values := [1, 2, 2], vectors := [[0, 1, 0], [1, 0, 0], [0, 0, 1]] } := by
  have hsmall : ∀ i j, i < j → j < 3 →
      |ent ([[2, 0, 0], [0, 1, 0], [0, 0, 2]] : Mat ℚ) i j| < threshold := by
    intro i j hij hj
    have ht : (0 : ℚ) < threshold := threshold_pos
    interval_cases j <;> interval_cases i <;> simpa [ent] using ht
  obtain ⟨σ, hσ, _, _, hres, _, _⟩ :=
    jacobiEigen_no_rotation ⟨fun _ _ => 0, fun _ => 1, fun _ => 0⟩ 3
      ([[2, 0, 0], [0, 1, 0], [0, 0, 2]] : Mat ℚ) (by decide) hsmall
  have e : σ = [1, 0, 2] := by rw [hσ]; decide
  rw [e] at hres
  exact ⟨by decide, hsmall, hres⟩

end NoRotationSort

/-! ## Exact eigenpairs of a diagonalised matrix -/

section ExactPairs

variable {α : Type} [LinearOrderedField α]

/-- With `M = V · A · Vᵀ`, `V` orthogonal and `A` exactly diagonal, column `c` of `V` is
an eigenvector of `M` for `A[c][c]`. -/
theorem decomp_eigen {n : ℕ} {M A V : Mat α} (h : Decomp n M A V)
    (hdiag : ∀ i j, i < n → j < n → i ≠ j → ent A i j = 0) {i c : ℕ} (hi : i < n)
    (hc : c < n) :
    ∑ j in Finset.range n, ent M i j * ent V j c = ent A c c * ent V i c := by
  obtain ⟨_, _, _, hO, hM⟩ := h
  have hMV : toMatrix n M * toMatrix n V = toMatrix n V * toMatrix n A := by
    rw [hM, Matrix.mul_assoc, hO, Matrix.mul_one]
  have := congrFun (congrFun hMV ⟨i, hi⟩) ⟨c, hc⟩
  simp only [Matrix.mul_apply, toMatrix] at this
  rw [Finset.sum_range fun j => ent M i j * ent V j c, this]
  rw [Finset.sum_eq_single (⟨c, hc⟩ : Fin n)]
  · ring
  · intro j _ hj
    rw [hdiag j c j.isLt hc (fun e => hj (Fin.ext e)), mul_zero]
  · intro hne
    exact absurd (Finset.mem_univ _) hne

/-- The columns of an orthogonal accumulator have norm one. -/
theorem decomp_unit {n : ℕ} {M A V : Mat α} (h : Decomp n M A V) {c : ℕ} (hc : c < n) :
    ∑ i in Finset.range n, ent V i c * ent V i c = 1 := by
  have := congrFun (congrFun h.2.2.2.1 ⟨c, hc⟩) ⟨c, hc⟩
  simp only [Matrix.mul_apply, Matrix.transpose_apply, toMatrix, Matrix.one_apply_eq] at this
  rw [Finset.sum_range fun i => ent V i c * ent V i c]
  exact this

end ExactPairs

section RealClaims

theorem square_two {α : Type} (a b c d : α) : Square 2 ([[a, b], [c, d]] : Mat α) := by
  refine ⟨rfl, fun r hr => ?_⟩
  simp only [List.mem_cons, List.mem_singleton, List.not_mem_nil, or_false] at hr
  rcases hr with rfl | rfl <;> rfl

theorem pivotScan_sym_two (a b d : ℝ) (hb : b ≠ 0) :
    pivotScan 2 ([[a, b], [b, d]] : Mat ℝ) = (|b|, 0, 1) := by
  have hr : List.range 2 = [0, 1] := rfl
  have h0 : 0 < |b| := abs_pos.mpr hb
  simp [pivotScan, scanRow, scanStep, rd, hr, List.range', h0]

theorem pivotScan_diag_two (x y : ℝ) :
    pivotScan 2 ([[x, 0], [0, y]] : Mat ℝ) = (0, 0, 1) := by
  have hr : List.range 2 = [0, 1] := rfl
  simp [pivotScan, scanRow, scanStep, rd, hr, List.range']

theorem rotA_sym_two (a b d : ℝ) (hb : b ≠ 0) :
    rotA ⟨fun y x => Complex.arg ⟨x, y⟩, Real.cos, Real.sin⟩ 2
      ([[a, b], [b, d]] : Mat ℝ) 0 1
    = [[(a + d) / 2 + Real.sqrt ((a - d) ^ 2 + 4 * b ^ 2) / 2, 0],
       [0, (a + d) / 2 - Real.sqrt ((a - d) ^ 2 + 4 * b ^ 2) / 2]] := by
  apply rotA_eq _ _ _ _ (square_two _ _ _ _)
  intro i j hi hj
  obtain ⟨hP, hQ, _⟩ := real_pivot_diag a d b hb
  have hang : angle ⟨fun y x => Complex.arg ⟨x, y⟩, Real.cos, Real.sin⟩
      ([[a, b], [b, d]] : Mat ℝ) 0 1 = 1 / 2 * Complex.arg ⟨a - d, 2 * b⟩ := by
    simp only [angle, ent, List.getD_cons_zero, List.getD_cons_succ]
  rw [hang]
  dsimp only
  have h01 : (0 : ℕ) ≠ 1 := by decide
  interval_cases i <;> interval_cases j
  · rw [rotEnt_diag _ _ 2 h01, if_neg h01, if_pos rfl]
    simpa [ent] using hP
  · rw [(rotEnt_pivot _ _ 2 h01 _).1]; simp [ent]
  · rw [(rotEnt_pivot _ _ 2 h01 _).2]; simp [ent]
  · rw [rotEnt_diag _ _ 2 h01, if_pos rfl]
    simpa [ent] using hQ

/-- Claim C25. For every real symmetric `2 × 2` input `[[a, b], [b, d]]` with
`|b| ≥ 1e-10`, `jacobiEigen` diagonalises exactly in one rotation: with
`r = √((a − d)² + 4b²)` the values are `[(a+d)/2 − r/2, (a+d)/2 + r/2]`, and each
returned vector `[x, y]` satisfies `M·[x, y] = λ·[x, y]` for its value `λ` and
`x² + y² = 1`. -/
theorem jacobiEigen_two_by_two (a b d : ℝ) (hb : 1 / 10 ^ 10 ≤ |b|) :
    ∃ r x₀ y₀ x₁ y₁,
      jacobiEigen ⟨fun y x => Complex.arg ⟨x, y⟩, Real.cos, Real.sin⟩
        ([[a, b], [b, d]] : Mat ℝ) = some r ∧
      r.values = [(a + d) / 2 - Real.sqrt ((a - d) ^ 2 + 4 * b ^ 2) / 2,
        (a + d) / 2 + Real.sqrt ((a - d) ^ 2 + 4 * b ^ 2) / 2] ∧
      r.vectors = [[x₀, y₀], [x₁, y₁]] ∧
      a * x₀ + b * y₀ = ((a + d) / 2 - Real.sqrt ((a - d) ^ 2 + 4 * b ^ 2) / 2) * x₀ ∧
      b * x₀ + d * y₀ = ((a + d) / 2 - Real.sqrt ((a - d) ^ 2 + 4 * b ^ 2) / 2) * y₀ ∧
      x₀ * x₀ + y₀ * y₀ = 1 ∧
      a * x₁ + b * y₁ = ((a + d) / 2 + Real.sqrt ((a - d) ^ 2 + 4 * b ^ 2) / 2) * x₁ ∧
      b * x₁ + d * y₁ = ((a + d) / 2 + Real.sqrt ((a - d) ^ 2 + 4 * b ^ 2) / 2) * y₁ ∧
      x₁ * x₁ + y₁ * y₁ = 1 := by
  have hb0 : b ≠ 0 := by
    intro h
    rw [h, abs_zero] at hb
    exact absurd hb (not_le.mpr (by positivity))
  have hm : ¬ |b| < (threshold : ℝ) := not_lt.mpr hb
  have hsq : Square 2 ([[a, b], [b, d]] : Mat ℝ) := square_two _ _ _ _
  have hsym : Symmetric 2 ([[a, b], [b, d]] : Mat ℝ) := by
    intro i hi j hj
    interval_cases i <;> interval_cases j <;> simp [ent]
  obtain ⟨hP, hQ, hpos⟩ := real_pivot_diag a d b hb0
  -- the run: one rotation, then the scan finds nothing
  obtain ⟨V1, hV1, e1⟩ := jacobiLoop_rotA ⟨fun y x => Complex.arg ⟨x, y⟩, Real.cos, Real.sin⟩
    99 hsq (identity_square 2) (pivotScan_sym_two a b d hb0) hm
  rw [rotA_sym_two a b d hb0] at e1
  have e2 := jacobiLoop_done ⟨fun y x => Complex.arg ⟨x, y⟩, Real.cos, Real.sin⟩ 98
    ([[(a + d) / 2 + Real.sqrt ((a - d) ^ 2 + 4 * b ^ 2) / 2, 0],
      [0, (a + d) / 2 - Real.sqrt ((a - d) ^ 2 + 4 * b ^ 2) / 2]] : Mat ℝ) V1
    (pivotScan_diag_two _ _) threshold_pos
  have hloop := e1.trans e2
  -- the invariant at the end of the run
  obtain ⟨A, V, hl, hD⟩ := jacobiLoop_decomp ⟨fun y x => Complex.arg ⟨x, y⟩, Real.cos, Real.sin⟩
    real_exactMath ([[a, b], [b, d]] : Mat ℝ) maxIter (decomp_init hsq hsym)
  have hl' : jacobiLoop ⟨fun y x => Complex.arg ⟨x, y⟩, Real.cos, Real.sin⟩ 2 (99 + 1)
      ([[a, b], [b, d]] : Mat ℝ) (identity 2) = some (A, V) := hl
  rw [hloop] at hl'
  have eA : ([[(a + d) / 2 + Real.sqrt ((a - d) ^ 2 + 4 * b ^ 2) / 2, 0],
      [0, (a + d) / 2 - Real.sqrt ((a - d) ^ 2 + 4 * b ^ 2) / 2]] : Mat ℝ) = A :=
    congrArg Prod.fst (Option.some.inj hl')
  subst eA
  have hdiag : ∀ i j, i < 2 → j < 2 → i ≠ j →
      ent ([[(a + d) / 2 + Real.sqrt ((a - d) ^ 2 + 4 * b ^ 2) / 2, 0],
        [0, (a + d) / 2 - Real.sqrt ((a - d) ^ 2 + 4 * b ^ 2) / 2]] : Mat ℝ) i j = 0 := by
    intro i j hi hj hij
    interval_cases i <;> interval_cases j <;> first | exact absurd rfl hij | simp [ent]
  have hr2 : List.range 2 = [0, 1] := rfl
  have hlt : ¬ ((a + d) / 2 + Real.sqrt ((a - d) ^ 2 + 4 * b ^ 2) / 2
      ≤ (a + d) / 2 - Real.sqrt ((a - d) ^ 2 + 4 * b ^ 2) / 2) := by
    intro h; linarith
  have hσ : sortedIndices (diagList 2
      ([[(a + d) / 2 + Real.sqrt ((a - d) ^ 2 + 4 * b ^ 2) / 2, 0],
        [0, (a + d) / 2 - Real.sqrt ((a - d) ^ 2 + 4 * b ^ 2) / 2]] : Mat ℝ)) = [1, 0] := by
    simp [sortedIndices, diagList, ent, hr2, List.insertionSort, List.orderedInsert, hlt]
  have he00 : a * ent V 0 0 + b * ent V 1 0
      = ((a + d) / 2 + Real.sqrt ((a - d) ^ 2 + 4 * b ^ 2) / 2) * ent V 0 0 := by
    have := decomp_eigen hD hdiag (by decide : 0 < 2) (by decide : 0 < 2)
    simpa [Finset.sum_range_succ, ent] using this
  have he10 : b * ent V 0 0 + d * ent V 1 0
      = ((a + d) / 2 + Real.sqrt ((a - d) ^ 2 + 4 * b ^ 2) / 2) * ent V 1 0 := by
    have := decomp_eigen hD hdiag (by decide : 1 < 2) (by decide : 0 < 2)
    simpa [Finset.sum_range_succ, ent] using this
  have he01 : a * ent V 0 1 + b * ent V 1 1
      = ((a + d) / 2 - Real.sqrt ((a - d) ^ 2 + 4 * b ^ 2) / 2) * ent V 0 1 := by
    have := decomp_eigen hD hdiag (by decide : 0 < 2) (by decide : 1 < 2)
    simpa [Finset.sum_range_succ, ent] using this
  have he11 : b * ent V 0 1 + d * ent V 1 1
      = ((a + d) / 2 - Real.sqrt ((a - d) ^ 2 + 4 * b ^ 2) / 2) * ent V 1 1 := by
    have := decomp_eigen hD hdiag (by decide : 1 < 2) (by decide : 1 < 2)
    simpa [Finset.sum_range_succ, ent] using this
  have hu0 := decomp_unit hD (by decide : 0 < 2)
  have hu1 := decomp_unit hD (by decide : 1 < 2)
  simp only [Finset.sum_range_succ, Finset.sum_range_zero, zero_add] at hu0 hu1
  refine ⟨_, ent V 0 1, ent V 1 1, ent V 0 0, ent V 1 0,
    (jacobiEigen_eq _ _ hl).trans (eigenSort_eq hD.1 hD.2.1), ?_, ?_, ?_, ?_, ?_, ?_, ?_, ?_⟩
  · simp [hσ, ent]
  · simp [hσ, colList, hr2]
  · exact he01
  · exact he11
  · exact hu1
  · exact he00
  · exact he10
  · exact hu0

/-- Claim C25 on the matrix `[[2, 1], [1, 2]]`: the values are `1` and `3`. -/
theorem jacobiEigen_two_by_two_witness :
    (1 : ℝ) / 10 ^ 10 ≤ |(1 : ℝ)| ∧
    ∃ r, jacobiEigen ⟨fun y x => Complex.arg ⟨x, y⟩, Real.cos, Real.sin⟩
        ([[2, 1], [1, 2]] : Mat ℝ) = some r ∧ r.values = [1, 3] := by
  have hb : (1 : ℝ) / 10 ^ 10 ≤ |(1 : ℝ)| := by norm_num
  obtain ⟨r, _, _, _, _, hr, hv, _⟩ := jacobiEigen_two_by_two 2 1 2 hb
  refine ⟨hb, r, hr, ?_⟩
  rw [hv]
  have : Real.sqrt (((2 : ℝ) - 2) ^ 2 + 4 * 1 ^ 2) = 2 := by
    rw [show ((2 : ℝ) - 2) ^ 2 + 4 * 1 ^ 2 = 2 ^ 2 by norm_num]
    exact Real.sqrt_sq (by norm_num)
  rw [this]
  norm_num

end RealClaims

/-! ## The edge toggle of `initEigenViz` -/

section Toggle

variable {α : Type} [LinearOrderedField α]

theorem truthy_eq {N : ℕ} {A : Mat α} (h : Square N A) {a b : ℕ} (ha : a < N) (hb : b < N) :
    truthy A a b = decide (ent A a b ≠ 0) := by
  unfold truthy
  rw [rd_eq h ha hb]

omit [LinearOrderedField α] in
theorem foldl_count_range' (p : ℕ → Bool) (s len c0 : ℕ) :
    (List.range' s len).foldl (fun c b => if p b then c + 1 else c) c0
      = c0 + ∑ b in Finset.range (s + len), if s ≤ b ∧ p b = true then 1 else 0 := by
  have := foldl_range'_inv (fun c b => if p b then c + 1 else c)
    (fun k c => c = c0 + ∑ b in Finset.range k, if s ≤ b ∧ p b = true then 1 else 0) len s c0
    (by
      simp only
      have : ∑ b in Finset.range s, (if s ≤ b ∧ p b = true then 1 else 0) = 0 :=
        Finset.sum_eq_zero fun b hb => by
          rw [if_neg]; intro h; exact absurd (Finset.mem_range.mp hb) (not_lt.mpr h.1)
      rw [this, add_zero])
    (fun k c hk1 _ hc => by
      simp only at hc ⊢
      rw [Finset.sum_range_succ, hc]
      by_cases hp : p k = true
      · rw [if_pos hp, if_pos ⟨hk1, hp⟩, add_assoc]
      · rw [if_neg hp, if_neg fun h => hp h.2, add_zero])
  exact this

/-- The edge count as a double sum over the strict upper triangle. -/
theorem edgeCount_eq {N : ℕ} {A : Mat α} (h : Square N A) :
    edgeCount N A
      = ∑ a in Finset.range N, ∑ b in Finset.range N,
          if a < b ∧ ent A a b ≠ 0 then 1 else 0 := by
  unfold edgeCount
  rw [List.range_eq_range']
  have := foldl_range'_inv
    (fun edgeCount a => (List.range' (a + 1) (N - (a + 1))).foldl
      (fun edgeCount b => if truthy A a b then edgeCount + 1 else edgeCount) edgeCount)
    (fun k c => c = ∑ a in Finset.range k, ∑ b in Finset.range N,
      if a < b ∧ ent A a b ≠ 0 then 1 else 0) N 0 0 (by simp)
    (fun k c _ hk hc => by
      simp only at hc ⊢
      have hk' : k < N := by omega
      rw [foldl_count_range', Finset.sum_range_succ, hc,
        show k + 1 + (N - (k + 1)) = N by omega]
      congr 1
      refine Finset.sum_congr rfl fun b hb => ?_
      rw [truthy_eq h hk' (Finset.mem_range.mp hb)]
      simp only [decide_eq_true_eq, Nat.succ_le_iff])
  rw [Nat.zero_add] at this
  exact this

/-- The entries after `adjacency[i][j] = v; adjacency[j][i] = adjacency[i][j]`. -/
theorem toggle_write {N : ℕ} {A : Mat α} (h : Square N A) {i j : ℕ} (hi : i < N)
    (hj : j < N) (v : α) :
    ∃ A', (do
        let adjacency ← wr A i j v
        let w ← rd adjacency i j
        wr adjacency j i w) = some A' ∧ Square N A' ∧
      ∀ a b, ent A' a b = if (a = i ∧ b = j) ∨ (a = j ∧ b = i) then v else ent A a b := by
  have h1 := h.upd i j v
  have e1 : rd (upd A i j v) i j = some v := by
    rw [rd_eq h1 hi hj, ent_upd h hi hj, if_pos ⟨rfl, rfl⟩]
  refine ⟨upd (upd A i j v) j i v, ?_, h1.upd j i v, fun a b => ?_⟩
  · simp only [wr_eq h hi hj, Option.bind_eq_bind, Option.some_bind, e1, wr_eq h1 hj hi]
  · rw [ent_upd h1 hj hi, ent_upd h hi hj]
    by_cases c1 : a = j ∧ b = i
    · rw [if_pos c1, if_pos (Or.inr c1)]
    · rw [if_neg c1]
      by_cases c2 : a = i ∧ b = j
      · rw [if_pos c2, if_pos (Or.inl c2)]
      · rw [if_neg c2, if_neg (by tauto)]

/-- Writing `v` to the entries `(i, j)` and `(j, i)` of a symmetric matrix changes the
edge count by the change of that one edge. -/
theorem edgeCount_toggle {N : ℕ} {A A' : Mat α} (h : Square N A) (h' : Square N A')
    (hsym : Symmetric N A) {i j : ℕ} (hi : i < N) (hj : j < N) (hij : i ≠ j) (v : α)
    (hent : ∀ a b, ent A' a b = if (a = i ∧ b = j) ∨ (a = j ∧ b = i) then v else ent A a b) :
    edgeCount N A' + (if ent A i j ≠ 0 then 1 else 0)
      = edgeCount N A + (if v ≠ 0 then 1 else 0) := by
  -- the one position of the strict upper triangle that changes
  obtain ⟨lo, hi', hlt, hlo, hhi, hcase⟩ : ∃ lo hi', lo < hi' ∧ lo < N ∧ hi' < N ∧
      ((lo = i ∧ hi' = j) ∨ (lo = j ∧ hi' = i)) := by
    rcases Nat.lt_or_gt_of_ne hij with c | c
    · exact ⟨i, j, c, hi, hj, Or.inl ⟨rfl, rfl⟩⟩
    · exact ⟨j, i, c, hj, hi, Or.inr ⟨rfl, rfl⟩⟩
  have hold : ent A lo hi' = ent A i j := by
    rcases hcase with ⟨rfl, rfl⟩ | ⟨rfl, rfl⟩
    · rfl
    · exact hsym _ hlo _ hhi
  have hone : ∀ c : ℕ, ∑ a in Finset.range N, ∑ b in Finset.range N,
      (if a = lo ∧ b = hi' then c else 0) = c := by
    intro c
    rw [Finset.sum_eq_single lo]
    · rw [Finset.sum_eq_single hi']
      · rw [if_pos ⟨rfl, rfl⟩]
      · intro b _ hb; rw [if_neg fun e => hb e.2]
      · intro hb; exact absurd (Finset.mem_range.mpr hhi) hb
    · intro a _ ha
      exact Finset.sum_eq_zero fun b _ => by rw [if_neg fun e => ha e.1]
    · intro ha; exact absurd (Finset.mem_range.mpr hlo) ha
  have hpt : ∀ a b, (if a < b ∧ ent A' a b ≠ 0 then 1 else 0)
      + (if a = lo ∧ b = hi' then (if ent A i j ≠ 0 then 1 else 0) else 0)
      = (if a < b ∧ ent A a b ≠ 0 then 1 else 0)
        + (if a = lo ∧ b = hi' then (if v ≠ 0 then 1 else 0) else 0) := by
    intro a b
    by_cases c : a = lo ∧ b = hi'
    · have e' : ent A' lo hi' = v := by
        rw [hent, if_pos]
        rcases hcase with ⟨e1, e2⟩ | ⟨e1, e2⟩
        · exact Or.inl ⟨e1, e2⟩
        · exact Or.inr ⟨e1, e2⟩
      rw [if_pos c, if_pos c, c.1, c.2, e', hold]
      simp only [hlt, true_and]
      exact add_comm _ _
    · rw [if_neg c, if_neg c]
      by_cases hab : a < b
      · have e' : ent A' a b = ent A a b := by
          rw [hent, if_neg]
          rintro (⟨e1, e2⟩ | ⟨e1, e2⟩)
          · rcases hcase with ⟨f1, f2⟩ | ⟨f1, f2⟩
            · exact c ⟨by omega, by omega⟩
            · omega
          · rcases hcase with ⟨f1, f2⟩ | ⟨f1, f2⟩
            · omega
            · exact c ⟨by omega, by omega⟩
        rw [e']
      · rw [if_neg fun e => hab e.1, if_neg fun e => hab e.1]
  have key : ∑ a in Finset.range N, ∑ b in Finset.range N,
        ((if a < b ∧ ent A' a b ≠ 0 then 1 else 0)
          + (if a = lo ∧ b = hi' then (if ent A i j ≠ 0 then 1 else 0) else 0))
      = ∑ a in Finset.range N, ∑ b in Finset.range N,
        ((if a < b ∧ ent A a b ≠ 0 then 1 else 0)
          + (if a = lo ∧ b = hi' then (if v ≠ 0 then 1 else 0) else 0)) :=
    Finset.sum_congr rfl fun a _ => Finset.sum_congr rfl fun b _ => hpt a b
  simp only [Finset.sum_add_distrib] at key
  rw [hone, hone] at key
  rw [edgeCount_eq h, edgeCount_eq h']
  exact key

/-- One callback keeps the invariant. -/
theorem toggleEdge_inv {N : ℕ} {A : Mat α} (h : AdjInv N A) {i j : ℕ} (hi : i < N)
    (hj : j < N) :
    ∃ A', toggleEdge N A i j = some A' ∧ AdjInv N A' ∧ (i = j → A' = A) ∧
      (edgeCount N A' < edgeCount N A → 8 < edgeCount N A) := by
  obtain ⟨hsq, hsym, hdiag, h01, hcnt⟩ := h
  unfold toggleEdge
  by_cases hij : i = j
  · rw [if_pos hij]
    exact ⟨A, rfl, ⟨hsq, hsym, hdiag, h01, hcnt⟩, fun _ => rfl, fun hlt => absurd hlt (lt_irrefl _)⟩
  rw [if_neg hij]
  by_cases hc : truthy A i j = true ∧ edgeCount N A ≤ 8
  · rw [if_pos hc]
    exact ⟨A, rfl, ⟨hsq, hsym, hdiag, h01, hcnt⟩, fun e => absurd e hij,
      fun hlt => absurd hlt (lt_irrefl _)⟩
  rw [if_neg hc]
  obtain ⟨A', hA', hsq', hent⟩ := toggle_write hsq hi hj (if truthy A i j then (0 : α) else 1)
  have hcount := edgeCount_toggle hsq hsq' hsym hi hj hij _ hent
  rw [truthy_eq hsq hi hj] at hc hcount hent
  simp only [decide_eq_true_eq] at hc hcount hent
  have hv01 : ∀ a b, a < N → b < N → ent A' a b = 0 ∨ ent A' a b = 1 := by
    intro a b ha hb
    rw [hent]
    split_ifs
    · exact Or.inl rfl
    · exact Or.inr rfl
    · exact h01 a ha b hb
  refine ⟨A', hA', ⟨hsq', ?_, ?_, fun a ha b hb => hv01 a b ha hb, ?_⟩,
    fun e => absurd e hij, fun hlt => ?_⟩
  · intro a ha b hb
    rw [hent, hent, hsym a ha b hb]
    by_cases c : (a = i ∧ b = j) ∨ (a = j ∧ b = i)
    · rw [if_pos c, if_pos (c.elim (fun e => Or.inr ⟨e.2, e.1⟩) fun e => Or.inl ⟨e.2, e.1⟩)]
    · rw [if_neg c,
        if_neg fun c' => c (c'.elim (fun e => Or.inr ⟨e.2, e.1⟩) fun e => Or.inl ⟨e.2, e.1⟩)]
  · intro a ha
    rw [hent, if_neg (by omega)]
    exact hdiag a ha
  · by_cases hold : ent A i j ≠ 0
    · have h8 : 8 < edgeCount N A := by
        by_contra h8
        exact hc ⟨hold, by omega⟩
      rw [if_pos hold, if_pos hold] at hcount
      simp only [ne_eq, not_true_eq_false, if_false] at hcount
      omega
    · rw [if_neg hold, if_neg hold] at hcount
      simp only [ne_eq, one_ne_zero, not_false_eq_true, if_true] at hcount
      omega
  · by_cases hold : ent A i j ≠ 0
    · by_contra h8
      exact hc ⟨hold, by omega⟩
    · rw [if_neg hold, if_neg hold] at hcount
      simp only [ne_eq, one_ne_zero, not_false_eq_true, if_true] at hcount
      omega

theorem initialAdjacency_inv :
    AdjInv 8 (initialAdjacency : Mat α) ∧ edgeCount 8 (initialAdjacency : Mat α) = 13 := by
  have hsq : Square 8 (initialAdjacency : Mat α) := by
    refine ⟨rfl, fun r hr => ?_⟩
    simp only [initialAdjacency, List.mem_cons, List.mem_singleton, List.not_mem_nil,
      or_false] at hr
    rcases hr with rfl | rfl | rfl | rfl | rfl | rfl | rfl | rfl <;> rfl
  have hcnt : edgeCount 8 (initialAdjacency : Mat α) = 13 := by
    have hr : List.range 8 = [0, 1, 2, 3, 4, 5, 6, 7] := rfl
    simp [edgeCount, truthy, rd, initialAdjacency, hr, List.range']
  refine ⟨⟨hsq, ?_, ?_, ?_, by rw [hcnt]; decide⟩, hcnt⟩
  · intro i hi j hj
    interval_cases i <;> interval_cases j <;> simp [initialAdjacency, ent]
  · intro i hi
    interval_cases i <;> simp [initialAdjacency, ent]
  · intro i hi j hj
    interval_cases i <;> interval_cases j <;> simp [initialAdjacency, ent]

/-- Claim C30. The initial adjacency matrix of `initEigenViz` is an `8 × 8` symmetric
matrix with zero diagonal, entries `0` or `1` and `13` edges, and for every choice of
the two indices `i, j < 8` the timer callback returns a matrix with the same invariant
(symmetric, zero diagonal, entries `0` or `1`, at least `8` edges): it changes nothing
for `i = j`, and it lowers the edge count only when more than `8` edges exist. Hence
the invariant holds after any sequence of callbacks. -/
theorem toggleEdge_invariant :
    AdjInv 8 (initialAdjacency : Mat α) ∧ edgeCount 8 (initialAdjacency : Mat α) = 13 ∧
    (∀ (A : Mat α) (i j : ℕ), AdjInv 8 A → i < 8 → j < 8 →
      ∃ A', toggleEdge 8 A i j = some A' ∧ AdjInv 8 A' ∧ (i = j → A' = A) ∧
        (edgeCount 8 A' < edgeCount 8 A → 8 < edgeCount 8 A)) ∧
    ∀ choices : List (ℕ × ℕ), (∀ c ∈ choices, c.1 < 8 ∧ c.2 < 8) →
      ∃ A, choices.foldlM (fun A c => toggleEdge 8 A c.1 c.2) (initialAdjacency : Mat α)
        = some A ∧ AdjInv 8 A := by
  refine ⟨initialAdjacency_inv.1, initialAdjacency_inv.2,
    fun A i j h hi hj => toggleEdge_inv h hi hj, fun choices => ?_⟩
  have hgen : ∀ (l : List (ℕ × ℕ)) (A0 : Mat α), AdjInv 8 A0 →
      (∀ c ∈ l, c.1 < 8 ∧ c.2 < 8) →
      ∃ A, l.foldlM (fun A c => toggleEdge 8 A c.1 c.2) A0 = some A ∧ AdjInv 8 A := by
    intro l
    induction l with
    | nil => intro A0 h0 _; exact ⟨A0, rfl, h0⟩
    | cons c l ih =>
      intro A0 h0 hc
      obtain ⟨A1, e1, h1, _⟩ := toggleEdge_inv h0 (hc c (List.mem_cons_self _ _)).1
        (hc c (List.mem_cons_self _ _)).2
      obtain ⟨A2, e2, h2⟩ := ih A1 h1 fun d hd => hc d (List.mem_cons_of_mem _ hd)
      refine ⟨A2, ?_, h2⟩
      rw [List.foldlM_cons, e1]
      exact e2
  exact hgen choices _ initialAdjacency_inv.1

/-- Claim C30 on the rational matrix, for the callback with `i = 0`, `j = 3`, which
adds the edge `(0, 3)`. -/
theorem toggleEdge_invariant_witness :
    AdjInv 8 (initialAdjacency : Mat ℚ) ∧
    ∃ A', toggleEdge 8 (initialAdjacency : Mat ℚ) 0 3 = some A' ∧ AdjInv 8 A' ∧
      ent A' 0 3 = 1 ∧ ent A' 3 0 = 1 ∧ edgeCount 8 A' = 14 := by
  obtain ⟨h0, _, hstep, _⟩ := toggleEdge_invariant (α := ℚ)
  obtain ⟨A', hA', hinv, _⟩ := hstep initialAdjacency 0 3 h0 (by decide) (by decide)
  have e : toggleEdge 8 (initialAdjacency : Mat ℚ) 0 3 = some
      [[0, 1, 1, 1, 0, 0, 0, 1],
       [1, 0, 1, 1, 0, 0, 0, 0],
       [1, 1, 0, 1, 1, 0, 0, 0],
       [1, 1, 1, 0, 1, 0, 0, 0],
       [0, 0, 1, 1, 0, 1, 1, 0],
       [0, 0, 0, 0, 1, 0, 1, 1],
       [0, 0, 0, 0, 1, 1, 0, 1],
       [1, 0, 0, 0, 0, 1, 1, 0]] := by decide
  rw [e] at hA'
  have eA := Option.some.inj hA'
  subst eA
  exact ⟨h0, _, e, hinv, by decide, by decide, by decide⟩

end Toggle

/-! ## The network generator of `initSpectralEmbedding` -/

section Network

variable {α : Type} [LinearOrderedField α]

theorem communityAssignment_eq :
    communityAssignment
      = [0, 0, 0, 0, 0, 0, 0, 0, 1, 1, 1, 1, 1, 1, 1, 1, 2, 2, 2, 2, 2, 2, 2, 2] := by
  decide

theorem replicate_square (N : ℕ) :
    Square N (List.replicate N (List.replicate N (0 : α))) := by
  refine ⟨by simp, fun r hr => ?_⟩
  rw [(List.mem_replicate.mp hr).2, List.length_replicate]

theorem ent_replicate (N a b : ℕ) :
    ent (List.replicate N (List.replicate N (0 : α))) a b = 0 := by
  unfold ent
  simp only [List.getD_eq_getElem?_getD, List.getElem?_replicate]
  by_cases ha : a < N
  · rw [if_pos ha, Option.getD_some, List.getElem?_replicate]
    split_ifs <;> rfl
  · rw [if_neg ha]
    rfl

/-- The entries after `adj[i][j] = 1; adj[j][i] = 1`. -/
theorem ent_addEdge {N : ℕ} {adj : Mat α} (h : Square N adj) {i j : ℕ} (hi : i < N)
    (hj : j < N) (a b : ℕ) :
    ent (upd (upd adj i j 1) j i 1) a b
      = if (a = i ∧ b = j) ∨ (a = j ∧ b = i) then 1 else ent adj a b := by
  rw [ent_upd (h.upd i j 1) hj hi, ent_upd h hi hj]
  by_cases c1 : a = j ∧ b = i
  · rw [if_pos c1, if_pos (Or.inr c1)]
  · rw [if_neg c1]
    by_cases c2 : a = i ∧ b = j
    · rw [if_pos c2, if_pos (Or.inl c2)]
    · rw [if_neg c2, if_neg fun c => c.elim c2 c1]

/-- Adding an edge between two different nodes keeps the graph simple. -/
theorem SimpleGraph01.addEdge_simple {N : ℕ} {adj : Mat α} (h : SimpleGraph01 N adj) {i j : ℕ}
    (hi : i < N) (hj : j < N) (hij : i ≠ j) :
    SimpleGraph01 N (upd (upd adj i j 1) j i 1) := by
  obtain ⟨hsq, hsym, hdiag, h01⟩ := h
  refine ⟨(hsq.upd i j 1).upd j i 1, fun a ha b hb => ?_, fun a ha => ?_, fun a ha b hb => ?_⟩
  · rw [ent_addEdge hsq hi hj, ent_addEdge hsq hi hj, hsym a ha b hb]
    by_cases c : (a = i ∧ b = j) ∨ (a = j ∧ b = i)
    · rw [if_pos c, if_pos (c.elim (fun e => Or.inr ⟨e.2, e.1⟩) fun e => Or.inl ⟨e.2, e.1⟩)]
    · rw [if_neg c,
        if_neg fun c' => c (c'.elim (fun e => Or.inr ⟨e.2, e.1⟩) fun e => Or.inl ⟨e.2, e.1⟩)]
  · rw [ent_addEdge hsq hi hj, if_neg (by omega)]
    exact hdiag a ha
  · rw [ent_addEdge hsq hi hj]
    split_ifs
    · exact Or.inr rfl
    · exact h01 a ha b hb

/-- Adding an edge inside a community keeps all edges inside communities. -/
theorem IntraOnly.addEdge_intra {N : ℕ} {adj : Mat α} (hsq : Square N adj) (h : IntraOnly N adj)
    {i j : ℕ} (hi : i < N) (hj : j < N)
    (hc : communityAssignment[i]? = communityAssignment[j]?) :
    IntraOnly N (upd (upd adj i j 1) j i 1) := by
  intro a ha b hb hne
  rw [ent_addEdge hsq hi hj] at hne
  by_cases c : (a = i ∧ b = j) ∨ (a = j ∧ b = i)
  · rcases c with ⟨rfl, rfl⟩ | ⟨rfl, rfl⟩
    · exact hc
    · exact hc.symm
  · rw [if_neg c] at hne
    exact h a ha b hb hne

/-- A property kept by every draw holds for the matrix after all draws. -/
theorem buildAdjacency_inv (N : ℕ) (rand : ℕ → ℕ → α) (P : Mat α → Prop)
    (h0 : P (List.replicate N (List.replicate N 0)))
    (hstep : ∀ adj i j, i < j → j < N → P adj → P (edgeStep i (rand i j) adj j)) :
    P (buildAdjacency N rand) := by
  unfold buildAdjacency
  rw [List.range_eq_range']
  have := foldl_range'_inv
    (fun adj i => (List.range' (i + 1) (N - (i + 1))).foldl
      (fun adj j => edgeStep i (rand i j) adj j) adj)
    (fun _ adj => P adj) N 0 _ h0
    (fun k s _ hk hs =>
      foldl_range'_inv (fun adj j => edgeStep k (rand k j) adj j) (fun _ adj => P adj)
        (N - (k + 1)) (k + 1) s hs
        (fun j s' hj1 hj2 hs' => hstep s' k j (by omega) (by omega) hs'))
  exact this

/-- The matrix after the draws is a simple graph, whatever the draws. -/
theorem buildAdjacency_simple (N : ℕ) (rand : ℕ → ℕ → α) :
    SimpleGraph01 N (buildAdjacency N rand) := by
  refine buildAdjacency_inv N rand (SimpleGraph01 N) ?_ ?_
  · refine ⟨replicate_square N, fun a _ b _ => ?_, fun a _ => ent_replicate N a a,
      fun a _ b _ => Or.inl (ent_replicate N a b)⟩
    rw [ent_replicate, ent_replicate]
  · intro adj i j hij hj h
    unfold edgeStep
    by_cases hu : rand i j
        < (if communityAssignment[i]? = communityAssignment[j]? then pIntra else pInter)
    · rw [if_pos hu]
      exact h.addEdge_simple (lt_trans hij hj) hj (Nat.ne_of_lt hij)
    · rw [if_neg hu]
      exact h

omit [LinearOrderedField α] in
theorem foldl_add_eq_sum {β : Type} [AddCommMonoid β] (f : ℕ → β) (n : ℕ) :
    (List.range n).foldl (fun d j => d + f j) 0 = ∑ j in Finset.range n, f j := by
  induction n with
  | zero => rfl
  | succ m ih => rw [List.range_succ, List.foldl_append, ih, Finset.sum_range_succ]; rfl

theorem degree_eq (N : ℕ) (adj : Mat α) (i : ℕ) :
    degree N adj i = ∑ j in Finset.range N, ent adj i j :=
  foldl_add_eq_sum _ N

/-- A node of a simple graph with a non-zero row sum has a neighbour. -/
theorem exists_neighbour {N : ℕ} {adj : Mat α} (h : SimpleGraph01 N adj) {i : ℕ}
    (hi : i < N) (hd : degree N adj i ≠ 0) : ∃ j, j < N ∧ j ≠ i ∧ ent adj i j = 1 := by
  rw [degree_eq] at hd
  obtain ⟨j, hj, hne⟩ := Finset.exists_ne_zero_of_sum_ne_zero hd
  have hj' := Finset.mem_range.mp hj
  refine ⟨j, hj', fun e => ?_, (h.2.2.2 i hi j hj').resolve_left hne⟩
  rw [e] at hne
  exact hne (h.2.2.1 i hi)

/-- Every node has another node in its community: the search of lines 1264-1270 finds
one. -/
theorem connectIsolated_eq (adj : Mat α) {i : ℕ} (hi : i < 24) :
    ∃ j, j < 24 ∧ j ≠ i ∧ communityAssignment[j]? = communityAssignment[i]? ∧
      connectIsolated 24 adj i = upd (upd adj i j 1) j i 1 := by
  have hsome : ∀ i, i < 24 → ((List.range 24).find? fun j =>
      decide (j ≠ i ∧ communityAssignment[j]? = communityAssignment[i]?)).isSome = true := by
    decide
  obtain ⟨j, hj⟩ := Option.isSome_iff_exists.mp (hsome i hi)
  have hp := List.find?_some hj
  have hm := List.mem_of_find?_eq_some hj
  simp only [decide_eq_true_eq] at hp
  refine ⟨j, List.mem_range.mp hm, hp.1, hp.2, ?_⟩
  unfold connectIsolated
  rw [hj]

/-- A property kept by every edge added inside a community between two different nodes
holds after the repair loop. -/
theorem ensureConnectivity_inv (P : Mat α → Prop)
    (hstep : ∀ adj i j, i < 24 → j < 24 → i ≠ j →
      communityAssignment[i]? = communityAssignment[j]? → P adj →
      P (upd (upd adj i j 1) j i 1)) (adj : Mat α) (h : P adj) :
    P (ensureConnectivity 24 adj) := by
  unfold ensureConnectivity
  rw [List.range_eq_range']
  have := foldl_range'_inv
    (fun adj i => if degree 24 adj i = 0 then connectIsolated 24 adj i else adj)
    (fun _ adj => P adj) 24 0 adj h
    (fun k s _ hk hs => by
      simp only
      split_ifs
      · obtain ⟨j, hj, hne, hc, e⟩ := connectIsolated_eq s (by omega : k < 24)
        rw [e]
        exact hstep s k j (by omega) hj (fun e => hne e.symm) hc.symm hs
      · exact hs)
  exact this

/-- After the repair loop the graph is simple and no node is isolated. -/
theorem ensureConnectivity_spec {adj : Mat α} (h : SimpleGraph01 24 adj) :
    SimpleGraph01 24 (ensureConnectivity 24 adj) ∧
    ∀ i, i < 24 → ∃ j, j < 24 ∧ j ≠ i ∧ ent (ensureConnectivity 24 adj) i j = 1 := by
  unfold ensureConnectivity
  rw [List.range_eq_range']
  have := foldl_range'_inv
    (fun adj i => if degree 24 adj i = 0 then connectIsolated 24 adj i else adj)
    (fun k adj => SimpleGraph01 24 adj ∧
      ∀ i, i < k → ∃ j, j < 24 ∧ j ≠ i ∧ ent adj i j = 1) 24 0 adj
    ⟨h, fun i hi => absurd hi (Nat.not_lt_zero i)⟩
    (fun k s _ hk hs => by
      simp only
      have hk' : k < 24 := by omega
      by_cases hd : degree 24 s k = 0
      · rw [if_pos hd]
        obtain ⟨j, hj, hne, _, e⟩ := connectIsolated_eq s hk'
        rw [e]
        refine ⟨hs.1.addEdge_simple hk' hj (fun e => hne e.symm), fun i hi => ?_⟩
        rcases Nat.lt_succ_iff_lt_or_eq.mp hi with hlt | rfl
        · obtain ⟨b, hb, hbi, hent⟩ := hs.2 i hlt
          refine ⟨b, hb, hbi, ?_⟩
          rw [ent_addEdge hs.1.1 hk' hj]
          split_ifs
          · rfl
          · exact hent
        · refine ⟨j, hj, hne, ?_⟩
          rw [ent_addEdge hs.1.1 hk' hj, if_pos (Or.inl ⟨rfl, rfl⟩)]
      · rw [if_neg hd]
        refine ⟨hs.1, fun i hi => ?_⟩
        rcases Nat.lt_succ_iff_lt_or_eq.mp hi with hlt | rfl
        · exact hs.2 i hlt
        · exact exists_neighbour hs.1 hk' hd)
  exact this

/-- A graph whose edges all stay inside the three communities is not connected. -/
theorem not_connected_of_intraOnly {adj : Mat α} (h : IntraOnly 24 adj) :
    ¬ Connected 24 adj := by
  intro hc
  have hreach : ∀ x, Relation.ReflTransGen
      (fun a b => a < 24 ∧ b < 24 ∧ 0 < ent adj a b) 0 x →
      communityAssignment[x]? = communityAssignment[0]? := by
    intro x hx
    induction hx with
    | refl => rfl
    | tail _ hbc ih =>
      rw [← ih]
      exact (h _ hbc.1 _ hbc.2.1 (ne_of_gt hbc.2.2)).symm
  have := hreach 8 (hc 0 (by decide) 8 (by decide))
  revert this
  decide

end Network

section NetworkClaims

/-- Claim C26 fails on the code. When every call of `Math.random()` returns `0.3`, every pair
inside a community gets an edge (`0.3 < 0.55`) and no pair across communities does
(`0.3 ≥ 0.06`). No node is isolated, so the repair loop has nothing to do, and the
generated graph consists of three components: it is a simple graph without isolated
nodes that is not connected. -/
theorem generateNetwork_not_connected :
    SimpleGraph01 24 (generateNetwork fun _ _ => (3 / 10 : ℚ)) ∧
    (∀ i, i < 24 → ∃ j, j < 24 ∧ j ≠ i ∧
      ent (generateNetwork fun _ _ => (3 / 10 : ℚ)) i j = 1) ∧
    IntraOnly 24 (generateNetwork fun _ _ => (3 / 10 : ℚ)) ∧
    ¬ Connected 24 (generateNetwork fun _ _ => (3 / 10 : ℚ)) := by
  have hsimple := ensureConnectivity_spec
    (buildAdjacency_simple 24 fun _ _ => (3 / 10 : ℚ))
  have hbuild : Square 24 (buildAdjacency 24 fun _ _ => (3 / 10 : ℚ)) ∧
      IntraOnly 24 (buildAdjacency 24 fun _ _ => (3 / 10 : ℚ)) := by
    refine buildAdjacency_inv 24 _ (fun adj => Square 24 adj ∧ IntraOnly 24 adj)
      ⟨replicate_square 24, fun a _ b _ hne => absurd (ent_replicate 24 a b) hne⟩ ?_
    intro adj i j hij hj h
    unfold edgeStep
    by_cases hc : communityAssignment[i]? = communityAssignment[j]?
    · rw [if_pos hc]
      split_ifs
      · exact ⟨(h.1.upd i j 1).upd j i 1, h.2.addEdge_intra h.1 (lt_trans hij hj) hj hc⟩
      · exact h
    · rw [if_neg hc, if_neg (by unfold pInter; norm_num)]
      exact h
  have hintra : IntraOnly 24 (generateNetwork fun _ _ => (3 / 10 : ℚ)) :=
    (ensureConnectivity_inv (fun adj => Square 24 adj ∧ IntraOnly 24 adj)
      (fun adj i j hi hj _ hc h => ⟨(h.1.upd i j 1).upd j i 1, h.2.addEdge_intra h.1 hi hj hc⟩)
      _ hbuild).2
  exact ⟨hsimple.1, hsimple.2, hintra, not_connected_of_intraOnly hintra⟩

/-- What the repair loop does achieve: for every outcome of the random draws the
generated network is a simple graph on `24` nodes (symmetric, zero diagonal, entries `0` or `1`) in which no
node is isolated: every node has at least one neighbour. -/
theorem generateNetwork_no_isolated {α : Type} [LinearOrderedField α] (rand : ℕ → ℕ → α) :
    SimpleGraph01 24 (generateNetwork rand) ∧
    ∀ i, i < 24 → ∃ j, j < 24 ∧ j ≠ i ∧ ent (generateNetwork rand) i j = 1 :=
  ensureConnectivity_spec (buildAdjacency_simple 24 rand)

/-- The repair loop when every call of `Math.random()` returns `0.9`: no edge is drawn
and every node is repaired. -/
theorem generateNetwork_no_isolated_witness :
    buildAdjacency 24 (fun _ _ => (9 / 10 : ℚ)) = List.replicate 24 (List.replicate 24 0) ∧
    ∃ j, j < 24 ∧ j ≠ 0 ∧ ent (generateNetwork fun _ _ => (9 / 10 : ℚ)) 0 j = 1 := by
  refine ⟨?_, (generateNetwork_no_isolated fun _ _ => (9 / 10 : ℚ)).2 0 (by decide)⟩
  refine buildAdjacency_inv 24 _ (fun adj => adj = List.replicate 24 (List.replicate 24 0))
    rfl ?_
  intro adj i j _ _ h
  unfold edgeStep
  rw [if_neg, h]
  split_ifs
  · unfold pIntra; norm_num
  · unfold pInter; norm_num

end NetworkClaims



section DoubleRounding

theorem roundHalfEven_intCast (m : ℤ) : roundHalfEven (m : ℚ) = m := by
  unfold roundHalfEven
  rw [Int.floor_intCast, sub_self, if_pos (by norm_num)]

theorem roundHalfEven_add_half (m : ℤ) (h : m % 2 = 0) :
    roundHalfEven ((m : ℚ) + 1 / 2) = m := by
  have hf : ⌊(m : ℚ) + 1 / 2⌋ = m := by
    rw [Int.floor_eq_iff]
    constructor <;> linarith
  unfold roundHalfEven
  rw [hf, if_neg (by norm_num), if_neg (by norm_num), if_pos h]

theorem log_two_eq {r : ℚ} {k : ℤ} (h1 : (2 : ℚ) ^ k ≤ r) (h2 : r < 2 ^ (k + 1)) :
    Int.log 2 r = k := by
  have hr : 0 < r := lt_of_lt_of_le (zpow_pos (by norm_num) k) h1
  apply le_antisymm
  · have := (Int.lt_zpow_iff_log_lt (b := 2) (by norm_num) hr).mp (by simpa using h2)
    omega
  · exact (Int.zpow_le_iff_le_log (by norm_num) hr).mp (by simpa using h1)

/-- A number `z · 2 ^ L` whose last binary digit sits where a double of its size has
its last digit is not changed by rounding, unless it overflows. -/
theorem Double.ofRat_of_lastDigit {q : ℚ} (z : ℤ)
    (hz : q = z * 2 ^ Double.lastDigit q) (hlt : |q| < 2 ^ 1024) :
    Double.ofRat q = Double.fin q := by
  have h2 : (2 : ℚ) ^ Double.lastDigit q ≠ 0 := zpow_ne_zero _ (by norm_num)
  have hdiv : q / 2 ^ Double.lastDigit q = z := by
    rw [div_eq_iff h2]
    exact hz
  unfold Double.ofRat
  simp only [hdiv, roundHalfEven_intCast, ← hz]
  rw [if_neg (not_le.mpr hlt)]

/-- Representable numbers: `m · 2 ^ e` with at most 53 binary digits in `m`, no digit
below `2 ^ (-1074)` and a magnitude below `2 ^ 1024` is a double. -/
theorem Double.ofRat_grid (m e : ℤ) (hm : |m| ≤ 2 ^ 53) (he : -1074 ≤ e)
    (hlt : |(m : ℚ) * 2 ^ e| < 2 ^ 1024) :
    Double.ofRat (m * 2 ^ e) = Double.fin (m * 2 ^ e) := by
  by_cases hm0 : m = 0
  · subst hm0
    exact Double.ofRat_of_lastDigit 0 (by simp) hlt
  have hpos : (0 : ℚ) < |(m : ℚ) * 2 ^ e| := abs_pos.mpr
    (mul_ne_zero (Int.cast_ne_zero.mpr hm0) (zpow_ne_zero _ (by norm_num)))
  have hlo := Int.zpow_log_le_self (b := 2) (by norm_num) hpos
  have hhi := Int.lt_zpow_succ_log_self (b := 2) (by norm_num) (|(m : ℚ) * 2 ^ e|)
  simp only [Nat.cast_ofNat] at hlo hhi
  have h2e : (0 : ℚ) < 2 ^ e := zpow_pos (by norm_num) e
  have habs : |(m : ℚ) * 2 ^ e| = |(m : ℚ)| * 2 ^ e := by
    rw [abs_mul, abs_of_pos h2e]
  have hmq : |(m : ℚ)| ≤ 2 ^ 53 := by exact_mod_cast hm
  have hk : Int.log 2 |(m : ℚ) * 2 ^ e| ≤ 53 + e := by
    have : (2 : ℚ) ^ Int.log 2 |(m : ℚ) * 2 ^ e| ≤ 2 ^ (53 + e) := by
      refine hlo.trans ?_
      rw [habs, zpow_add₀ (by norm_num)]
      exact mul_le_mul_of_nonneg_right (by exact_mod_cast hmq) h2e.le
    exact (zpow_le_zpow_iff_right₀ (by norm_num)).mp this
  rcases lt_or_ge (Int.log 2 |(m : ℚ) * 2 ^ e|) (53 + e) with hlt1 | hge
  · have hL : Double.lastDigit ((m : ℚ) * 2 ^ e) ≤ e := by
      unfold Double.lastDigit
      omega
    refine Double.ofRat_of_lastDigit
      (m * 2 ^ (e - Double.lastDigit ((m : ℚ) * 2 ^ e)).toNat) ?_ hlt
    have : ((2 : ℚ) ^ (e - Double.lastDigit ((m : ℚ) * 2 ^ e)).toNat)
        = 2 ^ (e - Double.lastDigit ((m : ℚ) * 2 ^ e)) := by
      rw [← zpow_natCast, Int.toNat_of_nonneg (by omega)]
    push_cast
    rw [this, mul_assoc, ← zpow_add₀ (by norm_num), sub_add_cancel]
  · have hkeq : Int.log 2 |(m : ℚ) * 2 ^ e| = 53 + e := le_antisymm hk hge
    have hL : Double.lastDigit ((m : ℚ) * 2 ^ e) = e + 1 := by
      unfold Double.lastDigit
      omega
    have hm53 : (2 : ℚ) ^ 53 ≤ |(m : ℚ)| := by
      rw [hkeq, habs, zpow_add₀ (by norm_num)] at hlo
      have h53 : (2 : ℚ) ^ (53 : ℤ) = 2 ^ 53 := by norm_num
      rw [h53] at hlo
      exact le_of_mul_le_mul_right hlo h2e
    have hm' : |m| = 2 ^ 53 := le_antisymm hm (by exact_mod_cast hm53)
    refine Double.ofRat_of_lastDigit (m / 2) ?_ hlt
    have hdvd : (2 : ℤ) ∣ m := by
      rcases abs_eq (by norm_num : (0 : ℤ) ≤ 2 ^ 53) |>.mp hm' with h | h <;> rw [h] <;>
        norm_num
    obtain ⟨c, rfl⟩ := hdvd
    rw [hL, zpow_add₀ (by norm_num), Int.mul_ediv_cancel_left _ (by norm_num)]
    push_cast
    ring

/-- Every integer of magnitude at most `2 ^ 53` is a double. -/
theorem Double.ofRat_intCast (m : ℤ) (hm : |m| ≤ 2 ^ 53) :
    Double.ofRat (m : ℚ) = Double.fin (m : ℚ) := by
  have h := Double.ofRat_grid m 0 hm (by norm_num) (by
    rw [zpow_zero, mul_one]
    have : |(m : ℚ)| ≤ 2 ^ 53 := by exact_mod_cast hm
    exact lt_of_le_of_lt this (by norm_num))
  rwa [zpow_zero, mul_one] at h

/-- The sum `2 ^ 53 + 1` is not a double: it lies halfway between the doubles
`2 ^ 53` and `2 ^ 53 + 2` and is rounded to the first, whose significand is even. -/
theorem Double.ofRat_two_pow_add_one : Double.ofRat (2 ^ 53 + 1) = Double.fin (2 ^ 53) := by
  have hlog : Int.log 2 |(2 ^ 53 + 1 : ℚ)| = 53 := by
    rw [abs_of_pos (by norm_num)]
    exact log_two_eq (by norm_num) (by norm_num)
  have hL : Double.lastDigit (2 ^ 53 + 1) = 1 := by
    unfold Double.lastDigit
    rw [hlog]
    rfl
  have hdiv : (2 ^ 53 + 1 : ℚ) / 2 ^ (1 : ℤ) = ((2 ^ 52 : ℤ) : ℚ) + 1 / 2 := by
    norm_num
  unfold Double.ofRat
  simp only [hL, hdiv, roundHalfEven_add_half (2 ^ 52) (by norm_num)]
  rw [if_neg (by norm_num)]
  norm_num

end DoubleRounding

section DoubleLaplacian

theorem rd_toDouble (A : Mat ℚ) (i j : ℕ) :
    rd (toDouble A) i j = (rd A i j).map Double.fin := by
  unfold rd toDouble
  rw [List.getElem?_map]
  cases A[i]? with
  | none => rfl
  | some row => simp [List.getElem?_map]

theorem rd_getD (A : Mat ℚ) (i j : ℕ) : rd A i j = (A.getD i [])[j]? := by
  unfold rd
  rw [List.getD_eq_getElem?_getD]
  cases A[i]? with
  | none => rfl
  | some row => rfl

/-- The exact `deg` after `k` columns is the sum of the first `k` entries of the row
(a zero entry is skipped and adds nothing). -/
theorem laplacianFold_deg (n : ℕ) (adj : Mat ℚ) (i k : ℕ) :
    ((List.range k).foldl (laplacianStep adj i) (List.replicate n 0, 0)).2
      = ((adj.getD i []).take k).sum := by
  induction k with
  | zero => simp
  | succ k ih =>
    rw [List.range_succ, List.foldl_append, List.foldl_cons, List.foldl_nil,
      List.take_succ, List.sum_append, ← ih]
    unfold laplacianStep
    rw [rd_getD]
    cases h : (adj.getD i [])[k]? with
    | none => simp
    | some a =>
      by_cases ha : a = 0
      · simp [ha]
      · simp [ha]

/-- The row `L[i]` built in double arithmetic holds the same off-diagonal entries as
the row built in exact arithmetic; `deg` is the same as long as no partial sum is
rounded. -/
theorem doubleLaplacianFold (n : ℕ) (adj : Mat ℚ) (i k : ℕ) :
    ((List.range k).foldl (doubleLaplacianStep (toDouble adj) i)
        (List.replicate n (Double.fin 0), Double.fin 0)).1
      = (((List.range k).foldl (laplacianStep adj i) (List.replicate n 0, 0)).1).map
          Double.fin ∧
    (ExactRow (adj.getD i []) →
      ((List.range k).foldl (doubleLaplacianStep (toDouble adj) i)
        (List.replicate n (Double.fin 0), Double.fin 0)).2
      = Double.fin ((List.range k).foldl (laplacianStep adj i) (List.replicate n 0, 0)).2) := by
  induction k with
  | zero => simp
  | succ k ih =>
    rw [List.range_succ, List.foldl_append, List.foldl_cons, List.foldl_nil,
      List.foldl_append, List.foldl_cons, List.foldl_nil]
    have hdeg := laplacianFold_deg n adj i (k + 1)
    rw [List.range_succ, List.foldl_append, List.foldl_cons, List.foldl_nil] at hdeg
    have hdeg0 := laplacianFold_deg n adj i k
    generalize (List.range k).foldl (laplacianStep adj i) (List.replicate n 0, 0) = S at *
    generalize (List.range k).foldl (doubleLaplacianStep (toDouble adj) i)
      (List.replicate n (Double.fin 0), Double.fin 0) = D at *
    unfold doubleLaplacianStep
    unfold laplacianStep at hdeg ⊢
    rw [rd_toDouble]
    rw [rd_getD] at hdeg ⊢
    cases h : (adj.getD i [])[k]? with
    | none => simpa using ih
    | some a =>
      rw [h] at hdeg
      by_cases ha : a = 0
      · simpa [ha, Double.truthy] using ih
      · have hk : k + 1 ≤ (adj.getD i []).length := by
          have := (List.getElem?_eq_some_iff.mp h).1
          omega
        simp only [Option.map_some', Double.truthy, ne_eq, ha, not_false_eq_true,
          decide_True, if_true, Double.neg, ite_true] at hdeg ⊢
        refine ⟨?_, fun hex => ?_⟩
        · rw [ih.1, List.map_set]
        · rw [ih.2 hex]
          show Double.ofRat (S.2 + a) = _
          rw [hdeg]
          exact hex (k + 1) hk

end DoubleLaplacian

section DoubleEntries

theorem toDouble_length (A : Mat ℚ) : (toDouble A).length = A.length := by
  simp [toDouble]

theorem toDouble_square {n : ℕ} {A : Mat ℚ} (h : Square n A) : Square n (toDouble A) := by
  refine ⟨by rw [toDouble_length, h.1], fun r hr => ?_⟩
  unfold toDouble at hr
  obtain ⟨r', hr', rfl⟩ := List.mem_map.mp hr
  rw [List.length_map]
  exact h.2 r' hr'

/-- Row `i` in double arithmetic: the row of the exact Laplacian, with the rounded
`deg` on the diagonal. -/
theorem doubleLaplacianRow_eq (n : ℕ) (adj : Mat ℚ) (i : ℕ) :
    doubleLaplacianRow n (toDouble adj) i
      = ((laplacianRow n adj i).map Double.fin).set i
          ((List.range n).foldl (doubleLaplacianStep (toDouble adj) i)
            (List.replicate n (Double.fin 0), Double.fin 0)).2 := by
  unfold doubleLaplacianRow laplacianRow
  simp only
  rw [(doubleLaplacianFold n adj i n).1, List.map_set, List.set_set]

theorem doubleLaplacianRow_exact (n : ℕ) (adj : Mat ℚ) (i : ℕ)
    (hex : ExactRow (adj.getD i [])) :
    doubleLaplacianRow n (toDouble adj) i = (laplacianRow n adj i).map Double.fin := by
  unfold doubleLaplacianRow laplacianRow
  simp only
  rw [(doubleLaplacianFold n adj i n).1, (doubleLaplacianFold n adj i n).2 hex, List.map_set]

/-- When no partial row sum is rounded, the code returns the exact Laplacian. -/
theorem doubleGraphLaplacian_exact (adj : Mat ℚ)
    (hex : ∀ i, i < adj.length → ExactRow (adj.getD i [])) :
    doubleGraphLaplacian (toDouble adj) = toDouble (graphLaplacian adj) := by
  unfold doubleGraphLaplacian graphLaplacian toDouble
  simp only [List.length_map, List.map_map]
  apply List.map_congr_left
  intro i hi
  exact doubleLaplacianRow_exact _ adj i (hex i (List.mem_range.mp hi))

theorem doubleGraphLaplacian_row (adj : Mat ℚ) {i : ℕ} (hi : i < adj.length) :
    (doubleGraphLaplacian (toDouble adj))[i]?
      = some (doubleLaplacianRow adj.length (toDouble adj) i) := by
  unfold doubleGraphLaplacian
  simp only [toDouble_length]
  rw [List.getElem?_map, List.getElem?_range hi]
  rfl

theorem graphLaplacian_row (adj : Mat ℚ) {i : ℕ} (hi : i < adj.length) :
    (graphLaplacian adj).getD i [] = laplacianRow adj.length adj i := by
  unfold graphLaplacian
  simp only
  rw [List.getD_eq_getElem?_getD, List.getElem?_map, List.getElem?_range hi]
  rfl

theorem doubleGraphLaplacian_square {n : ℕ} {adj : Mat ℚ} (h : Square n adj) :
    Square n (doubleGraphLaplacian (toDouble adj)) := by
  constructor
  · simp [doubleGraphLaplacian, toDouble_length, h.1]
  · intro r hr
    unfold doubleGraphLaplacian at hr
    simp only [toDouble_length, List.mem_map, List.mem_range] at hr
    obtain ⟨i, hi, rfl⟩ := hr
    rw [doubleLaplacianRow_eq, List.length_set, List.length_map, h.1]
    exact (laplacianRow_spec h (by rw [← h.1]; exact hi)).1

theorem rd_doubleGraphLaplacian_off {n : ℕ} {adj : Mat ℚ} (h : Square n adj) {i j : ℕ}
    (hi : i < n) (hj : j < n) (hij : i ≠ j) :
    rd (doubleGraphLaplacian (toDouble adj)) i j = some (Double.fin (-ent adj i j)) := by
  have hi' : i < adj.length := by rw [h.1]; exact hi
  have hspec := laplacianRow_spec h hi
  unfold rd
  rw [doubleGraphLaplacian_row adj hi', h.1, doubleLaplacianRow_eq]
  simp only
  rw [List.getElem?_set_ne hij, List.getElem?_map,
    List.getElem?_eq_getElem (by rw [hspec.1]; exact hj)]
  have := hspec.2 j hj
  rw [List.getD_eq_getElem _ _ (by rw [hspec.1]; exact hj),
    if_neg fun e => hij e.symm] at this
  rw [this]
  rfl

theorem rd_doubleGraphLaplacian_diag {n : ℕ} {adj : Mat ℚ} (h : Square n adj) {i : ℕ}
    (hi : i < n) (hex : ExactRow (adj.getD i [])) :
    rd (doubleGraphLaplacian (toDouble adj)) i i
      = some (Double.fin (adj.getD i []).sum) := by
  have hi' : i < adj.length := by rw [h.1]; exact hi
  have hspec := laplacianRow_spec h hi
  unfold rd
  rw [doubleGraphLaplacian_row adj hi', h.1, doubleLaplacianRow_exact n adj i hex]
  simp only
  rw [List.getElem?_map, List.getElem?_eq_getElem (by rw [hspec.1]; exact hi)]
  have := hspec.2 i hi
  rw [List.getD_eq_getElem _ _ (by rw [hspec.1]; exact hi), if_pos rfl] at this
  rw [this, row_eq h hi, sum_map_range]
  rfl

end DoubleEntries

section DoubleExamples

theorem Double.ofRat_zero : Double.ofRat 0 = Double.fin 0 := by
  have := Double.ofRat_intCast 0 (by norm_num)
  simpa using this

theorem Double.ofRat_one : Double.ofRat 1 = Double.fin 1 := by
  have := Double.ofRat_intCast 1 (by norm_num)
  simpa using this

theorem Double.ofRat_two_pow : Double.ofRat (2 ^ 53) = Double.fin (2 ^ 53) := by
  have := Double.ofRat_intCast (2 ^ 53) (by norm_num)
  simpa using this

theorem Double.add_zero_two_pow :
    Double.add (Double.fin 0) (Double.fin (2 ^ 53)) = Double.fin (2 ^ 53) := by
  simp only [Double.add, zero_add, Double.ofRat_two_pow]

theorem Double.add_zero_one :
    Double.add (Double.fin 0) (Double.fin 1) = Double.fin 1 := by
  simp only [Double.add, zero_add, Double.ofRat_one]

theorem Double.add_two_pow_one :
    Double.add (Double.fin (2 ^ 53)) (Double.fin 1) = Double.fin (2 ^ 53) := by
  simp only [Double.add, Double.ofRat_two_pow_add_one]

theorem Double.add_one_two_pow :
    Double.add (Double.fin 1) (Double.fin (2 ^ 53)) = Double.fin (2 ^ 53) := by
  simp only [Double.add]
  rw [add_comm, Double.ofRat_two_pow_add_one]

theorem doubleLaplacianStep_fin (adj : Mat Double) (i : ℕ) (st : List Double × Double)
    (j : ℕ) (a : ℚ) (h : rd adj i j = some (Double.fin a)) :
    doubleLaplacianStep adj i st j
      = if a = 0 then st else (st.1.set j (Double.fin (-a)), st.2.add (Double.fin a)) := by
  unfold doubleLaplacianStep
  rw [h]
  by_cases ha : a = 0 <;> simp [Double.truthy, Double.neg, ha]

theorem doubleLaplacianRow_rounded_zero :
    doubleLaplacianRow 3 (toDouble [[0, 2 ^ 53, 1], [2 ^ 53, 0, 0], [1, 0, 0]]) 0
      = [Double.fin (2 ^ 53), Double.fin (-2 ^ 53), Double.fin (-1)] := by
  have hr : List.range 3 = [0, 1, 2] := rfl
  simp only [doubleLaplacianRow, hr, List.foldl]
  rw [doubleLaplacianStep_fin (toDouble [[0, 2 ^ 53, 1], [2 ^ 53, 0, 0], [1, 0, 0]]) 0 _ 0 0 rfl, if_pos rfl,
    doubleLaplacianStep_fin (toDouble [[0, 2 ^ 53, 1], [2 ^ 53, 0, 0], [1, 0, 0]]) 0 _ 1 (2 ^ 53) rfl, if_neg (by norm_num),
    doubleLaplacianStep_fin (toDouble [[0, 2 ^ 53, 1], [2 ^ 53, 0, 0], [1, 0, 0]]) 0 _ 2 1 rfl, if_neg (by norm_num)]
  simp only []
  rw [Double.add_zero_two_pow, Double.add_two_pow_one]
  rfl

theorem doubleLaplacianRow_rounded_one :
    doubleLaplacianRow 3 (toDouble [[0, 2 ^ 53, 1], [2 ^ 53, 0, 0], [1, 0, 0]]) 1
      = [Double.fin (-2 ^ 53), Double.fin (2 ^ 53), Double.fin 0] := by
  have hr : List.range 3 = [0, 1, 2] := rfl
  simp only [doubleLaplacianRow, hr, List.foldl]
  rw [doubleLaplacianStep_fin (toDouble [[0, 2 ^ 53, 1], [2 ^ 53, 0, 0], [1, 0, 0]]) 1 _ 0 (2 ^ 53) rfl, if_neg (by norm_num),
    doubleLaplacianStep_fin (toDouble [[0, 2 ^ 53, 1], [2 ^ 53, 0, 0], [1, 0, 0]]) 1 _ 1 0 rfl, if_pos rfl,
    doubleLaplacianStep_fin (toDouble [[0, 2 ^ 53, 1], [2 ^ 53, 0, 0], [1, 0, 0]]) 1 _ 2 0 rfl, if_pos rfl]
  simp only []
  rw [Double.add_zero_two_pow]
  rfl

theorem doubleLaplacianRow_rounded_two :
    doubleLaplacianRow 3 (toDouble [[0, 2 ^ 53, 1], [2 ^ 53, 0, 0], [1, 0, 0]]) 2
      = [Double.fin (-1), Double.fin 0, Double.fin 1] := by
  have hr : List.range 3 = [0, 1, 2] := rfl
  simp only [doubleLaplacianRow, hr, List.foldl]
  rw [doubleLaplacianStep_fin (toDouble [[0, 2 ^ 53, 1], [2 ^ 53, 0, 0], [1, 0, 0]]) 2 _ 0 1 rfl, if_neg (by norm_num),
    doubleLaplacianStep_fin (toDouble [[0, 2 ^ 53, 1], [2 ^ 53, 0, 0], [1, 0, 0]]) 2 _ 1 0 rfl, if_pos rfl,
    doubleLaplacianStep_fin (toDouble [[0, 2 ^ 53, 1], [2 ^ 53, 0, 0], [1, 0, 0]]) 2 _ 2 0 rfl, if_pos rfl]
  simp only []
  rw [Double.add_zero_one]
  rfl

/-- The input of the rounding examples, in double arithmetic: `deg` of row `0` is
`2 ^ 53 + 1` rounded to `2 ^ 53`. -/
theorem doubleGraphLaplacian_rounded :
    doubleGraphLaplacian (toDouble [[0, 2 ^ 53, 1], [2 ^ 53, 0, 0], [1, 0, 0]])
      = toDouble [[2 ^ 53, -2 ^ 53, -1], [-2 ^ 53, 2 ^ 53, 0], [-1, 0, 1]] := by
  have hr : List.range 3 = [0, 1, 2] := rfl
  have hl : (toDouble [[0, 2 ^ 53, 1], [2 ^ 53, 0, 0], [1, 0, 0]]).length = 3 := rfl
  unfold doubleGraphLaplacian
  simp only [hl, hr, List.map]
  rw [doubleLaplacianRow_rounded_zero, doubleLaplacianRow_rounded_one,
    doubleLaplacianRow_rounded_two]
  rfl

theorem doubleGraphLaplacian_rounded_diag :
    doubleGraphLaplacian (toDouble [[1, 2 ^ 53], [2 ^ 53, 0]])
      = toDouble [[2 ^ 53, -2 ^ 53], [-2 ^ 53, 2 ^ 53]] := by
  have hr : List.range 2 = [0, 1] := rfl
  have hl : (toDouble [[1, 2 ^ 53], [2 ^ 53, 0]]).length = 2 := rfl
  have h0 : doubleLaplacianRow 2 (toDouble [[1, 2 ^ 53], [2 ^ 53, 0]]) 0
      = [Double.fin (2 ^ 53), Double.fin (-2 ^ 53)] := by
    simp only [doubleLaplacianRow, hr, List.foldl]
    rw [doubleLaplacianStep_fin (toDouble [[1, 2 ^ 53], [2 ^ 53, 0]]) 0 _ 0 1 rfl, if_neg (by norm_num),
      doubleLaplacianStep_fin (toDouble [[1, 2 ^ 53], [2 ^ 53, 0]]) 0 _ 1 (2 ^ 53) rfl, if_neg (by norm_num)]
    simp only []
    rw [Double.add_zero_one, Double.add_one_two_pow]
    rfl
  have h1 : doubleLaplacianRow 2 (toDouble [[1, 2 ^ 53], [2 ^ 53, 0]]) 1
      = [Double.fin (-2 ^ 53), Double.fin (2 ^ 53)] := by
    simp only [doubleLaplacianRow, hr, List.foldl]
    rw [doubleLaplacianStep_fin (toDouble [[1, 2 ^ 53], [2 ^ 53, 0]]) 1 _ 0 (2 ^ 53) rfl, if_neg (by norm_num),
      doubleLaplacianStep_fin (toDouble [[1, 2 ^ 53], [2 ^ 53, 0]]) 1 _ 1 0 rfl, if_pos rfl]
    simp only []
    rw [Double.add_zero_two_pow]
    rfl
  unfold doubleGraphLaplacian
  simp only [hl, hr, List.map]
  rw [h0, h1]
  rfl

/-- Integer entries whose magnitudes add up to at most `2 ^ 53` are added without
rounding: this covers every row of a `0/1` matrix. -/
theorem ExactRow.of_int (l : List ℤ) (hb : (l.map Int.natAbs).sum ≤ 2 ^ 53) :
    ExactRow (l.map (Int.cast : ℤ → ℚ)) := by
  intro k _
  have hs : ((l.map (Int.cast : ℤ → ℚ)).take k).sum = (((l.take k).sum : ℤ) : ℚ) := by
    rw [← List.map_take, Int.cast_list_sum]
  rw [hs]
  apply Double.ofRat_intCast
  have h1 : ∀ t : List ℤ, |t.sum| ≤ ((t.map Int.natAbs).sum : ℤ) := by
    intro t
    induction t with
    | nil => simp
    | cons a t ih =>
      simp only [List.sum_cons, List.map_cons, Nat.cast_add, Int.natCast_natAbs]
      exact (abs_add _ _).trans (add_le_add_left ih _)
  have h2 : ((l.take k).map Int.natAbs).sum ≤ (l.map Int.natAbs).sum := by
    rw [List.map_take]
    exact List.Sublist.sum_le_sum (List.take_sublist _ _) (fun _ _ => Nat.zero_le _)
  calc |(l.take k).sum| ≤ (((l.take k).map Int.natAbs).sum : ℤ) := h1 _
    _ ≤ ((l.map Int.natAbs).sum : ℤ) := by exact_mod_cast h2
    _ ≤ 2 ^ 53 := by exact_mod_cast hb

end DoubleExamples

section DoubleClaims

theorem ent_map_cast (A : Mat ℚ) (i j : ℕ) :
    ent (A.map (List.map (Rat.cast : ℚ → ℝ))) i j = ((ent A i j : ℚ) : ℝ) := by
  unfold ent
  simp only [List.getD_eq_getElem?_getD, List.getElem?_map]
  rcases h : A[i]? with _ | row
  · simp
  · simp only [Option.map_some', Option.getD_some, List.getElem?_map]
    rcases h' : row[j]? with _ | a <;> simp

theorem map_cast_square {n : ℕ} {A : Mat ℚ} (h : Square n A) :
    Square n (A.map (List.map (Rat.cast : ℚ → ℝ))) := by
  refine ⟨by rw [List.length_map, h.1], fun r hr => ?_⟩
  obtain ⟨r', hr', rfl⟩ := List.mem_map.mp hr
  rw [List.length_map]
  exact h.2 r' hr'

theorem ent_graphLaplacian_cast {n : ℕ} {adj : Mat ℚ} (h : Square n adj) {i j : ℕ}
    (hi : i < n) (hj : j < n) :
    ((ent (graphLaplacian adj) i j : ℚ) : ℝ)
      = ent (graphLaplacian (adj.map (List.map (Rat.cast : ℚ → ℝ)))) i j := by
  rw [ent_graphLaplacian h hi hj, ent_graphLaplacian (map_cast_square h) hi hj]
  by_cases hji : j = i
  · rw [if_pos hji, if_pos hji]
    push_cast
    exact Finset.sum_congr rfl fun b _ => (ent_map_cast adj i b).symm
  · rw [if_neg hji, if_neg hji, ent_map_cast]
    push_cast
    rfl

theorem rounded_nonNeg : NonNeg 3 ([[0, 2 ^ 53, 1], [2 ^ 53, 0, 0], [1, 0, 0]] : Mat ℚ) := by
  intro i hi j hj
  interval_cases i <;> interval_cases j <;> simp [ent]

theorem rounded_zeroDiag : ZeroDiag 3 ([[0, 2 ^ 53, 1], [2 ^ 53, 0, 0], [1, 0, 0]] : Mat ℚ) := by
  intro i hi
  interval_cases i <;> simp [ent]

theorem rounded_symmetric : Symmetric 3 ([[0, 2 ^ 53, 1], [2 ^ 53, 0, 0], [1, 0, 0]] : Mat ℚ) := by
  intro i hi j hj
  interval_cases i <;> interval_cases j <;> simp [ent]

theorem exactRow_small : ∀ i, i < 3 → ExactRow (([[0, 1, 2], [1, 0, 0], [2, 0, 0]] : Mat ℚ).getD i []) := by
  intro i hi
  interval_cases i
  · simpa using ExactRow.of_int [0, 1, 2] (by norm_num)
  · simpa using ExactRow.of_int [1, 0, 0] (by norm_num)
  · simpa using ExactRow.of_int [2, 0, 0] (by norm_num)

theorem exactRow_loop : ∀ i, i < 2 → ExactRow (([[5, 1], [1, 0]] : Mat ℚ).getD i []) := by
  intro i hi
  interval_cases i
  · simpa using ExactRow.of_int [5, 1] (by norm_num)
  · simpa using ExactRow.of_int [1, 0] (by norm_num)

theorem doubleGraphLaplacian_getElem {n : ℕ} {adj : Mat ℚ} (h : Square n adj) {i : ℕ}
    (hi : i < n) (hex : ExactRow (adj.getD i [])) :
    (doubleGraphLaplacian (toDouble adj))[i]?
        = some (((graphLaplacian adj).getD i []).map Double.fin) ∧
      ((graphLaplacian adj).getD i []).length = n := by
  have hi' : i < adj.length := by rw [h.1]; exact hi
  rw [doubleGraphLaplacian_row adj hi', doubleLaplacianRow_exact _ adj i hex,
    graphLaplacian_row adj hi', h.1]
  exact ⟨rfl, (laplacianRow_spec h hi).1⟩

/-- Claim C6 fails as stated. In double arithmetic `graphLaplacian` on the symmetric
matrix `[[0, 2^53, 1], [2^53, 0, 0], [1, 0, 0]]` of doubles returns
`[[2^53, -2^53, -1], [-2^53, 2^53, 0], [-1, 0, 1]]`: `L[0][0]` is `2^53`, while the sum
of row `0` is `2^53 + 1`, which is no double and was rounded when `deg` took it. -/
theorem graphLaplacian_diag_rounded :
    Square 3 ([[0, 2 ^ 53, 1], [2 ^ 53, 0, 0], [1, 0, 0]] : Mat ℚ) ∧
    Double.ofRat 0 = Double.fin 0 ∧ Double.ofRat 1 = Double.fin 1 ∧
    Double.ofRat (2 ^ 53) = Double.fin (2 ^ 53) ∧
    doubleGraphLaplacian (toDouble [[0, 2 ^ 53, 1], [2 ^ 53, 0, 0], [1, 0, 0]])
      = toDouble [[2 ^ 53, -2 ^ 53, -1], [-2 ^ 53, 2 ^ 53, 0], [-1, 0, 1]] ∧
    rd (doubleGraphLaplacian (toDouble [[0, 2 ^ 53, 1], [2 ^ 53, 0, 0], [1, 0, 0]])) 0 0
      = some (Double.fin (2 ^ 53)) ∧
    (([[0, 2 ^ 53, 1], [2 ^ 53, 0, 0], [1, 0, 0]] : Mat ℚ).getD 0 []).sum = 2 ^ 53 + 1 ∧
    rd (doubleGraphLaplacian (toDouble [[0, 2 ^ 53, 1], [2 ^ 53, 0, 0], [1, 0, 0]])) 0 0
      ≠ some (Double.fin
          (([[0, 2 ^ 53, 1], [2 ^ 53, 0, 0], [1, 0, 0]] : Mat ℚ).getD 0 []).sum) := by
  have hsum : (([[0, 2 ^ 53, 1], [2 ^ 53, 0, 0], [1, 0, 0]] : Mat ℚ).getD 0 []).sum
      = 2 ^ 53 + 1 := by
    simp
  refine ⟨by decide, Double.ofRat_zero, Double.ofRat_one, Double.ofRat_two_pow,
    doubleGraphLaplacian_rounded, ?_, hsum, ?_⟩
  · rw [doubleGraphLaplacian_rounded]
    rfl
  · rw [doubleGraphLaplacian_rounded, hsum]
    intro e
    have e' : (2 : ℚ) ^ 53 = 2 ^ 53 + 1 := Double.fin.inj (Option.some.inj e)
    norm_num at e'

/-- Claim C6, amended. For every square `n × n` matrix `adj` of finite numbers,
`graphLaplacian(adj)` in double arithmetic is an `n × n` matrix `L` with
`L[i][j] = -adj[i][j]` for every `i ≠ j`; and `L[i][i]` is the sum of all the entries of
row `i` of `adj` whenever no partial sum of that row is rounded while `deg`
accumulates it. -/
theorem doubleGraphLaplacian_entries (n : ℕ) (adj : Mat ℚ) (h : Square n adj) :
    Square n (doubleGraphLaplacian (toDouble adj)) ∧
    ∀ i, i < n →
      (∀ j, j < n → i ≠ j →
        rd (doubleGraphLaplacian (toDouble adj)) i j = some (Double.fin (-ent adj i j))) ∧
      (ExactRow (adj.getD i []) →
        rd (doubleGraphLaplacian (toDouble adj)) i i
          = some (Double.fin (adj.getD i []).sum)) :=
  ⟨doubleGraphLaplacian_square h, fun _ hi =>
    ⟨fun _ hj hij => rd_doubleGraphLaplacian_off h hi hj hij,
      fun hex => rd_doubleGraphLaplacian_diag h hi hex⟩⟩

/-- Claim C6, amended, on the matrix `[[0, 1, 2], [1, 0, 0], [2, 0, 0]]`, whose rows
are added without rounding. -/
theorem doubleGraphLaplacian_entries_witness :
    Square 3 ([[0, 1, 2], [1, 0, 0], [2, 0, 0]] : Mat ℚ) ∧
    (∀ i, i < 3 → ExactRow (([[0, 1, 2], [1, 0, 0], [2, 0, 0]] : Mat ℚ).getD i [])) ∧
    (Square 3 (doubleGraphLaplacian (toDouble [[0, 1, 2], [1, 0, 0], [2, 0, 0]])) ∧
    ∀ i, i < 3 →
      (∀ j, j < 3 → i ≠ j →
        rd (doubleGraphLaplacian (toDouble [[0, 1, 2], [1, 0, 0], [2, 0, 0]])) i j
          = some (Double.fin (-ent ([[0, 1, 2], [1, 0, 0], [2, 0, 0]] : Mat ℚ) i j))) ∧
      (ExactRow (([[0, 1, 2], [1, 0, 0], [2, 0, 0]] : Mat ℚ).getD i []) →
        rd (doubleGraphLaplacian (toDouble [[0, 1, 2], [1, 0, 0], [2, 0, 0]])) i i
          = some (Double.fin (([[0, 1, 2], [1, 0, 0], [2, 0, 0]] : Mat ℚ).getD i []).sum))) :=
  ⟨by decide, exactRow_small, doubleGraphLaplacian_entries 3 [[0, 1, 2], [1, 0, 0], [2, 0, 0]] (by decide)⟩

/-- Claim C7 fails as stated. `[[0, 2^53, 1], [2^53, 0, 0], [1, 0, 0]]` is a square
matrix of doubles with non-negative weights and zero diagonal; in double arithmetic
row `0` of its Laplacian is `[2^53, -2^53, -1]`, which sums to `-1`: not zero, and not
within `1e-9` of zero. -/
theorem graphLaplacian_row_sum_rounded :
    Square 3 ([[0, 2 ^ 53, 1], [2 ^ 53, 0, 0], [1, 0, 0]] : Mat ℚ) ∧
    NonNeg 3 ([[0, 2 ^ 53, 1], [2 ^ 53, 0, 0], [1, 0, 0]] : Mat ℚ) ∧
    ZeroDiag 3 ([[0, 2 ^ 53, 1], [2 ^ 53, 0, 0], [1, 0, 0]] : Mat ℚ) ∧
    (doubleGraphLaplacian (toDouble [[0, 2 ^ 53, 1], [2 ^ 53, 0, 0], [1, 0, 0]]))[0]?
      = some (([2 ^ 53, -2 ^ 53, -1] : List ℚ).map Double.fin) ∧
    ([2 ^ 53, -2 ^ 53, -1] : List ℚ).sum = -1 ∧
    ¬ |([2 ^ 53, -2 ^ 53, -1] : List ℚ).sum| ≤ 1 / 10 ^ 9 := by
  have hsum : ([2 ^ 53, -2 ^ 53, -1] : List ℚ).sum = -1 := by simp
  refine ⟨by decide, rounded_nonNeg, rounded_zeroDiag, ?_, hsum, ?_⟩
  · rw [doubleGraphLaplacian_rounded]
    rfl
  · rw [hsum]
    norm_num

/-- Claim C7, amended. For a square `n × n` matrix `adj` of finite numbers with zero
diagonal, every row of `graphLaplacian(adj)` in whose accumulation of `deg` no partial
sum is rounded sums to zero. -/
theorem doubleGraphLaplacian_row_sum_zero (n : ℕ) (adj : Mat ℚ) (h : Square n adj)
    (hdiag : ZeroDiag n adj) :
    ∀ i, i < n → ExactRow (adj.getD i []) →
      ∃ row : List ℚ,
        (doubleGraphLaplacian (toDouble adj))[i]? = some (row.map Double.fin) ∧
        row.length = n ∧ row.sum = 0 := by
  intro i hi hex
  obtain ⟨e, hl⟩ := doubleGraphLaplacian_getElem h hi hex
  refine ⟨_, e, hl, ?_⟩
  rw [graphLaplacian_row_sum h hi, hdiag i hi]

/-- Claim C7, amended, on the matrix `[[0, 1, 2], [1, 0, 0], [2, 0, 0]]`. -/
theorem doubleGraphLaplacian_row_sum_zero_witness :
    Square 3 ([[0, 1, 2], [1, 0, 0], [2, 0, 0]] : Mat ℚ) ∧
    ZeroDiag 3 ([[0, 1, 2], [1, 0, 0], [2, 0, 0]] : Mat ℚ) ∧
    (∀ i, i < 3 → ExactRow (([[0, 1, 2], [1, 0, 0], [2, 0, 0]] : Mat ℚ).getD i [])) ∧
    ∀ i, i < 3 → ExactRow (([[0, 1, 2], [1, 0, 0], [2, 0, 0]] : Mat ℚ).getD i []) →
      ∃ row : List ℚ,
        (doubleGraphLaplacian (toDouble [[0, 1, 2], [1, 0, 0], [2, 0, 0]]))[i]? = some (row.map Double.fin) ∧
        row.length = 3 ∧ row.sum = 0 :=
  ⟨by decide, by decide, exactRow_small,
    doubleGraphLaplacian_row_sum_zero 3 [[0, 1, 2], [1, 0, 0], [2, 0, 0]] (by decide) (by decide)⟩

/-- Claim C8 fails as stated. `[[0, 2^53, 1], [2^53, 0, 0], [1, 0, 0]]` is symmetric with
non-negative weights and zero diagonal; for the matrix `L` that `graphLaplacian`
returns in double arithmetic and `x = (1, 1, 1)` the quadratic form `xᵀ·L·x` is `-1`,
negative, while `Σ_{i<j} adj[i][j]·(x[i] − x[j])²` is `0`. -/
theorem graphLaplacian_not_psd :
    Square 3 ([[0, 2 ^ 53, 1], [2 ^ 53, 0, 0], [1, 0, 0]] : Mat ℚ) ∧
    Symmetric 3 ([[0, 2 ^ 53, 1], [2 ^ 53, 0, 0], [1, 0, 0]] : Mat ℚ) ∧
    NonNeg 3 ([[0, 2 ^ 53, 1], [2 ^ 53, 0, 0], [1, 0, 0]] : Mat ℚ) ∧
    ZeroDiag 3 ([[0, 2 ^ 53, 1], [2 ^ 53, 0, 0], [1, 0, 0]] : Mat ℚ) ∧
    doubleGraphLaplacian (toDouble [[0, 2 ^ 53, 1], [2 ^ 53, 0, 0], [1, 0, 0]])
      = toDouble [[2 ^ 53, -2 ^ 53, -1], [-2 ^ 53, 2 ^ 53, 0], [-1, 0, 1]] ∧
    ∑ i in Finset.range 3, ∑ j in Finset.range 3,
        ([1, 1, 1] : List ℚ).getD i 0
          * ent ([[2 ^ 53, -2 ^ 53, -1], [-2 ^ 53, 2 ^ 53, 0], [-1, 0, 1]] : Mat ℚ) i j
          * ([1, 1, 1] : List ℚ).getD j 0 = -1 ∧
    ∑ i in Finset.range 3, ∑ j in Finset.range 3,
        (if i < j then ent ([[0, 2 ^ 53, 1], [2 ^ 53, 0, 0], [1, 0, 0]] : Mat ℚ) i j
          * (([1, 1, 1] : List ℚ).getD i 0 - ([1, 1, 1] : List ℚ).getD j 0) ^ 2 else 0)
      = 0 := by
  refine ⟨by decide, rounded_symmetric, rounded_nonNeg, rounded_zeroDiag,
    doubleGraphLaplacian_rounded, ?_, ?_⟩
  · simp [Finset.sum_range_succ, ent]
  · simp [Finset.sum_range_succ, ent]

/-- Claim C8, amended. For every symmetric `n × n` adjacency matrix `adj` of finite
numbers with non-negative weights and zero diagonal, in whose rows no partial sum is
rounded while `deg` accumulates it, the matrix `L` that `graphLaplacian(adj)` returns
is symmetric and positive-semidefinite: for every real vector `x`,
`xᵀ·L·x = Σ_{i<j} adj[i][j]·(x[i] − x[j])² ≥ 0`. -/
theorem doubleGraphLaplacian_psd (n : ℕ) (adj : Mat ℚ) (h : Square n adj)
    (hsym : Symmetric n adj) (hnn : NonNeg n adj) (hdiag : ZeroDiag n adj)
    (hex : ∀ i, i < n → ExactRow (adj.getD i [])) :
    ∃ L : Mat ℚ, doubleGraphLaplacian (toDouble adj) = toDouble L ∧ Square n L ∧
      Symmetric n L ∧
      ∀ x : List ℝ,
        ∑ i in Finset.range n, ∑ j in Finset.range n,
            x.getD i 0 * ((ent L i j : ℚ) : ℝ) * x.getD j 0
          = ∑ i in Finset.range n, ∑ j in Finset.range n,
              (if i < j then ((ent adj i j : ℚ) : ℝ) * (x.getD i 0 - x.getD j 0) ^ 2
                else 0) ∧
        0 ≤ ∑ i in Finset.range n, ∑ j in Finset.range n,
            x.getD i 0 * ((ent L i j : ℚ) : ℝ) * x.getD j 0 := by
  refine ⟨graphLaplacian adj, doubleGraphLaplacian_exact adj (by rw [h.1]; exact hex),
    graphLaplacian_square h, fun i hi j hj => ?_, fun x => ?_⟩
  · rw [ent_graphLaplacian h hi hj, ent_graphLaplacian h hj hi]
    by_cases hij : j = i
    · subst hij; rfl
    · rw [if_neg hij, if_neg fun e => hij e.symm, hsym i hi j hj]
  · have hsymR : Symmetric n (adj.map (List.map (Rat.cast : ℚ → ℝ))) := by
      intro i hi j hj
      rw [ent_map_cast, ent_map_cast, hsym i hi j hj]
    have hdiagR : ZeroDiag n (adj.map (List.map (Rat.cast : ℚ → ℝ))) := by
      intro i hi
      rw [ent_map_cast, hdiag i hi, Rat.cast_zero]
    have hq := graphLaplacian_quadratic (map_cast_square h) hsymR hdiagR fun i => x.getD i 0
    have hL : ∑ i in Finset.range n, ∑ j in Finset.range n,
          x.getD i 0 * ((ent (graphLaplacian adj) i j : ℚ) : ℝ) * x.getD j 0
        = ∑ i in Finset.range n, ∑ j in Finset.range n,
          x.getD i 0 * ent (graphLaplacian (adj.map (List.map (Rat.cast : ℚ → ℝ)))) i j
            * x.getD j 0 :=
      Finset.sum_congr rfl fun i hi => Finset.sum_congr rfl fun j hj => by
        rw [ent_graphLaplacian_cast h (Finset.mem_range.mp hi) (Finset.mem_range.mp hj)]
    have hR : ∑ i in Finset.range n, ∑ j in Finset.range n,
          (if i < j then ((ent adj i j : ℚ) : ℝ) * (x.getD i 0 - x.getD j 0) ^ 2 else 0)
        = ∑ i in Finset.range n, ∑ j in Finset.range n,
          (if i < j then ent (adj.map (List.map (Rat.cast : ℚ → ℝ))) i j
            * (x.getD i 0 - x.getD j 0) ^ 2 else 0) :=
      Finset.sum_congr rfl fun i _ => Finset.sum_congr rfl fun j _ => by
        rw [ent_map_cast]
    have hq' := hL.trans (hq.trans hR.symm)
    refine ⟨hq', ?_⟩
    rw [hq']
    refine Finset.sum_nonneg fun i hi => Finset.sum_nonneg fun j hj => ?_
    by_cases hij : i < j
    · rw [if_pos hij]
      have h0 := hnn i (Finset.mem_range.mp hi) j (Finset.mem_range.mp hj)
      have h0' : (0 : ℝ) ≤ ((ent adj i j : ℚ) : ℝ) := by exact_mod_cast h0
      exact mul_nonneg h0' (sq_nonneg _)
    · rw [if_neg hij]

/-- Claim C8, amended, on the matrix `[[0, 1, 2], [1, 0, 0], [2, 0, 0]]`. -/
theorem doubleGraphLaplacian_psd_witness :
    Square 3 ([[0, 1, 2], [1, 0, 0], [2, 0, 0]] : Mat ℚ) ∧
    Symmetric 3 ([[0, 1, 2], [1, 0, 0], [2, 0, 0]] : Mat ℚ) ∧
    NonNeg 3 ([[0, 1, 2], [1, 0, 0], [2, 0, 0]] : Mat ℚ) ∧
    ZeroDiag 3 ([[0, 1, 2], [1, 0, 0], [2, 0, 0]] : Mat ℚ) ∧
    (∀ i, i < 3 → ExactRow (([[0, 1, 2], [1, 0, 0], [2, 0, 0]] : Mat ℚ).getD i [])) ∧
    ∃ L : Mat ℚ, doubleGraphLaplacian (toDouble [[0, 1, 2], [1, 0, 0], [2, 0, 0]]) = toDouble L ∧ Square 3 L ∧
      Symmetric 3 L ∧
      ∀ x : List ℝ,
        ∑ i in Finset.range 3, ∑ j in Finset.range 3,
            x.getD i 0 * ((ent L i j : ℚ) : ℝ) * x.getD j 0
          = ∑ i in Finset.range 3, ∑ j in Finset.range 3,
              (if i < j then ((ent ([[0, 1, 2], [1, 0, 0], [2, 0, 0]] : Mat ℚ) i j : ℚ) : ℝ)
                * (x.getD i 0 - x.getD j 0) ^ 2 else 0) ∧
        0 ≤ ∑ i in Finset.range 3, ∑ j in Finset.range 3,
            x.getD i 0 * ((ent L i j : ℚ) : ℝ) * x.getD j 0 :=
  ⟨by decide, by decide, by decide, by decide, exactRow_small,
    doubleGraphLaplacian_psd 3 [[0, 1, 2], [1, 0, 0], [2, 0, 0]] (by decide) (by decide) (by decide) (by decide)
      exactRow_small⟩

/-- Claim C29 fails as stated. In double arithmetic the Laplacian of
`[[1, 2^53], [2^53, 0]]` is `[[2^53, -2^53], [-2^53, 2^53]]`: row `0` sums to `0`, not
to `adj[0][0] = 1`, and all rows sum to zero although the diagonal of `adj` is not
zero. On `[[0, 2^53, 1], [2^53, 0, 0], [1, 0, 0]]` the diagonal of `adj` is zero, yet
row `0` of the Laplacian, `[2^53, -2^53, -1]`, sums to `-1`. -/
theorem graphLaplacian_row_sum_not_diag :
    Square 2 ([[1, 2 ^ 53], [2 ^ 53, 0]] : Mat ℚ) ∧
    doubleGraphLaplacian (toDouble [[1, 2 ^ 53], [2 ^ 53, 0]]) = toDouble [[2 ^ 53, -2 ^ 53], [-2 ^ 53, 2 ^ 53]] ∧
    (([[2 ^ 53, -2 ^ 53], [-2 ^ 53, 2 ^ 53]] : Mat ℚ).getD 0 []).sum = 0 ∧
    ent ([[1, 2 ^ 53], [2 ^ 53, 0]] : Mat ℚ) 0 0 = 1 ∧
    (∀ i, i < 2 → (([[2 ^ 53, -2 ^ 53], [-2 ^ 53, 2 ^ 53]] : Mat ℚ).getD i []).sum = 0) ∧
    ¬ ZeroDiag 2 ([[1, 2 ^ 53], [2 ^ 53, 0]] : Mat ℚ) ∧
    Square 3 ([[0, 2 ^ 53, 1], [2 ^ 53, 0, 0], [1, 0, 0]] : Mat ℚ) ∧
    ZeroDiag 3 ([[0, 2 ^ 53, 1], [2 ^ 53, 0, 0], [1, 0, 0]] : Mat ℚ) ∧
    doubleGraphLaplacian (toDouble [[0, 2 ^ 53, 1], [2 ^ 53, 0, 0], [1, 0, 0]]) = toDouble [[2 ^ 53, -2 ^ 53, -1], [-2 ^ 53, 2 ^ 53, 0], [-1, 0, 1]] ∧
    (([[2 ^ 53, -2 ^ 53, -1], [-2 ^ 53, 2 ^ 53, 0], [-1, 0, 1]] : Mat ℚ).getD 0 []).sum = -1 := by
  refine ⟨by decide, doubleGraphLaplacian_rounded_diag, by simp, by simp [ent], ?_, ?_,
    by decide, rounded_zeroDiag, doubleGraphLaplacian_rounded, by simp⟩
  · intro i hi
    interval_cases i <;> simp
  · intro hz
    have := hz 0 (by norm_num)
    simp [ent] at this

/-- Claim C29, amended. For every square `n × n` matrix `adj` of finite numbers, a row
`i` of `graphLaplacian(adj)` in whose accumulation of `deg` no partial sum is rounded
sums to `adj[i][i]`; when that holds of every row, all rows sum to zero exactly when
the diagonal of `adj` is zero. -/
theorem doubleGraphLaplacian_row_sum_diag (n : ℕ) (adj : Mat ℚ) (h : Square n adj) :
    (∀ i, i < n → ExactRow (adj.getD i []) →
      ∃ row : List ℚ,
        (doubleGraphLaplacian (toDouble adj))[i]? = some (row.map Double.fin) ∧
        row.length = n ∧ row.sum = ent adj i i) ∧
    ((∀ i, i < n → ExactRow (adj.getD i [])) →
      ∃ L : Mat ℚ, doubleGraphLaplacian (toDouble adj) = toDouble L ∧ Square n L ∧
        ((∀ i, i < n → (L.getD i []).sum = 0) ↔ ZeroDiag n adj)) := by
  refine ⟨fun i hi hex => ?_, fun hex => ?_⟩
  · obtain ⟨e, hl⟩ := doubleGraphLaplacian_getElem h hi hex
    exact ⟨_, e, hl, graphLaplacian_row_sum h hi⟩
  · refine ⟨graphLaplacian adj, doubleGraphLaplacian_exact adj (by rw [h.1]; exact hex),
      graphLaplacian_square h, fun h0 i hi => ?_, fun hd i hi => ?_⟩
    · rw [← graphLaplacian_row_sum h hi]
      exact h0 i hi
    · rw [graphLaplacian_row_sum h hi]
      exact hd i hi

/-- Claim C29, amended, on the matrix `[[5, 1], [1, 0]]`, whose first row of the
Laplacian sums to `5`. -/
theorem doubleGraphLaplacian_row_sum_diag_witness :
    Square 2 ([[5, 1], [1, 0]] : Mat ℚ) ∧
    (∀ i, i < 2 → ExactRow (([[5, 1], [1, 0]] : Mat ℚ).getD i [])) ∧
    ((∀ i, i < 2 → ExactRow (([[5, 1], [1, 0]] : Mat ℚ).getD i []) →
      ∃ row : List ℚ,
        (doubleGraphLaplacian (toDouble [[5, 1], [1, 0]]))[i]? = some (row.map Double.fin) ∧
        row.length = 2 ∧ row.sum = ent ([[5, 1], [1, 0]] : Mat ℚ) i i) ∧
    ((∀ i, i < 2 → ExactRow (([[5, 1], [1, 0]] : Mat ℚ).getD i [])) →
      ∃ L : Mat ℚ, doubleGraphLaplacian (toDouble [[5, 1], [1, 0]]) = toDouble L ∧ Square 2 L ∧
        ((∀ i, i < 2 → (L.getD i []).sum = 0) ↔ ZeroDiag 2 ([[5, 1], [1, 0]] : Mat ℚ)))) :=
  ⟨by decide, exactRow_loop, doubleGraphLaplacian_row_sum_diag 2 [[5, 1], [1, 0]] (by decide)⟩

end DoubleClaims

section InitClaims

/-- Claim C15. In `initSpectralEmbedding` the embedding asks for the `3` eigenvectors
`1, 2, 3` of the `N = 24` that exist, for every outcome of the random draws and
whatever the `Math` functions return: `start + dims > N` does not occur. Every node's
coordinate tuple has `3` entries, the requested count clamped to `N`, and entry `k`
is `120` times component `i` of eigenvector `1 + k`, which exists. -/
theorem initSpectralEmbedding_coords (T : JSMath ℝ) (rand : ℕ → ℕ → ℝ) :
    ∃ eigen pts, jacobiEigen T (graphLaplacian (generateNetwork rand)) = some eigen ∧
      eigen.vectors.length = 24 ∧ 1 + 3 ≤ eigen.vectors.length ∧
      initSpectralEmbedding T rand = some pts ∧ pts.length = 24 ∧
      ∀ i, i < 24 → ∃ p, pts[i]? = some p ∧ p.coords.length = min 3 24 ∧
        ∀ k, k < min 3 24 → ∃ v a, eigen.vectors[1 + k]? = some v ∧ v[i]? = some a ∧
          p.coords[k]? = some (a * 120) := by
  have hsq : Square 24 (generateNetwork rand) :=
    (ensureConnectivity_spec (buildAdjacency_simple 24 rand)).1.1
  obtain ⟨eigen, he, hv, hemb⟩ := spectralEmbedding_eq T hsq
  refine ⟨eigen, _, he, hv.1, by rw [hv.1]; norm_num, hemb, by simp, fun i hi => ?_⟩
  refine ⟨_, getElem?_map_range _ hi, rfl, fun k hk => ?_⟩
  have hk3 : k < 3 := by simpa using hk
  have hk' : 1 + k < 24 := by omega
  have hrd := rd_eq hv hk' hi
  unfold rd at hrd
  have hlen : 1 + k < eigen.vectors.length := by rw [hv.1]; exact hk'
  rw [List.getElem?_eq_getElem hlen] at hrd
  refine ⟨eigen.vectors[1 + k], ent eigen.vectors (1 + k) i,
    List.getElem?_eq_getElem hlen, hrd, ?_⟩
  interval_cases k <;> simp [Point3.coords, axisCoord]

end InitClaims

end Eigenspace
